import Mathlib

/-! Model-guided arithmetic projection and the alternating QSAT loop.

A shallow embedding of `src/qe/qe_arith.cpp` (class `arith_project_util`) and
of the level game of `src/qe/qsat.cpp`, followed by theorems about them.

Conventions of the embedding.

* Expressions are the hash-consed `app` nodes of the source, so pointer
  equality is structural equality.  The arithmetic operators the projection
  recognises have constructors of their own; every other application (an
  uninterpreted function, a division, a product of three factors, ...) is an
  `Expr.app` node, which is how the source treats it: as a term it cannot look
  into.
* `rational` is `ℚ`.  `mod` and `lcm` of the rational library act on the
  numerators of integral rationals.
* `throw cant_project()` is the result `none`.  A division by zero ends the run:
  `project_outcome` tells it from a return and from `cant_project`.
* The `th_rewriter` is a parameter `rw : Expr → Expr`.
* `SASSERT` and `VERIFY` conditions are not executed; whether they hold is what
  the theorems are about.
-/

namespace qe

/-- Sorts of the expression language: `Int`, `Real`, `Bool` and any other sort. -/
inductive Srt where
  | int
  | real
  | bool
  | other
deriving DecidableEq, Repr

/-- An uninterpreted constant: the `app` that `contains_app` looks for. -/
structure Var where
  id : Nat
  sort : Srt
deriving DecidableEq, Repr

/-- Expression nodes. `num v s` is `a.mk_numeral(v, s)`; `app f s args` is any
application the arithmetic projection does not recognise, of result sort `s`. -/
inductive Expr where
  | var (v : Var)
  | num (r : ℚ) (s : Srt)
  | add (args : List Expr)
  | mul (t1 t2 : Expr)
  | sub (t1 t2 : Expr)
  | uminus (t : Expr)
  | mod (t1 t2 : Expr)
  | le (e1 e2 : Expr)
  | ge (e1 e2 : Expr)
  | lt (e1 e2 : Expr)
  | gt (e1 e2 : Expr)
  | eq (e1 e2 : Expr)
  | not (e : Expr)
  | tt
  | ff
  | and (args : List Expr)
  | or (args : List Expr)
  | implies (e1 e2 : Expr)
  | app (f : Nat) (s : Srt) (args : List Expr)
deriving Repr

/-- A model: values of the constants and interpretations of the function
symbols. Arithmetic (and other non-Boolean) values are rationals. -/
structure Model where
  val : Var → ℚ
  bval : Var → Bool
  fn : Nat → List ℚ → ℚ
  pred : Nat → List ℚ → Bool

/-- The update `model.register_decl(x->get_decl(), val)` of one constant. -/
def Model.register_decl (M : Model) (x : Var) (r : ℚ) : Model :=
  { M with val := fun v => if v = x then r else M.val v }

/-- The function `mod` of the rational library: Euclidean remainder of the numerators.
The library divides by zero at the divisor 0, for which the remainder here is the dividend;
`arith_project_util.project_outcome` keeps the runs of `project` that reach it apart. -/
def ratMod (a b : ℚ) : ℚ := ((a.num % b.num : ℤ) : ℚ)

/-- The function `lcm` of the rational library, on the numerators: the least common
multiple for positive arguments, 0 when an argument is 0. The sign the library gives the
result for a negative argument is not fixed by the sources; it is taken positive here. -/
def ratLcm (a b : ℚ) : ℚ := ((Int.lcm a.num b.num : ℕ) : ℚ)

/-- The range of an arithmetic operator whose first argument has sort `s`: `Int` on
integers, `Real` otherwise. -/
def arithSort (s : Srt) : Srt := if s = .int then .int else .real

mutual
/-- The sort of an expression (`m.get_sort`). -/
def sortOf : Expr → Srt
  | .var v => v.sort
  | .num _ s => s
  | .add args => arithSort (sortOfHead args)
  | .mul t1 _ => arithSort (sortOf t1)
  | .sub t1 _ => arithSort (sortOf t1)
  | .uminus t => arithSort (sortOf t)
  | .mod _ _ => .int
  | .le _ _ => .bool
  | .ge _ _ => .bool
  | .lt _ _ => .bool
  | .gt _ _ => .bool
  | .eq _ _ => .bool
  | .not _ => .bool
  | .tt => .bool
  | .ff => .bool
  | .and _ => .bool
  | .or _ => .bool
  | .implies _ _ => .bool
  | .app _ s _ => s
/-- The sort of the first argument of an n-ary arithmetic application. -/
def sortOfHead : List Expr → Srt
  | [] => .int
  | t :: _ => sortOf t
end

mutual
/-- The test `(*m_var)(e)` of `contains_app`: the constant `x` occurs in `e`. -/
def occurs (x : Var) : Expr → Bool
  | .var v => v = x
  | .num _ _ => false
  | .add args => occursList x args
  | .mul t1 t2 => occurs x t1 || occurs x t2
  | .sub t1 t2 => occurs x t1 || occurs x t2
  | .uminus t => occurs x t
  | .mod t1 t2 => occurs x t1 || occurs x t2
  | .le e1 e2 => occurs x e1 || occurs x e2
  | .ge e1 e2 => occurs x e1 || occurs x e2
  | .lt e1 e2 => occurs x e1 || occurs x e2
  | .gt e1 e2 => occurs x e1 || occurs x e2
  | .eq e1 e2 => occurs x e1 || occurs x e2
  | .not e => occurs x e
  | .tt => false
  | .ff => false
  | .and args => occursList x args
  | .or args => occursList x args
  | .implies e1 e2 => occurs x e1 || occurs x e2
  | .app _ _ args => occursList x args
/-- The constant `x` occurs in one of the arguments. -/
def occursList (x : Var) : List Expr → Bool
  | [] => false
  | t :: ts => occurs x t || occursList x ts
end

mutual
/-- The value `model.eval` gives a term of a non-Boolean sort. -/
def eval (M : Model) : Expr → ℚ
  | .var v => M.val v
  | .num r _ => r
  | .add args => evalSum M args
  | .mul t1 t2 => eval M t1 * eval M t2
  | .sub t1 t2 => eval M t1 - eval M t2
  | .uminus t => - eval M t
  | .mod t1 t2 => ratMod (eval M t1) (eval M t2)
  | .app f _ args => M.fn f (evalList M args)
  | .le _ _ => 0
  | .ge _ _ => 0
  | .lt _ _ => 0
  | .gt _ _ => 0
  | .eq _ _ => 0
  | .not _ => 0
  | .tt => 0
  | .ff => 0
  | .and _ => 0
  | .or _ => 0
  | .implies _ _ => 0
/-- The sum of the values of the arguments of an addition. -/
def evalSum (M : Model) : List Expr → ℚ
  | [] => 0
  | t :: ts => eval M t + evalSum M ts
/-- The values of the arguments of an application. -/
def evalList (M : Model) : List Expr → List ℚ
  | [] => []
  | t :: ts => eval M t :: evalList M ts
end

/-- The test `is_arith`: the sort is `Int` or `Real`. -/
def is_arith (e : Expr) : Bool := sortOf e = .int || sortOf e = .real

mutual
/-- The truth value `model.eval` gives a formula. -/
def holds (M : Model) : Expr → Bool
  | .var v => M.bval v
  | .le e1 e2 => decide (eval M e1 ≤ eval M e2)
  | .ge e1 e2 => decide (eval M e2 ≤ eval M e1)
  | .lt e1 e2 => decide (eval M e1 < eval M e2)
  | .gt e1 e2 => decide (eval M e2 < eval M e1)
  | .eq e1 e2 =>
    if sortOf e1 = .bool then holds M e1 == holds M e2 else decide (eval M e1 = eval M e2)
  | .not e => !(holds M e)
  | .tt => true
  | .ff => false
  | .and args => holdsAll M args
  | .or args => holdsSome M args
  | .implies e1 e2 => !(holds M e1) || holds M e2
  | .app f _ args => M.pred f (evalList M args)
  | .num _ _ => false
  | .add _ => false
  | .mul _ _ => false
  | .sub _ _ => false
  | .uminus _ => false
  | .mod _ _ => false
/-- Every formula of the list is true. -/
def holdsAll (M : Model) : List Expr → Bool
  | [] => true
  | e :: es => holds M e && holdsAll M es
/-- Some formula of the list is true. -/
def holdsSome (M : Model) : List Expr → Bool
  | [] => false
  | e :: es => holds M e || holdsSome M es
end

/-- The test `lit_is_true`. -/
def lit_is_true (M : Model) (e : Expr) : Bool := holds M e

/-- The test `m.is_true(e)`. -/
def is_true : Expr → Bool
  | .tt => true
  | _ => false

mutual
/-- Pointer equality of hash-consed nodes: structural equality. -/
def Expr.beq : Expr → Expr → Bool
  | .var v, .var w => v = w
  | .num r s, .num r1 s1 => r = r1 && s = s1
  | .add as, .add bs => Expr.beqList as bs
  | .mul a b, .mul a1 b1 => Expr.beq a a1 && Expr.beq b b1
  | .sub a b, .sub a1 b1 => Expr.beq a a1 && Expr.beq b b1
  | .uminus a, .uminus a1 => Expr.beq a a1
  | .mod a b, .mod a1 b1 => Expr.beq a a1 && Expr.beq b b1
  | .le a b, .le a1 b1 => Expr.beq a a1 && Expr.beq b b1
  | .ge a b, .ge a1 b1 => Expr.beq a a1 && Expr.beq b b1
  | .lt a b, .lt a1 b1 => Expr.beq a a1 && Expr.beq b b1
  | .gt a b, .gt a1 b1 => Expr.beq a a1 && Expr.beq b b1
  | .eq a b, .eq a1 b1 => Expr.beq a a1 && Expr.beq b b1
  | .not a, .not a1 => Expr.beq a a1
  | .tt, .tt => true
  | .ff, .ff => true
  | .and as, .and bs => Expr.beqList as bs
  | .or as, .or bs => Expr.beqList as bs
  | .implies a b, .implies a1 b1 => Expr.beq a a1 && Expr.beq b b1
  | .app f s as, .app g s1 bs => f = g && s = s1 && Expr.beqList as bs
  | _, _ => false
/-- Structural equality of argument lists. -/
def Expr.beqList : List Expr → List Expr → Bool
  | [], [] => true
  | a :: as, b :: bs => Expr.beq a b && Expr.beqList as bs
  | _, _ => false
end

instance : BEq Expr := ⟨Expr.beq⟩

/-- The test `a.is_numeral(e)`. -/
def is_numeral : Expr → Bool
  | .num _ _ => true
  | _ => false

namespace arith_project_util

/-- Row `i` of the vectors `m_ineq_coeffs`, `m_ineq_terms`, `m_ineq_strict`,
which are always pushed together: `coeff * x + term < 0` when `strict`,
`coeff * x + term <= 0` otherwise. -/
structure Ineq where
  coeff : ℚ
  term : Expr
  strict : Bool

/-- Row `i` of the vectors `m_div_coeffs`, `m_div_terms`, `m_div_divisors`:
`divisor | coeff * x + term`. -/
structure Div where
  coeff : ℚ
  term : Expr
  divisor : ℚ

/-- The mutable fields of `arith_project_util`. -/
structure State where
  m_ineqs : List Ineq
  m_divs : List Div
  m_new_lits : List Expr
  m_delta : ℚ
  m_u : ℚ

/-- The state after `reset()`. -/
def reset : State := ⟨[], [], [], 1, 0⟩

/-- Source `is_int()`: the projected variable is of sort `Int`. -/
def is_int (x : Var) : Bool := x.sort = .int

/-- Source `mk_num(r)`: a numeral of the sort of the projected variable. -/
def mk_num (x : Var) (r : ℚ) : Expr := .num r x.sort

/-- Source `add(ts)`. -/
def add (x : Var) (ts : List Expr) : Expr :=
  if ts.isEmpty then mk_num x 0 else .add ts

/-- Source `mk_add(t1, t2)`. -/
def mk_add (t1 t2 : Expr) : Expr := .add [t1, t2]

/-- Source `mk_add(r, e)` with a rational first argument. -/
def mk_add_num (x : Var) (r : ℚ) (e : Expr) : Expr :=
  if r = 0 then e else mk_add (mk_num x r) e

/-- Source `mk_mul(r, t)`. -/
def mk_mul (x : Var) (r : ℚ) (t : Expr) : Expr :=
  if r = 1 then t else .mul (mk_num x r) t

/-- Source `mk_divides(k, t)`: the literal `t mod |k| = 0`. -/
def mk_divides (x : Var) (k : ℚ) (t : Expr) : Expr :=
  .eq (.mod t (mk_num x (abs k))) (mk_num x 0)

/-- Source `n_sign(b)`. -/
def n_sign (b : ℚ) : ℚ := if 0 < b then -1 else 1

/-- Source `add_lit`: the literal is rewritten and kept unless it became `true`.
The assertion `lit_is_true(model, orig)` is not executed. -/
def add_lit (rw : Expr → Expr) (lits : List Expr) (e : Expr) : List Expr :=
  if is_true (rw e) then lits else lits ++ [rw e]

/-- The value term `val` that `model.eval` returns for an integer term. -/
def mk_val (r : ℚ) : Expr := .num r .int

/-- The last branches of the term-level `is_linear`, reached by a term that is
none of the recognised shapes: `throw cant_project()` when it contains `x`,
otherwise the term is pushed with its multiplier. -/
def is_linear_other (x : Var) (mul : ℚ) (t : Expr) (c : ℚ) (ts : List Expr) (st : State) :
    Option (ℚ × List Expr × State) :=
  if occurs x t then none else some (c, ts ++ [mk_mul x mul t], st)

/-- The body of `extract_mod` after `is_mod` has linearised the argument of the
`mod` into coefficient `c` and term `t`: with `val` the value of the whole
`mod` term, either a divisibility row is recorded or, when `x` cancelled, the
literal `(t mod k) = val` is added to `m_new_lits`. -/
def extract_mod_record (rw : Expr → Expr) (x : Var) (val : Expr) (k : ℚ) (c : ℚ)
    (t : Expr) (st1 : State) : State :=
  if c ≠ 0 then
    { st1 with m_divs := st1.m_divs ++ [⟨c, .sub t val, k⟩] }
  else
    { st1 with m_new_lits := add_lit rw st1.m_new_lits (.eq (.mod t (mk_num x k)) val) }

mutual
/-- The term-level `is_linear(model, mul, t, c, ts)`. The in/out parameters `c`
and `ts` and the fields written by `extract_mod` are threaded through. The
`else if` chain of the source is a case distinction on the head of `t`; the
`mod` case is `extract_mod` (with `is_mod`) unfolded in place. -/
def is_linear (rw : Expr → Expr) (x : Var) (M : Model) (mul : ℚ) (t : Expr) (c : ℚ)
    (ts : List Expr) (st : State) : Option (ℚ × List Expr × State) :=
  match t with
  | .var v => if v = x then some (c + mul, ts, st) else is_linear_other x mul (.var v) c ts st
  | .mul t1 t2 =>
    match t1 with
    | .num mul1 _ => is_linear rw x M (mul * mul1) t2 c ts st
    | _ =>
      match t2 with
      | .num mul1 _ => is_linear rw x M (mul * mul1) t1 c ts st
      | _ => is_linear_other x mul (.mul t1 t2) c ts st
  | .add args => is_linear_args rw x M mul args c ts st
  | .sub t1 t2 =>
    match is_linear rw x M mul t1 c ts st with
    | none => none
    | some (c1, ts1, st1) => is_linear rw x M (-mul) t2 c1 ts1 st1
  | .uminus t1 => is_linear rw x M (-mul) t1 c ts st
  | .num mul1 _ => some (c, ts ++ [mk_num x (mul * mul1)], st)
  | .mod t1 t2 =>
    match t2 with
    | .num k _ =>
      if occurs x t1 then
        match is_linear rw x M 1 t1 0 [] st with
        | none => none
        | some (c1, ts1, st1) =>
          some (c, ts ++ [mk_mul x mul (mk_val (eval M (.mod t1 t2)))],
            extract_mod_record rw x (mk_val (eval M (.mod t1 t2))) k c1 (add x ts1) st1)
      else is_linear_other x mul (.mod t1 t2) c ts st
    | _ => is_linear_other x mul (.mod t1 t2) c ts st
  | .le e1 e2 => is_linear_other x mul (.le e1 e2) c ts st
  | .ge e1 e2 => is_linear_other x mul (.ge e1 e2) c ts st
  | .lt e1 e2 => is_linear_other x mul (.lt e1 e2) c ts st
  | .gt e1 e2 => is_linear_other x mul (.gt e1 e2) c ts st
  | .eq e1 e2 => is_linear_other x mul (.eq e1 e2) c ts st
  | .not e => is_linear_other x mul (.not e) c ts st
  | .tt => is_linear_other x mul .tt c ts st
  | .ff => is_linear_other x mul .ff c ts st
  | .and args => is_linear_other x mul (.and args) c ts st
  | .or args => is_linear_other x mul (.or args) c ts st
  | .implies e1 e2 => is_linear_other x mul (.implies e1 e2) c ts st
  | .app f s args => is_linear_other x mul (.app f s args) c ts st
/-- The loop of `is_linear` over the arguments of an addition. -/
def is_linear_args (rw : Expr → Expr) (x : Var) (M : Model) (mul : ℚ) (args : List Expr)
    (c : ℚ) (ts : List Expr) (st : State) : Option (ℚ × List Expr × State) :=
  match args with
  | [] => some (c, ts, st)
  | t :: rest =>
    match is_linear rw x M mul t c ts st with
    | none => none
    | some (c1, ts1, st1) => is_linear_args rw x M mul rest c1 ts1 st1
end

/-- Source `is_mod(model, e, k, t, c)`. The outer `Option` is `none` when
`cant_project` is thrown; the inner one is `none` when the source returns false. -/
def is_mod (rw : Expr → Expr) (x : Var) (M : Model) (e : Expr) (st : State) :
    Option (Option (ℚ × Expr × ℚ × State)) :=
  match e with
  | .mod t1 (.num k _) =>
    if occurs x t1 then
      match is_linear rw x M 1 t1 0 [] st with
      | none => none
      | some (c, ts, st1) => some (some (k, add x ts, c, st1))
    else some none
  | _ => some none

/-- Source `extract_mod(model, e, val)`, with the same two levels of `Option`
as `is_mod`; on success it returns `val` and the updated fields. -/
def extract_mod (rw : Expr → Expr) (x : Var) (M : Model) (e : Expr) (st : State) :
    Option (Option (Expr × State)) :=
  match is_mod rw x M e st with
  | none => none
  | some none => some none
  | some (some (k, t, c, st1)) =>
    some (some (mk_val (eval M e), extract_mod_record rw x (mk_val (eval M e)) k c t st1))

/-- The two calls `is_linear(model, mul, e1, c, ts); is_linear(model, -mul, e2, c, ts);`
of the literal-level `is_linear`, from `c = 0` and an empty `ts`. -/
def is_linear_pair (rw : Expr → Expr) (x : Var) (M : Model) (mul : ℚ) (e1 e2 : Expr)
    (st : State) : Option (ℚ × List Expr × State) :=
  match is_linear rw x M mul e1 0 [] st with
  | none => none
  | some (c1, ts1, st1) => is_linear rw x M (-mul) e2 c1 ts1 st1

/-- The end of the literal-level `is_linear`: a strict literal over the integers
becomes non-strict with `1` added, `t = add(ts)`, and an equality with a
negative coefficient is negated. -/
def is_linear_finish (x : Var) (is_strict is_eq : Bool) (r : Option (ℚ × List Expr × State)) :
    Option (ℚ × Expr × Bool × Bool × State) :=
  match r with
  | none => none
  | some (c, ts, st1) =>
    let ts1 := if is_strict && is_int x then ts ++ [mk_num x 1] else ts
    let is_strict1 := if is_strict && is_int x then false else is_strict
    if is_eq && decide (c < 0) then some (-c, .uminus (add x ts1), is_strict1, is_eq, st1)
    else some (c, add x ts1, is_strict1, is_eq, st1)

/-- The literal-level `is_linear` after `is_not = m.is_not(lit, lit)` has removed
a negation and `mul` has been set to `-1` or `1`: the case distinction on the atom. -/
def is_linear_atom (rw : Expr → Expr) (x : Var) (M : Model) (is_not : Bool) (mul : ℚ)
    (lit : Expr) (st : State) : Option (ℚ × Expr × Bool × Bool × State) :=
  match lit with
  | .le e1 e2 => is_linear_finish x is_not false (is_linear_pair rw x M mul e1 e2 st)
  | .ge e2 e1 => is_linear_finish x is_not false (is_linear_pair rw x M mul e1 e2 st)
  | .lt e1 e2 => is_linear_finish x (!is_not) false (is_linear_pair rw x M mul e1 e2 st)
  | .gt e2 e1 => is_linear_finish x (!is_not) false (is_linear_pair rw x M mul e1 e2 st)
  | .eq e1 e2 =>
    if is_arith e1 then
      if !is_not then is_linear_finish x false true (is_linear_pair rw x M mul e1 e2 st)
      else if eval M e1 < eval M e2 then
        is_linear_finish x true false (is_linear_pair rw x M mul e2 e1 st)
      else is_linear_finish x true false (is_linear_pair rw x M mul e1 e2 st)
    else none
  | _ => none

/-- The literal-level `is_linear(model, lit, c, t, is_strict, is_eq)`: on success
the coefficient `c` of `x`, the rest `t`, and the two flags, with the updated
fields. The source returns `true` or throws. -/
def is_linear_lit (rw : Expr → Expr) (x : Var) (M : Model) (lit : Expr) (st : State) :
    Option (ℚ × Expr × Bool × Bool × State) :=
  match lit with
  | .not l => is_linear_atom rw x M true (-1) l st
  | l => is_linear_atom rw x M false 1 l st

instance : Inhabited Ineq := ⟨⟨0, .tt, false⟩⟩

instance : Inhabited Div := ⟨⟨0, .tt, 0⟩⟩

/-- Source `ineq_term(i)`. -/
def ineq_term (st : State) (i : Nat) : Expr := (st.m_ineqs.getD i default).term

/-- Source `ineq_coeff(i)`. -/
def ineq_coeff (st : State) (i : Nat) : ℚ := (st.m_ineqs.getD i default).coeff

/-- Source `ineq_strict(i)`. -/
def ineq_strict (st : State) (i : Nat) : Bool := (st.m_ineqs.getD i default).strict

/-- Source `num_ineqs()`. -/
def num_ineqs (st : State) : Nat := st.m_ineqs.length

/-- Source `num_divs()`. -/
def num_divs (st : State) : Nat := st.m_divs.length

/-- The local variables of `project` that the classification loop sets. -/
structure Counters where
  num_pos : Nat
  num_neg : Nat
  eq_index : Nat
  found_eq : Bool

/-- One iteration of the classification loop of `project`, on literal `e`. -/
def project_step (rw : Expr → Expr) (x : Var) (M : Model) (acc : State × Counters)
    (e : Expr) : Option (State × Counters) :=
  if !(occurs x e) then
    some ({ acc.1 with m_new_lits := acc.1.m_new_lits ++ [e] }, acc.2)
  else
    match is_linear_lit rw x M e acc.1 with
    | none => none
    | some (c, t, is_strict, is_eq, st1) =>
      if c = 0 then
        let t1 : Expr :=
          if is_eq then .eq t (mk_num x 0)
          else if is_strict then .lt t (mk_num x 0)
          else .le t (mk_num x 0)
        some ({ st1 with m_new_lits := add_lit rw st1.m_new_lits t1 }, acc.2)
      else
        let st2 : State := { st1 with m_ineqs := st1.m_ineqs ++ [⟨c, t, is_strict⟩] }
        if is_eq then
          some (st2, { acc.2 with found_eq := true, eq_index := st2.m_ineqs.length - 1 })
        else if 0 < c then
          some (st2, { acc.2 with num_pos := acc.2.num_pos + 1 })
        else
          some (st2, { acc.2 with num_neg := acc.2.num_neg + 1 })

/-- The classification loop of `project` over the literals, from a given state. -/
def project_loop (rw : Expr → Expr) (x : Var) (M : Model) :
    List Expr → State × Counters → Option (State × Counters)
  | [], acc => some acc
  | e :: es, acc =>
    match project_step rw x M acc e with
    | none => none
    | some acc1 => project_loop rw x M es acc1

/-- The classification loop of `project` after `reset()`. -/
def classify (rw : Expr → Expr) (x : Var) (M : Model) (lits : List Expr) :
    Option (State × Counters) :=
  project_loop rw x M lits (reset, ⟨0, 0, 0, false⟩)

/-- The loop of `find_max` from index `i` on, with the local variables `result`,
`new_max` and `max_r`. -/
def find_max_loop (x : Var) (M : Model) (do_pos : Bool) :
    List Ineq → Nat → Nat → Bool → ℚ → Nat
  | [], _, result, _, _ => result
  | q :: rest, i, result, new_max, max_r =>
    if decide (0 < q.coeff) = do_pos then
      let r := eval M q.term / abs q.coeff
      let new_max1 := new_max || decide (r > max_r) || (decide (r = max_r) && q.strict)
        || (decide (r = max_r) && is_int x && decide (q.coeff = 1))
      if new_max1 then find_max_loop x M do_pos rest (i + 1) i false r
      else find_max_loop x M do_pos rest (i + 1) result false max_r
    else find_max_loop x M do_pos rest (i + 1) result new_max max_r

/-- Source `find_max(mdl, do_pos)`. The uninitialised `result` starts as 0. -/
def find_max (x : Var) (M : Model) (st : State) (do_pos : Bool) : Nat :=
  find_max_loop x M do_pos st.m_ineqs 0 0 true 0

/-- Source `mk_le(i, j)`. -/
def mk_le (x : Var) (st : State) (i j : Nat) : Expr :=
  let bt := mk_mul x (abs (ineq_coeff st j)) (ineq_term st i)
  let as := mk_mul x (abs (ineq_coeff st i)) (ineq_term st j)
  if ineq_strict st i && !(ineq_strict st j) then .lt bt as else .le bt as

/-- The test `use_case1` of `mk_int_lt`. -/
def mk_int_lt_case1 (M : Model) (st : State) (i j : Nat) : Bool :=
  let ac := ineq_coeff st i
  let bc := ineq_coeff st j
  let slack := (abs ac - 1) * (abs bc - 1)
  let tval := eval M (ineq_term st i)
  let sval := eval M (ineq_term st j)
  decide (ac * sval + bc * tval + slack ≤ 0)

/-- Source `mk_int_lt(model, lits, i, j)`. The print of `slack` to standard
output is omitted. -/
def mk_int_lt (rw : Expr → Expr) (x : Var) (M : Model) (st : State) (lits : List Expr)
    (i j : Nat) : List Expr :=
  let t := ineq_term st i
  let s := ineq_term st j
  let ac := ineq_coeff st i
  let bc := ineq_coeff st j
  let abs_a := abs ac
  let abs_b := abs bc
  let as := mk_mul x abs_a s
  let bt := mk_mul x abs_b t
  let slack := (abs_a - 1) * (abs_b - 1)
  let tval := eval M (ineq_term st i)
  let sval := eval M (ineq_term st j)
  if mk_int_lt_case1 M st i j then
    add_lit rw lits (.le (add x [as, bt, mk_num x (-slack)]) (mk_num x 0))
  else
    let swap : Bool := decide (abs_a < abs_b)
    let abs_b1 := if swap then abs_a else abs_b
    let a1 := if swap then bc else ac
    let b1 := if swap then ac else bc
    let s1 := if swap then t else s
    let t1 := if swap then s else t
    let sval1 := if swap then tval else sval
    let z := ratMod sval1 abs_b1
    let z1 := if z ≠ 0 then abs_b1 - z else z
    let s_plus_z := mk_add_num x z1 s1
    let lits1 := add_lit rw lits (mk_divides x abs_b1 s_plus_z)
    add_lit rw lits1
      (.le (mk_add (mk_mul x (a1 * n_sign b1) s_plus_z) (mk_mul x abs_b1 t1)) (mk_num x 0))

/-- Source `mk_lt(model, lits, i, j)`. -/
def mk_lt (rw : Expr → Expr) (x : Var) (M : Model) (st : State) (lits : List Expr)
    (i j : Nat) : List Expr :=
  let ac := ineq_coeff st i
  let bc := ineq_coeff st j
  if is_int x && !(decide (abs ac = 1)) && !(decide (abs bc = 1)) then
    mk_int_lt rw x M st lits i j
  else
    let t := ineq_term st i
    let s := ineq_term st j
    let bt := mk_mul x (abs bc) t
    let as := mk_mul x (abs ac) s
    let ts := mk_add bt as
    let z := mk_num x 0
    if ineq_strict st i || ineq_strict st j then add_lit rw lits (.lt ts z)
    else add_lit rw lits (.le ts z)

/-- The first loop of `apply_equality`, over the divisibility rows. -/
def apply_equality_divs (rw : Expr → Expr) (x : Var) (c : ℚ) (t : Expr) :
    List Div → List Expr → List Expr
  | [], lits => lits
  | d :: rest, lits =>
    apply_equality_divs rw x c t rest
      (add_lit rw lits
        (mk_divides x (c * d.divisor) (.sub (mk_mul x c d.term) (mk_mul x d.coeff t))))

/-- The second loop of `apply_equality`, over the rows other than `eq_index`. -/
def apply_equality_ineqs (rw : Expr → Expr) (x : Var) (c : ℚ) (t : Expr) (eq_index : Nat) :
    List Ineq → Nat → List Expr → List Expr
  | [], _, lits => lits
  | q :: rest, i, lits =>
    if eq_index ≠ i then
      let lhs : Expr := .sub (mk_mul x c q.term) (mk_mul x q.coeff t)
      apply_equality_ineqs rw x c t eq_index rest (i + 1)
        (add_lit rw lits (if q.strict then .lt lhs (mk_num x 0) else .le lhs (mk_num x 0)))
    else apply_equality_ineqs rw x c t eq_index rest (i + 1) lits

/-- Source `apply_equality(model, eq_index, lits)`. -/
def apply_equality (rw : Expr → Expr) (x : Var) (st : State) (eq_index : Nat)
    (lits : List Expr) : List Expr :=
  let c := ineq_coeff st eq_index
  let t := ineq_term st eq_index
  let lits1 := if is_int x then add_lit rw lits (mk_divides x c t) else lits
  let lits2 := apply_equality_divs rw x c t st.m_divs lits1
  apply_equality_ineqs rw x c t eq_index st.m_ineqs 0 lits2

/-- The loop of `apply_divides` that emits `d | (c * u + t)` for every row. -/
def apply_divides_lits (rw : Expr → Expr) (x : Var) (u : ℚ) :
    List Div → List Expr → List Expr
  | [], lits => lits
  | d :: rest, lits =>
    apply_divides_lits rw x u rest
      (add_lit rw lits (mk_divides x d.divisor (.add [mk_num x (d.coeff * u), d.term])))

/-- Source `apply_divides(model, lits)`: the updated fields, model and literals. -/
def apply_divides (rw : Expr → Expr) (x : Var) (M : Model) (st : State) (lits : List Expr) :
    State × Model × List Expr :=
  if num_divs st = 0 then (st, M, lits)
  else
    let delta := st.m_divs.foldl (fun d row => ratLcm d row.divisor) st.m_delta
    let r := M.val x
    let u := ratMod r delta
    let lits1 := apply_divides_lits rw x u st.m_divs lits
    let ineqs1 := st.m_ineqs.map fun q =>
      { q with term := if u ≠ 0 then .sub q.term (mk_num x u) else q.term,
               coeff := q.coeff * delta }
    ({ st with m_delta := delta, m_u := u, m_ineqs := ineqs1 },
      M.register_decl x ((r - u) / delta), lits1)

/-- The last loop of `project`: one literal for every row other than `max_t`. -/
def project_resolve (rw : Expr → Expr) (x : Var) (M : Model) (st : State) (use_pos : Bool)
    (max_t : Nat) : Nat → Nat → List Expr → List Expr
  | 0, _, lits => lits
  | n + 1, i, lits =>
    if i ≠ max_t then
      if decide (0 < ineq_coeff st i) = use_pos then
        project_resolve rw x M st use_pos max_t n (i + 1) (add_lit rw lits (mk_le x st i max_t))
      else
        project_resolve rw x M st use_pos max_t n (i + 1) (mk_lt rw x M st lits i max_t)
    else project_resolve rw x M st use_pos max_t n (i + 1) lits

/-- The part of `project` after the classification loop. -/
def project_finish (rw : Expr → Expr) (x : Var) (M : Model) (st : State) (cn : Counters) :
    List Expr × Model :=
  let lits := st.m_new_lits
  if cn.found_eq then (apply_equality rw x st cn.eq_index lits, M)
  else if num_divs st = 0 && (cn.num_pos = 0 || cn.num_neg = 0) then (lits, M)
  else
    let r := if 0 < num_divs st then apply_divides rw x M st lits else (st, M, lits)
    let st1 := r.1
    let M1 := r.2.1
    let lits1 := r.2.2
    if cn.num_pos = 0 || cn.num_neg = 0 then (lits1, M1)
    else
      let use_pos : Bool := decide (cn.num_pos < cn.num_neg)
      let max_t := find_max x M1 st1 use_pos
      (project_resolve rw x M1 st1 use_pos max_t (num_ineqs st1) 0 lits1, M1)

/-- Source `project(model, lits)` for the variable `x`: the new literals and the
model, or `none` when `cant_project` is thrown (then `lits` and the model are
as before the call). With a recorded divisor 0 the source divides by zero in
`apply_divides`; `project_outcome` keeps that run apart. -/
def project (rw : Expr → Expr) (x : Var) (M : Model) (lits : List Expr) :
    Option (List Expr × Model) :=
  match classify rw x M lits with
  | none => none
  | some (st, cn) => some (project_finish rw x M st cn)

/-- The local variables of `operator()`: `new_vars`, `result` and the model. -/
structure DriverState where
  new_vars : List Var
  result : List Expr
  model : Model

/-- One iteration of the loop of `operator()`, on variable `v`. -/
def driver_step (rw : Expr → Expr) (s : DriverState) (v : Var) : DriverState :=
  if v.sort = .real || v.sort = .int then
    match project rw v s.model s.result with
    | some (lits, M) => { s with result := lits, model := M }
    | none => { s with new_vars := s.new_vars ++ [v] }
  else { s with new_vars := s.new_vars ++ [v] }

/-- The loop of `operator()` over `vars`. -/
def driver_loop (rw : Expr → Expr) : List Var → DriverState → DriverState
  | [], s => s
  | v :: vs, s => driver_loop rw vs (driver_step rw s v)

end arith_project_util

/-- The integer constant `x` of the scenarios. -/
def vx : Var := ⟨0, .int⟩

/-- The integer constant `y` of the scenarios. -/
def vy : Var := ⟨1, .int⟩

/-- The integer constant `z` of the scenarios. -/
def vz : Var := ⟨2, .int⟩

/-- An integer numeral. -/
def inum (r : ℚ) : Expr := .num r .int

/-- The model `{x ↦ a, y ↦ b, z ↦ c}`. -/
def model_xyz (a b c : ℚ) : Model :=
  ⟨fun v => if v.id = 0 then a else if v.id = 1 then b else c,
    fun _ => false, fun _ _ => 0, fun _ _ => false⟩

/-- The literals `y ≤ 2·x`, `x ≤ z`, `x mod 3 = 1`, true for `x = 1, y = 2, z = 1`. -/
def shift_lits : List Expr :=
  [.le (.var vy) (.mul (inum 2) (.var vx)), .le (.var vx) (.var vz),
    .eq (.mod (.var vx) (inum 3)) (inum 1)]

/-- The literals of scenario S4: `x ≥ 2`, `x ≤ 5`, `(x + 1) mod 3 = 0`. -/
def s4_lits : List Expr :=
  [.ge (.var vx) (inum 2), .le (.var vx) (inum 5),
    .eq (.mod (.add [.var vx, inum 1]) (inum 3)) (inum 0)]

/-- The literals of scenario S5: `2·x + y ≤ 0`, `-3·x + z ≤ 0`. -/
def s5_lits : List Expr :=
  [.le (.add [.mul (inum 2) (.var vx), .var vy]) (inum 0),
    .le (.add [.mul (inum (-3)) (.var vx), .var vz]) (inum 0)]

/-- The fields after the classification loop of `project` on the literals of S5:
row 0 is `2·x + (y + 0) ≤ 0`, row 1 is `-3·x + (z + 0) ≤ 0`. -/
def s5_state : arith_project_util.State :=
  ⟨[⟨2, .add [.var vy, inum 0], false⟩, ⟨-3, .add [.var vz, inum 0], false⟩], [], [], 1, 0⟩

/-- The residue split that the specification states for S5, for a residue `r`:
`3 | (y + r)` and `2·n_sign(-3)·(y + r) + 3·z ≤ 0`. -/
def s5_claimed (r : ℚ) : List Expr :=
  [arith_project_util.mk_divides vx 3 (arith_project_util.mk_add_num vx r (.var vy)),
    .le (arith_project_util.mk_add
      (arith_project_util.mk_mul vx (2 * arith_project_util.n_sign (-3))
        (arith_project_util.mk_add_num vx r (.var vy)))
      (arith_project_util.mk_mul vx 3 (.var vz))) (inum 0)]

/-- The residue split that `mk_int_lt` emits for S5, for a residue `r` and with `y0`, `z0`
the stored terms `y + 0`, `z + 0`: `2 | (y0 + r)` and `(-3)·n_sign(2)·(y0 + r) + 2·z0 ≤ 0`. -/
def s5_emitted (r : ℚ) : List Expr :=
  [arith_project_util.mk_divides vx 2
      (arith_project_util.mk_add_num vx r (.add [.var vy, inum 0])),
    .le (arith_project_util.mk_add
      (arith_project_util.mk_mul vx (-3 * arith_project_util.n_sign 2)
        (arith_project_util.mk_add_num vx r (.add [.var vy, inum 0])))
      (arith_project_util.mk_mul vx 2 (.add [.var vz, inum 0]))) (inum 0)]

/-- The real constant with number `i`. -/
def rvar (i : Nat) : Var := ⟨i, .real⟩

/-- The model that gives the constant with number `i` the `i`-th value of the list. -/
def model_list (vals : List ℚ) : Model :=
  ⟨fun v => vals.getD v.id 0, fun _ => false, fun _ _ => 0, fun _ _ => false⟩

mutual
/-- A ground expression: no uninterpreted constant and no application of a symbol
the model interprets, so that its value is the same in every model. -/
def isGround : Expr → Bool
  | .var _ => false
  | .num _ _ => true
  | .add args => isGroundList args
  | .mul t1 t2 => isGround t1 && isGround t2
  | .sub t1 t2 => isGround t1 && isGround t2
  | .uminus t => isGround t
  | .mod t1 t2 => isGround t1 && isGround t2
  | .le e1 e2 => isGround e1 && isGround e2
  | .ge e1 e2 => isGround e1 && isGround e2
  | .lt e1 e2 => isGround e1 && isGround e2
  | .gt e1 e2 => isGround e1 && isGround e2
  | .eq e1 e2 => isGround e1 && isGround e2
  | .not e => isGround e
  | .tt => true
  | .ff => true
  | .and args => isGroundList args
  | .or args => isGroundList args
  | .implies e1 e2 => isGround e1 && isGround e2
  | .app _ _ _ => false
/-- Every expression of the list is ground. -/
def isGroundList : List Expr → Bool
  | [] => true
  | t :: ts => isGround t && isGroundList ts
end

end qe


namespace qe
namespace arith_project_util

/-- No expression of the list contains `x`. -/
def FreeList (x : Var) (l : List Expr) : Prop := ∀ e ∈ l, occurs x e = false

/-- No term or literal stored in the fields contains `x`. -/
def StFree (x : Var) (st : State) : Prop :=
  (∀ q ∈ st.m_ineqs, occurs x q.term = false) ∧ (∀ d ∈ st.m_divs, occurs x d.term = false) ∧
    FreeList x st.m_new_lits

end arith_project_util
end qe

namespace qe
namespace arith_project_util

end arith_project_util
end qe

namespace qe

/-- A node that the term-level `is_linear` cannot look into: a product of two
non-numerals, or an application that is none of the recognised operators. -/
def opaqueNode : Expr → Bool
  | .mul t1 t2 => !(is_numeral t1) && !(is_numeral t2)
  | .app _ _ _ => true
  | _ => false

mutual
/-- Some subexpression of `e` (possibly `e` itself) satisfies `p`. -/
def hasSub (p : Expr → Bool) : Expr → Bool
  | .var v => p (.var v)
  | .num r s => p (.num r s)
  | .add args => p (.add args) || hasSubList p args
  | .mul t1 t2 => p (.mul t1 t2) || hasSub p t1 || hasSub p t2
  | .sub t1 t2 => p (.sub t1 t2) || hasSub p t1 || hasSub p t2
  | .uminus t => p (.uminus t) || hasSub p t
  | .mod t1 t2 => p (.mod t1 t2) || hasSub p t1 || hasSub p t2
  | .le e1 e2 => p (.le e1 e2) || hasSub p e1 || hasSub p e2
  | .ge e1 e2 => p (.ge e1 e2) || hasSub p e1 || hasSub p e2
  | .lt e1 e2 => p (.lt e1 e2) || hasSub p e1 || hasSub p e2
  | .gt e1 e2 => p (.gt e1 e2) || hasSub p e1 || hasSub p e2
  | .eq e1 e2 => p (.eq e1 e2) || hasSub p e1 || hasSub p e2
  | .not e => p (.not e) || hasSub p e
  | .tt => p .tt
  | .ff => p .ff
  | .and args => p (.and args) || hasSubList p args
  | .or args => p (.or args) || hasSubList p args
  | .implies e1 e2 => p (.implies e1 e2) || hasSub p e1 || hasSub p e2
  | .app f s args => p (.app f s args) || hasSubList p args
/-- Some subexpression of one of the expressions of the list satisfies `p`. -/
def hasSubList (p : Expr → Bool) : List Expr → Bool
  | [] => false
  | t :: ts => hasSub p t || hasSubList p ts
end

/-- The constant `x` lies inside a product of two non-numeral terms or inside an
application of an uninterpreted (unrecognised) function somewhere in `e`. -/
def blocked (x : Var) (e : Expr) : Bool := hasSub (fun s => opaqueNode s && occurs x s) e

/-- The constant `x` lies inside a `mod` term somewhere in `e`. -/
def inMod (x : Var) (e : Expr) : Bool :=
  hasSub (fun s => match s with
    | .mod t1 t2 => occurs x t1 || occurs x t2
    | _ => false) e

/-- The atom of a literal: the literal without its outermost negation, if any. -/
def atomOf : Expr → Expr
  | .not l => l
  | l => l

/-- The literal is `≤`, `≥`, `<`, `>`, or `=` with an arithmetic left-hand side,
possibly under one negation (the negated `=` being `≠`). -/
def isComparison (l : Expr) : Bool :=
  match atomOf l with
  | .le _ _ => true
  | .ge _ _ => true
  | .lt _ _ => true
  | .gt _ _ => true
  | .eq e1 _ => is_arith e1
  | _ => false

mutual
/-- Terms built only from `x`, `x`-free terms, numerals, `+`, binary `-`, unary `-`,
multiplication by a numeral on either side, and `mod` by a numeral. -/
def linTerm (x : Var) : Expr → Bool
  | .var _ => true
  | .num _ _ => true
  | .add args => linTermList x args
  | .mul t1 t2 =>
    (is_numeral t1 && linTerm x t2) || (is_numeral t2 && linTerm x t1)
      || !(occurs x t1 || occurs x t2)
  | .sub t1 t2 => linTerm x t1 && linTerm x t2
  | .uminus t => linTerm x t
  | .mod t1 t2 => (is_numeral t2 && linTerm x t1) || !(occurs x t1 || occurs x t2)
  | .le e1 e2 => !(occurs x e1 || occurs x e2)
  | .ge e1 e2 => !(occurs x e1 || occurs x e2)
  | .lt e1 e2 => !(occurs x e1 || occurs x e2)
  | .gt e1 e2 => !(occurs x e1 || occurs x e2)
  | .eq e1 e2 => !(occurs x e1 || occurs x e2)
  | .not e => !(occurs x e)
  | .tt => true
  | .ff => true
  | .and args => !(occursList x args)
  | .or args => !(occursList x args)
  | .implies e1 e2 => !(occurs x e1 || occurs x e2)
  | .app _ _ args => !(occursList x args)
/-- Every term of the list is a `linTerm`. -/
def linTermList (x : Var) : List Expr → Bool
  | [] => true
  | t :: ts => linTerm x t && linTermList x ts
end

/-- A comparison (`isComparison`) both of whose sides are `linTerm`s. -/
def linLit (x : Var) (l : Expr) : Bool :=
  match atomOf l with
  | .le e1 e2 => linTerm x e1 && linTerm x e2
  | .ge e1 e2 => linTerm x e1 && linTerm x e2
  | .lt e1 e2 => linTerm x e1 && linTerm x e2
  | .gt e1 e2 => linTerm x e1 && linTerm x e2
  | .eq e1 e2 => is_arith e1 && linTerm x e1 && linTerm x e2
  | _ => false

end qe

namespace qe
namespace arith_project_util

/-- Replace the fields in the result of a linearisation. -/
def with_state (st1 : State) (r : Option (ℚ × List Expr × State)) :
    Option (ℚ × List Expr × State) :=
  r.map (fun p => (p.1, p.2.1, st1))

/-- Replace the fields in the result of the classification of a literal. -/
def with_state_lit (st1 : State) (r : Option (ℚ × Expr × Bool × Bool × State)) :
    Option (ℚ × Expr × Bool × Bool × State) :=
  r.map (fun p => (p.1, p.2.1, p.2.2.1, p.2.2.2.1, st1))

/-- The literal `l` contains `x` and the literal-level `is_linear` classifies it as an
equality `c·x + t = 0` with `c ≠ 0`. -/
def isEqualityOn (rw : Expr → Expr) (x : Var) (M : Model) (l : Expr) : Prop :=
  occurs x l = true ∧
    ∃ c t s st1, is_linear_lit rw x M l reset = some (c, t, s, true, st1) ∧ c ≠ 0

end arith_project_util
end qe

namespace qe

namespace arith_project_util

/-- What a stored row says in the model `N` about the value `N` gives `x`:
`coeff * x + term < 0` when strict, `≤ 0` otherwise. -/
def rowHolds (x : Var) (N : Model) (q : Ineq) : Prop :=
  if q.strict then q.coeff * N.val x + eval N q.term < 0
  else q.coeff * N.val x + eval N q.term ≤ 0

end arith_project_util
end qe

/-! ## The alternating loop of `qsat.cpp`

The solver `smt::kernel` is an oracle: a function from the asserted formulas and the
assumptions of a `check` to an answer that carries what `get_model` or
`get_unsat_core_expr` return afterwards. The kernel itself is the stack of its
assertion scopes. The results of `get_free_vars` and `pull_quantifier` are inputs of `hoist`
(`quantifier_hoister` is external).
Vectors keep the order of the source; `obj_map`s are association lists keyed by
structural equality. `SASSERT` and `UNREACHABLE()` are not executed: the code after them
runs. An access outside a vector or the lookup of a missing key ends the run with
`Outcome.crash`. -/

namespace qe
namespace qsat

/-- The three-valued result `lbool`. -/
inductive lbool where
  | l_false
  | l_undef
  | l_true
deriving DecidableEq, Repr

/-- The answer of `m_kernel.check(assumptions)`: `sat` with the model of `get_model`,
`unsat` with the expressions of `get_unsat_core_expr`, or `undef`. -/
inductive Answer where
  | sat (mdl : Model)
  | unsat (core : List Expr)
  | undef

/-- The decision procedure behind `smt::kernel`, given the asserted formulas and the
assumptions. -/
abbrev Oracle := List Expr → List Expr → Answer

/-- The fields of `qsat`. `m_kernel` is the stack of assertion scopes of the solver,
the base scope first; `m_fresh` is the counter behind `m.mk_fresh_const`. -/
structure State where
  m_kernel : List (List Expr)
  m_fml_pred : Expr
  m_nfml_pred : Expr
  m_atoms : List Expr
  m_literals : List Expr
  m_atoms_lim : List Nat
  m_vars : List (List Var)
  m_vals : List (List Expr)
  m_preds : List (List Expr)
  m_assumptions : List Expr
  m_assumptions_lim : List Nat
  m_replay : List (List Expr)
  m_level : Nat
  m_model : Option Model
  m_pred2lit : List (Expr × Expr)
  m_lit2pred : List (Expr × Expr)
  m_pred2level : List (Expr × Nat)
  m_fresh : Nat

/-- Lookup `find` of an `obj_map`. -/
def map_find {β : Type} (m : List (Expr × β)) (k : Expr) : Option β :=
  (m.find? (fun p => p.1 == k)).map Prod.snd

/-- Operation `remove` of an `obj_map`. -/
def map_remove {β : Type} (m : List (Expr × β)) (k : Expr) : List (Expr × β) :=
  m.filter (fun p => !(p.1 == k))

/-- Operation `insert` of an `obj_map`: the binding of the key is replaced. -/
def map_insert {β : Type} (m : List (Expr × β)) (k : Expr) (v : β) : List (Expr × β) :=
  map_remove m k ++ [(k, v)]

/-- All formulas asserted in the scopes of the kernel. -/
def asserted (k : List (List Expr)) : List Expr := k.foldr (fun s r => s ++ r) []

/-- Kernel `assert_expr`: the formula joins the innermost (last) scope. -/
def kernel_assert (k : List (List Expr)) (e : Expr) : List (List Expr) :=
  match k.reverse with
  | [] => [[e]]
  | s :: rest => (rest.reverse) ++ [s ++ [e]]

/-- Kernel `push`. -/
def kernel_push (k : List (List Expr)) : List (List Expr) := k ++ [[]]

/-- Kernel `pop(n)`. -/
def kernel_pop (k : List (List Expr)) (n : Nat) : List (List Expr) := k.take (k.length - n)

/-- Kernel `check(assumptions)`. -/
def kernel_check (O : Oracle) (s : State) (assumptions : List Expr) : Answer :=
  O (asserted s.m_kernel) assumptions

/-- Source `is_exists(level)`. -/
def is_exists (level : Nat) : Bool := level % 2 == 0

/-- Source `is_forall(level)`. -/
def is_forall (level : Nat) : Bool := is_exists (level + 1)

/-- Source `get_fml(lvl)`. -/
def get_fml_at (s : State) (lvl : Nat) : Expr :=
  if is_exists lvl then s.m_fml_pred else s.m_nfml_pred

/-- Source `get_fml()`. -/
def get_fml (s : State) : Expr := get_fml_at s s.m_level

/-- Source `get_level(p)`; `none` when `p` has no entry in `m_pred2level`. -/
def get_level (s : State) (p : Expr) : Option Nat := map_find s.m_pred2level p

/-- The negation `::mk_not(m, e)` of `ast_util`, used by the method `mk_not` and by
`backtrack`: a negation is stripped, everything else is negated. -/
def mk_not : Expr → Expr
  | .not e => e
  | e => .not e

/-- The conjunction `::mk_and(core)` of `ast_util`: `true` for no argument, the argument
itself for one, the application of `and` otherwise. -/
def mk_and : List Expr → Expr
  | [] => .tt
  | [e] => e
  | es => .and es

/-- The test `is_uninterp_const`: an application without arguments outside the
interpreted families. -/
def is_uninterp_const : Expr → Bool
  | .var _ => true
  | .app _ _ [] => true
  | _ => false

/-- Source `fresh_bool(name)`: a Boolean constant that occurs nowhere else. -/
def fresh_bool (s : State) : Expr × State :=
  (.var ⟨s.m_fresh, .bool⟩, { s with m_fresh := s.m_fresh + 1 })

/-- Source `del_pred(p)`. -/
def del_pred (s : State) (p : Expr) : State :=
  match map_find s.m_pred2lit p with
  | some lit =>
    { s with m_lit2pred := map_remove s.m_lit2pred lit,
             m_pred2lit := map_remove s.m_pred2lit p,
             m_pred2level := map_remove s.m_pred2level p }
  | none => s

/-- Source `add_pred(p, lit, level)`. -/
def add_pred (s : State) (p lit : Expr) (level : Nat) : State :=
  let k := if !(p == lit) then kernel_assert s.m_kernel (.eq p lit) else s.m_kernel
  { s with m_kernel := k,
           m_pred2lit := map_insert s.m_pred2lit p lit,
           m_lit2pred := map_insert s.m_lit2pred lit p,
           m_pred2level := map_insert s.m_pred2level p level,
           m_atoms := s.m_atoms ++ [p],
           m_literals := s.m_literals ++ [lit] }

/-- The value `val` of `mdl.eval(var, val)`: `true` or `false` for a Boolean
constant, a numeral otherwise. -/
def eval_var (mdl : Model) (v : Var) : Expr :=
  if v.sort = .bool then (if mdl.bval v then .tt else .ff) else .num (mdl.val v) v.sort

/-- Element `rows[i][j]` of a vector of vectors, `none` outside the bounds. -/
def get2 {α : Type} (rows : List (List α)) (i j : Nat) : Option α :=
  match rows[i]? with
  | some row => row[j]?
  | none => none

/-- Replace element `j` of row `i` of a vector of vectors. -/
def set2 (rows : List (List Expr)) (i j : Nat) (e : Expr) : List (List Expr) :=
  rows.set i ((rows.getD i []).set j e)

/-- The body of the inner loop of `update_tail` for block `i`, position `j`; `none`
when `m_preds[i][j]`, `m_vars[i][j]` or `m_vals[i][j]` is outside the vector. -/
def update_tail_var (mdl : Model) (i : Nat) (s : State) (j : Nat) : Option State :=
  match get2 s.m_preds i j, get2 s.m_vars i j, get2 s.m_vals i j with
  | some p, some var, some _ =>
    let s1 := del_pred s p
    let val := eval_var mdl var
    let s2 := { s1 with m_vals := set2 s1.m_vals i j val }
    if var.sort = .bool then
      let eq : Expr := if is_true val then .var var else .not (.var var)
      let s3 := add_pred s2 eq eq i
      some { s3 with m_preds := set2 s3.m_preds i j eq }
    else
      let eq : Expr := .eq (.var var) val
      let r := fresh_bool s2
      let s3 := { r.2 with m_preds := set2 r.2.m_preds i j r.1 }
      some (add_pred s3 r.1 eq i)
  | _, _, _ => none

/-- A loop over a list of indices that stops at the first failure. -/
def loop_over {σ : Type} (f : σ → Nat → Option σ) : List Nat → σ → Option σ
  | [], s => some s
  | i :: is, s =>
    match f s i with
    | none => none
    | some s1 => loop_over f is s1

/-- The inner loop of `update_tail` over the variables of block `i`. -/
def update_tail_block (mdl : Model) (s : State) (i : Nat) : Option State :=
  loop_over (update_tail_var mdl i) (List.range (s.m_vars.getD i []).length) s

/-- The block indices `start, start + 2, ...` below `size`. -/
def tail_blocks (start size : Nat) : List Nat :=
  (List.range size).filter (fun i => decide (start ≤ i) && (i - start) % 2 == 0)

/-- Source `update_tail(mdl, start)`. -/
def update_tail (mdl : Model) (start : Nat) (s : State) : Option State :=
  loop_over (update_tail_block mdl) (tail_blocks start s.m_vars.length) s

/-- Source `assume_tail(level, assumptions)`. -/
def assume_tail (s : State) (level : Nat) (assumptions : List Expr) : List Expr :=
  let start := if level > 0 then level - 1 else s.m_level + 1
  (tail_blocks start s.m_vars.length).foldl (fun a i => a ++ s.m_preds.getD i []) assumptions

/-- Source `persist_assertion(level, fml)`; `none` when `m_replay` is empty. -/
def persist_assertion (s : State) (level : Nat) (fml : Expr) : Option State :=
  let fml2 : Expr := .implies (get_fml_at s level) fml
  match s.m_replay.reverse with
  | [] => none
  | back :: rest =>
    some { s with m_kernel := kernel_assert s.m_kernel fml2,
                  m_replay := rest.reverse ++ [back ++ [fml2]] }

/-- Source `push()`; `none` when `m_preds[m_level-2]` is outside the vector. -/
def push (s : State) : Option State :=
  let s1 := { s with m_assumptions_lim := s.m_assumptions_lim ++ [s.m_assumptions.length],
                     m_atoms_lim := s.m_atoms_lim ++ [s.m_atoms.length],
                     m_level := s.m_level + 1,
                     m_kernel := kernel_push s.m_kernel,
                     m_replay := s.m_replay ++ [[]] }
  if s1.m_level ≥ 2 then
    match s1.m_preds[s1.m_level - 2]? with
    | some row => some { s1 with m_assumptions := s1.m_assumptions ++ row }
    | none => none
  else some s1

/-- The first loop of `pop`: the lemmas of the `n` innermost entries of `m_replay`,
innermost first, and the entries that remain. -/
def pop_replay : Nat → List (List Expr) → List Expr → List Expr × List (List Expr)
  | 0, replays, acc => (acc, replays)
  | n + 1, replays, acc =>
    pop_replay n replays.dropLast (acc ++ replays.getLastD [])

/-- Source `pop(num_scopes)`; `none` when `num_scopes > m_level` or a limit is missing. -/
def pop (s : State) (num_scopes : Nat) : Option State :=
  if num_scopes > s.m_level then none
  else
    let level := s.m_level - num_scopes
    let r := pop_replay num_scopes s.m_replay []
    match s.m_assumptions_lim[level]?, s.m_atoms_lim[level]? with
    | some alim, some tlim =>
      let s1 := (s.m_assumptions.drop alim).foldl del_pred
        { s with m_level := level, m_replay := r.2 }
      let k := r.1.foldl kernel_assert (kernel_pop s1.m_kernel num_scopes)
      let s2 := { s1 with m_atoms := s1.m_atoms.take tlim,
                          m_literals := s1.m_literals.take tlim,
                          m_assumptions := s1.m_assumptions.take alim,
                          m_assumptions_lim := s1.m_assumptions_lim.take level,
                          m_atoms_lim := s1.m_atoms_lim.take level,
                          m_kernel := k }
      if level > 0 then
        match s2.m_replay.reverse with
        | [] => none
        | back :: rest => some { s2 with m_replay := rest.reverse ++ [back ++ r.1] }
      else some s2
    | _, _ => none

/-- The loop of `backtrack` over the core: the level to return to and the core with
the literals of the last two levels replaced by `true`; `none` when a literal has no
level. -/
def backtrack_core (s : State) : List Expr → Nat → List Expr → Option (Nat × List Expr)
  | [], level, acc => some (level, acc)
  | p :: rest, level, acc =>
    match get_level s p with
    | none => none
    | some lvl =>
      if lvl + 1 < s.m_level then backtrack_core s rest (max level lvl) (acc ++ [p])
      else backtrack_core s rest level (acc ++ [.tt])

/-- Source `backtrack(core)`; `none` when a literal of the core has no level, or when the
target is above `m_level`, where the unsigned difference handed to `pop` wraps around. -/
def backtrack (s : State) (core : List Expr) : Option State :=
  match backtrack_core s core (if is_exists s.m_level then 0 else 1) [] with
  | none => none
  | some (level, core1) =>
    if level ≤ s.m_level then
      match pop s (s.m_level - level) with
      | none => none
      | some s1 => persist_assertion s1 level (mk_not (mk_and core1))
    else none

/-- Source `get_core(core, exclude)`, on the core of the last `check`. -/
def get_core (kcore : List Expr) (exclude : Expr) : List Expr :=
  kcore.filter (fun e => !(e == exclude))

/-- The loop of `get_implicant` over `m_atoms`. -/
def implicant (mdl : Model) (atoms : List Expr) : List Expr :=
  atoms.map (fun p => if holds mdl p then p else mk_not p)

/-- The result of the inner `check_sat(assignment, mdl, fml)`. -/
inductive CheckResult where
  | l_true (mdl : Model) (impl : List Expr)
  | l_false (core : List Expr)
  | l_undef

/-- Source `minimize_assignment(assignment, not_fml)`: `some core` when it returns
true, `none` when it returns false, which it does on `l_undef` and, after
`UNREACHABLE()`, on `l_true`. -/
def minimize_assignment (O : Oracle) (s : State) (assignment : List Expr) (not_fml : Expr) :
    Option (List Expr) :=
  match kernel_check O s (assignment ++ [not_fml]) with
  | .sat _ => none
  | .undef => none
  | .unsat kcore => some (get_core kcore not_fml)

/-- Source `check_sat(assignment, mdl, fml)` with `get_implicant` in place. -/
def check_sat_asms (O : Oracle) (s : State) (assignment : List Expr) (fml : Expr) :
    CheckResult :=
  match kernel_check O s (assignment ++ [fml]) with
  | .sat mdl =>
    match minimize_assignment O s (implicant mdl s.m_atoms) (mk_not fml) with
    | none => .l_undef
    | some impl => .l_true mdl impl
  | .undef => .l_undef
  | .unsat kcore => .l_false (get_core kcore fml)

/-- How a run of `check_sat()` ends. -/
inductive Outcome where
  | answer (r : lbool) (s : State)
  | crash
  | out_of_fuel

/-- The method of `qsat` that sets up the first two levels before the loop (its name is a
keyword of Lean, hence the spelling): `Sum.inl` is `return true` with `result`,
`Sum.inr` is `return false`, `none` a failed `update_tail`. -/
def initialise (O : Oracle) (s0 : State) : Option (Sum (lbool × State) State) :=
  let s := { s0 with m_vals := s0.m_vars.map (fun b => b.map Expr.var) }
  match kernel_check O s [s.m_fml_pred] with
  | .unsat _ => some (.inl (.l_false, s))
  | .undef => some (.inl (.l_undef, s))
  | .sat mdl =>
    match update_tail mdl 0 s with
    | none => none
    | some s1 =>
      match kernel_check O s1 [s1.m_nfml_pred] with
      | .unsat _ => some (.inl (.l_true, { s1 with m_model := some mdl }))
      | .undef => some (.inl (.l_undef, s1))
      | .sat mdl1 =>
        match update_tail mdl1 1 s1 with
        | none => none
        | some s2 => some (.inr s2)

/-- One iteration of the `while (true)` of `check_sat()`: `Sum.inl` ends the run. -/
def check_sat_step (O : Oracle) (s : State) : Sum Outcome State :=
  let asms := assume_tail s s.m_level s.m_assumptions
  match check_sat_asms O s asms (get_fml s) with
  | .l_true mdl _ =>
    let s1 := if s.m_level = 0 then { s with m_model := some mdl } else s
    match update_tail mdl s1.m_level s1 with
    | none => .inl .crash
    | some s2 =>
      match push s2 with
      | none => .inl .crash
      | some s3 => .inr s3
  | .l_false core =>
    if s.m_level = 0 then .inl (.answer .l_false s)
    else if s.m_level = 1 then .inl (.answer .l_true s)
    else
      match backtrack s core with
      | none => .inl .crash
      | some s1 => .inr s1
  | .l_undef => .inl (.answer .l_undef s)

/-- The `while (true)` of `check_sat()`, for at most `fuel` iterations. -/
def check_sat_loop (O : Oracle) : Nat → State → Outcome
  | 0, _ => .out_of_fuel
  | fuel + 1, s =>
    match check_sat_step O s with
    | .inl r => r
    | .inr s1 => check_sat_loop O fuel s1

/-- Source `check_sat()`. -/
def check_sat (O : Oracle) (fuel : Nat) (s : State) : Outcome :=
  match initialise O s with
  | none => .crash
  | some (.inl (r, s1)) => .answer r s1
  | some (.inr s1) => check_sat_loop O fuel s1

/-- The state after `reset()`, with the counter of fresh constants at `fresh`. -/
def reset (fresh : Nat) : State :=
  { m_kernel := [[]], m_fml_pred := .tt, m_nfml_pred := .tt, m_atoms := [], m_literals := [],
    m_atoms_lim := [], m_vars := [], m_vals := [], m_preds := [], m_assumptions := [],
    m_assumptions_lim := [], m_replay := [[]], m_level := 0, m_model := none,
    m_pred2lit := [], m_lit2pred := [], m_pred2level := [], m_fresh := fresh }

/-- The arguments of an application of the basic family (`true`, `false`, `not`, `and`,
`or`, `implies`, `=`), `none` for every other expression. -/
def basic_args : Expr → Option (List Expr)
  | .tt => some []
  | .ff => some []
  | .not e => some [e]
  | .and args => some args
  | .or args => some args
  | .implies e1 e2 => some [e1, e2]
  | .eq e1 e2 => some [e1, e2]
  | _ => none

/-- The application `m.mk_app(a->get_decl(), sz, args)` of the declaration of `a`. -/
def rebuild : Expr → List Expr → Expr
  | .not _, [e] => .not e
  | .and _, args => .and args
  | .or _, args => .or args
  | .implies _ _, [e1, e2] => .implies e1 e2
  | .eq _ _, [e1, e2] => .eq e1 e2
  | a, _ => a

/-- The loop of `mk_abstract` over the arguments of a basic application: the cached
images found, the flag `diff`, and the stack `todo` with the arguments not yet cached. -/
def abstract_args (cache : List (Expr × Expr)) :
    List Expr → List Expr → Bool → List Expr → List Expr × Bool × List Expr
  | [], args, diff, todo => (args, diff, todo)
  | f :: fs, args, diff, todo =>
    match map_find cache f with
    | some f1 => abstract_args cache fs (args ++ [f1]) (diff || !(f == f1)) todo
    | none => abstract_args cache fs args diff (todo ++ [f])

/-- The `while (!todo.empty())` of `mk_abstract`, for at most `fuel` iterations. -/
def mk_abstract_loop : Nat → List Expr → List (Expr × Expr) → State →
    Option (List (Expr × Expr) × State)
  | 0, _, _, _ => none
  | fuel + 1, todo, cache, s =>
    match todo.getLast? with
    | none => some (cache, s)
    | some e =>
      if (map_find cache e).isSome then mk_abstract_loop fuel todo.dropLast cache s
      else
        match basic_args e with
        | some fs =>
          let r := abstract_args cache fs [] false todo
          if r.1.length = fs.length then
            let e1 := if r.2.1 then rebuild e r.1 else e
            mk_abstract_loop fuel r.2.2.dropLast (map_insert cache e e1) s
          else mk_abstract_loop fuel r.2.2 cache s
        | none =>
          if is_uninterp_const e then
            mk_abstract_loop fuel todo (map_insert cache e e) (add_pred s e e 0)
          else
            let r := fresh_bool s
            mk_abstract_loop fuel todo (map_insert cache e r.1) (add_pred r.2 r.1 e 0)

/-- Source `mk_abstract(fml)`. -/
def mk_abstract (fuel : Nat) (fml : Expr) (s : State) : Option State :=
  match mk_abstract_loop fuel [fml] [] s with
  | none => none
  | some (cache, s1) =>
    match map_find cache fml with
    | none => none
    | some body =>
      let r := fresh_bool s1
      some { r.2 with m_fml_pred := r.1, m_nfml_pred := .not r.1,
                      m_kernel := kernel_assert r.2.m_kernel (.eq r.1 body) }

/-- Source `hoist(fml)`, given what the external calls return: `free` from
`get_free_vars`, `first` from the first `pull_quantifier` (existential), and `rest` from
the calls of the `do ... while` loop, the last of them empty. The variables of `first`
are appended to `m_vars.back()` only. -/
def hoist (free first : List Var) (rest : List (List Var)) (s : State) : State :=
  let f := free.map Expr.var
  let r := rest.map (fun b => b.map Expr.var)
  { s with m_vars := (free ++ first) :: rest, m_vals := f :: r, m_preds := f :: r }

/-- The result of a run. -/
def Outcome.result : Outcome → Option lbool
  | .answer r _ => some r
  | _ => none

/-- The tactic `operator()` on a formula with matrix `fml`: `reset`, `hoist`,
`mk_abstract`, `check_sat`. -/
def run (O : Oracle) (fresh fuel : Nat) (free first : List Var) (rest : List (List Var))
    (fml : Expr) : Outcome :=
  match mk_abstract fuel fml (hoist free first rest (reset fresh)) with
  | none => .out_of_fuel
  | some s1 => check_sat O fuel s1

end qsat
end qe

/-! ## A correct oracle and the meaning of a prefix

`brute_oracle` decides the propositional queries by enumeration and answers `undef` on
every other query. `QHolds` is the truth of a hoisted formula in a model. -/

namespace qe
namespace qsat

mutual
/-- Propositional formulas: Boolean constants under the connectives of the basic
family. -/
def isProp : Expr → Bool
  | .var v => v.sort = .bool
  | .tt => true
  | .ff => true
  | .not e => isProp e
  | .and args => isPropList args
  | .or args => isPropList args
  | .implies e1 e2 => isProp e1 && isProp e2
  | .eq e1 e2 => isProp e1 && isProp e2
  | _ => false
/-- Every formula of the list is propositional. -/
def isPropList : List Expr → Bool
  | [] => true
  | e :: es => isProp e && isPropList es
end

mutual
/-- A strict upper bound of the identifiers of the constants of a propositional formula. -/
def idBound : Expr → Nat
  | .var v => v.id + 1
  | .not e => idBound e
  | .and args => idBoundList args
  | .or args => idBoundList args
  | .implies e1 e2 => max (idBound e1) (idBound e2)
  | .eq e1 e2 => max (idBound e1) (idBound e2)
  | _ => 0
/-- A strict upper bound of the identifiers of the constants of a list of formulas. -/
def idBoundList : List Expr → Nat
  | [] => 0
  | e :: es => max (idBound e) (idBoundList es)
end

/-- The model that gives the Boolean constant with identifier `i` the value `bits[i]`. -/
def ofBits (bits : List Bool) : Model :=
  { val := fun _ => 0, bval := fun v => bits.getD v.id false,
    fn := fun _ _ => 0, pred := fun _ _ => false }

/-- All assignments to the identifiers below `n`, the all-false one first. -/
def allAssign : Nat → List (List Bool)
  | 0 => [[]]
  | n + 1 => (allAssign n).map (fun b => false :: b) ++ (allAssign n).map (fun b => true :: b)

/-- The first enumerated assignment that satisfies all formulas of `es`. -/
def findSat (n : Nat) (es : List Expr) : Option (List Bool) :=
  (allAssign n).find? (fun b => holdsAll (ofBits b) es)

/-- Drop every assumption without which the rest stays unsatisfiable. -/
def shrink (n : Nat) (asserted : List Expr) : List Expr → List Expr → List Expr
  | kept, [] => kept
  | kept, a :: rest =>
    if (findSat n (asserted ++ (kept ++ rest))).isNone then shrink n asserted kept rest
    else shrink n asserted (kept ++ [a]) rest

/-- A decision procedure for propositional queries. -/
def brute_oracle : Oracle := fun asserted asms =>
  if isPropList (asserted ++ asms) then
    match findSat (idBoundList (asserted ++ asms)) (asserted ++ asms) with
    | some b => .sat (ofBits b)
    | none => .unsat (shrink (idBoundList (asserted ++ asms)) asserted [] asms)
  else Answer.undef

/-- The oracle answers every query correctly: a model it returns satisfies the asserted
formulas and the assumptions; a core it returns consists of assumptions and is
inconsistent with the asserted formulas. -/
def OracleCorrect (O : Oracle) : Prop :=
  ∀ asserted asms : List Expr,
    match O asserted asms with
    | .sat mdl => holdsAll mdl (asserted ++ asms) = true
    | .unsat core =>
      (∀ e ∈ core, e ∈ asms) ∧ ∀ M : Model, holdsAll M (asserted ++ core) = false
    | .undef => True

/-- Models that agree on the Boolean constants with identifier below `n`. -/
def AgreeBelow (n : Nat) (M N : Model) : Prop :=
  ∀ v : Var, v.sort = .bool → v.id < n → M.bval v = N.bval v

/-- The values a model gives the Boolean constants with identifier below `n`. -/
def bitsOf (M : Model) (n : Nat) : List Bool :=
  (List.range n).map (fun i => M.bval ⟨i, .bool⟩)

/-- The update of the value of one constant, arithmetic and Boolean. -/
def assign (M : Model) (x : Var) (r : ℚ) (b : Bool) : Model :=
  { M with val := fun v => if v = x then r else M.val v,
           bval := fun v => if v = x then b else M.bval v }

/-- The truth in `M` of `P` under a block of quantifiers, existential when `ex`. -/
def QBlock (ex : Bool) : List Var → (Model → Prop) → Model → Prop
  | [], P, M => P M
  | v :: vs, P, M =>
    if ex then ∃ (r : ℚ) (b : Bool), QBlock ex vs P (assign M v r b)
    else ∀ (r : ℚ) (b : Bool), QBlock ex vs P (assign M v r b)

/-- The truth in `M` of the matrix `fml` under the alternating prefix `blocks`, whose
first block is existential when `ex`. -/
def QHolds : Bool → List (List Var) → Expr → Model → Prop
  | _, [], fml, M => holds M fml = true
  | ex, b :: bs, fml, M => QBlock ex b (QHolds (!ex) bs fml) M

/-- The hoisted formula of prefix `blocks` (block 0 existential) and matrix `fml` has a
model. -/
def HasModel (blocks : List (List Var)) (fml : Expr) : Prop :=
  ∃ M : Model, QHolds true blocks fml M

/-- Scenario constants: the universal `y1`, the existential `x2a`, `x2b`, the universal
`y3a`, `y3b`. -/
def y3a : Var := ⟨0, .bool⟩
/-- Scenario constant. -/
def y3b : Var := ⟨1, .bool⟩
/-- Scenario constant. -/
def x2a : Var := ⟨2, .bool⟩
/-- Scenario constant. -/
def x2b : Var := ⟨3, .bool⟩
/-- Scenario constant. -/
def y1 : Var := ⟨4, .bool⟩

/-- The matrix `¬y1 ∨ (¬y3a ∧ ¬y3b ∧ (x2a ∨ x2b)) ∨ (¬y3a ∧ y3b ∧ x2a)`. -/
def game_matrix : Expr :=
  .or [.not (.var y1),
       .and [.not (.var y3a), .not (.var y3b), .or [.var x2a, .var x2b]],
       .and [.not (.var y3a), .var y3b, .var x2a]]

/-- The blocks after the first that `hoist` stores for
`∀ y1 ∃ x2a x2b ∀ y3a y3b. game_matrix`. -/
def game_rest : List (List Var) := [[y1], [x2a, x2b], [y3a, y3b], []]

/-- The run of the tactic on `∀ y1 ∃ x2a x2b ∀ y3a y3b. game_matrix`. -/
def game_run (fuel : Nat) : Outcome := run brute_oracle 5 fuel [] [] game_rest game_matrix

end qsat
end qe

/-! ## Sequences of scope operations -/

namespace qe
namespace qsat

/-- A call of one of the scope operations of `qsat`. -/
inductive ScopeOp where
  | push
  | pop (n : Nat)
  | persist (level : Nat) (fml : Expr)

/-- The calls are made in order; every lemma `persist_assertion` asserts is recorded with
the level at which the call was made. `none` when a call fails. -/
def run_ops : List ScopeOp → State → List (Nat × Expr) → Option (State × List (Nat × Expr))
  | [], s, log => some (s, log)
  | ScopeOp.push :: ops, s, log =>
    match push s with
    | none => none
    | some s1 => run_ops ops s1 log
  | ScopeOp.pop n :: ops, s, log =>
    match pop s n with
    | none => none
    | some s1 => run_ops ops s1 log
  | ScopeOp.persist level fml :: ops, s, log =>
    match persist_assertion s level fml with
    | none => none
    | some s1 => run_ops ops s1 (log ++ [(s.m_level, Expr.implies (get_fml_at s level) fml)])

/-- Every `pop(n)` of the sequence has `1 ≤ n ≤ level`, for the level at which it is
called when the sequence starts at `level`. -/
def valid_ops : Nat → List ScopeOp → Bool
  | _, [] => true
  | level, ScopeOp.push :: ops => valid_ops (level + 1) ops
  | level, ScopeOp.pop n :: ops => decide (1 ≤ n) && decide (n ≤ level) && valid_ops (level - n) ops
  | level, ScopeOp.persist _ _ :: ops => valid_ops level ops

/-- Every `push` of the sequence is called at a level of at most `blocks`, the size of
`m_preds`: the levels at which `m_preds[m_level-2]`, read after the increment of `m_level`,
is inside the vector. -/
def pushes_fit (blocks : Nat) : Nat → List ScopeOp → Bool
  | _, [] => true
  | level, ScopeOp.push :: ops => decide (level ≤ blocks) && pushes_fit blocks (level + 1) ops
  | level, ScopeOp.pop n :: ops => pushes_fit blocks (level - n) ops
  | level, ScopeOp.persist _ _ :: ops => pushes_fit blocks level ops

/-- The level after the sequence, when it starts at `level`. -/
def end_level : Nat → List ScopeOp → Nat
  | level, [] => level
  | level, ScopeOp.push :: ops => end_level (level + 1) ops
  | level, ScopeOp.pop n :: ops => end_level (level - n) ops
  | level, ScopeOp.persist _ _ :: ops => end_level level ops

/-- The sizes of the scope stacks agree with the level. -/
def ScopeInv (s : State) : Prop :=
  s.m_kernel.length = s.m_level + 1 ∧ s.m_replay.length = s.m_level + 1 ∧
    s.m_assumptions_lim.length = s.m_level ∧ s.m_atoms_lim.length = s.m_level

/-- The lemma `e` survives every pop: for each level `k` up to the current one it is
asserted in the scopes `0..k` of the kernel or recorded in a replay list above `k`. -/
def Replayed (s : State) (e : Expr) : Prop :=
  ∀ k : Nat, k ≤ s.m_level →
    e ∈ asserted (s.m_kernel.take (k + 1)) ∨ ∃ r ∈ s.m_replay.drop (k + 1), e ∈ r

end qsat
end qe

/-! ## States of a run -/

namespace qe
namespace qsat

/-- The state after `k` iterations of the loop of `check_sat()`; `none` when the run ends
before. -/
def loop_state (O : Oracle) : Nat → State → Option State
  | 0, s => some s
  | k + 1, s =>
    match check_sat_step O s with
    | Sum.inr s1 => loop_state O k s1
    | Sum.inl _ => none

/-- The state in which `check_sat()` enters its loop; `none` when it returns before. -/
def loop_entry (O : Oracle) (fresh fuel : Nat) (free first : List Var)
    (rest : List (List Var)) (fml : Expr) : Option State :=
  match mk_abstract fuel fml (hoist free first rest (reset fresh)) with
  | none => none
  | some s1 =>
    match initialise O s1 with
    | some (Sum.inr s2) => some s2
    | _ => none

/-- The run ended in an access outside a vector or the lookup of a missing key. -/
def Outcome.crashed : Outcome → Bool
  | Outcome.crash => true
  | _ => false

/-- What the three maps hold for the name `p`: the level of `pred2level`, whether
`pred2lit` has the key `p`, whether `lit2pred` has the key `p`. -/
def bound_at (s : State) (p : Expr) : Option Nat × Bool × Bool :=
  (get_level s p, (map_find s.m_pred2lit p).isSome, (map_find s.m_lit2pred p).isSome)

/-- The level of a state that may be missing and what its maps hold for the name `p`. -/
def bound_in (os : Option State) (p : Expr) : Option (Nat × Option Nat × Bool × Bool) :=
  os.map (fun s => (s.m_level, bound_at s p))

/-- Scenario constants: the free `z0`, the universal `z1`, the existential `z2`, the
universal `z3`. -/
def z0 : Var := ⟨0, .bool⟩
/-- Scenario constant. -/
def z1 : Var := ⟨1, .bool⟩
/-- Scenario constant. -/
def z2 : Var := ⟨2, .bool⟩
/-- Scenario constant. -/
def z3 : Var := ⟨3, .bool⟩

/-- The matrix `((z3 ∨ ¬z0) ∧ (¬z3 ∨ z0)) ∨ ((¬z1 ∧ z0) ∧ (¬z0 ∨ z2))`. -/
def scope_matrix : Expr :=
  .or [.and [.or [.var z3, .not (.var z0)], .or [.not (.var z3), .var z0]],
       .and [.and [.not (.var z1), .var z0], .or [.not (.var z0), .var z2]]]

/-- The blocks after the first that `hoist` stores for `∀ z1 ∃ z2 ∀ z3. scope_matrix`. -/
def scope_rest : List (List Var) := [[z1], [z2], [z3], []]

/-- The state after `k` iterations of the loop on `∀ z1 ∃ z2 ∀ z3. scope_matrix` with the
free constant `z0`. -/
def scope_state (k : Nat) : Option State :=
  (loop_entry brute_oracle 4 30 [z0] [] scope_rest scope_matrix).bind (loop_state brute_oracle k)

end qsat
end qe

/-! ## Further inputs of the projection -/

namespace qe

open arith_project_util in
/-- What `apply_divides` does to the rows that the classification of `lits` stores: `delta`,
`u`, the value the updated model gives `x`, and for every row the value of `c·x + t` in the
model before the call and of the updated row `c'·x + t'` in the updated model. -/
def divides_rows (rw : Expr → Expr) (x : Var) (M : Model) (lits : List Expr) :
    Option (ℚ × ℚ × ℚ × List (ℚ × ℚ)) :=
  (classify rw x M lits).map fun r =>
    let out := apply_divides rw x M r.1 r.1.m_new_lits
    (out.1.m_delta, out.1.m_u, out.2.1.val x,
      (r.1.m_ineqs.zip out.1.m_ineqs).map fun q =>
        (q.1.coeff * M.val x + eval M q.1.term,
          q.2.coeff * out.2.1.val x + eval out.2.1 q.2.term))

/-- The literals `x = y`, `x = z` over the reals, with `x`, `y`, `z` the constants 0 to 2. -/
def two_eq_lits : List Expr :=
  [.eq (.var (rvar 0)) (.var (rvar 1)), .eq (.var (rvar 0)) (.var (rvar 2))]

end qe

/-! ## Witness literals -/

namespace qe
namespace qsat

/-- The tables `m_vals` and `m_preds` have the shape of the prefix `m_vars`. -/
def Shaped (s : State) : Prop :=
  s.m_vals.map List.length = s.m_vars.map List.length ∧
    s.m_preds.map List.length = s.m_vars.map List.length

/-- What `update_tail` does not change: the prefix, the level, the two names of the
formula, the model; and every assertion of the kernel stays. -/
def TailFrame (s s1 : State) : Prop :=
  s1.m_vars = s.m_vars ∧ s1.m_level = s.m_level ∧ s1.m_fml_pred = s.m_fml_pred ∧
    s1.m_nfml_pred = s.m_nfml_pred ∧ s1.m_model = s.m_model ∧
    ∀ e ∈ asserted s.m_kernel, e ∈ asserted s1.m_kernel

/-- The witness literal of the constant `v` from the model `M` is installed at position `j`
of block `i`: `m_vals[i][j]` is the value `M` gives `v`; for a Boolean `v` the name
`m_preds[i][j]` is `v` or `¬v` as `M` says; otherwise it is a Boolean constant `p` and the
kernel holds the definition `p = (v = M(v))`. -/
def Installed (M : Model) (s : State) (i j : Nat) (v : Var) : Prop :=
  get2 s.m_vals i j = some (eval_var M v) ∧
    (v.sort = .bool →
      get2 s.m_preds i j = some (if M.bval v then Expr.var v else Expr.not (Expr.var v))) ∧
    (v.sort ≠ .bool → ∃ n : Nat, get2 s.m_preds i j = some (Expr.var ⟨n, .bool⟩) ∧
      Expr.eq (Expr.var ⟨n, .bool⟩) (Expr.eq (Expr.var v) (eval_var M v))
        ∈ asserted s.m_kernel)

/-- The state after the first two statements of the method that sets up the first two
levels: `m_vals.reset(); m_vals.append(m_vars)`. -/
def with_vals (s : State) : State :=
  { s with m_vals := s.m_vars.map (fun b => b.map Expr.var) }

end qsat
end qe

/-! ## Names and their definitions -/

namespace qe
namespace qsat

mutual
/-- The leaves of the Boolean structure of a formula: the subformulas outside the basic
family that `mk_abstract` meets. -/
def leaves : Expr → List Expr
  | .tt => []
  | .ff => []
  | .not e => leaves e
  | .and args => leavesList args
  | .or args => leavesList args
  | .implies e1 e2 => leaves e1 ++ leaves e2
  | .eq e1 e2 => leaves e1 ++ leaves e2
  | e => [e]
/-- The leaves of a list of formulas. -/
def leavesList : List Expr → List Expr
  | [] => []
  | e :: es => leaves e ++ leavesList es
end

mutual
/-- Concretisation: every name is replaced by the literal `pred2lit` gives it; a formula
that is not a name keeps its connective of the basic family. -/
def concretize (m : List (Expr × Expr)) : Expr → Expr
  | .not e =>
    match map_find m (.not e) with
    | some l => l
    | none => .not (concretize m e)
  | .and args =>
    match map_find m (.and args) with
    | some l => l
    | none => .and (concretizeList m args)
  | .or args =>
    match map_find m (.or args) with
    | some l => l
    | none => .or (concretizeList m args)
  | .implies e1 e2 =>
    match map_find m (.implies e1 e2) with
    | some l => l
    | none => .implies (concretize m e1) (concretize m e2)
  | .eq e1 e2 =>
    match map_find m (.eq e1 e2) with
    | some l => l
    | none => .eq (concretize m e1) (concretize m e2)
  | e =>
    match map_find m e with
    | some l => l
    | none => e
/-- Concretisation of a list of formulas. -/
def concretizeList (m : List (Expr × Expr)) : List Expr → List Expr
  | [] => []
  | e :: es => concretize m e :: concretizeList m es
end

/-- The skeleton `cache.find(fml)` that `mk_abstract` asserts as the definition of the
name of the formula. -/
def skeleton (fuel : Nat) (fml : Expr) (s : State) : Option Expr :=
  match mk_abstract_loop fuel [fml] [] s with
  | none => none
  | some (cache, _) => map_find cache fml

/-- The maps `pred2lit` and `lit2pred` are inverse to each other, and `pred2level` has the
keys of `pred2lit`. -/
def Bijective (s : State) : Prop :=
  (∀ p a : Expr, map_find s.m_pred2lit p = some a ↔ map_find s.m_lit2pred a = some p) ∧
    ∀ p : Expr, (map_find s.m_pred2level p).isSome = (map_find s.m_pred2lit p).isSome

/-- A Boolean constant whose number is at least `f0`: a name made by `fresh_bool` when the
counter started at `f0`. -/
def fresh_form (f0 : Nat) (p : Expr) : Prop := ∃ n : Nat, f0 ≤ n ∧ p = Expr.var ⟨n, .bool⟩

/-- The Boolean constants of `e` have a number below `f0`. -/
def BelowFresh (f0 : Nat) (e : Expr) : Prop :=
  ∀ v : Var, occurs v e = true → v.sort = .bool → v.id < f0

/-- The hoisted variables are pairwise distinct and the Boolean ones have a number below
`f0`. -/
def PrefixOk (f0 : Nat) (s : State) : Prop :=
  (∀ i j i1 j1 : Nat, ∀ v : Var, get2 s.m_vars i j = some v → get2 s.m_vars i1 j1 = some v →
      i = i1 ∧ j = j1) ∧
    ∀ (i j : Nat) (v : Var), get2 s.m_vars i j = some v → v.sort = .bool → v.id < f0

/-- The form of the entries of `pred2lit`: a constant of the formula or a Boolean witness
literal is its own name; every other literal has a name made by `fresh_bool`. A witness
literal `x = val` belongs to the position of `x` in the prefix. -/
def NamesInv (f0 : Nat) (s : State) : Prop :=
  f0 ≤ s.m_fresh ∧
    (∀ p l : Expr, map_find s.m_pred2lit p = some l →
      (p = l ∧ ¬ fresh_form f0 p) ∨
      ((∃ n : Nat, f0 ≤ n ∧ n < s.m_fresh ∧ p = Expr.var ⟨n, .bool⟩) ∧
        is_uninterp_const l = false ∧ ∀ e : Expr, l ≠ Expr.not e)) ∧
    ∀ (x : Var) (val p : Expr), map_find s.m_lit2pred (Expr.eq (Expr.var x) val) = some p →
      x.sort ≠ .bool ∧ ∃ i j : Nat, get2 s.m_vars i j = some x ∧ get2 s.m_preds i j = some p

/-- The states reached from the state after `reset`, `hoist` and `mk_abstract` by
`update_tail`, `push` and `pop`. -/
inductive Reach (fuel f0 : Nat) (free first : List Var) (rest : List (List Var))
    (fml : Expr) : State → Prop where
  | init (s : State) :
      mk_abstract fuel fml (hoist free first rest (reset f0)) = some s →
      Reach fuel f0 free first rest fml s
  | tail (s s1 : State) (M : Model) (start : Nat) :
      Reach fuel f0 free first rest fml s → update_tail M start s = some s1 →
      Reach fuel f0 free first rest fml s1
  | push (s s1 : State) :
      Reach fuel f0 free first rest fml s → push s = some s1 →
      Reach fuel f0 free first rest fml s1
  | pop (s s1 : State) (n : Nat) :
      Reach fuel f0 free first rest fml s → pop s n = some s1 →
      Reach fuel f0 free first rest fml s1

/-- The three properties of the names together. -/
def NamesOk (f0 : Nat) (s : State) : Prop := Bijective s ∧ NamesInv f0 s ∧ PrefixOk f0 s

/-- The invariant of the loop of `mk_abstract`, between `cache` and the maps: every
literal of `pred2lit` is a cached formula outside the basic family, bound to itself when
it is a constant and to a fresh name otherwise; every cached formula has its Boolean
constants below `f0`; the image of a cached leaf is its name; the definitions of the
names put back into the image of a cached formula give the formula, also after more names
are defined; and every leaf of a cached formula has a name. -/
structure AbsInv (f0 : Nat) (cache : List (Expr × Expr)) (s : State) : Prop where
  fresh : f0 ≤ s.m_fresh
  bij : Bijective s
  entry : ∀ p l : Expr, map_find s.m_pred2lit p = some l →
    map_find cache l = some p ∧ basic_args l = none ∧ basic_args p = none ∧
      ((p = l ∧ is_uninterp_const l = true ∧ ¬ fresh_form f0 l) ∨
        (is_uninterp_const l = false ∧
          ∃ n : Nat, f0 ≤ n ∧ n < s.m_fresh ∧ p = Expr.var ⟨n, .bool⟩))
  below : ∀ x y : Expr, map_find cache x = some y → BelowFresh f0 x
  leaf : ∀ x y : Expr, map_find cache x = some y → basic_args x = none →
    map_find s.m_pred2lit y = some x
  trip : ∀ x y : Expr, map_find cache x = some y → ∀ m1 : List (Expr × Expr),
    (∀ k v : Expr, map_find s.m_pred2lit k = some v → map_find m1 k = some v) →
    (∀ k v : Expr, map_find m1 k = some v → basic_args k = none) → concretize m1 y = x
  bound : ∀ x y : Expr, map_find cache x = some y → ∀ a ∈ leaves x,
    ∃ p : Expr, map_find s.m_pred2lit p = some a

/-- One visit of the loop of `mk_abstract` to the formula `e` on top of the stack: from
every stack, cache and state that satisfy the invariant, after `n` iterations the
formula is popped and cached, the invariant holds, the cache has only grown and the
prefix is the same. -/
def Visits (f0 : Nat) (e : Expr) : Prop :=
  ∀ (todo : List Expr) (cache : List (Expr × Expr)) (s : State),
    AbsInv f0 cache s → BelowFresh f0 e →
    ∃ (n : Nat) (cache1 : List (Expr × Expr)) (s1 : State),
      (∀ fuel : Nat, mk_abstract_loop (fuel + n) (todo ++ [e]) cache s =
        mk_abstract_loop fuel todo cache1 s1) ∧
      AbsInv f0 cache1 s1 ∧
      (∀ x y : Expr, map_find cache x = some y → map_find cache1 x = some y) ∧
      (map_find cache1 e).isSome = true ∧ s1.m_vars = s.m_vars ∧ s1.m_preds = s.m_preds

end qsat
end qe

/-! ## The EPR loop of `qepr.cpp`

The class `pred_abs` and the helpers `qe::mbp::solve`, `push_not`, `mk_forall` and
`quantifier_hoister` are not part of the sources: their operations are parameters. The
two solvers `m_fa` and `m_ex` are never pushed or popped here, so each is the list of its
assertions, decided by an oracle as in `qsat`. An `obj_map` over declarations is an
association list in insertion order. -/

namespace qe
namespace qepr

/-- The declaration of an application outside the interpreted families. -/
inductive Decl where
  | const (v : Var)
  | fn (f : Nat) (s : Srt)
deriving DecidableEq

/-- The declaration `a->get_decl()`, `none` for an interpreted one. -/
def decl_of : Expr → Option Decl
  | .var v => some (.const v)
  | .app f s _ => some (.fn f s)
  | _ => none

/-- The arguments `a->get_arg(0), ...` of an application. -/
def children : Expr → List Expr
  | .var _ => []
  | .num _ _ => []
  | .add args => args
  | .mul t1 t2 => [t1, t2]
  | .sub t1 t2 => [t1, t2]
  | .uminus t => [t]
  | .mod t1 t2 => [t1, t2]
  | .le e1 e2 => [e1, e2]
  | .ge e1 e2 => [e1, e2]
  | .lt e1 e2 => [e1, e2]
  | .gt e1 e2 => [e1, e2]
  | .eq e1 e2 => [e1, e2]
  | .not e => [e]
  | .tt => []
  | .ff => []
  | .and args => args
  | .or args => args
  | .implies e1 e2 => [e1, e2]
  | .app _ _ args => args

/-- The operations of `pred_abs` that `qepr` calls, on a state of type `α`. -/
structure PredAbs (α : Type) where
  /-- Operation `push()`. -/
  push : α → α
  /-- Operation `pop(num_scopes)`. -/
  pop : Nat → α → α
  /-- Operation `get_assumptions(mdl, asms)`: the assumptions it appends. -/
  get_assumptions : Option Model → α → List Expr
  /-- Operation `abstract_atoms(fml, defs)`: the new state and the definitions it appends. -/
  abstract_atoms : Expr → α → α × List Expr
  /-- Operation `mk_abstract(fml)`. -/
  mk_abstract : Expr → α → Expr
  /-- Operation `mk_concrete(core)`. -/
  mk_concrete : List Expr → α → List Expr
  /-- Operation `mk_assumption_literal(a, defs)`: the literal, the definitions it appends
  and the new state. -/
  mk_assumption_literal : Expr → α → Expr × List Expr × α
  /-- The value `compute_level(e).max()`. -/
  compute_level_max : Expr → α → Nat
  /-- Operation `set_expr_level(v, lvl)` with `lvl.m_ex = l`. -/
  set_expr_level : Var → Nat → α → α

/-- The helpers from outside the sources. -/
structure Ext where
  /-- Helper `m_mbp.solve(model, bound, core)`: the new `bound` and `core`. -/
  solve : Model → List Var → List Expr → List Var × List Expr
  /-- Helper `::push_not(e)`. -/
  push_not : Expr → Expr
  /-- Helper `mk_forall(m, n, bound, fml)`. -/
  mk_forall : List Var → Expr → Expr
  /-- The test on the name of a declaration in `to_eliminate`: it starts with `_`. -/
  underscore : Decl → Bool

/-- The table type `pred2occs`. -/
abbrev pred2occs := List (Decl × List Expr)

/-- The fields of `qepr`. -/
structure State (α : Type) where
  m_pred_abs : α
  m_model : Option Model
  m_fa : List Expr
  m_ex : List Expr
  m_level : Nat
  m_num_rounds : Nat
  m_answer : List Expr
  m_free_vars : List Var
  m_bound_vars : List Var
  m_free_preds : List Decl
  m_bound_preds : List Decl
  m_free_pred_occs : pred2occs
  m_bound_pred_occs : pred2occs

/-- Lookup in a `pred2occs`. -/
def occs_find (t : pred2occs) (d : Decl) : Option (List Expr) :=
  (t.find? (fun p => p.1 = d)).map Prod.snd

/-- The update `map.insert_if_not_there2(d, ptr_vector<app>())->get_data().m_value.push_back(a)`. -/
def occs_push (t : pred2occs) (d : Decl) (a : Expr) : pred2occs :=
  match occs_find t d with
  | some _ => t.map (fun p => if p.1 = d then (p.1, p.2 ++ [a]) else p)
  | none => t ++ [(d, [a])]

/-- Source `add_predicate(map, p)`; an interpreted `p` has no entry here. -/
def add_predicate (t : pred2occs) (p : Expr) : pred2occs :=
  match decl_of p with
  | some d => occs_push t d p
  | none => t

/-- Source `push()`. -/
def push {α : Type} (P : PredAbs α) (s : State α) : State α :=
  { s with m_pred_abs := P.push s.m_pred_abs, m_level := s.m_level + 1 }

/-- Source `pop(num_scopes)`; the level is an `unsigned`, the difference is cut at 0. -/
def pop {α : Type} (P : PredAbs α) (s : State α) (num_scopes : Nat) : State α :=
  { s with m_model := none, m_pred_abs := P.pop num_scopes s.m_pred_abs,
           m_level := s.m_level - num_scopes }

/-- The value `val` of `mdl.eval(e, val)`. -/
def model_value (M : Model) (e : Expr) : Expr :=
  if sortOf e = .bool then (if holds M e then .tt else .ff) else .num (eval M e) (sortOf e)

/-- The update `register_decl(v, val)` of a model by a value. -/
def register_value (M : Model) (v : Var) (val : Expr) : Model :=
  if v.sort = .bool then { M with bval := fun w => if w = v then is_true val else M.bval w }
  else { M with val := fun w => if w = v then eval M val else M.val w }

/-- Source `assert_defs(defs)`; `none` when a `VERIFY` fails or `m_model` is null. -/
def assert_defs {α : Type} : List Expr → State α → Option (State α)
  | [], s => some s
  | .eq (.var v) b :: defs, s =>
    match s.m_model with
    | none => none
    | some M =>
      assert_defs defs
        { s with m_model := some (register_value M v (model_value M b)),
                 m_fa := s.m_fa ++ [.eq (.var v) b], m_ex := s.m_ex ++ [.eq (.var v) b] }
  | _ :: _, _ => none

/-- Source `collect_pos_neg(occs, pos, neg)`; `none` when `m_model` is null. -/
def collect_pos_neg (M : Option Model) :
    List Expr → pred2occs × pred2occs → Option (pred2occs × pred2occs)
  | [], r => some r
  | a :: occs, r =>
    match M with
    | none => none
    | some mdl =>
      if holds mdl a then collect_pos_neg M occs (add_predicate r.1 a, r.2)
      else collect_pos_neg M occs (r.1, add_predicate r.2 a)

/-- Source `collect_pos_neg(preds, pos, neg)` over a table. -/
def collect_pos_neg_all (M : Option Model) :
    pred2occs → pred2occs × pred2occs → Option (pred2occs × pred2occs)
  | [], r => some r
  | p :: preds, r =>
    match collect_pos_neg M p.2 r with
    | none => none
    | some r1 => collect_pos_neg_all M preds r1

/-- The first loop over `k` in `extract_disequalities`: the pair `p`, `n` has an argument
position whose disequality is already known. -/
def known_skip (known : List (Expr × Expr)) (p n : Expr) : Bool :=
  !known.isEmpty &&
    (List.range (children p).length).any (fun k =>
      let a := (children p).getD k .tt
      let b := (children n).getD k .tt
      known.any (fun q => q.1 == a && q.2 == b) || known.any (fun q => q.1 == b && q.2 == a))

/-- The second loop over `k` in `extract_disequalities`: the first position from `k` on
where the values differ. -/
def first_diff (mdl : Model) (p n : Expr) : List Nat → Option (Expr × Expr)
  | [] => none
  | k :: ks =>
    let a := (children p).getD k .tt
    let b := (children n).getD k .tt
    if !(model_value mdl a == model_value mdl b) then some (a, b) else first_diff mdl p n ks

/-- The loop over `j` in `extract_disequalities`, for one positive occurrence `p`. -/
def diseq_negs (mdl : Model) (p : Expr) :
    List Expr → List Expr × List (Expr × Expr) → List Expr × List (Expr × Expr)
  | [], r => r
  | n :: negs, r =>
    if known_skip r.2 p n then diseq_negs mdl p negs r
    else
      match first_diff mdl p n (List.range (children p).length) with
      | some (a, b) => diseq_negs mdl p negs (r.1 ++ [.not (.eq a b)], r.2 ++ [(a, b)])
      | none => diseq_negs mdl p negs r

/-- The loop over `i` in `extract_disequalities`. -/
def diseq_poss (mdl : Model) (negs : List Expr) :
    List Expr → List Expr × List (Expr × Expr) → List Expr × List (Expr × Expr)
  | [], r => r
  | p :: poss, r => diseq_poss mdl negs poss (diseq_negs mdl p negs r)

/-- The loop of `extract_disequalities` over the entries of `pos`. -/
def diseq_entries (mdl : Model) (neg : pred2occs) :
    pred2occs → List Expr × List (Expr × Expr) → List Expr × List (Expr × Expr)
  | [], r => r
  | e :: rest, r =>
    match occs_find neg e.1 with
    | none => diseq_entries mdl neg rest r
    | some negs => diseq_entries mdl neg rest (diseq_poss mdl negs e.2 r)

/-- Source `extract_disequalities(pos, neg, diseqs)`: the disequalities; `none` when
`m_model` is null and a pair is to be evaluated. -/
def extract_disequalities (M : Option Model) (pos neg : pred2occs) : Option (List Expr) :=
  match M with
  | some mdl => some (diseq_entries mdl neg pos ([], [])).1
  | none => if pos.any (fun e => (occs_find neg e.1).isSome) then none else some []

/-- The loop of `ensure_disequalities` over `diseqs`. -/
def abstract_all {α : Type} (P : PredAbs α) : List Expr → α × List Expr → α × List Expr
  | [], r => r
  | d :: ds, r =>
    abstract_all P ds ((P.abstract_atoms d r.1).1, r.2 ++ (P.abstract_atoms d r.1).2)

/-- Source `ensure_disequalities()`. -/
def ensure_disequalities {α : Type} (P : PredAbs α) (s : State α) : Option (State α) :=
  match collect_pos_neg_all s.m_model s.m_bound_pred_occs ([], []) with
  | none => none
  | some (pos, neg) =>
    match extract_disequalities s.m_model pos neg with
    | none => none
    | some diseqs =>
      let r := abstract_all P diseqs (s.m_pred_abs, [])
      assert_defs r.2 { s with m_pred_abs := r.1 }

/-- Source `eq_args(p, q)`. -/
def eq_args (p q : Expr) : Expr :=
  qsat.mk_and (((children p).zip (children q)).filterMap
    (fun ab => if ab.1 == ab.2 then none else some (.eq ab.1 ab.2)))

/-- The disjunction `mk_or(fmls)` of `ast_util`. -/
def mk_or : List Expr → Expr
  | [] => .ff
  | [e] => e
  | es => .or es

/-- Source `mk_graph(p, pos, neg)`; `mk_iff` is the equality of two formulas. -/
def mk_graph (p : Expr) (pos neg : List Expr) : Expr :=
  .eq p (qsat.mk_and (mk_or (pos.map (eq_args p)) :: neg.map (fun n => .not (eq_args p n))))

/-- Source `push_asms(asms, a)`. -/
def push_asms {α : Type} (P : PredAbs α) (a : Expr) (r : State α × List Expr) :
    Option (State α × List Expr) :=
  let l := P.mk_assumption_literal a r.1.m_pred_abs
  match assert_defs l.2.1 { r.1 with m_pred_abs := l.2.2 } with
  | none => none
  | some s1 => some (s1, r.2 ++ [l.1])

/-- A loop of `push_asms` over formulas. -/
def push_asms_all {α : Type} (P : PredAbs α) :
    List Expr → State α × List Expr → Option (State α × List Expr)
  | [], r => some r
  | a :: as, r =>
    match push_asms P a r with
    | none => none
    | some r1 => push_asms_all P as r1

/-- The two loops at the end of `extract_function_graph`: the graph of every occurrence
whose level is 2. -/
def push_graphs {α : Type} (P : PredAbs α) (poss negs : List Expr) :
    List Expr → State α × List Expr → Option (State α × List Expr)
  | [], r => some r
  | a :: as, r =>
    if P.compute_level_max a r.1.m_pred_abs = 2 then
      match push_asms P (mk_graph a poss negs) r with
      | none => none
      | some r1 => push_graphs P poss negs as r1
    else push_graphs P poss negs as r

/-- Source `extract_function_graph(p, occs, asms)`. -/
def extract_function_graph {α : Type} (P : PredAbs α) (p : Decl) (occs : List Expr)
    (r : State α × List Expr) : Option (State α × List Expr) :=
  match collect_pos_neg r.1.m_model occs ([], []) with
  | none => none
  | some (pos, neg) =>
    match occs_find pos p, occs_find neg p with
    | none, none => none
    | some poss, none => push_asms_all P poss r
    | none, some negs => push_asms_all P (negs.map Expr.not) r
    | some poss, some negs =>
      match push_graphs P poss negs poss r with
      | none => none
      | some r1 => push_graphs P poss negs negs r1

/-- A loop of `extract_function_graphs` over a table. -/
def extract_graphs_of {α : Type} (P : PredAbs α) :
    pred2occs → State α × List Expr → Option (State α × List Expr)
  | [], r => some r
  | e :: rest, r =>
    match extract_function_graph P e.1 e.2 r with
    | none => none
    | some r1 => extract_graphs_of P rest r1

/-- Source `extract_function_graphs(asms)`. -/
def extract_function_graphs {α : Type} (P : PredAbs α) (r : State α × List Expr) :
    Option (State α × List Expr) :=
  match extract_graphs_of P r.1.m_bound_pred_occs r with
  | none => none
  | some r1 => extract_graphs_of P r1.1.m_free_pred_occs r1

/-- Source `get_assumptions(asms)` on an empty `asms`. -/
def get_assumptions {α : Type} (P : PredAbs α) (s : State α) :
    Option (State α × List Expr) :=
  if s.m_level = 0 then some (s, [])
  else if s.m_level = 1 then
    match ensure_disequalities P s with
    | none => none
    | some s1 => some (s1, P.get_assumptions s1.m_model s1.m_pred_abs)
  else if s.m_level = 2 then
    extract_function_graphs P (s, P.get_assumptions s.m_model s.m_pred_abs)
  else if s.m_level = 3 then some (s, P.get_assumptions s.m_model s.m_pred_abs)
  else some (s, [])

/-- The solver `get_kernel(l)`: its assertions. -/
def get_kernel {α : Type} (s : State α) (l : Nat) : List Expr :=
  if l % 2 = 0 then s.m_ex else s.m_fa

/-- Source `negate_core(core)`; `none` when `m_model` is null. -/
def negate_core {α : Type} (X : Ext) (s : State α) (core : List Expr) : Option Expr :=
  match s.m_model with
  | none => none
  | some mdl =>
    let r := X.solve mdl s.m_bound_vars core
    some (X.mk_forall r.1 (X.push_not (qsat.mk_and r.2)))

/-- Source `project()`, on the core of the last `check`. `UNREACHABLE()` is not executed. -/
def project {α : Type} (P : PredAbs α) (X : Ext) (s : State α) (kcore : List Expr) :
    Option (State α) :=
  let core := P.mk_concrete kcore s.m_pred_abs
  if s.m_level = 1 then
    match negate_core X s core with
    | none => none
    | some fml => some (pop P { s with m_ex := s.m_ex ++ [fml], m_answer := s.m_answer ++ [fml] } 1)
  else if s.m_model.isNone then some (pop P s 1)
  else
    match negate_core X s core with
    | none => none
    | some fml =>
      some { s with m_ex := s.m_ex ++ [fml], m_fa := s.m_fa ++ [fml], m_level := s.m_level - 2 }

/-- How a run of `check_sat()` ends. -/
inductive Outcome (α : Type) where
  | answer (r : qsat.lbool) (s : State α)
  | crash
  | out_of_fuel

/-- The result of a run. -/
def Outcome.result {α : Type} : Outcome α → Option qsat.lbool
  | Outcome.answer r _ => some r
  | _ => none

/-- The first half of an iteration of `check_sat()`: the state after `get_assumptions`
and the answer of `k.check(asms)`. -/
def query {α : Type} (P : PredAbs α) (O : qsat.Oracle) (s : State α) :
    Option (State α × qsat.Answer) :=
  match get_assumptions P { s with m_num_rounds := s.m_num_rounds + 1 } with
  | none => none
  | some (s1, asms) => some (s1, O (get_kernel s1 s1.m_level) asms)

/-- One iteration of the `while (true)` of `check_sat()`: `Sum.inl` ends the run. -/
def check_sat_step {α : Type} (P : PredAbs α) (X : Ext) (O : qsat.Oracle) (s : State α) :
    Sum (Outcome α) (State α) :=
  match query P O s with
  | none => Sum.inl Outcome.crash
  | some (s1, qsat.Answer.sat mdl) => Sum.inr (push P { s1 with m_model := some mdl })
  | some (s1, qsat.Answer.unsat kcore) =>
    if s1.m_level = 0 then Sum.inl (Outcome.answer qsat.lbool.l_false s1)
    else
      match project P X s1 kcore with
      | none => Sum.inl Outcome.crash
      | some s2 => Sum.inr s2
  | some (s1, qsat.Answer.undef) => Sum.inl (Outcome.answer qsat.lbool.l_undef s1)

/-- The `while (true)` of `check_sat()`, for at most `fuel` iterations. -/
def check_sat {α : Type} (P : PredAbs α) (X : Ext) (O : qsat.Oracle) :
    Nat → State α → Outcome α
  | 0, _ => Outcome.out_of_fuel
  | fuel + 1, s =>
    match check_sat_step P X O s with
    | Sum.inl r => r
    | Sum.inr s1 => check_sat P X O fuel s1

/-- The state after `k` iterations of the loop; `none` when the run ends before. -/
def loop_state {α : Type} (P : PredAbs α) (X : Ext) (O : qsat.Oracle) :
    Nat → State α → Option (State α)
  | 0, s => some s
  | k + 1, s =>
    match check_sat_step P X O s with
    | Sum.inr s1 => loop_state P X O k s1
    | Sum.inl _ => none

end qepr
end qe

/-! ## The entry point of `qepr.cpp` -/

namespace qe
namespace qepr

/-- The test `is_predicate(m, d)` of the AST library: the range of `d` is Boolean. -/
def Decl.is_predicate : Decl → Bool
  | Decl.const v => v.sort = .bool
  | Decl.fn _ s => s = .bool

/-- Source `to_eliminate(d->get_name())`. -/
def to_eliminate (X : Ext) (d : Decl) : Bool := X.underscore d

/-- Source `is_bound_predicate(d)`; a `Decl` is outside the interpreted families. -/
def is_bound_predicate (X : Ext) (d : Decl) : Bool := d.is_predicate && to_eliminate X d

/-- Source `is_free_predicate(d)`. -/
def is_free_predicate (X : Ext) (d : Decl) : Bool := d.is_predicate && !(to_eliminate X d)

/-- The local state of `collect_predicates`: the stack `todo`, the marked expressions and
declarations, and the four tables. -/
structure Collect where
  todo : List Expr
  marked : List Expr
  marked_decls : List Decl
  free_preds : List Decl
  bound_preds : List Decl
  free_occs : pred2occs
  bound_occs : pred2occs

/-- The body of the `while` of `collect_predicates` for the expression `e = todo.back()`.
There is no `is_var` and no quantifier among the expressions of the embedding. -/
def collect_body (X : Ext) (c : Collect) (e : Expr) : Collect :=
  if c.marked.contains e then c
  else
    let c1 := { c with marked := e :: c.marked }
    let c2 :=
      match decl_of e with
      | none => c1
      | some d =>
        let c3 :=
          if !(c1.marked_decls.contains d) && is_bound_predicate X d then
            { c1 with bound_preds := c1.bound_preds ++ [d],
                      bound_occs := occs_push c1.bound_occs d e }
          else c1
        let c4 :=
          if !(c3.marked_decls.contains d) && is_free_predicate X d then
            { c3 with free_preds := c3.free_preds ++ [d],
                      free_occs := occs_push c3.free_occs d e }
          else c3
        { c4 with marked_decls := d :: c4.marked_decls }
    { c2 with todo := c2.todo ++ children e }

/-- The `while (!todo.empty())` of `collect_predicates`, for at most `fuel` iterations. -/
def collect_loop (X : Ext) : Nat → Collect → Option Collect
  | 0, _ => none
  | fuel + 1, c =>
    match c.todo.getLast? with
    | none => some c
    | some e => collect_loop X fuel (collect_body X c e)

/-- Source `collect_predicates(fml)`; `none` when the fuel runs out. -/
def collect_predicates {α : Type} (X : Ext) (fuel : Nat) (fml : Expr) (s : State α) :
    Option (State α) :=
  match collect_loop X fuel ⟨[fml], [], [], [], [], [], []⟩ with
  | none => none
  | some c =>
    some { s with m_free_preds := c.free_preds, m_bound_preds := c.bound_preds,
                  m_free_pred_occs := c.free_occs, m_bound_pred_occs := c.bound_occs }

/-- Source `set_level(l, vars)`. -/
def set_level {α : Type} (P : PredAbs α) (l : Nat) (vars : List Var) (a : α) : α :=
  vars.foldl (fun b v => P.set_expr_level v l b) a

/-- Source `hoist(fml)`, given what the calls outside the sources return: `free` from
`get_free_vars`, `bound` and the matrix `fml` from `pull_quantifier`. -/
def hoist {α : Type} (P : PredAbs α) (X : Ext) (fuel : Nat) (free bound : List Var)
    (fml : Expr) (s : State α) : Option (State α) :=
  collect_predicates X fuel fml
    { s with m_free_vars := free, m_bound_vars := bound,
             m_pred_abs := set_level P 2 bound (set_level P 0 free s.m_pred_abs) }

/-- The part of `operator()` between `hoist` and `check_sat`. -/
def prepare {α : Type} (P : PredAbs α) (fml : Expr) (s : State α) : State α :=
  let r := P.abstract_atoms fml s.m_pred_abs
  let fml1 := P.mk_abstract fml r.1
  { s with m_pred_abs := r.1,
           m_ex := s.m_ex ++ [qsat.mk_and r.2, Expr.not fml1],
           m_fa := s.m_fa ++ [qsat.mk_and r.2, fml1] }

/-- What `operator()` does with its goal. -/
inductive Verdict where
  | goal (fml : Expr)
  | exception
  | crash
  | out_of_fuel

/-- The `switch (is_sat)` of `operator()`: on `l_false` the goal becomes the conjunction of
`m_answer`; `l_true` falls through `UNREACHABLE()` into the case of `l_undef`, which throws. -/
def verdict {α : Type} : Outcome α → Verdict
  | Outcome.answer qsat.lbool.l_false s => Verdict.goal (qsat.mk_and s.m_answer)
  | Outcome.answer qsat.lbool.l_true _ => Verdict.exception
  | Outcome.answer qsat.lbool.l_undef _ => Verdict.exception
  | Outcome.crash => Verdict.crash
  | Outcome.out_of_fuel => Verdict.out_of_fuel

/-- The tactic `operator()`, from the fields `s` as they are at the call. -/
def run {α : Type} (P : PredAbs α) (X : Ext) (O : qsat.Oracle) (fuel : Nat)
    (free bound : List Var) (fml : Expr) (s : State α) : Verdict :=
  match hoist P X fuel free bound fml s with
  | none => Verdict.out_of_fuel
  | some s1 => verdict (check_sat P X O fuel (prepare P fml s1))

/-- The abstraction that changes nothing: no definitions, no assumptions. -/
def no_abs : PredAbs Unit :=
  { push := fun a => a, pop := fun _ a => a, get_assumptions := fun _ _ => [],
    abstract_atoms := fun _ a => (a, []), mk_abstract := fun e _ => e,
    mk_concrete := fun c _ => c, mk_assumption_literal := fun e a => (e, [], a),
    compute_level_max := fun _ _ => 0, set_expr_level := fun _ _ a => a }

/-- Helpers that leave the core as it is; `mk_forall` returns its body. -/
def no_ext : Ext :=
  { solve := fun _ b c => (b, c), push_not := Expr.not, mk_forall := fun _ e => e,
    underscore := fun _ => true }

/-- The fields after `reset()`. -/
def reset_state : State Unit :=
  { m_pred_abs := (), m_model := none, m_fa := [], m_ex := [], m_level := 0,
    m_num_rounds := 0, m_answer := [], m_free_vars := [], m_bound_vars := [],
    m_free_preds := [], m_bound_preds := [], m_free_pred_occs := [],
    m_bound_pred_occs := [] }

/-- The oracle that answers every query with `sat` and the all-zero model. -/
def always_sat : qsat.Oracle := fun _ _ => qsat.Answer.sat (qsat.ofBits [])

/-- The universe constant number `i` of scenario S6. -/
def uvar (i : Nat) : Var := ⟨i, .other⟩

/-- The matrix `P(x) ∧ ¬P(y) → x ≠ y` of scenario S6, with `P` the symbol 0 and `x`, `y`
the bound constants 0 and 1. -/
def s6_matrix : Expr :=
  .implies (.and [.app 0 .bool [.var (uvar 0)], .not (.app 0 .bool [.var (uvar 1)])])
    (.not (.eq (.var (uvar 0)) (.var (uvar 1))))

end qepr
end qe

/-! ## A run of the names -/

namespace qe
namespace qsat

/-- A free Boolean constant. -/
def names_b : Var := ⟨0, .bool⟩

/-- A universally quantified integer constant. -/
def names_y : Var := ⟨1, .int⟩

/-- The matrix `b ∧ (y ≤ 0 ∨ ¬b)`. -/
def names_fml : Expr :=
  .and [.var names_b, .or [.le (.var names_y) (.num 0 .int), .not (.var names_b)]]

/-- The state after `reset` and `hoist` on `∀ y. names_fml`. -/
def names_start : State := hoist [names_b] [] [[names_y], []] (reset 5)

/-- The state after `mk_abstract`. -/
def names_s1 : State := (mk_abstract 20 names_fml names_start).getD names_start

/-- The state after `update_tail(mdl, 0)` with the model that maps everything to zero and
false. -/
def names_s2 : State := (update_tail (ofBits []) 0 names_s1).getD names_start

/-- The state after `update_tail(mdl, 1)`. -/
def names_t1 : State := (update_tail (ofBits []) 1 names_s2).getD names_start

/-- The state after the first `push`. -/
def names_p1 : State := (push names_t1).getD names_start

/-- The state after the second `push`. -/
def names_s3 : State := (push names_p1).getD names_start

/-- The state after `pop(1)`. -/
def names_s4 : State := (pop names_s3 1).getD names_start

end qsat
end qe

/-! ## The rows of the projection: what they say, and more inputs -/

namespace qe

/-- The rational is an integer. -/
def IsIntVal (r : ℚ) : Prop := ∃ n : ℤ, r = (n : ℚ)

/-- The integer constant with number `i`. -/
def ivar (i : Nat) : Var := ⟨i, .int⟩

namespace arith_project_util

/-- What a recorded divisibility row says in the model `N` about the value `N` gives `x`:
`divisor | coeff * x + term`. -/
def divHolds (x : Var) (N : Model) (d : Div) : Prop :=
  ratMod (d.coeff * N.val x + eval N d.term) d.divisor = 0

/-- The literal that `mk_lt` emits outside the integer case with two non-unit
coefficients, for the row `q` and the representative `qr`: `|c_r|·t + |c|·t_r ⋈ 0`, strict
when one of the two rows is. -/
def resolvent_lit (x : Var) (q qr : Ineq) : Expr :=
  (if q.strict || qr.strict then Expr.lt else Expr.le)
    (mk_add (mk_mul x (abs qr.coeff) q.term) (mk_mul x (abs q.coeff) qr.term)) (mk_num x 0)

/-- The fields, model and literals with which `project` reaches `find_max` and its last
loop: those `apply_divides` returns when a divisibility row is recorded, the ones after
the classification loop otherwise. -/
def after_divides (rw : Expr → Expr) (x : Var) (M : Model) (st : State) :
    State × Model × List Expr :=
  if 0 < num_divs st then apply_divides rw x M st st.m_new_lits else (st, M, st.m_new_lits)

/-- The literal that `apply_equality` emits for the divisibility row `d`:
`c·d | (c·s − a·t)`. -/
def equality_div_lit (x : Var) (c : ℚ) (t : Expr) (d : Div) : Expr :=
  mk_divides x (c * d.divisor) (.sub (mk_mul x c d.term) (mk_mul x d.coeff t))

/-- The literal that `apply_equality` emits for the row `q`: `c·t_i − b_i·t ⋈ 0` with the
strictness of the row. -/
def equality_ineq_lit (x : Var) (c : ℚ) (t : Expr) (q : Ineq) : Expr :=
  (if q.strict then Expr.lt else Expr.le) (.sub (mk_mul x c q.term) (mk_mul x q.coeff t))
    (mk_num x 0)

/-- The rows of a list other than the one at position `k`, counted from `i`. -/
def rows_except (k : Nat) : List Ineq → Nat → List Ineq
  | [], _ => []
  | q :: rest, i => if k ≠ i then q :: rows_except k rest (i + 1) else rows_except k rest (i + 1)

/-- The literals of the equality substitution in the order of the specification: `c | t`
for an integer `x`, one literal for every divisibility row, one for every row other than
the equality. -/
def equality_lits (x : Var) (c : ℚ) (t : Expr) (eq_index : Nat) (divs : List Div)
    (ineqs : List Ineq) : List Expr :=
  (if is_int x then [mk_divides x c t] else []) ++ divs.map (equality_div_lit x c t) ++
    (rows_except eq_index ineqs 0).map (equality_ineq_lit x c t)

/-- The literal that `apply_divides` emits for the divisibility row `d`:
`d | (c·u + t)`. -/
def divides_lit (x : Var) (u : ℚ) (d : Div) : Expr :=
  mk_divides x d.divisor (.add [mk_num x (d.coeff * u), d.term])

end arith_project_util

/-- The literals `3·x + y ≤ 0`, `-3·x + z ≤ 0` over the integers. -/
def slack_lits : List Expr :=
  [.le (.add [.mul (inum 3) (.var vx), .var vy]) (inum 0),
    .le (.add [.mul (inum (-3)) (.var vx), .var vz]) (inum 0)]

/-- The literals `y ≤ 2·x`, `z ≤ x`, `x ≤ w`, `x ≤ u` over the integers, with `x`, `y`, `z`,
`w`, `u` the constants 0 to 4. -/
def unit_tie_lits : List Expr :=
  [.le (.var (ivar 1)) (.mul (inum 2) (.var (ivar 0))), .le (.var (ivar 2)) (.var (ivar 0)),
    .le (.var (ivar 0)) (.var (ivar 3)), .le (.var (ivar 0)) (.var (ivar 4))]

/-- The literals `y ≤ 2·x`, `z < 3·x`, `x < w`, `x < u` over the reals, with `x`, `y`, `z`,
`w`, `u` the constants 0 to 4. -/
def same_side_lits : List Expr :=
  [.le (.var (rvar 1)) (.mul (.num 2 .real) (.var (rvar 0))),
    .lt (.var (rvar 2)) (.mul (.num 3 .real) (.var (rvar 0))),
    .lt (.var (rvar 0)) (.var (rvar 3)), .lt (.var (rvar 0)) (.var (rvar 4))]

end qe

namespace qe

/-- The fields and counters after the classification loop of `project` on
`same_side_lits` with `x = 2, y = 4, z = 3, w = 5, u = 6`. -/
def same_side_class : arith_project_util.State × arith_project_util.Counters :=
  (arith_project_util.classify id (rvar 0) (model_list [2, 4, 3, 5, 6]) same_side_lits).getD
    (arith_project_util.reset, ⟨0, 0, 0, false⟩)

/-- Fields with the rows `-2·x + y ≤ 0`, `x + (-z) ≤ 0` and the divisibility
`3 | (x + (-1))`. -/
def div_state : arith_project_util.State :=
  ⟨[⟨-2, .var vy, false⟩, ⟨1, .uminus (.var vz), false⟩], [⟨1, inum (-1), 3⟩], [], 1, 0⟩

end qe

/-! ## The iterations of `collect_predicates` -/

namespace qe
namespace qepr

/-- The local state of `collect_predicates` when its loop is entered on `fml`. -/
def collect_start (fml : Expr) : Collect := ⟨[fml], [], [], [], [], [], []⟩

/-- The local state of `collect_predicates` after `k` iterations of its `while`; an
iteration on an empty `todo` is the end of the loop and changes nothing. -/
def collect_iter (X : Ext) : Nat → Collect → Collect
  | 0, c => c
  | k + 1, c =>
    match c.todo.getLast? with
    | none => c
    | some e => collect_iter X k (collect_body X c e)

/-- What the tables hold: the two lists of declarations and, for every entry of the two
occurrence tables, the declaration with the number of occurrences recorded for it. -/
def Collect.tables (c : Collect) :
    List Decl × List Decl × List (Decl × Nat) × List (Decl × Nat) :=
  (c.bound_preds, c.free_preds, c.bound_occs.map (fun e => (e.1, e.2.length)),
    c.free_occs.map (fun e => (e.1, e.2.length)))

/-- The formula `P(x) ∧ P(y)` with `P` the symbol 0 and `x`, `y` the constants 0 and 1 of
the universe. -/
def two_occs : Expr := .and [.app 0 .bool [.var (uvar 0)], .app 0 .bool [.var (uvar 1)]]

end qepr
end qe

/-! ## Recorded rows and failed projections -/

namespace qe

mutual
/-- The numerals `k` of the subterms `t mod k` of an expression. -/
def mod_numerals : Expr → List ℚ
  | .var _ => []
  | .num _ _ => []
  | .add args => mod_numeralsList args
  | .mul t1 t2 => mod_numerals t1 ++ mod_numerals t2
  | .sub t1 t2 => mod_numerals t1 ++ mod_numerals t2
  | .uminus t => mod_numerals t
  | .mod t1 t2 =>
    (match t2 with
      | .num k _ => [k]
      | _ => []) ++ (mod_numerals t1 ++ mod_numerals t2)
  | .le e1 e2 => mod_numerals e1 ++ mod_numerals e2
  | .ge e1 e2 => mod_numerals e1 ++ mod_numerals e2
  | .lt e1 e2 => mod_numerals e1 ++ mod_numerals e2
  | .gt e1 e2 => mod_numerals e1 ++ mod_numerals e2
  | .eq e1 e2 => mod_numerals e1 ++ mod_numerals e2
  | .not e => mod_numerals e
  | .tt => []
  | .ff => []
  | .and args => mod_numeralsList args
  | .or args => mod_numeralsList args
  | .implies e1 e2 => mod_numerals e1 ++ mod_numerals e2
  | .app _ _ args => mod_numeralsList args
/-- The numerals `k` of the subterms `t mod k` of a list of expressions. -/
def mod_numeralsList : List Expr → List ℚ
  | [] => []
  | t :: ts => mod_numerals t ++ mod_numeralsList ts
end

/-- The literal `x mod (-3) = 0` over the integers. -/
def neg_mod_lits : List Expr := [.eq (.mod (.var vx) (inum (-3))) (inum 0)]

/-- The literal `x mod 0 = 0` over the integers. -/
def zero_mod_lits : List Expr := [.eq (.mod (.var vx) (inum 0)) (inum 0)]

/-- The literals `y ≤ 0`, `x·x ≤ 1` over the integers: the second is not linear in `x`. -/
def square_lits : List Expr := [.le (.var vy) (inum 0), .le (.mul (.var vx) (.var vx)) (inum 1)]

end qe

/-! ## Function graphs and forced disequalities -/

namespace qe
namespace qepr

/-- The occurrences `p` and `q` have the same arguments in the model `M`: the equality of
the two arguments is true at every position. -/
def ArgsEq (M : Model) (p q : Expr) : Prop :=
  ∀ ab ∈ (children p).zip (children q), holds M (Expr.eq ab.1 ab.2) = true

/-- Argument `k` of an application, `a->get_arg(k)`. -/
def arg (p : Expr) (k : Nat) : Expr := (children p).getD k .tt

/-- The two results of the loops of `extract_disequalities` agree: every known pair has
its disequality among `diseqs`, and every disequality separates two arguments with
different values. -/
def DiseqInv (mdl : Model) (r : List Expr × List (Expr × Expr)) : Prop :=
  (∀ a b : Expr, (a, b) ∈ r.2 → Expr.not (Expr.eq a b) ∈ r.1) ∧
    ∀ x ∈ r.1, ∃ a b : Expr, x = Expr.not (Expr.eq a b) ∧ model_value mdl a ≠ model_value mdl b

/-- The pair of a positive occurrence `p` and a negative occurrence `n` is covered by the
disequalities `ds`: one of them separates the arguments at a position of the pair. -/
def Covered (ds : List Expr) (p n : Expr) : Prop :=
  ∃ k, k < (children p).length ∧
    (Expr.not (Expr.eq (arg p k) (arg n k)) ∈ ds ∨ Expr.not (Expr.eq (arg n k) (arg p k)) ∈ ds)

/-- The model gives the arguments of `p` and `n` different values at some position. -/
def Differ (mdl : Model) (p n : Expr) : Prop :=
  ∃ k, k < (children p).length ∧ model_value mdl (arg p k) ≠ model_value mdl (arg n k)

/-- The occurrence `a` is recorded under the declaration `d`, in an entry of the table and
in the entry that a lookup finds. -/
def Recorded (t : pred2occs) (d : Decl) (a : Expr) : Prop :=
  (∃ e ∈ t, e.1 = d ∧ a ∈ e.2) ∧ ∃ l, occs_find t d = some l ∧ a ∈ l

/-- The model in which the constant number `i` has the value `i` and the predicates hold
of the argument list `[0]` only. -/
def graph_model : Model :=
  ⟨fun v => (v.id : ℚ), fun _ => false, fun _ _ => 0, fun _ args => decide (args = [0])⟩

/-- The occurrences `P(x)` and `P(y)` of the symbol 0, in one entry of a table. -/
def graph_occs : pred2occs :=
  [(Decl.fn 0 .bool, [.app 0 .bool [.var (uvar 0)], .app 0 .bool [.var (uvar 1)]])]

/-- The tables `pos` and `neg` that `collect_pos_neg` makes of `graph_occs` in
`graph_model`. -/
def graph_pos_neg : pred2occs × pred2occs :=
  (collect_pos_neg_all (some graph_model) graph_occs ([], [])).getD ([], [])

end qepr
end qe

/-! ## Scope stacks, backjumps and witness literals -/

namespace qe
namespace qsat

/-- A call of `push`, of `pop(n)` or of `add_pred(p, lit, level)`. -/
inductive StackOp where
  | push
  | pop (n : Nat)
  | add (p lit : Expr) (level : Nat)

/-- The calls are made in order. Next to the state runs the stack of the sizes
`(|m_atoms|, |m_assumptions|)` at the pushes that are still open: a push records the
sizes before it, a `pop(n)` drops the last `n` records. `none` when a call fails. -/
def run_stack : List StackOp → State → List (Nat × Nat) → Option (State × List (Nat × Nat))
  | [], s, sizes => some (s, sizes)
  | StackOp.push :: ops, s, sizes =>
    match push s with
    | none => none
    | some s1 => run_stack ops s1 (sizes ++ [(s.m_atoms.length, s.m_assumptions.length)])
  | StackOp.pop n :: ops, s, sizes =>
    match pop s n with
    | none => none
    | some s1 => run_stack ops s1 (sizes.take (s.m_level - n))
  | StackOp.add p lit level :: ops, s, sizes => run_stack ops (add_pred s p lit level) sizes

/-- Every `pop(n)` of the sequence has `1 ≤ n ≤ level`, for the level at which it is
called when the sequence starts at `level`. -/
def valid_stack : Nat → List StackOp → Bool
  | _, [] => true
  | level, StackOp.push :: ops => valid_stack (level + 1) ops
  | level, StackOp.pop n :: ops =>
    decide (1 ≤ n) && decide (n ≤ level) && valid_stack (level - n) ops
  | level, StackOp.add _ _ _ :: ops => valid_stack level ops

/-- Every `push` of the sequence is called at a level of at most `blocks`, the size of
`m_preds`: the levels at which `m_preds[m_level-2]`, read after the increment of `m_level`,
is inside the vector. -/
def stack_fits (blocks : Nat) : Nat → List StackOp → Bool
  | _, [] => true
  | level, StackOp.push :: ops => decide (level ≤ blocks) && stack_fits blocks (level + 1) ops
  | level, StackOp.pop n :: ops => stack_fits blocks (level - n) ops
  | level, StackOp.add _ _ _ :: ops => stack_fits blocks level ops

/-- The level after the sequence, when it starts at `level`. -/
def stack_level : Nat → List StackOp → Nat
  | level, [] => level
  | level, StackOp.push :: ops => stack_level (level + 1) ops
  | level, StackOp.pop n :: ops => stack_level (level - n) ops
  | level, StackOp.add _ _ _ :: ops => stack_level level ops

/-- The scope stacks agree with the level and with the recorded sizes: the two limit
vectors are the recorded sizes, which grow along the stack and stay within the current
sizes of `m_atoms` and `m_assumptions`. -/
def StackInv (s : State) (sizes : List (Nat × Nat)) : Prop :=
  ScopeInv s ∧ s.m_atoms_lim = sizes.map Prod.fst ∧ s.m_assumptions_lim = sizes.map Prod.snd ∧
    sizes.Pairwise (fun a b => a.1 ≤ b.1 ∧ a.2 ≤ b.2) ∧
    ∀ e ∈ sizes, e.1 ≤ s.m_atoms.length ∧ e.2 ≤ s.m_assumptions.length

/-- The core of `backtrack` after its loop: every literal whose level is not at least two
below `m_level` is replaced by `true`. -/
def pruned_core (s : State) (core : List Expr) : List Expr :=
  core.map fun p =>
    match get_level s p with
    | some lvl => if lvl + 1 < s.m_level then p else Expr.tt
    | none => Expr.tt

/-- The core `get_core` extracts from the answer of the query of an iteration; empty when
the answer is not `unsat`. -/
def step_core (O : Oracle) (s : State) : List Expr :=
  match check_sat_asms O s (assume_tail s s.m_level s.m_assumptions) (get_fml s) with
  | CheckResult.l_false core => core
  | _ => []

/-- The witness literal of the constant `v` in the model `M`: `v` or `¬v` for a Boolean
constant, `v = M(v)` otherwise. -/
def witness_lit (M : Model) (v : Var) : Expr :=
  if v.sort = .bool then (if M.bval v then Expr.var v else Expr.not (Expr.var v))
  else Expr.eq (Expr.var v) (eval_var M v)

/-- The witness literal of `v` from `M` is bound at position `j` of block `i`: the name
`m_preds[i][j]` is mapped by `pred2lit` to the literal and by `pred2level` to `i`, and
`m_vals[i][j]` is the value of `v`. -/
def BoundAt (M : Model) (s : State) (i j : Nat) (v : Var) : Prop :=
  ∃ p : Expr, get2 s.m_preds i j = some p ∧ map_find s.m_pred2lit p = some (witness_lit M v) ∧
    map_find s.m_pred2level p = some i ∧ get2 s.m_vals i j = some (eval_var M v)

/-- The names in the table `m_preds`: the name at a position is the constant of that
position, its negation, or a constant made by `fresh_bool`; no name stands at two
positions. -/
def PredsOk (f0 : Nat) (s : State) : Prop :=
  f0 ≤ s.m_fresh ∧
    (∀ (i j : Nat) (p : Expr), get2 s.m_preds i j = some p →
      ∃ v : Var, get2 s.m_vars i j = some v ∧
        (p = Expr.var v ∨ p = Expr.not (Expr.var v) ∨
          ∃ n : Nat, f0 ≤ n ∧ n < s.m_fresh ∧ p = Expr.var ⟨n, .bool⟩)) ∧
    ∀ (i j a b : Nat) (p : Expr), get2 s.m_preds i j = some p → get2 s.m_preds a b = some p →
      i = a ∧ j = b

/-- The state after three iterations of the loop on `∀ z1 ∃ z2 ∀ z3. scope_matrix`. -/
def scope_s3 : State := (scope_state 3).getD (reset 0)

/-- A sequence of scope operations with two lemmas: two pushes, a lemma persisted at
level 2, `pop(2)`, a push, a lemma persisted at level 1, `pop(1)`. -/
def replay_ops : List ScopeOp :=
  [ScopeOp.push, ScopeOp.push, ScopeOp.persist 2 Expr.ff, ScopeOp.pop 2, ScopeOp.push,
    ScopeOp.persist 1 Expr.tt, ScopeOp.pop 1]

/-- The state after `mk_abstract` on `∀ y. names_fml`, two calls of `push` and a lemma
persisted at level 2. -/
def names_pushed : State :=
  ((run_ops [ScopeOp.push, ScopeOp.push, ScopeOp.persist 2 Expr.ff] names_s1 []).map
    Prod.fst).getD names_start

/-- A sequence of scope operations that ends at level 2: two pushes with an `add_pred`
between them, a `pop(1)`, a push, and an `add_pred`. -/
def stack_ops : List StackOp :=
  [StackOp.push, StackOp.add (Expr.var z0) (Expr.var z0) 0, StackOp.push, StackOp.pop 1,
    StackOp.push, StackOp.add (Expr.not (Expr.var z0)) (Expr.not (Expr.var z0)) 1]

end qsat
end qe

/-! ## More inputs -/

namespace qe
namespace qsat

/-- The existential constant `a` of `∃ a ∀ b. a ∨ b`. -/
def lead_a : Var := ⟨0, .bool⟩

/-- The universal constant `b` of `∃ a ∀ b. a ∨ b`. -/
def lead_b : Var := ⟨1, .bool⟩

/-- The matrix `a ∨ b`. -/
def lead_matrix : Expr := .or [.var lead_a, .var lead_b]

/-- The state after `reset` and `hoist` on `∃ a ∀ b. a ∨ b`: no free constant, the first
existential block `[a]`, then the blocks `[b]` and `[]`. -/
def lead_start : State := hoist [] [lead_a] [[lead_b], []] (reset 2)

/-- The state after `mk_abstract` on `∃ a ∀ b. a ∨ b`. -/
def lead_state : State := (mk_abstract 20 lead_matrix lead_start).getD lead_start

/-- The constant `x` of scenario S1. -/
def s1_x : Var := ⟨0, .real⟩

/-- The matrix `x > 0 ∧ x < 1` of scenario S1, `∃ x : Real. x > 0 ∧ x < 1`. -/
def s1_matrix : Expr :=
  .and [.gt (.var s1_x) (.num 0 .real), .lt (.var s1_x) (.num 1 .real)]

/-- The model `x = 1/2` of S1, with every Boolean constant true. -/
def s1_model : Model := ⟨fun _ => 1 / 2, fun _ => true, fun _ _ => 0, fun _ _ => false⟩

/-- The state after `reset`, `hoist` and `mk_abstract` on S1: no free constant, the first
existential block `[x]`, then the empty block. -/
def s1_state : State :=
  (mk_abstract 20 s1_matrix (hoist [] [s1_x] [[]] (reset 1))).getD (reset 1)

/-- The free integer constant `x` of the atom `x = y + 1`. -/
def atom_x : Var := ⟨0, .int⟩

/-- The free integer constant `y` of the atom `x = y + 1`. -/
def atom_y : Var := ⟨1, .int⟩

/-- The atom `x = y + 1` over the integers. -/
def atom_fml : Expr := .eq (.var atom_x) (.add [.var atom_y, .num 1 .int])

/-- The state after `reset` and `hoist` on the quantifier-free formula `x = y + 1` (or
`x = y`): the free constants in the order `get_free_vars` finds them, `y` then `x`, no
quantified constant, and the empty block that ends the loop. -/
def atom_start : State := hoist [atom_y, atom_x] [] [[]] (reset 2)

/-- The atom `x = y` over the integers. -/
def atom_xy : Expr := .eq (.var atom_x) (.var atom_y)

end qsat
end qe

/-! ## The ways a call of `project` ends -/

namespace qe
namespace arith_project_util

/-- How a call of `project` ends: it returns the new literals and the model, it throws
`cant_project`, or it divides by zero, in `mod(r, m_delta)` and `(r - m_u) / m_delta` of
`apply_divides` when `m_delta` is 0. -/
inductive Outcome where
  | returns (lits : List Expr) (M : Model)
  | cant_project
  | division_by_zero

/-- The value of `m_delta` after the first loop of `apply_divides`: the `lcm` of `m_delta`
and the recorded divisors. -/
def lcm_divisors (st : State) : ℚ :=
  st.m_divs.foldl (fun d row => ratLcm d row.divisor) st.m_delta

/-- The call of `apply_divides` in `project` is reached and finds `m_delta = 0` after its
first loop: no equality was found, a divisibility row is recorded (which also rules out
the early return), and the `lcm` of the divisors is 0. -/
def divides_by_zero (st : State) (cn : Counters) : Bool :=
  !cn.found_eq && decide (0 < num_divs st) && decide (lcm_divisors st = 0)

/-- Source `project(model, lits)` with the three ways it ends. Where it returns, the result
is that of `project`; the values `project` and `apply_divides` give with `m_delta = 0`
belong to no run of the source. -/
def project_outcome (rw : Expr → Expr) (x : Var) (M : Model) (lits : List Expr) : Outcome :=
  match classify rw x M lits with
  | none => Outcome.cant_project
  | some (st, cn) =>
    if divides_by_zero st cn then Outcome.division_by_zero
    else Outcome.returns (project_finish rw x M st cn).1 (project_finish rw x M st cn).2

end arith_project_util
end qe

/-! ## Strict literals, and an equality with a divisibility -/

namespace qe
namespace arith_project_util

/-- The row that the literal-level `is_linear` returns for a strict literal with linear form
`c·x + Σ ts < 0` when `x` is an integer: `ts.push_back(mk_num(1)); is_strict = false;
t = add(ts)`. -/
def strict_row (x : Var) (c : ℚ) (ts : List Expr) : Ineq :=
  ⟨c, add x (ts ++ [mk_num x 1]), false⟩

/-- The literal `project` hands to `add_lit` for a strict literal of an integer `x` whose
linear form has coefficient 0: `add(ts ++ [1]) ≤ 0`. -/
def strict_lit (x : Var) (ts : List Expr) : Expr :=
  .le (add x (ts ++ [mk_num x 1])) (mk_num x 0)

/-- The counters of `project` after a row with coefficient `c` that is not an equality. -/
def count_row (cn : Counters) (c : ℚ) : Counters :=
  if 0 < c then { cn with num_pos := cn.num_pos + 1 } else { cn with num_neg := cn.num_neg + 1 }

end arith_project_util

/-- The literals `y < 2·x`, `¬(z ≤ x)` over the integers: two strict literals. -/
def strict_lits : List Expr :=
  [.lt (.var vy) (.mul (inum 2) (.var vx)), .not (.le (.var vz) (.var vx))]

/-- The literals `x = y`, `x ≤ z`, `x mod 3 = 1` over the integers. -/
def eq_div_lits : List Expr :=
  [.eq (.var vx) (.var vy), .le (.var vx) (.var vz), .eq (.mod (.var vx) (inum 3)) (inum 1)]

/-- The fields and counters after the classification loop of `project` on `eq_div_lits`
with `x = 1, y = 1, z = 1`. -/
def eq_div_class : arith_project_util.State × arith_project_util.Counters :=
  (arith_project_util.classify id vx (model_xyz 1 1 1) eq_div_lits).getD
    (arith_project_util.reset, ⟨0, 0, 0, false⟩)

/-- The fields and counters after the classification loop of `project` on `strict_lits`
with `x = 1, y = 1, z = 2`. -/
def strict_class : arith_project_util.State × arith_project_util.Counters :=
  (arith_project_util.classify id vx (model_xyz 1 1 2) strict_lits).getD
    (arith_project_util.reset, ⟨0, 0, 0, false⟩)

end qe
/-! ## Theorems -/

namespace qe

open arith_project_util

/-- C1, model preservation, fails on the code. The literals `y ≤ 2·x`, `x ≤ z`,
`x mod 3 = 1` are true in the model `x = 1, y = 2, z = 1`; `project` succeeds on
them for the integer `x`, and the last literal of its output is false, both in
the model it returns and in the model it was given. -/
theorem project_breaks_model_preservation :
    shift_lits.map (holds (model_xyz 1 2 1)) = [true, true, true] ∧
    (project id vx (model_xyz 1 2 1) shift_lits).map (fun r => r.1.map (holds r.2))
      = some [true, true, true, false] ∧
    (project id vx (model_xyz 1 2 1) shift_lits).map
      (fun r => r.1.map (holds (model_xyz 1 2 1))) = some [true, true, true, false] := by
  decide!

mutual
theorem eval_ground (N N1 : Model) : ∀ e : Expr, isGround e = true → eval N e = eval N1 e
  | .var _, h => by simp [isGround] at h
  | .num _ _, _ => by simp [eval]
  | .add args, h => by
    simp only [isGround] at h
    simp only [eval]
    exact evalSum_ground N N1 args h
  | .mul t1 t2, h => by
    simp only [isGround, Bool.and_eq_true] at h
    simp only [eval, eval_ground N N1 t1 h.1, eval_ground N N1 t2 h.2]
  | .sub t1 t2, h => by
    simp only [isGround, Bool.and_eq_true] at h
    simp only [eval, eval_ground N N1 t1 h.1, eval_ground N N1 t2 h.2]
  | .uminus t, h => by
    simp only [isGround] at h
    simp only [eval, eval_ground N N1 t h]
  | .mod t1 t2, h => by
    simp only [isGround, Bool.and_eq_true] at h
    simp only [eval, eval_ground N N1 t1 h.1, eval_ground N N1 t2 h.2]
  | .le _ _, _ => by simp [eval]
  | .ge _ _, _ => by simp [eval]
  | .lt _ _, _ => by simp [eval]
  | .gt _ _, _ => by simp [eval]
  | .eq _ _, _ => by simp [eval]
  | .not _, _ => by simp [eval]
  | .tt, _ => by simp [eval]
  | .ff, _ => by simp [eval]
  | .and _, _ => by simp [eval]
  | .or _, _ => by simp [eval]
  | .implies _ _, _ => by simp [eval]
  | .app _ _ _, h => by simp [isGround] at h
theorem evalSum_ground (N N1 : Model) :
    ∀ es : List Expr, isGroundList es = true → evalSum N es = evalSum N1 es
  | [], _ => by simp [evalSum]
  | e :: es, h => by
    simp only [isGroundList, Bool.and_eq_true] at h
    simp only [evalSum, eval_ground N N1 e h.1, evalSum_ground N N1 es h.2]
end

mutual
theorem holds_ground (N N1 : Model) : ∀ e : Expr, isGround e = true → holds N e = holds N1 e
  | .var _, h => by simp [isGround] at h
  | .num _ _, _ => by simp [holds]
  | .add _, _ => by simp [holds]
  | .mul _ _, _ => by simp [holds]
  | .sub _ _, _ => by simp [holds]
  | .uminus _, _ => by simp [holds]
  | .mod _ _, _ => by simp [holds]
  | .le e1 e2, h => by
    simp only [isGround, Bool.and_eq_true] at h
    simp only [holds, eval_ground N N1 e1 h.1, eval_ground N N1 e2 h.2]
  | .ge e1 e2, h => by
    simp only [isGround, Bool.and_eq_true] at h
    simp only [holds, eval_ground N N1 e1 h.1, eval_ground N N1 e2 h.2]
  | .lt e1 e2, h => by
    simp only [isGround, Bool.and_eq_true] at h
    simp only [holds, eval_ground N N1 e1 h.1, eval_ground N N1 e2 h.2]
  | .gt e1 e2, h => by
    simp only [isGround, Bool.and_eq_true] at h
    simp only [holds, eval_ground N N1 e1 h.1, eval_ground N N1 e2 h.2]
  | .eq e1 e2, h => by
    simp only [isGround, Bool.and_eq_true] at h
    simp only [holds, eval_ground N N1 e1 h.1, eval_ground N N1 e2 h.2,
      holds_ground N N1 e1 h.1, holds_ground N N1 e2 h.2]
  | .not e, h => by
    simp only [isGround] at h
    simp only [holds, holds_ground N N1 e h]
  | .tt, _ => by simp [holds]
  | .ff, _ => by simp [holds]
  | .and args, h => by
    simp only [isGround] at h
    simp only [holds]
    exact holdsAll_ground N N1 args h
  | .or args, h => by
    simp only [isGround] at h
    simp only [holds]
    exact holdsSome_ground N N1 args h
  | .implies e1 e2, h => by
    simp only [isGround, Bool.and_eq_true] at h
    simp only [holds, holds_ground N N1 e1 h.1, holds_ground N N1 e2 h.2]
  | .app _ _ _, h => by simp [isGround] at h
theorem holdsAll_ground (N N1 : Model) :
    ∀ es : List Expr, isGroundList es = true → holdsAll N es = holdsAll N1 es
  | [], _ => by simp [holdsAll]
  | e :: es, h => by
    simp only [isGroundList, Bool.and_eq_true] at h
    simp only [holdsAll, holds_ground N N1 e h.1, holdsAll_ground N N1 es h.2]
theorem holdsSome_ground (N N1 : Model) :
    ∀ es : List Expr, isGroundList es = true → holdsSome N es = holdsSome N1 es
  | [], _ => by simp [holdsSome]
  | e :: es, h => by
    simp only [isGroundList, Bool.and_eq_true] at h
    simp only [holdsSome, holds_ground N N1 e h.1, holdsSome_ground N N1 es h.2]
end

theorem holdsAll_of_forall (N : Model) :
    ∀ es : List Expr, (∀ e ∈ es, holds N e = true) → holdsAll N es = true
  | [], _ => by simp [holdsAll]
  | e :: es, h => by
    simp only [holdsAll, Bool.and_eq_true]
    exact ⟨h e (List.mem_cons_self _ _),
      holdsAll_of_forall N es (fun e1 h1 => h e1 (List.mem_cons_of_mem _ h1))⟩

theorem ground_true_everywhere (N : Model) (r : Option (List Expr × Model)) (bs : List Bool)
    (hbs : ∀ b ∈ bs, b = true)
    (h : r.map (fun r => r.1.map (fun l => isGround l && holds r.2 l)) = some bs) :
    r.map (fun r => holdsAll N r.1) = some true := by
  cases r with
  | none => simp at h
  | some p =>
    simp only [Option.map_some', Option.some.injEq] at h ⊢
    apply holdsAll_of_forall
    intro e he
    have hb : (isGround e && holds p.2 e) ∈ bs := by
      rw [← h]
      exact List.mem_map.2 ⟨e, he, rfl⟩
    have := hbs _ hb
    simp only [Bool.and_eq_true] at this
    rw [holds_ground N p.2 e this.1]
    exact this.2

/-- C9, scenario S4: on `x ≥ 2`, `x ≤ 5`, `(x + 1) mod 3 = 0` with `M(x) = 5` and the
integer `x`, `project` succeeds; with the identity rewriter, so that every emitted
literal is kept, it emits four literals, each ground and true in the returned model, and
their conjunction is true in every model. -/
theorem project_s4 :
    (project id vx (model_xyz 5 0 0) s4_lits).map
      (fun r => r.1.map (fun l => isGround l && holds r.2 l)) = some [true, true, true, true] ∧
    ∀ N : Model, (project id vx (model_xyz 5 0 0) s4_lits).map (fun r => holdsAll N r.1)
      = some true := by
  have h : (project id vx (model_xyz 5 0 0) s4_lits).map
      (fun r => r.1.map (fun l => isGround l && holds r.2 l)) = some [true, true, true, true] := by
    decide!
  exact ⟨h, fun N => ground_true_everywhere N _ _ (by simp) h⟩

/-- C8 as stated fails, scenario S5: on `2·x + y ≤ 0`, `-3·x + z ≤ 0` with all values 0
the slack case is not taken, but the literals emitted are `2 | (y + 0)` and
`3·(y + 0) + 2·(z + 0) ≤ 0`: the divisor is 2, not the 3 of the stated split, and the
two conjunctions differ in the models `y = 2, z = -3` and `y = 3, z = -2`. -/
theorem project_s5_differs_from_stated_split :
    project id vx (model_xyz 0 0 0) s5_lits = some (s5_emitted 0, model_xyz 0 0 0) ∧
    (holdsAll (model_xyz 0 2 (-3)) (s5_emitted 0) = true ∧
      holdsAll (model_xyz 0 2 (-3)) (s5_claimed 0) = false) ∧
    (holdsAll (model_xyz 0 3 (-2)) (s5_emitted 0) = false ∧
      holdsAll (model_xyz 0 3 (-2)) (s5_claimed 0) = true) := by
  refine ⟨?_, by decide!, by decide!⟩
  with_unfolding_all rfl

/-- C8 amended, scenario S5: the classification stores the rows `2·x + (y + 0) ≤ 0` and
`-3·x + (z + 0) ≤ 0`; `mk_int_lt` does not take the slack case; since `|2| < |-3|` the two
rows change roles, the residue is `r = 0`, and `project` emits, before rewriting, exactly
`2 | (y + 0 + r)` and `(-3)·n_sign(2)·(y + 0 + r) + 2·(z + 0) ≤ 0`, leaving the model as it was. -/
theorem project_s5_residue_split :
    (classify id vx (model_xyz 0 0 0) s5_lits).map Prod.fst = some s5_state ∧
    mk_int_lt_case1 (model_xyz 0 0 0) s5_state 0 1 = false ∧
    ratMod (eval (model_xyz 0 0 0) (ineq_term s5_state 0)) 2 = 0 ∧
    project id vx (model_xyz 0 0 0) s5_lits = some (s5_emitted 0, model_xyz 0 0 0) := by
  refine ⟨?_, by decide!, by decide!, ?_⟩
  · with_unfolding_all rfl
  · with_unfolding_all rfl

end qe

namespace qe
open arith_project_util

theorem occursList_eq_false (x : Var) (ts : List Expr) :
    occursList x ts = false ↔ ∀ t ∈ ts, occurs x t = false := by
  induction ts with
  | nil => simp [occursList]
  | cons t ts ih => simp [occursList, ih]

namespace arith_project_util

theorem FreeList.nil (x : Var) : FreeList x [] := by
  intro e he; cases he

theorem FreeList.append {x : Var} {l1 l2 : List Expr} (h1 : FreeList x l1) (h2 : FreeList x l2) :
    FreeList x (l1 ++ l2) := by
  intro e he
  rcases List.mem_append.1 he with h | h
  · exact h1 e h
  · exact h2 e h

theorem FreeList.single {x : Var} {e : Expr} (h : occurs x e = false) : FreeList x [e] := by
  intro e1 he1
  simp at he1
  simpa [he1] using h

theorem occurs_le (x : Var) (a b : Expr) : occurs x (.le a b) = (occurs x a || occurs x b) := rfl

theorem occurs_lt (x : Var) (a b : Expr) : occurs x (.lt a b) = (occurs x a || occurs x b) := rfl

theorem occurs_mk_num (x : Var) (r : ℚ) : occurs x (mk_num x r) = false := by
  simp [mk_num, occurs]

theorem occurs_mk_val (x : Var) (r : ℚ) : occurs x (mk_val r) = false := by
  simp [mk_val, occurs]

theorem occurs_mk_mul (x : Var) (r : ℚ) (t : Expr) : occurs x (mk_mul x r t) = occurs x t := by
  unfold mk_mul
  split <;> simp [occurs, occurs_mk_num]

theorem occurs_add {x : Var} {ts : List Expr} (h : FreeList x ts) : occurs x (add x ts) = false := by
  unfold add
  split
  · exact occurs_mk_num x 0
  · simp only [occurs]
    exact (occursList_eq_false x ts).2 h

theorem occurs_mk_add {x : Var} {t1 t2 : Expr} (h1 : occurs x t1 = false)
    (h2 : occurs x t2 = false) : occurs x (mk_add t1 t2) = false := by
  simp [mk_add, occurs, occursList, h1, h2]

theorem occurs_mk_add_num {x : Var} (r : ℚ) {e : Expr} (h : occurs x e = false) :
    occurs x (mk_add_num x r e) = false := by
  unfold mk_add_num
  split
  · exact h
  · exact occurs_mk_add (occurs_mk_num x r) h

theorem occurs_mk_divides {x : Var} (k : ℚ) {t : Expr} (h : occurs x t = false) :
    occurs x (mk_divides x k t) = false := by
  simp [mk_divides, occurs, occurs_mk_num, h]

theorem add_lit_free {rw : Expr → Expr} {x : Var}
    (hrw : ∀ e, occurs x e = false → occurs x (rw e) = false) {lits : List Expr} {e : Expr}
    (hl : FreeList x lits) (he : occurs x e = false) : FreeList x (add_lit rw lits e) := by
  unfold add_lit
  split
  · exact hl
  · exact hl.append (FreeList.single (hrw e he))

theorem extract_mod_record_free {rw : Expr → Expr} {x : Var}
    (hrw : ∀ e, occurs x e = false → occurs x (rw e) = false) {val : Expr} (k c : ℚ) {t : Expr}
    {st : State} (hval : occurs x val = false) (ht : occurs x t = false) (hst : StFree x st) :
    StFree x (extract_mod_record rw x val k c t st) := by
  unfold extract_mod_record
  split
  · refine ⟨hst.1, ?_, hst.2.2⟩
    intro d hd
    rcases List.mem_append.1 hd with h | h
    · exact hst.2.1 d h
    · simp at h
      subst h
      simp [occurs, ht, hval]
  · refine ⟨hst.1, hst.2.1, ?_⟩
    apply add_lit_free hrw hst.2.2
    simp [occurs, ht, hval, occurs_mk_num]

theorem is_linear_other_free {x : Var} {mul : ℚ} {t : Expr} {c : ℚ} {ts : List Expr} {st : State}
    {c1 : ℚ} {ts1 : List Expr} {st1 : State}
    (h : is_linear_other x mul t c ts st = some (c1, ts1, st1)) (hts : FreeList x ts)
    (hst : StFree x st) : FreeList x ts1 ∧ StFree x st1 := by
  unfold is_linear_other at h
  split at h
  · cases h
  · rename_i hocc
    simp only [Option.some.injEq, Prod.mk.injEq] at h
    obtain ⟨-, rfl, rfl⟩ := h
    refine ⟨hts.append (FreeList.single ?_), hst⟩
    rw [occurs_mk_mul]
    simpa using hocc

theorem is_linear_free (rw : Expr → Expr) (x : Var) (M : Model)
    (hrw : ∀ e, occurs x e = false → occurs x (rw e) = false) (mul : ℚ) (t : Expr) (c : ℚ)
    (ts : List Expr) (st : State) :
    ∀ c1 ts1 st1, is_linear rw x M mul t c ts st = some (c1, ts1, st1) →
      FreeList x ts → StFree x st → FreeList x ts1 ∧ StFree x st1 := by
  apply is_linear.induct rw x M
    (fun mul t c ts st => ∀ c1 ts1 st1, is_linear rw x M mul t c ts st = some (c1, ts1, st1) →
      FreeList x ts → StFree x st → FreeList x ts1 ∧ StFree x st1)
    (fun mul args c ts st => ∀ c1 ts1 st1,
      is_linear_args rw x M mul args c ts st = some (c1, ts1, st1) →
      FreeList x ts → StFree x st → FreeList x ts1 ∧ StFree x st1)
  case case1 =>
    intro mul c ts st c1 ts1 st1 h hts hst
    simp only [is_linear, if_true, Option.some.injEq, Prod.mk.injEq] at h
    obtain ⟨-, rfl, rfl⟩ := h
    exact ⟨hts, hst⟩
  case case2 =>
    intro mul c ts st v hv c1 ts1 st1 h hts hst
    simp only [is_linear, if_neg hv] at h
    exact is_linear_other_free h hts hst
  case case3 =>
    intro mul c ts st t2 r s ih c1 ts1 st1 h hts hst
    simp only [is_linear] at h
    exact ih c1 ts1 st1 h hts hst
  case case4 =>
    intro mul c ts st t1 r s hn ih c1 ts1 st1 h hts hst
    simp only [is_linear] at h
    exact ih c1 ts1 st1 h hts hst
  case case6 =>
    intro mul c ts st args ih c1 ts1 st1 h hts hst
    simp only [is_linear] at h
    exact ih c1 ts1 st1 h hts hst
  case case7 =>
    intro mul c ts st t1 t2 hnone ih c1 ts1 st1 h hts hst
    simp only [is_linear, hnone] at h
    cases h
  case case8 =>
    intro mul c ts st t1 t2 c2 ts2 st2 hsome ih1 ih2 c1 ts1 st1 h hts hst
    simp only [is_linear, hsome] at h
    obtain ⟨h1, h2⟩ := ih1 c2 ts2 st2 hsome hts hst
    exact ih2 c1 ts1 st1 h h1 h2
  case case9 =>
    intro mul c ts st t1 ih c1 ts1 st1 h hts hst
    simp only [is_linear] at h
    exact ih c1 ts1 st1 h hts hst
  case case10 =>
    intro mul c ts st mul1 s c1 ts1 st1 h hts hst
    simp only [is_linear, Option.some.injEq, Prod.mk.injEq] at h
    obtain ⟨-, rfl, rfl⟩ := h
    exact ⟨hts.append (FreeList.single (occurs_mk_num x _)), hst⟩
  case case11 =>
    intro mul c ts st t1 r s hocc hnone ih c1 ts1 st1 h hts hst
    simp only [is_linear, hocc, if_true, hnone] at h
    cases h
  case case12 =>
    intro mul c ts st t1 r s hocc c2 ts2 st2 hsome ih c1 ts1 st1 h hts hst
    simp only [is_linear, hocc, if_true, hsome, Option.some.injEq, Prod.mk.injEq] at h
    obtain ⟨-, rfl, rfl⟩ := h
    obtain ⟨h1, h2⟩ := ih c2 ts2 st2 hsome (FreeList.nil x) hst
    refine ⟨hts.append (FreeList.single ?_), ?_⟩
    · rw [occurs_mk_mul]; exact occurs_mk_val x _
    · exact extract_mod_record_free hrw r c2 (occurs_mk_val x _) (occurs_add h1) h2
  case case13 =>
    intro mul c ts st t1 r s hocc c1 ts1 st1 h hts hst
    simp only [is_linear, hocc] at h
    exact is_linear_other_free h hts hst
  case case27 =>
    intro mul c ts st c1 ts1 st1 h hts hst
    simp only [is_linear_args, Option.some.injEq, Prod.mk.injEq] at h
    obtain ⟨-, rfl, rfl⟩ := h
    exact ⟨hts, hst⟩
  case case28 =>
    intro mul c ts st t tail hnone ih c1 ts1 st1 h hts hst
    simp only [is_linear_args, hnone] at h
    cases h
  case case29 =>
    intro mul c ts st t tail c2 ts2 st2 hsome ih1 ih2 c1 ts1 st1 h hts hst
    simp only [is_linear_args, hsome] at h
    obtain ⟨h1, h2⟩ := ih1 c2 ts2 st2 hsome hts hst
    exact ih2 c1 ts1 st1 h h1 h2
  all_goals
    intros
    simp only [is_linear] at *
    exact is_linear_other_free (by assumption) (by assumption) (by assumption)

theorem is_linear_pair_free {rw : Expr → Expr} {x : Var} {M : Model}
    (hrw : ∀ e, occurs x e = false → occurs x (rw e) = false) {mul : ℚ} {e1 e2 : Expr}
    {st : State} {c1 : ℚ} {ts1 : List Expr} {st1 : State}
    (h : is_linear_pair rw x M mul e1 e2 st = some (c1, ts1, st1)) (hst : StFree x st) :
    FreeList x ts1 ∧ StFree x st1 := by
  unfold is_linear_pair at h
  split at h
  · cases h
  · rename_i c2 ts2 st2 h2
    obtain ⟨h3, h4⟩ := is_linear_free rw x M hrw mul e1 0 [] st c2 ts2 st2 h2 (FreeList.nil x) hst
    exact is_linear_free rw x M hrw (-mul) e2 c2 ts2 st2 c1 ts1 st1 h h3 h4

theorem is_linear_finish_free {x : Var} {is_strict is_eq : Bool}
    {r : Option (ℚ × List Expr × State)} {c : ℚ} {t : Expr} {s e : Bool} {st1 : State}
    (h : is_linear_finish x is_strict is_eq r = some (c, t, s, e, st1))
    (hr : ∀ c2 ts2 st2, r = some (c2, ts2, st2) → FreeList x ts2 ∧ StFree x st2) :
    occurs x t = false ∧ StFree x st1 := by
  unfold is_linear_finish at h
  split at h
  · cases h
  · rename_i c2 ts2 st2
    obtain ⟨h1, h2⟩ := hr c2 ts2 st2 rfl
    have hfree : FreeList x (if (is_strict && is_int x) = true then ts2 ++ [mk_num x 1] else ts2) := by
      split
      · exact h1.append (FreeList.single (occurs_mk_num x 1))
      · exact h1
    simp only at h
    split at h
    · simp only [Option.some.injEq, Prod.mk.injEq] at h
      obtain ⟨-, rfl, -, -, rfl⟩ := h
      exact ⟨by simpa [occurs] using occurs_add hfree, h2⟩
    · simp only [Option.some.injEq, Prod.mk.injEq] at h
      obtain ⟨-, rfl, -, -, rfl⟩ := h
      exact ⟨occurs_add hfree, h2⟩

theorem is_linear_atom_free {rw : Expr → Expr} {x : Var} {M : Model}
    (hrw : ∀ e, occurs x e = false → occurs x (rw e) = false) {is_not : Bool} {mul : ℚ}
    {lit : Expr} {st : State} {c : ℚ} {t : Expr} {s e : Bool} {st1 : State}
    (h : is_linear_atom rw x M is_not mul lit st = some (c, t, s, e, st1)) (hst : StFree x st) :
    occurs x t = false ∧ StFree x st1 := by
  unfold is_linear_atom at h
  split at h
  · exact is_linear_finish_free h (fun _ _ _ hr => is_linear_pair_free hrw hr hst)
  · exact is_linear_finish_free h (fun _ _ _ hr => is_linear_pair_free hrw hr hst)
  · exact is_linear_finish_free h (fun _ _ _ hr => is_linear_pair_free hrw hr hst)
  · exact is_linear_finish_free h (fun _ _ _ hr => is_linear_pair_free hrw hr hst)
  · split at h
    · split at h
      · exact is_linear_finish_free h (fun _ _ _ hr => is_linear_pair_free hrw hr hst)
      · split at h
        · exact is_linear_finish_free h (fun _ _ _ hr => is_linear_pair_free hrw hr hst)
        · exact is_linear_finish_free h (fun _ _ _ hr => is_linear_pair_free hrw hr hst)
    · cases h
  · cases h

theorem is_linear_lit_free {rw : Expr → Expr} {x : Var} {M : Model}
    (hrw : ∀ e, occurs x e = false → occurs x (rw e) = false) {lit : Expr}
    {st : State} {c : ℚ} {t : Expr} {s e : Bool} {st1 : State}
    (h : is_linear_lit rw x M lit st = some (c, t, s, e, st1)) (hst : StFree x st) :
    occurs x t = false ∧ StFree x st1 := by
  unfold is_linear_lit at h
  split at h
  · exact is_linear_atom_free hrw h hst
  · exact is_linear_atom_free hrw h hst

theorem project_step_free {rw : Expr → Expr} {x : Var} {M : Model}
    (hrw : ∀ e, occurs x e = false → occurs x (rw e) = false) {acc acc1 : State × Counters}
    {e : Expr} (h : project_step rw x M acc e = some acc1) (hst : StFree x acc.1) :
    StFree x acc1.1 := by
  unfold project_step at h
  split at h
  · rename_i hocc
    simp only [Option.some.injEq] at h
    subst h
    refine ⟨hst.1, hst.2.1, hst.2.2.append (FreeList.single ?_)⟩
    simpa using hocc
  · split at h
    · cases h
    · rename_i c t is_strict is_eq st1 hlit
      obtain ⟨ht, hst1⟩ := is_linear_lit_free hrw hlit hst
      split at h
      · simp only [Option.some.injEq] at h
        subst h
        refine ⟨hst1.1, hst1.2.1, add_lit_free hrw hst1.2.2 ?_⟩
        split
        · simp [occurs, ht, occurs_mk_num]
        · split <;> simp [occurs, ht, occurs_mk_num]
      · have hst2 : StFree x { st1 with m_ineqs := st1.m_ineqs ++ [⟨c, t, is_strict⟩] } := by
          refine ⟨?_, hst1.2.1, hst1.2.2⟩
          intro q hq
          rcases List.mem_append.1 hq with hq | hq
          · exact hst1.1 q hq
          · simp at hq
            subst hq
            exact ht
        split at h
        · simp only [Option.some.injEq] at h
          subst h
          exact hst2
        · split at h <;>
          · simp only [Option.some.injEq] at h
            subst h
            exact hst2

theorem project_loop_free {rw : Expr → Expr} {x : Var} {M : Model}
    (hrw : ∀ e, occurs x e = false → occurs x (rw e) = false) (lits : List Expr) :
    ∀ (acc acc1 : State × Counters), project_loop rw x M lits acc = some acc1 →
      StFree x acc.1 → StFree x acc1.1 := by
  induction lits with
  | nil =>
    intro acc acc1 h hst
    simp only [project_loop, Option.some.injEq] at h
    subst h
    exact hst
  | cons e es ih =>
    intro acc acc1 h hst
    simp only [project_loop] at h
    split at h
    · cases h
    · rename_i acc2 h2
      exact ih acc2 acc1 h (project_step_free hrw h2 hst)

theorem reset_free (x : Var) : StFree x reset :=
  ⟨fun _ h => (by cases h), fun _ h => (by cases h), FreeList.nil x⟩

theorem classify_free {rw : Expr → Expr} {x : Var} {M : Model}
    (hrw : ∀ e, occurs x e = false → occurs x (rw e) = false) {lits : List Expr}
    {st : State} {cn : Counters} (h : classify rw x M lits = some (st, cn)) : StFree x st :=
  project_loop_free hrw lits _ _ h (reset_free x)

theorem ineq_term_free {x : Var} {st : State} (hst : ∀ q ∈ st.m_ineqs, occurs x q.term = false)
    (i : Nat) : occurs x (ineq_term st i) = false := by
  unfold ineq_term
  by_cases hi : i < st.m_ineqs.length
  · rw [List.getD_eq_getElem _ _ hi]
    exact hst _ (List.getElem_mem hi)
  · rw [List.getD_eq_default _ _ (Nat.le_of_not_lt hi)]
    rfl

theorem mk_le_free {x : Var} {st : State} (hst : ∀ q ∈ st.m_ineqs, occurs x q.term = false)
    (i j : Nat) : occurs x (mk_le x st i j) = false := by
  unfold mk_le
  simp only
  split <;> simp [occurs, occurs_mk_mul, ineq_term_free hst]

theorem mk_int_lt_free {rw : Expr → Expr} {x : Var} (M : Model)
    (hrw : ∀ e, occurs x e = false → occurs x (rw e) = false) {st : State}
    (hst : ∀ q ∈ st.m_ineqs, occurs x q.term = false) {lits : List Expr}
    (hl : FreeList x lits) (i j : Nat) : FreeList x (mk_int_lt rw x M st lits i j) := by
  unfold mk_int_lt
  simp only
  split
  · apply add_lit_free hrw hl
    simp [occurs, add, occursList, occurs_mk_mul, occurs_mk_num, ineq_term_free hst]
  · have hs : occurs x
        (if decide (abs (ineq_coeff st i) < abs (ineq_coeff st j)) = true then ineq_term st i
          else ineq_term st j) = false := by
      split <;> exact ineq_term_free hst _
    have ht : occurs x
        (if decide (abs (ineq_coeff st i) < abs (ineq_coeff st j)) = true then ineq_term st j
          else ineq_term st i) = false := by
      split <;> exact ineq_term_free hst _
    apply add_lit_free hrw (add_lit_free hrw hl (occurs_mk_divides _ (occurs_mk_add_num _ hs)))
    rw [occurs_le, occurs_mk_num, Bool.or_false]
    exact occurs_mk_add (by rw [occurs_mk_mul]; exact occurs_mk_add_num _ hs)
      (by rw [occurs_mk_mul]; exact ht)

theorem mk_lt_free {rw : Expr → Expr} {x : Var} (M : Model)
    (hrw : ∀ e, occurs x e = false → occurs x (rw e) = false) {st : State}
    (hst : ∀ q ∈ st.m_ineqs, occurs x q.term = false) {lits : List Expr}
    (hl : FreeList x lits) (i j : Nat) : FreeList x (mk_lt rw x M st lits i j) := by
  unfold mk_lt
  simp only
  split
  · exact mk_int_lt_free M hrw hst hl i j
  · have h : occurs x (mk_add (mk_mul x (abs (ineq_coeff st j)) (ineq_term st i))
        (mk_mul x (abs (ineq_coeff st i)) (ineq_term st j))) = false :=
      occurs_mk_add (by rw [occurs_mk_mul]; exact ineq_term_free hst _)
        (by rw [occurs_mk_mul]; exact ineq_term_free hst _)
    split
    · apply add_lit_free hrw hl
      rw [occurs_lt, h, occurs_mk_num]
      rfl
    · apply add_lit_free hrw hl
      rw [occurs_le, h, occurs_mk_num]
      rfl

theorem apply_equality_divs_free {rw : Expr → Expr} {x : Var}
    (hrw : ∀ e, occurs x e = false → occurs x (rw e) = false) (c : ℚ) {t : Expr}
    (ht : occurs x t = false) (divs : List Div) :
    ∀ lits, (∀ d ∈ divs, occurs x d.term = false) → FreeList x lits →
      FreeList x (apply_equality_divs rw x c t divs lits) := by
  induction divs with
  | nil => intro lits _ hl; exact hl
  | cons d rest ih =>
    intro lits hd hl
    simp only [apply_equality_divs]
    apply ih _ (fun d1 h1 => hd d1 (List.mem_cons_of_mem _ h1))
    apply add_lit_free hrw hl
    apply occurs_mk_divides
    simp [occurs, occurs_mk_mul, ht, hd d (List.mem_cons_self _ _)]

theorem apply_equality_ineqs_free {rw : Expr → Expr} {x : Var}
    (hrw : ∀ e, occurs x e = false → occurs x (rw e) = false) (c : ℚ) {t : Expr}
    (ht : occurs x t = false) (eq_index : Nat) (ineqs : List Ineq) :
    ∀ i lits, (∀ q ∈ ineqs, occurs x q.term = false) → FreeList x lits →
      FreeList x (apply_equality_ineqs rw x c t eq_index ineqs i lits) := by
  induction ineqs with
  | nil => intro i lits _ hl; exact hl
  | cons q rest ih =>
    intro i lits hq hl
    simp only [apply_equality_ineqs]
    split
    · apply ih _ _ (fun q1 h1 => hq q1 (List.mem_cons_of_mem _ h1))
      apply add_lit_free hrw hl
      split <;> simp [occurs, occurs_mk_mul, occurs_mk_num, ht, hq q (List.mem_cons_self _ _)]
    · exact ih _ _ (fun q1 h1 => hq q1 (List.mem_cons_of_mem _ h1)) hl

theorem apply_equality_free {rw : Expr → Expr} {x : Var}
    (hrw : ∀ e, occurs x e = false → occurs x (rw e) = false) {st : State} (hst : StFree x st)
    (eq_index : Nat) {lits : List Expr} (hl : FreeList x lits) :
    FreeList x (apply_equality rw x st eq_index lits) := by
  unfold apply_equality
  simp only
  have ht := ineq_term_free hst.1 eq_index
  apply apply_equality_ineqs_free hrw _ ht _ _ _ _ hst.1
  apply apply_equality_divs_free hrw _ ht _ _ hst.2.1
  split
  · exact add_lit_free hrw hl (occurs_mk_divides _ ht)
  · exact hl

theorem apply_divides_lits_free {rw : Expr → Expr} {x : Var}
    (hrw : ∀ e, occurs x e = false → occurs x (rw e) = false) (u : ℚ) (divs : List Div) :
    ∀ lits, (∀ d ∈ divs, occurs x d.term = false) → FreeList x lits →
      FreeList x (apply_divides_lits rw x u divs lits) := by
  induction divs with
  | nil => intro lits _ hl; exact hl
  | cons d rest ih =>
    intro lits hd hl
    simp only [apply_divides_lits]
    apply ih _ (fun d1 h1 => hd d1 (List.mem_cons_of_mem _ h1))
    apply add_lit_free hrw hl
    apply occurs_mk_divides
    simp [occurs, occursList, occurs_mk_num, hd d (List.mem_cons_self _ _)]

theorem apply_divides_free {rw : Expr → Expr} {x : Var} (M : Model)
    (hrw : ∀ e, occurs x e = false → occurs x (rw e) = false) {st : State} (hst : StFree x st)
    {lits : List Expr} (hl : FreeList x lits) :
    StFree x (apply_divides rw x M st lits).1 ∧ FreeList x (apply_divides rw x M st lits).2.2 := by
  unfold apply_divides
  split
  · exact ⟨hst, hl⟩
  · refine ⟨⟨?_, hst.2.1, hst.2.2⟩, apply_divides_lits_free hrw _ _ _ hst.2.1 hl⟩
    intro q hq
    simp only [List.mem_map] at hq
    obtain ⟨q0, hq0, rfl⟩ := hq
    simp only
    split
    · simp [occurs, occurs_mk_num, hst.1 q0 hq0]
    · exact hst.1 q0 hq0

theorem project_resolve_free {rw : Expr → Expr} {x : Var} (M : Model)
    (hrw : ∀ e, occurs x e = false → occurs x (rw e) = false) {st : State}
    (hst : ∀ q ∈ st.m_ineqs, occurs x q.term = false) (use_pos : Bool) (max_t : Nat) (n : Nat) :
    ∀ i lits, FreeList x lits →
      FreeList x (project_resolve rw x M st use_pos max_t n i lits) := by
  induction n with
  | zero => intro i lits hl; exact hl
  | succ n ih =>
    intro i lits hl
    simp only [project_resolve]
    split
    · split
      · exact ih _ _ (add_lit_free hrw hl (mk_le_free hst _ _))
      · exact ih _ _ (mk_lt_free M hrw hst hl _ _)
    · exact ih _ _ hl

theorem project_finish_free {rw : Expr → Expr} {x : Var} (M : Model)
    (hrw : ∀ e, occurs x e = false → occurs x (rw e) = false) {st : State} (hst : StFree x st)
    (cn : Counters) : FreeList x (project_finish rw x M st cn).1 := by
  unfold project_finish
  simp only
  split
  · exact apply_equality_free hrw hst _ hst.2.2
  · split
    · exact hst.2.2
    · have hr : StFree x (if 0 < num_divs st then apply_divides rw x M st st.m_new_lits
            else (st, M, st.m_new_lits)).1 ∧
          FreeList x (if 0 < num_divs st then apply_divides rw x M st st.m_new_lits
            else (st, M, st.m_new_lits)).2.2 := by
        split
        · exact apply_divides_free M hrw hst hst.2.2
        · exact ⟨hst, hst.2.2⟩
      generalize (if 0 < num_divs st then apply_divides rw x M st st.m_new_lits
        else (st, M, st.m_new_lits)) = r at hr ⊢
      split
      · exact hr.2
      · exact project_resolve_free _ hrw hr.1.1 _ _ _ _ _ hr.2

end arith_project_util

open arith_project_util in
theorem project_free {rw : Expr → Expr} {x : Var} {M M1 : Model} {lits out : List Expr}
    (hrw : ∀ e, occurs x e = false → occurs x (rw e) = false)
    (h : project rw x M lits = some (out, M1)) : FreeList x out := by
  unfold project at h
  split at h
  · cases h
  · rename_i st cn hc
    simp only [Option.some.injEq] at h
    have := project_finish_free M hrw (classify_free hrw hc) cn
    rw [h] at this
    exact this

open arith_project_util in
theorem project_loop_of_free (rw : Expr → Expr) (x : Var) (M : Model) (lits : List Expr) :
    ∀ (st : State) (cn : Counters), FreeList x lits →
      project_loop rw x M lits (st, cn)
        = some ({ st with m_new_lits := st.m_new_lits ++ lits }, cn) := by
  induction lits with
  | nil => intro st cn _; simp [project_loop]
  | cons e es ih =>
    intro st cn hl
    have he : occurs x e = false := hl e (List.mem_cons_self _ _)
    have hes : FreeList x es := fun l h => hl l (List.mem_cons_of_mem _ h)
    simp only [project_loop, project_step, he, Bool.not_false, if_true]
    rw [ih _ _ hes]
    simp

open arith_project_util in
theorem project_of_free (rw : Expr → Expr) (x : Var) (M : Model) (lits : List Expr)
    (hl : FreeList x lits) : project rw x M lits = some (lits, M) := by
  unfold project classify
  rw [project_loop_of_free rw x M lits _ _ hl]
  simp [project_finish, reset, num_divs]

/-- C3, variable elimination: whenever `project` succeeds, `x` occurs in no literal of
its output, for every rewriter that does not introduce `x` into an `x`-free literal. -/
theorem project_output_free_of_x (rw : Expr → Expr) (x : Var) (M M1 : Model)
    (lits out : List Expr) (hrw : ∀ e, occurs x e = false → occurs x (rw e) = false)
    (h : project rw x M lits = some (out, M1)) : ∀ l ∈ out, occurs x l = false :=
  project_free hrw h

/-- C4, idempotence: when `project` succeeds with output `out` and model `M1`, projecting
`x` from `out` under `M1` returns `out` unchanged, literal for literal, and the same
model `M1`, for every rewriter that does not introduce `x` into an `x`-free literal. -/
theorem project_idempotent (rw : Expr → Expr) (x : Var) (M M1 : Model)
    (lits out : List Expr) (hrw : ∀ e, occurs x e = false → occurs x (rw e) = false)
    (h : arith_project_util.project rw x M lits = some (out, M1)) :
    arith_project_util.project rw x M1 out = some (out, M1) :=
  project_of_free rw x M1 out (project_free hrw h)

end qe

namespace qe
open arith_project_util

end qe

namespace qe
open arith_project_util

mutual
theorem occurs_of_hasSub (x : Var) (q : Expr → Bool) :
    ∀ e : Expr, hasSub (fun s => q s && occurs x s) e = true → occurs x e = true
  | .var v, h => by simpa [hasSub] using (by simpa [hasSub] using h : _ ∧ _).2
  | .num r s, h => by simpa [hasSub] using (by simpa [hasSub] using h : _ ∧ _).2
  | .add args, h => by
    simp only [hasSub, Bool.or_eq_true, Bool.and_eq_true] at h
    rcases h with h | h
    · exact h.2
    · simpa [occurs] using occursList_of_hasSubList x q args h
  | .mul t1 t2, h => by
    simp only [hasSub, Bool.or_eq_true, Bool.and_eq_true] at h
    rcases h with (h | h) | h
    · exact h.2
    · simp [occurs, occurs_of_hasSub x q t1 h]
    · simp [occurs, occurs_of_hasSub x q t2 h]
  | .sub t1 t2, h => by
    simp only [hasSub, Bool.or_eq_true, Bool.and_eq_true] at h
    rcases h with (h | h) | h
    · exact h.2
    · simp [occurs, occurs_of_hasSub x q t1 h]
    · simp [occurs, occurs_of_hasSub x q t2 h]
  | .uminus t, h => by
    simp only [hasSub, Bool.or_eq_true, Bool.and_eq_true] at h
    rcases h with h | h
    · exact h.2
    · simp [occurs, occurs_of_hasSub x q t h]
  | .mod t1 t2, h => by
    simp only [hasSub, Bool.or_eq_true, Bool.and_eq_true] at h
    rcases h with (h | h) | h
    · exact h.2
    · simp [occurs, occurs_of_hasSub x q t1 h]
    · simp [occurs, occurs_of_hasSub x q t2 h]
  | .le t1 t2, h => by
    simp only [hasSub, Bool.or_eq_true, Bool.and_eq_true] at h
    rcases h with (h | h) | h
    · exact h.2
    · simp [occurs, occurs_of_hasSub x q t1 h]
    · simp [occurs, occurs_of_hasSub x q t2 h]
  | .ge t1 t2, h => by
    simp only [hasSub, Bool.or_eq_true, Bool.and_eq_true] at h
    rcases h with (h | h) | h
    · exact h.2
    · simp [occurs, occurs_of_hasSub x q t1 h]
    · simp [occurs, occurs_of_hasSub x q t2 h]
  | .lt t1 t2, h => by
    simp only [hasSub, Bool.or_eq_true, Bool.and_eq_true] at h
    rcases h with (h | h) | h
    · exact h.2
    · simp [occurs, occurs_of_hasSub x q t1 h]
    · simp [occurs, occurs_of_hasSub x q t2 h]
  | .gt t1 t2, h => by
    simp only [hasSub, Bool.or_eq_true, Bool.and_eq_true] at h
    rcases h with (h | h) | h
    · exact h.2
    · simp [occurs, occurs_of_hasSub x q t1 h]
    · simp [occurs, occurs_of_hasSub x q t2 h]
  | .eq t1 t2, h => by
    simp only [hasSub, Bool.or_eq_true, Bool.and_eq_true] at h
    rcases h with (h | h) | h
    · exact h.2
    · simp [occurs, occurs_of_hasSub x q t1 h]
    · simp [occurs, occurs_of_hasSub x q t2 h]
  | .not t, h => by
    simp only [hasSub, Bool.or_eq_true, Bool.and_eq_true] at h
    rcases h with h | h
    · exact h.2
    · simp [occurs, occurs_of_hasSub x q t h]
  | .tt, h => by simpa [hasSub] using (by simpa [hasSub] using h : _ ∧ _).2
  | .ff, h => by simpa [hasSub] using (by simpa [hasSub] using h : _ ∧ _).2
  | .and args, h => by
    simp only [hasSub, Bool.or_eq_true, Bool.and_eq_true] at h
    rcases h with h | h
    · exact h.2
    · simpa [occurs] using occursList_of_hasSubList x q args h
  | .or args, h => by
    simp only [hasSub, Bool.or_eq_true, Bool.and_eq_true] at h
    rcases h with h | h
    · exact h.2
    · simpa [occurs] using occursList_of_hasSubList x q args h
  | .implies t1 t2, h => by
    simp only [hasSub, Bool.or_eq_true, Bool.and_eq_true] at h
    rcases h with (h | h) | h
    · exact h.2
    · simp [occurs, occurs_of_hasSub x q t1 h]
    · simp [occurs, occurs_of_hasSub x q t2 h]
  | .app f s args, h => by
    simp only [hasSub, Bool.or_eq_true, Bool.and_eq_true] at h
    rcases h with h | h
    · exact h.2
    · simpa [occurs] using occursList_of_hasSubList x q args h
theorem occursList_of_hasSubList (x : Var) (q : Expr → Bool) :
    ∀ es : List Expr, hasSubList (fun s => q s && occurs x s) es = true →
      occursList x es = true
  | [], h => by simp [hasSubList] at h
  | e :: es, h => by
    simp only [hasSubList, Bool.or_eq_true] at h
    rcases h with h | h
    · simp [occursList, occurs_of_hasSub x q e h]
    · simp [occursList, occursList_of_hasSubList x q es h]
end

namespace arith_project_util

theorem is_linear_other_none {x : Var} (mul : ℚ) {t : Expr} (c : ℚ) (ts : List Expr) (st : State)
    (h : occurs x t = true) : is_linear_other x mul t c ts st = none := by
  simp [is_linear_other, h]

theorem is_linear_blocked (rw : Expr → Expr) (x : Var) (M : Model) (mul : ℚ) (t : Expr) (c : ℚ)
    (ts : List Expr) (st : State) :
    blocked x t = true → is_linear rw x M mul t c ts st = none := by
  apply is_linear.induct rw x M
    (fun mul t c ts st => blocked x t = true → is_linear rw x M mul t c ts st = none)
    (fun mul args c ts st => hasSubList (fun s => opaqueNode s && occurs x s) args = true →
      is_linear_args rw x M mul args c ts st = none)
  case case1 =>
    intro mul c ts st hb
    simp [blocked, hasSub, opaqueNode] at hb
  case case2 =>
    intro mul c ts st v hv hb
    simp [blocked, hasSub, opaqueNode] at hb
  case case3 =>
    intro mul c ts st t2 r s ih hb
    simp only [is_linear]
    apply ih
    simpa [blocked, hasSub, opaqueNode, is_numeral] using hb
  case case4 =>
    intro mul c ts st t1 r s hn ih hb
    simp only [is_linear]
    apply ih
    simpa [blocked, hasSub, opaqueNode, is_numeral] using hb
  case case6 =>
    intro mul c ts st args ih hb
    simp only [is_linear]
    apply ih
    simpa [blocked, hasSub, opaqueNode] using hb
  case case7 =>
    intro mul c ts st t1 t2 hnone ih hb
    simp only [is_linear, hnone]
  case case8 =>
    intro mul c ts st t1 t2 c2 ts2 st2 hsome ih1 ih2 hb
    simp only [is_linear, hsome]
    simp only [blocked, hasSub, opaqueNode, Bool.false_and, Bool.false_or, Bool.or_eq_true] at hb
    rcases hb with hb | hb
    · rw [ih1 hb] at hsome
      cases hsome
    · exact ih2 hb
  case case9 =>
    intro mul c ts st t1 ih hb
    simp only [is_linear]
    apply ih
    simpa [blocked, hasSub, opaqueNode] using hb
  case case10 =>
    intro mul c ts st mul1 s hb
    simp [blocked, hasSub, opaqueNode] at hb
  case case11 =>
    intro mul c ts st t1 r s hocc hnone ih hb
    simp only [is_linear, hocc, if_true, hnone]
  case case12 =>
    intro mul c ts st t1 r s hocc c2 ts2 st2 hsome ih hb
    have hb1 : blocked x t1 = true := by
      simpa [blocked, hasSub, opaqueNode] using hb
    rw [ih hb1] at hsome
    cases hsome
  case case27 =>
    intro mul c ts st hb
    simp [hasSubList] at hb
  case case28 =>
    intro mul c ts st t tail hnone ih hb
    simp only [is_linear_args, hnone]
  case case29 =>
    intro mul c ts st t tail c2 ts2 st2 hsome ih1 ih2 hb
    simp only [is_linear_args, hsome]
    simp only [hasSubList, Bool.or_eq_true] at hb
    rcases hb with hb | hb
    · rw [ih1 hb] at hsome
      cases hsome
    · exact ih2 hb
  all_goals
    intros
    simp only [is_linear]
    first
      | exact is_linear_other_none _ _ _ _ (occurs_of_hasSub x opaqueNode _ (by assumption))
      | (rename_i hocc _
         simp only [hocc]
         exact is_linear_other_none _ _ _ _ (occurs_of_hasSub x opaqueNode _ (by assumption)))

theorem is_linear_pair_blocked (rw : Expr → Expr) (x : Var) (M : Model) (mul : ℚ)
    (e1 e2 : Expr) (st : State) (h : blocked x e1 = true ∨ blocked x e2 = true) :
    is_linear_pair rw x M mul e1 e2 st = none := by
  unfold is_linear_pair
  split
  · rfl
  · rename_i c1 ts1 st1 h1
    rcases h with h | h
    · rw [is_linear_blocked rw x M mul e1 0 [] st h] at h1
      cases h1
    · exact is_linear_blocked rw x M (-mul) e2 c1 ts1 st1 h

theorem is_linear_finish_none (x : Var) (s e : Bool) : is_linear_finish x s e none = none := rfl

theorem is_linear_atom_blocked (rw : Expr → Expr) (x : Var) (M : Model) (is_not : Bool)
    (mul : ℚ) (l : Expr) (st : State) (h : blocked x l = true) :
    is_linear_atom rw x M is_not mul l st = none := by
  unfold is_linear_atom
  split
  · rw [is_linear_pair_blocked, is_linear_finish_none]
    simpa [blocked, hasSub, opaqueNode] using h
  · rw [is_linear_pair_blocked, is_linear_finish_none]
    simpa [blocked, hasSub, opaqueNode, or_comm] using h
  · rw [is_linear_pair_blocked, is_linear_finish_none]
    simpa [blocked, hasSub, opaqueNode] using h
  · rw [is_linear_pair_blocked, is_linear_finish_none]
    simpa [blocked, hasSub, opaqueNode, or_comm] using h
  · have h1 : ∀ a b : Expr, blocked x (.eq a b) = true →
        blocked x a = true ∨ blocked x b = true := by
      intro a b hab
      simpa [blocked, hasSub, opaqueNode] using hab
    split
    · split
      · rw [is_linear_pair_blocked _ _ _ _ _ _ _ (h1 _ _ h), is_linear_finish_none]
      · split
        · rw [is_linear_pair_blocked _ _ _ _ _ _ _ (h1 _ _ h).symm, is_linear_finish_none]
        · rw [is_linear_pair_blocked _ _ _ _ _ _ _ (h1 _ _ h), is_linear_finish_none]
    · rfl
  · rfl

theorem is_linear_lit_blocked (rw : Expr → Expr) (x : Var) (M : Model) (l : Expr) (st : State)
    (h : blocked x l = true) : is_linear_lit rw x M l st = none := by
  unfold is_linear_lit
  split
  · apply is_linear_atom_blocked
    simpa [blocked, hasSub, opaqueNode] using h
  · exact is_linear_atom_blocked rw x M false 1 l st h

theorem is_linear_lit_not_comparison (rw : Expr → Expr) (x : Var) (M : Model) (l : Expr)
    (st : State) (h : isComparison l = false) : is_linear_lit rw x M l st = none := by
  unfold is_linear_lit
  split
  · rename_i l1
    unfold is_linear_atom
    split <;> simp_all [isComparison, atomOf]
  · rename_i hn
    unfold is_linear_atom
    have : atomOf l = l := by
      cases l <;> first | rfl | exact absurd rfl (hn _)
    split <;> simp_all [isComparison]

theorem project_loop_none_of_lit (rw : Expr → Expr) (x : Var) (M : Model) (l : Expr)
    (hocc : occurs x l = true) (hl : ∀ st, is_linear_lit rw x M l st = none) (lits : List Expr) :
    l ∈ lits → ∀ acc, project_loop rw x M lits acc = none := by
  induction lits with
  | nil => intro h; cases h
  | cons e es ih =>
    intro h acc
    simp only [project_loop]
    rcases List.mem_cons.1 h with h | h
    · subst h
      simp [project_step, hocc, hl]
    · split
      · rfl
      · exact ih h _

theorem project_none_of_lit (rw : Expr → Expr) (x : Var) (M : Model) (l : Expr)
    (hocc : occurs x l = true) (hl : ∀ st, is_linear_lit rw x M l st = none) (lits : List Expr)
    (h : l ∈ lits) : project rw x M lits = none := by
  unfold project classify
  rw [project_loop_none_of_lit rw x M l hocc hl lits h]

theorem linTerm_of_is_numeral (x : Var) (t : Expr) (h : is_numeral t = true) :
    linTerm x t = true := by
  cases t <;> simp_all [is_numeral, linTerm]

theorem is_linear_other_isSome {x : Var} (mul : ℚ) {t : Expr} (c : ℚ) (ts : List Expr)
    (st : State) (h : occurs x t = false) : (is_linear_other x mul t c ts st).isSome = true := by
  simp [is_linear_other, h]

theorem is_linear_lin (rw : Expr → Expr) (x : Var) (M : Model) (mul : ℚ) (t : Expr) (c : ℚ)
    (ts : List Expr) (st : State) :
    (linTerm x t = true ∨ occurs x t = false) →
      (is_linear rw x M mul t c ts st).isSome = true := by
  apply is_linear.induct rw x M
    (fun mul t c ts st => (linTerm x t = true ∨ occurs x t = false) →
      (is_linear rw x M mul t c ts st).isSome = true)
    (fun mul args c ts st => (linTermList x args = true ∨ occursList x args = false) →
      (is_linear_args rw x M mul args c ts st).isSome = true)
  case case1 =>
    intro mul c ts st _
    simp [is_linear]
  case case2 =>
    intro mul c ts st v hv _
    simp only [is_linear, if_neg hv]
    exact is_linear_other_isSome _ _ _ _ (by simp [occurs, hv])
  case case3 =>
    intro mul c ts st t2 r s ih h
    simp only [is_linear]
    apply ih
    rcases h with h | h
    · simp only [linTerm, is_numeral, Bool.true_and, Bool.or_eq_true, Bool.and_eq_true,
        Bool.not_eq_true', occurs, Bool.false_or] at h
      rcases h with (h | h) | h
      · exact Or.inl h
      · exact Or.inl (linTerm_of_is_numeral x t2 h.1)
      · exact Or.inr h
    · simp only [occurs, Bool.false_or] at h
      exact Or.inr h
  case case4 =>
    intro mul c ts st t1 r s hn ih h
    simp only [is_linear]
    apply ih
    rcases h with h | h
    · simp only [linTerm, is_numeral, Bool.true_and, Bool.or_eq_true, Bool.and_eq_true,
        Bool.not_eq_true', occurs, Bool.or_false] at h
      rcases h with (h | h) | h
      · exact absurd h.1 Bool.false_ne_true
      · exact Or.inl h
      · exact Or.inr h
    · simp only [occurs, Bool.or_false] at h
      exact Or.inr h
  case case5 =>
    intro mul c ts st t1 t2 hn1 hn2 h
    simp only [is_linear]
    apply is_linear_other_isSome
    have h1 : is_numeral t1 = false := by
      cases t1 <;> first | rfl | exact absurd rfl (hn1 _ _)
    have h2 : is_numeral t2 = false := by
      cases t2 <;> first | rfl | exact absurd rfl (hn2 _ _)
    rcases h with h | h
    · simpa [linTerm, h1, h2, occurs] using h
    · exact h
  case case6 =>
    intro mul c ts st args ih h
    simp only [is_linear]
    apply ih
    simpa [linTerm, occurs] using h
  case case7 =>
    intro mul c ts st t1 t2 hnone ih h
    have h1 : linTerm x t1 = true ∨ occurs x t1 = false := by
      rcases h with h | h
      · simp only [linTerm, Bool.and_eq_true] at h
        exact Or.inl h.1
      · simp only [occurs, Bool.or_eq_false_iff] at h
        exact Or.inr h.1
    rw [hnone] at ih
    exact absurd (ih h1) (by simp)
  case case8 =>
    intro mul c ts st t1 t2 c2 ts2 st2 hsome ih1 ih2 h
    simp only [is_linear, hsome]
    apply ih2
    rcases h with h | h
    · simp only [linTerm, Bool.and_eq_true] at h
      exact Or.inl h.2
    · simp only [occurs, Bool.or_eq_false_iff] at h
      exact Or.inr h.2
  case case9 =>
    intro mul c ts st t1 ih h
    simp only [is_linear]
    apply ih
    simpa [linTerm, occurs] using h
  case case10 =>
    intro mul c ts st mul1 s _
    simp [is_linear]
  case case11 =>
    intro mul c ts st t1 r s hocc hnone ih h
    have h1 : linTerm x t1 = true ∨ occurs x t1 = false := by
      rcases h with h | h
      · simp only [linTerm, is_numeral, Bool.true_and, Bool.or_eq_true, Bool.not_eq_true',
          occurs, Bool.or_false] at h
        exact h
      · simp only [occurs, Bool.or_false] at h
        exact Or.inr h
    rw [hnone] at ih
    exact absurd (ih h1) (by simp)
  case case12 =>
    intro mul c ts st t1 r s hocc c2 ts2 st2 hsome ih h
    simp [is_linear, hocc, hsome]
  case case13 =>
    intro mul c ts st t1 r s hocc h
    simp only [is_linear, hocc]
    apply is_linear_other_isSome
    simpa [occurs] using hocc
  case case14 =>
    intro mul c ts st t1 t2 hn h
    simp only [is_linear]
    apply is_linear_other_isSome
    have h2 : is_numeral t2 = false := by
      cases t2 <;> first | rfl | exact absurd rfl (hn _ _)
    rcases h with h | h
    · simpa [linTerm, h2, occurs] using h
    · exact h
  case case27 =>
    intro mul c ts st _
    simp [is_linear_args]
  case case28 =>
    intro mul c ts st t tail hnone ih h
    have h1 : linTerm x t = true ∨ occurs x t = false := by
      rcases h with h | h
      · simp only [linTermList, Bool.and_eq_true] at h
        exact Or.inl h.1
      · simp only [occursList, Bool.or_eq_false_iff] at h
        exact Or.inr h.1
    rw [hnone] at ih
    exact absurd (ih h1) (by simp)
  case case29 =>
    intro mul c ts st t tail c2 ts2 st2 hsome ih1 ih2 h
    simp only [is_linear_args, hsome]
    apply ih2
    rcases h with h | h
    · simp only [linTermList, Bool.and_eq_true] at h
      exact Or.inl h.2
    · simp only [occursList, Bool.or_eq_false_iff] at h
      exact Or.inr h.2
  all_goals
    intro mul c ts st
    intros
    simp only [is_linear]
    apply is_linear_other_isSome
    rename_i h
    rcases h with h | h
    · first
        | (simp only [linTerm, Bool.not_eq_true'] at h
           exact h)
        | rfl
    · exact h

theorem is_linear_pair_lin (rw : Expr → Expr) (x : Var) (M : Model) (mul : ℚ) (e1 e2 : Expr)
    (st : State) (h1 : linTerm x e1 = true) (h2 : linTerm x e2 = true) :
    (is_linear_pair rw x M mul e1 e2 st).isSome = true := by
  unfold is_linear_pair
  split
  · rename_i hnone
    have := is_linear_lin rw x M mul e1 0 [] st (Or.inl h1)
    rw [hnone] at this
    exact this
  · exact is_linear_lin rw x M (-mul) e2 _ _ _ (Or.inl h2)

theorem is_linear_finish_isSome (x : Var) (s e : Bool) (r : Option (ℚ × List Expr × State))
    (h : r.isSome = true) : (is_linear_finish x s e r).isSome = true := by
  unfold is_linear_finish
  split
  · simp at h
  · simp only
    split <;> rfl

theorem is_linear_atom_lin (rw : Expr → Expr) (x : Var) (M : Model) (is_not : Bool) (mul : ℚ)
    (l : Expr) (st : State) (h : linLit x l = true) (hl : atomOf l = l) :
    (is_linear_atom rw x M is_not mul l st).isSome = true := by
  unfold linLit at h
  rw [hl] at h
  unfold is_linear_atom
  split
  · simp only [Bool.and_eq_true] at h
    exact is_linear_finish_isSome _ _ _ _ (is_linear_pair_lin _ _ _ _ _ _ _ h.1 h.2)
  · simp only [Bool.and_eq_true] at h
    exact is_linear_finish_isSome _ _ _ _ (is_linear_pair_lin _ _ _ _ _ _ _ h.2 h.1)
  · simp only [Bool.and_eq_true] at h
    exact is_linear_finish_isSome _ _ _ _ (is_linear_pair_lin _ _ _ _ _ _ _ h.1 h.2)
  · simp only [Bool.and_eq_true] at h
    exact is_linear_finish_isSome _ _ _ _ (is_linear_pair_lin _ _ _ _ _ _ _ h.2 h.1)
  · simp only [Bool.and_eq_true] at h
    rw [if_pos h.1.1]
    split
    · exact is_linear_finish_isSome _ _ _ _ (is_linear_pair_lin _ _ _ _ _ _ _ h.1.2 h.2)
    · split
      · exact is_linear_finish_isSome _ _ _ _ (is_linear_pair_lin _ _ _ _ _ _ _ h.2 h.1.2)
      · exact is_linear_finish_isSome _ _ _ _ (is_linear_pair_lin _ _ _ _ _ _ _ h.1.2 h.2)
  · rename_i h1 h2 h3 h4 h5
    cases l <;> simp_all

theorem atomOf_idem (l : Expr) : atomOf (atomOf l) = atomOf l ∨ ∃ l1, atomOf l = .not l1 := by
  cases l <;> first | (left; rfl) | skip
  rename_i e
  cases e <;> first | (left; rfl) | skip
  right
  exact ⟨_, rfl⟩

theorem is_linear_lit_lin (rw : Expr → Expr) (x : Var) (M : Model) (l : Expr) (st : State)
    (h : linLit x l = true) : (is_linear_lit rw x M l st).isSome = true := by
  unfold is_linear_lit
  split
  · rename_i l1
    have h1 : linLit x l1 = true ∧ atomOf l1 = l1 := by
      unfold linLit at h ⊢
      simp only [atomOf] at h
      cases l1 <;> simp_all [atomOf]
    exact is_linear_atom_lin rw x M true (-1) l1 st h1.1 h1.2
  · rename_i hn
    have : atomOf l = l := by
      cases l <;> first | rfl | exact absurd rfl (hn _)
    exact is_linear_atom_lin rw x M false 1 l st h this

theorem project_step_lin (rw : Expr → Expr) (x : Var) (M : Model) (acc : State × Counters)
    (e : Expr) (h : occurs x e = true → linLit x e = true) :
    (project_step rw x M acc e).isSome = true := by
  unfold project_step
  split
  · rfl
  · rename_i hocc
    have hl := is_linear_lit_lin rw x M e acc.1 (h (by simpa using hocc))
    split
    · rename_i hnone
      rw [hnone] at hl
      exact hl
    · simp only
      split
      · rfl
      · split
        · rfl
        · split <;> rfl

theorem project_loop_lin (rw : Expr → Expr) (x : Var) (M : Model) (lits : List Expr) :
    (∀ l ∈ lits, occurs x l = true → linLit x l = true) →
      ∀ acc, (project_loop rw x M lits acc).isSome = true := by
  induction lits with
  | nil => intro _ acc; rfl
  | cons e es ih =>
    intro h acc
    simp only [project_loop]
    have := project_step_lin rw x M acc e (h e (List.mem_cons_self _ _))
    split
    · rename_i hnone
      rw [hnone] at this
      exact this
    · exact ih (fun l hl => h l (List.mem_cons_of_mem _ hl)) _

theorem project_lin (rw : Expr → Expr) (x : Var) (M : Model) (lits : List Expr)
    (h : ∀ l ∈ lits, occurs x l = true → linLit x l = true) :
    (project rw x M lits).isSome = true := by
  unfold project classify
  have := project_loop_lin rw x M lits h (reset, ⟨0, 0, 0, false⟩)
  split
  · rename_i hnone
    rw [hnone] at this
    exact this
  · rfl

end arith_project_util

end qe

namespace qe
namespace arith_project_util

theorem inMod_mod (x : Var) (t1 t2 : Expr) (h : inMod x (.mod t1 t2) = false) :
    occurs x t1 = false ∧ occurs x t2 = false := by
  simp only [inMod, hasSub, Bool.or_eq_false_iff] at h
  exact h.1.1

theorem is_linear_other_state (x : Var) (mul : ℚ) (t : Expr) (c : ℚ) (ts : List Expr)
    (st st1 : State) :
    is_linear_other x mul t c ts st1 = with_state st1 (is_linear_other x mul t c ts st) := by
  unfold is_linear_other with_state
  split <;> rfl

theorem is_linear_state (rw : Expr → Expr) (x : Var) (M : Model) (mul : ℚ) (t : Expr) (c : ℚ)
    (ts : List Expr) (st : State) :
    inMod x t = false → ∀ st1, is_linear rw x M mul t c ts st1
      = with_state st1 (is_linear rw x M mul t c ts st) := by
  apply is_linear.induct rw x M
    (fun mul t c ts st => inMod x t = false → ∀ st1, is_linear rw x M mul t c ts st1
      = with_state st1 (is_linear rw x M mul t c ts st))
    (fun mul args c ts st =>
      hasSubList (fun s => match s with
        | .mod t1 t2 => occurs x t1 || occurs x t2
        | _ => false) args = false →
      ∀ st1, is_linear_args rw x M mul args c ts st1
        = with_state st1 (is_linear_args rw x M mul args c ts st))
  case case1 =>
    intro mul c ts st _ st1
    simp [is_linear, with_state]
  case case2 =>
    intro mul c ts st v hv _ st1
    simp only [is_linear, if_neg hv]
    exact is_linear_other_state _ _ _ _ _ _ _
  case case3 =>
    intro mul c ts st t2 r s ih h st1
    simp only [is_linear]
    apply ih
    simpa [inMod, hasSub] using h
  case case4 =>
    intro mul c ts st t1 r s hn ih h st1
    simp only [is_linear]
    apply ih
    simpa [inMod, hasSub] using h
  case case6 =>
    intro mul c ts st args ih h st1
    simp only [is_linear]
    apply ih
    simpa [inMod, hasSub] using h
  case case7 =>
    intro mul c ts st t1 t2 hnone ih h st1
    have h1 : inMod x t1 = false := by
      simp only [inMod, hasSub, Bool.or_eq_false_iff] at h ⊢
      exact h.1.2
    simp only [is_linear, hnone, ih h1 st1, with_state, Option.map_none']
  case case8 =>
    intro mul c ts st t1 t2 c2 ts2 st2 hsome ih1 ih2 h st1
    have h1 : inMod x t1 = false ∧ inMod x t2 = false := by
      simp only [inMod, hasSub, Bool.or_eq_false_iff] at h ⊢
      exact ⟨h.1.2, h.2⟩
    simp only [is_linear, hsome, ih1 h1.1 st1, with_state, Option.map_some']
    exact ih2 h1.2 st1
  case case9 =>
    intro mul c ts st t1 ih h st1
    simp only [is_linear]
    apply ih
    simpa [inMod, hasSub] using h
  case case10 =>
    intro mul c ts st mul1 s _ st1
    simp [is_linear, with_state]
  case case11 =>
    intro mul c ts st t1 r s hocc hnone ih h st1
    rw [(inMod_mod x _ _ h).1] at hocc
    cases hocc
  case case12 =>
    intro mul c ts st t1 r s hocc c2 ts2 st2 hsome ih h st1
    rw [(inMod_mod x _ _ h).1] at hocc
    cases hocc
  case case13 =>
    intro mul c ts st t1 r s hocc h st1
    simp only [is_linear, hocc]
    exact is_linear_other_state _ _ _ _ _ _ _
  case case27 =>
    intro mul c ts st _ st1
    simp [is_linear_args, with_state]
  case case28 =>
    intro mul c ts st t tail hnone ih h st1
    have h1 : inMod x t = false := by
      simp only [hasSubList, Bool.or_eq_false_iff] at h
      exact h.1
    simp only [is_linear_args, hnone, ih h1 st1, with_state, Option.map_none']
  case case29 =>
    intro mul c ts st t tail c2 ts2 st2 hsome ih1 ih2 h st1
    simp only [hasSubList, Bool.or_eq_false_iff] at h
    simp only [is_linear_args, hsome, ih1 h.1 st1, with_state, Option.map_some']
    exact ih2 h.2 st1
  all_goals
    intros
    simp only [is_linear]
    exact is_linear_other_state _ _ _ _ _ _ _

theorem is_linear_pair_state (rw : Expr → Expr) (x : Var) (M : Model) (mul : ℚ)
    (e1 e2 : Expr) (st st1 : State) (h1 : inMod x e1 = false) (h2 : inMod x e2 = false) :
    is_linear_pair rw x M mul e1 e2 st1 = with_state st1 (is_linear_pair rw x M mul e1 e2 st) := by
  unfold is_linear_pair
  rw [is_linear_state rw x M mul e1 0 [] st h1 st1]
  cases h : is_linear rw x M mul e1 0 [] st with
  | none => rfl
  | some r =>
    obtain ⟨c2, ts2, st2⟩ := r
    simp only [with_state, Option.map_some']
    exact is_linear_state rw x M (-mul) e2 c2 ts2 st2 h2 st1

theorem is_linear_finish_state (x : Var) (s e : Bool) (st1 : State)
    (r : Option (ℚ × List Expr × State)) :
    is_linear_finish x s e (with_state st1 r) = with_state_lit st1 (is_linear_finish x s e r) := by
  cases r with
  | none => rfl
  | some p =>
    simp only [with_state, Option.map_some', is_linear_finish, with_state_lit]
    split <;> rfl

theorem inMod_binary (x : Var) {a b : Expr} {l : Expr}
    (hl : l = .le a b ∨ l = .ge a b ∨ l = .lt a b ∨ l = .gt a b ∨ l = .eq a b)
    (h : inMod x l = false) : inMod x a = false ∧ inMod x b = false := by
  rcases hl with rfl | rfl | rfl | rfl | rfl <;>
  · simp only [inMod, hasSub, Bool.or_eq_false_iff] at h ⊢
    exact ⟨h.1.2, h.2⟩

theorem is_linear_atom_state (rw : Expr → Expr) (x : Var) (M : Model) (is_not : Bool) (mul : ℚ)
    (l : Expr) (st st1 : State) (h : inMod x l = false) :
    is_linear_atom rw x M is_not mul l st1
      = with_state_lit st1 (is_linear_atom rw x M is_not mul l st) := by
  unfold is_linear_atom
  split
  · obtain ⟨h1, h2⟩ := inMod_binary x (Or.inl rfl) h
    rw [is_linear_pair_state rw x M mul _ _ st st1 h1 h2, is_linear_finish_state]
  · obtain ⟨h1, h2⟩ := inMod_binary x (Or.inr (Or.inl rfl)) h
    rw [is_linear_pair_state rw x M mul _ _ st st1 h2 h1, is_linear_finish_state]
  · obtain ⟨h1, h2⟩ := inMod_binary x (Or.inr (Or.inr (Or.inl rfl))) h
    rw [is_linear_pair_state rw x M mul _ _ st st1 h1 h2, is_linear_finish_state]
  · obtain ⟨h1, h2⟩ := inMod_binary x (Or.inr (Or.inr (Or.inr (Or.inl rfl)))) h
    rw [is_linear_pair_state rw x M mul _ _ st st1 h2 h1, is_linear_finish_state]
  · obtain ⟨h1, h2⟩ := inMod_binary x (Or.inr (Or.inr (Or.inr (Or.inr rfl)))) h
    split
    · split
      · rw [is_linear_pair_state rw x M mul _ _ st st1 h1 h2, is_linear_finish_state]
      · split
        · rw [is_linear_pair_state rw x M mul _ _ st st1 h2 h1, is_linear_finish_state]
        · rw [is_linear_pair_state rw x M mul _ _ st st1 h1 h2, is_linear_finish_state]
    · rfl
  · rfl

theorem is_linear_lit_state (rw : Expr → Expr) (x : Var) (M : Model) (l : Expr)
    (st st1 : State) (h : inMod x l = false) :
    is_linear_lit rw x M l st1 = with_state_lit st1 (is_linear_lit rw x M l st) := by
  unfold is_linear_lit
  split
  · apply is_linear_atom_state
    simp only [inMod, hasSub, Bool.or_eq_false_iff] at h ⊢
    exact h.2
  · exact is_linear_atom_state rw x M false 1 l st st1 h

theorem add_lit_length (rw : Expr → Expr) (lits : List Expr) (e : Expr) :
    (add_lit rw lits e).length ≤ lits.length + 1 := by
  unfold add_lit
  split <;> simp

theorem project_step_eq_inv {rw : Expr → Expr} {x : Var} {M : Model}
    {acc acc1 : State × Counters} {e : Expr} (hm : inMod x e = false)
    (h : project_step rw x M acc e = some acc1) :
    acc1.1.m_divs = acc.1.m_divs ∧
    acc1.1.m_new_lits.length + acc1.1.m_ineqs.length
      ≤ acc.1.m_new_lits.length + acc.1.m_ineqs.length + 1 ∧
    ((acc.2.found_eq = true → acc.2.eq_index < acc.1.m_ineqs.length) →
      (acc1.2.found_eq = true → acc1.2.eq_index < acc1.1.m_ineqs.length)) ∧
    (acc.2.found_eq = true → acc1.2.found_eq = true) ∧
    (isEqualityOn rw x M e → acc1.2.found_eq = true) := by
  unfold project_step at h
  split at h
  · rename_i hocc
    simp only [Option.some.injEq] at h
    subst h
    refine ⟨rfl, ?_, fun h => h, fun h => h, ?_⟩
    · simp
      omega
    · intro he
      rw [he.1] at hocc
      simp at hocc
  · have hst := is_linear_lit_state rw x M e acc.1 acc.1 hm
    have hres := is_linear_lit_state rw x M e reset acc.1 hm
    split at h
    · cases h
    · rename_i c t is_strict is_eq st1 hlit
      rw [hlit] at hst
      simp only [with_state_lit, Option.map_some', Option.some.injEq, Prod.mk.injEq,
        true_and] at hst
      subst hst
      split at h
      · rename_i hc
        simp only [Option.some.injEq] at h
        subst h
        refine ⟨rfl, ?_, fun h => h, fun h => h, ?_⟩
        · have := add_lit_length rw acc.1.m_new_lits
            (if is_eq = true then Expr.eq t (mk_num x 0)
              else if is_strict = true then Expr.lt t (mk_num x 0) else Expr.le t (mk_num x 0))
          simp only
          omega
        · intro he
          obtain ⟨-, c0, t0, s0, st0, h0, hc0⟩ := he
          rw [h0] at hres
          simp only [with_state_lit, Option.map_some'] at hres
          rw [hlit] at hres
          simp only [Option.some.injEq, Prod.mk.injEq] at hres
          exact absurd (hres.1 ▸ hc) hc0
      · rename_i hc
        split at h
        · simp only [Option.some.injEq] at h
          subst h
          refine ⟨rfl, ?_, ?_, fun _ => rfl, fun _ => rfl⟩
          · simp
            omega
          · intro _ _
            simp
        · rename_i heq
          have hne : isEqualityOn rw x M e → False := by
            intro he
            obtain ⟨-, c0, t0, s0, st0, h0, hc0⟩ := he
            rw [h0] at hres
            simp only [with_state_lit, Option.map_some'] at hres
            rw [hlit] at hres
            simp only [Option.some.injEq, Prod.mk.injEq] at hres
            exact heq hres.2.2.2.1
          split at h <;>
          · simp only [Option.some.injEq] at h
            subst h
            refine ⟨rfl, ?_, ?_, fun h => h, fun he => (hne he).elim⟩
            · simp
              omega
            · intro h0 h1
              have := h0 h1
              simp
              omega

theorem project_loop_eq_inv {rw : Expr → Expr} {x : Var} {M : Model} (lits : List Expr) :
    ∀ (acc acc1 : State × Counters), (∀ l ∈ lits, inMod x l = false) →
      project_loop rw x M lits acc = some acc1 →
      acc1.1.m_divs = acc.1.m_divs ∧
      acc1.1.m_new_lits.length + acc1.1.m_ineqs.length
        ≤ acc.1.m_new_lits.length + acc.1.m_ineqs.length + lits.length ∧
      ((acc.2.found_eq = true → acc.2.eq_index < acc.1.m_ineqs.length) →
        (acc1.2.found_eq = true → acc1.2.eq_index < acc1.1.m_ineqs.length)) ∧
      (acc.2.found_eq = true → acc1.2.found_eq = true) ∧
      ((∃ l ∈ lits, isEqualityOn rw x M l) → acc1.2.found_eq = true) := by
  induction lits with
  | nil =>
    intro acc acc1 _ h
    simp only [project_loop, Option.some.injEq] at h
    subst h
    exact ⟨rfl, by simp, fun h => h, fun h => h, fun ⟨l, hl, _⟩ => by cases hl⟩
  | cons e es ih =>
    intro acc acc1 hm h
    simp only [project_loop] at h
    split at h
    · cases h
    · rename_i acc2 h2
      obtain ⟨a1, a2, a3, a4, a5⟩ := project_step_eq_inv (hm e (List.mem_cons_self _ _)) h2
      obtain ⟨b1, b2, b3, b4, b5⟩ :=
        ih acc2 acc1 (fun l hl => hm l (List.mem_cons_of_mem _ hl)) h
      refine ⟨b1.trans a1, ?_, fun h0 => b3 (a3 h0), fun h0 => b4 (a4 h0), ?_⟩
      · simp only [List.length_cons]
        omega
      · rintro ⟨l, hl, he⟩
        rcases List.mem_cons.1 hl with rfl | hl
        · exact b4 (a5 he)
        · exact b5 ⟨l, hl, he⟩

theorem apply_equality_ineqs_length (rw : Expr → Expr) (x : Var) (c : ℚ) (t : Expr) (k : Nat)
    (ineqs : List Ineq) :
    ∀ i lits, (apply_equality_ineqs rw x c t k ineqs i lits).length
        + (if i ≤ k ∧ k < i + ineqs.length then 1 else 0) ≤ lits.length + ineqs.length := by
  induction ineqs with
  | nil =>
    intro i lits
    simp only [apply_equality_ineqs, List.length_nil, Nat.add_zero]
    split <;> omega
  | cons q rest ih =>
    intro i lits
    simp only [apply_equality_ineqs, List.length_cons]
    split
    · rename_i hk
      generalize (if q.strict = true then
          Expr.lt (Expr.sub (mk_mul x c q.term) (mk_mul x q.coeff t)) (mk_num x 0)
        else Expr.le (Expr.sub (mk_mul x c q.term) (mk_mul x q.coeff t)) (mk_num x 0)) = lit
      have h1 := ih (i + 1) (add_lit rw lits lit)
      have h2 := add_lit_length rw lits lit
      split_ifs at h1 ⊢ <;> omega
    · rename_i hk
      have h1 := ih (i + 1) lits
      split_ifs at h1 ⊢ <;> omega

theorem apply_equality_length (rw : Expr → Expr) (x : Var) (st : State) (k : Nat)
    (lits : List Expr) (hd : st.m_divs = []) (hk : k < st.m_ineqs.length) :
    (apply_equality rw x st k lits).length ≤ lits.length + st.m_ineqs.length := by
  unfold apply_equality
  simp only [hd, apply_equality_divs]
  have h1 := apply_equality_ineqs_length rw x (ineq_coeff st k) (ineq_term st k) k st.m_ineqs 0
    (if is_int x = true then add_lit rw lits (mk_divides x (ineq_coeff st k) (ineq_term st k))
      else lits)
  have h2 := add_lit_length rw lits (mk_divides x (ineq_coeff st k) (ineq_term st k))
  have hcond : 0 ≤ k ∧ k < 0 + st.m_ineqs.length := ⟨Nat.zero_le _, by omega⟩
  rw [if_pos hcond] at h1
  cases hi : is_int x
  · simp only [hi, Bool.false_eq_true, if_false] at h1 ⊢
    omega
  · simp only [hi, if_true] at h1 ⊢
    omega

end arith_project_util

open arith_project_util in
/-- C7 as stated fails: the literals `x = 0` and `x·x ≤ 0`, both true for `x = 0`, contain
an arithmetic equality with coefficient 1 of `x` and no `mod` term, yet `project` does not
succeed on them: the second literal raises `cant_project`. -/
theorem equality_short_circuit_can_throw :
    [Expr.eq (.var vx) (inum 0), Expr.le (.mul (.var vx) (.var vx)) (inum 0)].map
      (fun l => holds (model_xyz 0 0 0) l && !(inMod vx l)) = [true, true] ∧
    (is_linear_lit id vx (model_xyz 0 0 0) (.eq (.var vx) (inum 0)) reset).map
      (fun r => (r.1, r.2.2.2.1)) = some (1, true) ∧
    (project id vx (model_xyz 0 0 0)
      [.eq (.var vx) (inum 0), .le (.mul (.var vx) (.var vx)) (inum 0)]).isNone = true := by
  decide!

open arith_project_util in
/-- C7 amended, the equality short-circuit: if every literal containing `x` is in the linear
fragment (a comparison whose sides are built from `x`, `x`-free terms, numerals, `+`, `-`
and multiplication by a numeral), no literal has a `mod` term containing `x`, and some
literal is an arithmetic equality whose linear form has a non-zero coefficient of `x`, then
`project` returns, the model is unchanged, the output has at most `|lits|` literals, and it
is exactly what `apply_equality` makes of `m_new_lits` for the recorded `eq_index`: nothing
is emitted by `find_max`, `mk_le`, `mk_lt`, `mk_int_lt` or `apply_divides`. -/
theorem equality_short_circuit (rw : Expr → Expr) (x : Var) (M : Model) (lits : List Expr)
    (hlin : ∀ l ∈ lits, occurs x l = true → linLit x l = true)
    (hmod : ∀ l ∈ lits, inMod x l = false) (heq : ∃ l ∈ lits, isEqualityOn rw x M l) :
    ∃ out, project rw x M lits = some (out, M) ∧
      project_outcome rw x M lits = Outcome.returns out M ∧ out.length ≤ lits.length ∧
      ∃ st cn, classify rw x M lits = some (st, cn) ∧ cn.found_eq = true ∧ st.m_divs = [] ∧
        out = apply_equality rw x st cn.eq_index st.m_new_lits := by
  have hsome := project_lin rw x M lits hlin
  cases hc : classify rw x M lits with
  | none =>
    unfold project at hsome
    rw [hc] at hsome
    cases hsome
  | some r =>
    obtain ⟨st, cn⟩ := r
    obtain ⟨h1, h2, h3, -, h5⟩ := project_loop_eq_inv lits _ _ hmod hc
    have hf : cn.found_eq = true := h5 heq
    have hk : cn.eq_index < st.m_ineqs.length := h3 (by simp) hf
    have hfin : project_finish rw x M st cn
        = (apply_equality rw x st cn.eq_index st.m_new_lits, M) := by
      simp only [project_finish, hf, if_true]
    refine ⟨apply_equality rw x st cn.eq_index st.m_new_lits, ?_, ?_, ?_,
      st, cn, rfl, hf, h1, rfl⟩
    · unfold project
      rw [hc]
      simp only [hfin]
    · unfold project_outcome
      rw [hc]
      simp only [divides_by_zero, hf, Bool.not_true, Bool.false_and, Bool.false_eq_true,
        if_false, hfin]
    · have := apply_equality_length rw x st cn.eq_index st.m_new_lits h1 hk
      simp only [reset, List.length_nil] at h2
      omega

end qe

namespace qe
namespace arith_project_util

theorem eval_mk_num (x : Var) (N : Model) (r : ℚ) : eval N (mk_num x r) = r := by
  simp [mk_num, eval]

theorem eval_mk_mul (x : Var) (N : Model) (r : ℚ) (t : Expr) :
    eval N (mk_mul x r t) = r * eval N t := by
  unfold mk_mul
  split
  · rename_i h
    simp [h]
  · simp [eval, eval_mk_num]

theorem evalSum_append (N : Model) (ts : List Expr) (e : Expr) :
    evalSum N (ts ++ [e]) = evalSum N ts + eval N e := by
  induction ts with
  | nil => simp [evalSum]
  | cons t ts ih => simp [evalSum, ih, add_assoc]

theorem eval_add (x : Var) (N : Model) (ts : List Expr) : eval N (add x ts) = evalSum N ts := by
  unfold add
  split
  · rename_i h
    have : ts = [] := by simpa using h
    subst this
    simp [eval_mk_num, evalSum]
  · simp [eval]

theorem is_linear_other_sem {x : Var} {mul : ℚ} {t : Expr} {c : ℚ} {ts : List Expr} {st : State}
    {c1 : ℚ} {ts1 : List Expr} {st1 : State}
    (h : is_linear_other x mul t c ts st = some (c1, ts1, st1)) (N : Model) :
    c1 * N.val x + evalSum N ts1 = mul * eval N t + c * N.val x + evalSum N ts := by
  unfold is_linear_other at h
  split at h
  · cases h
  · simp only [Option.some.injEq, Prod.mk.injEq] at h
    obtain ⟨rfl, rfl, -⟩ := h
    rw [evalSum_append, eval_mk_mul]
    ring

theorem is_linear_sem (rw : Expr → Expr) (x : Var) (M : Model) (mul : ℚ) (t : Expr) (c : ℚ)
    (ts : List Expr) (st : State) :
    inMod x t = false → ∀ c1 ts1 st1, is_linear rw x M mul t c ts st = some (c1, ts1, st1) →
      ∀ N : Model,
        c1 * N.val x + evalSum N ts1 = mul * eval N t + c * N.val x + evalSum N ts := by
  apply is_linear.induct rw x M
    (fun mul t c ts st => inMod x t = false → ∀ c1 ts1 st1,
      is_linear rw x M mul t c ts st = some (c1, ts1, st1) → ∀ N : Model,
        c1 * N.val x + evalSum N ts1 = mul * eval N t + c * N.val x + evalSum N ts)
    (fun mul args c ts st =>
      hasSubList (fun s => match s with
        | .mod t1 t2 => occurs x t1 || occurs x t2
        | _ => false) args = false →
      ∀ c1 ts1 st1, is_linear_args rw x M mul args c ts st = some (c1, ts1, st1) →
        ∀ N : Model,
          c1 * N.val x + evalSum N ts1 = mul * evalSum N args + c * N.val x + evalSum N ts)
  case case1 =>
    intro mul c ts st _ c1 ts1 st1 h N
    simp only [is_linear, if_true, Option.some.injEq, Prod.mk.injEq] at h
    obtain ⟨rfl, rfl, -⟩ := h
    simp only [eval]
    ring
  case case2 =>
    intro mul c ts st v hv _ c1 ts1 st1 h N
    simp only [is_linear, if_neg hv] at h
    exact is_linear_other_sem h N
  case case3 =>
    intro mul c ts st t2 r s ih hm c1 ts1 st1 h N
    simp only [is_linear] at h
    have hm2 : inMod x t2 = false := by simpa [inMod, hasSub] using hm
    rw [ih hm2 c1 ts1 st1 h N]
    simp only [eval]
    ring
  case case4 =>
    intro mul c ts st t1 r s hn ih hm c1 ts1 st1 h N
    simp only [is_linear] at h
    have hm2 : inMod x t1 = false := by simpa [inMod, hasSub] using hm
    rw [ih hm2 c1 ts1 st1 h N]
    simp only [eval]
    ring
  case case6 =>
    intro mul c ts st args ih hm c1 ts1 st1 h N
    simp only [is_linear] at h
    have hm2 := ih (by simpa [inMod, hasSub] using hm) c1 ts1 st1 h N
    rw [hm2]
    simp only [eval]
  case case7 =>
    intro mul c ts st t1 t2 hnone ih hm c1 ts1 st1 h N
    simp only [is_linear, hnone] at h
    cases h
  case case8 =>
    intro mul c ts st t1 t2 c2 ts2 st2 hsome ih1 ih2 hm c1 ts1 st1 h N
    simp only [is_linear, hsome] at h
    have hm1 : inMod x t1 = false ∧ inMod x t2 = false := by
      simp only [inMod, hasSub, Bool.or_eq_false_iff] at hm ⊢
      exact ⟨hm.1.2, hm.2⟩
    have e2 := ih2 hm1.2 c1 ts1 st1 h N
    have e1 := ih1 hm1.1 c2 ts2 st2 hsome N
    simp only [eval]
    linarith
  case case9 =>
    intro mul c ts st t1 ih hm c1 ts1 st1 h N
    simp only [is_linear] at h
    rw [ih (by simpa [inMod, hasSub] using hm) c1 ts1 st1 h N]
    simp only [eval]
    ring
  case case10 =>
    intro mul c ts st mul1 s _ c1 ts1 st1 h N
    simp only [is_linear, Option.some.injEq, Prod.mk.injEq] at h
    obtain ⟨rfl, rfl, -⟩ := h
    rw [evalSum_append, eval_mk_num]
    simp only [eval]
    ring
  case case11 =>
    intro mul c ts st t1 r s hocc hnone ih hm
    rw [(inMod_mod x _ _ hm).1] at hocc
    cases hocc
  case case12 =>
    intro mul c ts st t1 r s hocc c2 ts2 st2 hsome ih hm
    rw [(inMod_mod x _ _ hm).1] at hocc
    cases hocc
  case case13 =>
    intro mul c ts st t1 r s hocc _ c1 ts1 st1 h N
    simp only [is_linear, hocc] at h
    exact is_linear_other_sem h N
  case case27 =>
    intro mul c ts st _ c1 ts1 st1 h N
    simp only [is_linear_args, Option.some.injEq, Prod.mk.injEq] at h
    obtain ⟨rfl, rfl, -⟩ := h
    simp [evalSum]
  case case28 =>
    intro mul c ts st t tail hnone ih hm c1 ts1 st1 h N
    simp only [is_linear_args, hnone] at h
    cases h
  case case29 =>
    intro mul c ts st t tail c2 ts2 st2 hsome ih1 ih2 hm c1 ts1 st1 h N
    simp only [is_linear_args, hsome] at h
    simp only [hasSubList, Bool.or_eq_false_iff] at hm
    have e2 := ih2 hm.2 c1 ts1 st1 h N
    have e1 := ih1 hm.1 c2 ts2 st2 hsome N
    simp only [evalSum]
    linarith
  all_goals
    intros
    rename_i h N
    simp only [is_linear] at h
    exact is_linear_other_sem h N

theorem mem_of_getElem_some {α : Type} {l : List α} {i : Nat} {a : α}
    (h : l[i]? = some a) : a ∈ l := by
  rw [List.getElem?_eq_some] at h
  obtain ⟨hi, rfl⟩ := h
  exact List.getElem_mem hi

theorem getD_of_getElem? {α : Type} {l : List α} {i : Nat} {a : α} (d : α)
    (h : l[i]? = some a) : l.getD i d = a := by
  simp [List.getD_eq_getElem?_getD, h]

end arith_project_util
end qe

namespace qe

mutual
theorem eval_register_of_free (x : Var) (v : ℚ) (N : Model) :
    ∀ e : Expr, occurs x e = false → eval (N.register_decl x v) e = eval N e
  | .var w, h => by
    simp only [occurs, decide_eq_false_iff_not] at h
    simp [eval, Model.register_decl, h]
  | .num _ _, _ => by simp [eval]
  | .add args, h => by
    simp only [occurs] at h
    simp only [eval, evalSum_register_of_free x v N args h]
  | .mul t1 t2, h => by
    simp only [occurs, Bool.or_eq_false_iff] at h
    simp only [eval, eval_register_of_free x v N t1 h.1, eval_register_of_free x v N t2 h.2]
  | .sub t1 t2, h => by
    simp only [occurs, Bool.or_eq_false_iff] at h
    simp only [eval, eval_register_of_free x v N t1 h.1, eval_register_of_free x v N t2 h.2]
  | .uminus t, h => by
    simp only [occurs] at h
    simp only [eval, eval_register_of_free x v N t h]
  | .mod t1 t2, h => by
    simp only [occurs, Bool.or_eq_false_iff] at h
    simp only [eval, eval_register_of_free x v N t1 h.1, eval_register_of_free x v N t2 h.2]
  | .le _ _, _ => by simp [eval]
  | .ge _ _, _ => by simp [eval]
  | .lt _ _, _ => by simp [eval]
  | .gt _ _, _ => by simp [eval]
  | .eq _ _, _ => by simp [eval]
  | .not _, _ => by simp [eval]
  | .tt, _ => by simp [eval]
  | .ff, _ => by simp [eval]
  | .and _, _ => by simp [eval]
  | .or _, _ => by simp [eval]
  | .implies _ _, _ => by simp [eval]
  | .app f s args, h => by
    simp only [occurs] at h
    simp only [eval, evalList_register_of_free x v N args h]
    rfl
theorem evalSum_register_of_free (x : Var) (v : ℚ) (N : Model) :
    ∀ es : List Expr, occursList x es = false →
      evalSum (N.register_decl x v) es = evalSum N es
  | [], _ => by simp [evalSum]
  | e :: es, h => by
    simp only [occursList, Bool.or_eq_false_iff] at h
    simp only [evalSum, eval_register_of_free x v N e h.1,
      evalSum_register_of_free x v N es h.2]
theorem evalList_register_of_free (x : Var) (v : ℚ) (N : Model) :
    ∀ es : List Expr, occursList x es = false →
      evalList (N.register_decl x v) es = evalList N es
  | [], _ => by simp [evalList]
  | e :: es, h => by
    simp only [occursList, Bool.or_eq_false_iff] at h
    simp only [evalList, eval_register_of_free x v N e h.1,
      evalList_register_of_free x v N es h.2]
end

mutual
theorem holds_register_of_free (x : Var) (v : ℚ) (N : Model) :
    ∀ e : Expr, occurs x e = false → holds (N.register_decl x v) e = holds N e
  | .var _, _ => by simp [holds, Model.register_decl]
  | .num _ _, _ => by simp [holds]
  | .add _, _ => by simp [holds]
  | .mul _ _, _ => by simp [holds]
  | .sub _ _, _ => by simp [holds]
  | .uminus _, _ => by simp [holds]
  | .mod _ _, _ => by simp [holds]
  | .le e1 e2, h => by
    simp only [occurs, Bool.or_eq_false_iff] at h
    simp only [holds, eval_register_of_free x v N e1 h.1, eval_register_of_free x v N e2 h.2]
  | .ge e1 e2, h => by
    simp only [occurs, Bool.or_eq_false_iff] at h
    simp only [holds, eval_register_of_free x v N e1 h.1, eval_register_of_free x v N e2 h.2]
  | .lt e1 e2, h => by
    simp only [occurs, Bool.or_eq_false_iff] at h
    simp only [holds, eval_register_of_free x v N e1 h.1, eval_register_of_free x v N e2 h.2]
  | .gt e1 e2, h => by
    simp only [occurs, Bool.or_eq_false_iff] at h
    simp only [holds, eval_register_of_free x v N e1 h.1, eval_register_of_free x v N e2 h.2]
  | .eq e1 e2, h => by
    simp only [occurs, Bool.or_eq_false_iff] at h
    simp only [holds, eval_register_of_free x v N e1 h.1, eval_register_of_free x v N e2 h.2,
      holds_register_of_free x v N e1 h.1, holds_register_of_free x v N e2 h.2]
  | .not e, h => by
    simp only [occurs] at h
    simp only [holds, holds_register_of_free x v N e h]
  | .tt, _ => by simp [holds]
  | .ff, _ => by simp [holds]
  | .and args, h => by
    simp only [occurs] at h
    simp only [holds, holdsAll_register_of_free x v N args h]
  | .or args, h => by
    simp only [occurs] at h
    simp only [holds, holdsSome_register_of_free x v N args h]
  | .implies e1 e2, h => by
    simp only [occurs, Bool.or_eq_false_iff] at h
    simp only [holds, holds_register_of_free x v N e1 h.1, holds_register_of_free x v N e2 h.2]
  | .app f s args, h => by
    simp only [occurs] at h
    simp only [holds, evalList_register_of_free x v N args h]
    rfl
theorem holdsAll_register_of_free (x : Var) (v : ℚ) (N : Model) :
    ∀ es : List Expr, occursList x es = false →
      holdsAll (N.register_decl x v) es = holdsAll N es
  | [], _ => by simp [holdsAll]
  | e :: es, h => by
    simp only [occursList, Bool.or_eq_false_iff] at h
    simp only [holdsAll, holds_register_of_free x v N e h.1,
      holdsAll_register_of_free x v N es h.2]
theorem holdsSome_register_of_free (x : Var) (v : ℚ) (N : Model) :
    ∀ es : List Expr, occursList x es = false →
      holdsSome (N.register_decl x v) es = holdsSome N es
  | [], _ => by simp [holdsSome]
  | e :: es, h => by
    simp only [occursList, Bool.or_eq_false_iff] at h
    simp only [holdsSome, holds_register_of_free x v N e h.1,
      holdsSome_register_of_free x v N es h.2]
end

end qe

/-! ## Structural equality of expressions -/

namespace qe

mutual
theorem Expr.beq_refl : ∀ a : Expr, Expr.beq a a = true
  | .var v => by show decide (v = v) = true; simp
  | .num r s => by show (decide (r = r) && decide (s = s)) = true; simp
  | .add as => by show Expr.beqList as as = true; exact Expr.beqList_refl as
  | .mul a b => by
    show (Expr.beq a a && Expr.beq b b) = true
    rw [Expr.beq_refl a, Expr.beq_refl b]; rfl
  | .sub a b => by
    show (Expr.beq a a && Expr.beq b b) = true
    rw [Expr.beq_refl a, Expr.beq_refl b]; rfl
  | .uminus a => by show Expr.beq a a = true; exact Expr.beq_refl a
  | .mod a b => by
    show (Expr.beq a a && Expr.beq b b) = true
    rw [Expr.beq_refl a, Expr.beq_refl b]; rfl
  | .le a b => by
    show (Expr.beq a a && Expr.beq b b) = true
    rw [Expr.beq_refl a, Expr.beq_refl b]; rfl
  | .ge a b => by
    show (Expr.beq a a && Expr.beq b b) = true
    rw [Expr.beq_refl a, Expr.beq_refl b]; rfl
  | .lt a b => by
    show (Expr.beq a a && Expr.beq b b) = true
    rw [Expr.beq_refl a, Expr.beq_refl b]; rfl
  | .gt a b => by
    show (Expr.beq a a && Expr.beq b b) = true
    rw [Expr.beq_refl a, Expr.beq_refl b]; rfl
  | .eq a b => by
    show (Expr.beq a a && Expr.beq b b) = true
    rw [Expr.beq_refl a, Expr.beq_refl b]; rfl
  | .not a => by show Expr.beq a a = true; exact Expr.beq_refl a
  | .tt => rfl
  | .ff => rfl
  | .and as => by show Expr.beqList as as = true; exact Expr.beqList_refl as
  | .or as => by show Expr.beqList as as = true; exact Expr.beqList_refl as
  | .implies a b => by
    show (Expr.beq a a && Expr.beq b b) = true
    rw [Expr.beq_refl a, Expr.beq_refl b]; rfl
  | .app f s as => by
    show (decide (f = f) && decide (s = s) && Expr.beqList as as) = true
    rw [Expr.beqList_refl as]; simp
theorem Expr.beqList_refl : ∀ as : List Expr, Expr.beqList as as = true
  | [] => rfl
  | a :: as => by
    show (Expr.beq a a && Expr.beqList as as) = true
    rw [Expr.beq_refl a, Expr.beqList_refl as]; rfl
end
end qe

namespace qe

mutual
theorem Expr.eq_of_beq : ∀ a b : Expr, Expr.beq a b = true → a = b
  | .var v, b, h => by
    cases b <;> first
      | (have h2 : false = true := h; cases h2)
      | (rename_i w
         have h2 : decide (v = w) = true := h
         rw [of_decide_eq_true h2])
  | .num r s, b, h => by
    cases b <;> first
      | (have h2 : false = true := h; cases h2)
      | (rename_i r1 s1
         have h2 : (decide (r = r1) && decide (s = s1)) = true := h
         simp only [Bool.and_eq_true, decide_eq_true_eq] at h2
         rw [h2.1, h2.2])
  | .add as, b, h => by
    cases b <;> first
      | (have h2 : false = true := h; cases h2)
      | (rename_i bs
         have h2 : Expr.beqList as bs = true := h
         rw [Expr.eq_of_beqList as _ h2])
  | .mul a1 a2, b, h => by
    cases b <;> first
      | (have h2 : false = true := h; cases h2)
      | (rename_i b1 b2
         have h2 : (Expr.beq a1 b1 && Expr.beq a2 b2) = true := h
         simp only [Bool.and_eq_true] at h2
         rw [Expr.eq_of_beq a1 _ h2.1, Expr.eq_of_beq a2 _ h2.2])
  | .sub a1 a2, b, h => by
    cases b <;> first
      | (have h2 : false = true := h; cases h2)
      | (rename_i b1 b2
         have h2 : (Expr.beq a1 b1 && Expr.beq a2 b2) = true := h
         simp only [Bool.and_eq_true] at h2
         rw [Expr.eq_of_beq a1 _ h2.1, Expr.eq_of_beq a2 _ h2.2])
  | .uminus a1, b, h => by
    cases b <;> first
      | (have h2 : false = true := h; cases h2)
      | (rename_i b1
         have h2 : Expr.beq a1 b1 = true := h
         rw [Expr.eq_of_beq a1 _ h2])
  | .mod a1 a2, b, h => by
    cases b <;> first
      | (have h2 : false = true := h; cases h2)
      | (rename_i b1 b2
         have h2 : (Expr.beq a1 b1 && Expr.beq a2 b2) = true := h
         simp only [Bool.and_eq_true] at h2
         rw [Expr.eq_of_beq a1 _ h2.1, Expr.eq_of_beq a2 _ h2.2])
  | .le a1 a2, b, h => by
    cases b <;> first
      | (have h2 : false = true := h; cases h2)
      | (rename_i b1 b2
         have h2 : (Expr.beq a1 b1 && Expr.beq a2 b2) = true := h
         simp only [Bool.and_eq_true] at h2
         rw [Expr.eq_of_beq a1 _ h2.1, Expr.eq_of_beq a2 _ h2.2])
  | .ge a1 a2, b, h => by
    cases b <;> first
      | (have h2 : false = true := h; cases h2)
      | (rename_i b1 b2
         have h2 : (Expr.beq a1 b1 && Expr.beq a2 b2) = true := h
         simp only [Bool.and_eq_true] at h2
         rw [Expr.eq_of_beq a1 _ h2.1, Expr.eq_of_beq a2 _ h2.2])
  | .lt a1 a2, b, h => by
    cases b <;> first
      | (have h2 : false = true := h; cases h2)
      | (rename_i b1 b2
         have h2 : (Expr.beq a1 b1 && Expr.beq a2 b2) = true := h
         simp only [Bool.and_eq_true] at h2
         rw [Expr.eq_of_beq a1 _ h2.1, Expr.eq_of_beq a2 _ h2.2])
  | .gt a1 a2, b, h => by
    cases b <;> first
      | (have h2 : false = true := h; cases h2)
      | (rename_i b1 b2
         have h2 : (Expr.beq a1 b1 && Expr.beq a2 b2) = true := h
         simp only [Bool.and_eq_true] at h2
         rw [Expr.eq_of_beq a1 _ h2.1, Expr.eq_of_beq a2 _ h2.2])
  | .eq a1 a2, b, h => by
    cases b <;> first
      | (have h2 : false = true := h; cases h2)
      | (rename_i b1 b2
         have h2 : (Expr.beq a1 b1 && Expr.beq a2 b2) = true := h
         simp only [Bool.and_eq_true] at h2
         rw [Expr.eq_of_beq a1 _ h2.1, Expr.eq_of_beq a2 _ h2.2])
  | .not a1, b, h => by
    cases b <;> first
      | (have h2 : false = true := h; cases h2)
      | (rename_i b1
         have h2 : Expr.beq a1 b1 = true := h
         rw [Expr.eq_of_beq a1 _ h2])
  | .tt, b, h => by
    cases b <;> first
      | (have h2 : false = true := h; cases h2)
      | rfl
  | .ff, b, h => by
    cases b <;> first
      | (have h2 : false = true := h; cases h2)
      | rfl
  | .and as, b, h => by
    cases b <;> first
      | (have h2 : false = true := h; cases h2)
      | (rename_i bs
         have h2 : Expr.beqList as bs = true := h
         rw [Expr.eq_of_beqList as _ h2])
  | .or as, b, h => by
    cases b <;> first
      | (have h2 : false = true := h; cases h2)
      | (rename_i bs
         have h2 : Expr.beqList as bs = true := h
         rw [Expr.eq_of_beqList as _ h2])
  | .implies a1 a2, b, h => by
    cases b <;> first
      | (have h2 : false = true := h; cases h2)
      | (rename_i b1 b2
         have h2 : (Expr.beq a1 b1 && Expr.beq a2 b2) = true := h
         simp only [Bool.and_eq_true] at h2
         rw [Expr.eq_of_beq a1 _ h2.1, Expr.eq_of_beq a2 _ h2.2])
  | .app f s as, b, h => by
    cases b <;> first
      | (have h2 : false = true := h; cases h2)
      | (rename_i g s1 bs
         have h2 : (decide (f = g) && decide (s = s1) && Expr.beqList as bs) = true := h
         simp only [Bool.and_eq_true, decide_eq_true_eq] at h2
         rw [h2.1.1, h2.1.2, Expr.eq_of_beqList as _ h2.2])
theorem Expr.eq_of_beqList : ∀ as bs : List Expr, Expr.beqList as bs = true → as = bs
  | [], bs, h => by
    cases bs <;> first
      | rfl
      | (have h2 : false = true := h; cases h2)
  | a :: as, bs, h => by
    cases bs <;> first
      | (have h2 : false = true := h; cases h2)
      | (rename_i b bs1
         have h2 : (Expr.beq a b && Expr.beqList as bs1) = true := h
         simp only [Bool.and_eq_true] at h2
         rw [Expr.eq_of_beq a _ h2.1, Expr.eq_of_beqList as _ h2.2])
end

theorem Expr.beq_iff (a b : Expr) : (a == b) = true ↔ a = b :=
  ⟨Expr.eq_of_beq a b, fun h => h ▸ Expr.beq_refl a⟩

theorem Expr.bne_iff (a b : Expr) : (a == b) = false ↔ a ≠ b := by
  rw [Ne, ← Expr.beq_iff]
  cases (a == b) <;> simp

end qe

/-! ## Association lists keyed by expressions -/

namespace qe
namespace qsat

theorem map_find_nil {β : Type} (k : Expr) : map_find ([] : List (Expr × β)) k = none := rfl

theorem map_find_cons_same {β : Type} (m : List (Expr × β)) (a : Expr) (b : β) :
    map_find ((a, b) :: m) a = some b := by
  unfold map_find
  rw [List.find?_cons_of_pos _ (by simpa using (Expr.beq_iff a a).2 rfl)]
  rfl

theorem map_find_cons_other {β : Type} (m : List (Expr × β)) (a : Expr) (b : β) (k : Expr)
    (h : a ≠ k) : map_find ((a, b) :: m) k = map_find m k := by
  unfold map_find
  rw [List.find?_cons_of_neg _ (by simpa using (Expr.bne_iff a k).2 h)]

theorem map_find_remove_same {β : Type} (m : List (Expr × β)) (k : Expr) :
    map_find (map_remove m k) k = none := by
  induction m with
  | nil => rfl
  | cons p m ih =>
    obtain ⟨a, b⟩ := p
    unfold map_remove at ih ⊢
    by_cases h : a = k
    · rw [List.filter_cons_of_neg (by simpa using (Expr.beq_iff a k).2 h)]
      exact ih
    · rw [List.filter_cons_of_pos (by simpa using (Expr.bne_iff a k).2 h),
        map_find_cons_other _ _ _ _ h]
      exact ih

theorem map_find_remove_other {β : Type} (m : List (Expr × β)) (k k1 : Expr) (hne : k1 ≠ k) :
    map_find (map_remove m k) k1 = map_find m k1 := by
  induction m with
  | nil => rfl
  | cons p m ih =>
    obtain ⟨a, b⟩ := p
    unfold map_remove at ih ⊢
    by_cases h : a = k
    · rw [List.filter_cons_of_neg (by simpa using (Expr.beq_iff a k).2 h),
        map_find_cons_other _ _ _ _ (by rw [h]; exact fun hc => hne hc.symm)]
      exact ih
    · rw [List.filter_cons_of_pos (by simpa using (Expr.bne_iff a k).2 h)]
      by_cases h2 : a = k1
      · subst h2
        rw [map_find_cons_same, map_find_cons_same]
      · rw [map_find_cons_other _ _ _ _ h2, map_find_cons_other _ _ _ _ h2, ih]

theorem map_find_append {β : Type} (m1 m2 : List (Expr × β)) (k : Expr) :
    map_find (m1 ++ m2) k = (map_find m1 k).orElse (fun _ => map_find m2 k) := by
  induction m1 with
  | nil => rfl
  | cons p m ih =>
    obtain ⟨a, b⟩ := p
    rw [List.cons_append]
    by_cases h : a = k
    · subst h
      rw [map_find_cons_same, map_find_cons_same]
      rfl
    · rw [map_find_cons_other _ _ _ _ h, map_find_cons_other _ _ _ _ h, ih]

theorem map_find_insert_same {β : Type} (m : List (Expr × β)) (k : Expr) (v : β) :
    map_find (map_insert m k v) k = some v := by
  unfold map_insert
  rw [map_find_append, map_find_remove_same, map_find_cons_same]
  rfl

theorem map_find_insert_other {β : Type} (m : List (Expr × β)) (k k1 : Expr) (v : β)
    (hne : k1 ≠ k) : map_find (map_insert m k v) k1 = map_find m k1 := by
  unfold map_insert
  rw [map_find_append, map_find_remove_other m k k1 hne,
    map_find_cons_other _ _ _ _ (fun hc => hne hc.symm), map_find_nil]
  cases map_find m k1 <;> rfl

end qsat
end qe

namespace qe
open arith_project_util

end qe

/-! ## The alternating loop: the answer of `check_sat` -/

namespace qe
namespace qsat

theorem sortOf_of_isProp : ∀ e : Expr, isProp e = true → sortOf e = .bool
  | .var v, hp => by simpa [isProp, sortOf] using hp
  | .tt, _ => rfl
  | .ff, _ => rfl
  | .not _, _ => rfl
  | .and _, _ => rfl
  | .or _, _ => rfl
  | .implies _ _, _ => rfl
  | .eq _ _, _ => rfl
  | .num _ _, hp => by simp [isProp] at hp
  | .add _, hp => by simp [isProp] at hp
  | .mul _ _, hp => by simp [isProp] at hp
  | .sub _ _, hp => by simp [isProp] at hp
  | .uminus _, hp => by simp [isProp] at hp
  | .mod _ _, hp => by simp [isProp] at hp
  | .le _ _, _ => rfl
  | .ge _ _, _ => rfl
  | .lt _ _, _ => rfl
  | .gt _ _, _ => rfl
  | .app _ _ _, hp => by simp [isProp] at hp

mutual
theorem holds_agree (n : Nat) (M N : Model) (hA : AgreeBelow n M N) :
    ∀ e : Expr, isProp e = true → idBound e ≤ n → holds M e = holds N e
  | .var v, hp, hb => by
    simp only [isProp, decide_eq_true_eq] at hp
    simp only [idBound] at hb
    simp only [holds]
    exact hA v hp (by omega)
  | .tt, _, _ => by simp [holds]
  | .ff, _, _ => by simp [holds]
  | .not e, hp, hb => by
    simp only [isProp] at hp
    simp only [idBound] at hb
    simp only [holds, holds_agree n M N hA e hp hb]
  | .and args, hp, hb => by
    simp only [isProp] at hp
    simp only [idBound] at hb
    simp only [holds, holdsAll_agree n M N hA args hp hb]
  | .or args, hp, hb => by
    simp only [isProp] at hp
    simp only [idBound] at hb
    simp only [holds, holdsSome_agree n M N hA args hp hb]
  | .implies e1 e2, hp, hb => by
    simp only [isProp, Bool.and_eq_true] at hp
    simp only [idBound, max_le_iff] at hb
    simp only [holds, holds_agree n M N hA e1 hp.1 hb.1, holds_agree n M N hA e2 hp.2 hb.2]
  | .eq e1 e2, hp, hb => by
    simp only [isProp, Bool.and_eq_true] at hp
    simp only [idBound, max_le_iff] at hb
    simp only [holds, holds_agree n M N hA e1 hp.1 hb.1, holds_agree n M N hA e2 hp.2 hb.2,
      sortOf_of_isProp e1 hp.1, if_true]
  | .num _ _, hp, _ => by simp [isProp] at hp
  | .add _, hp, _ => by simp [isProp] at hp
  | .mul _ _, hp, _ => by simp [isProp] at hp
  | .sub _ _, hp, _ => by simp [isProp] at hp
  | .uminus _, hp, _ => by simp [isProp] at hp
  | .mod _ _, hp, _ => by simp [isProp] at hp
  | .le _ _, hp, _ => by simp [isProp] at hp
  | .ge _ _, hp, _ => by simp [isProp] at hp
  | .lt _ _, hp, _ => by simp [isProp] at hp
  | .gt _ _, hp, _ => by simp [isProp] at hp
  | .app _ _ _, hp, _ => by simp [isProp] at hp
theorem holdsAll_agree (n : Nat) (M N : Model) (hA : AgreeBelow n M N) :
    ∀ es : List Expr, isPropList es = true → idBoundList es ≤ n →
      holdsAll M es = holdsAll N es
  | [], _, _ => by simp [holdsAll]
  | e :: es, hp, hb => by
    simp only [isPropList, Bool.and_eq_true] at hp
    simp only [idBoundList, max_le_iff] at hb
    simp only [holdsAll, holds_agree n M N hA e hp.1 hb.1,
      holdsAll_agree n M N hA es hp.2 hb.2]
theorem holdsSome_agree (n : Nat) (M N : Model) (hA : AgreeBelow n M N) :
    ∀ es : List Expr, isPropList es = true → idBoundList es ≤ n →
      holdsSome M es = holdsSome N es
  | [], _, _ => by simp [holdsSome]
  | e :: es, hp, hb => by
    simp only [isPropList, Bool.and_eq_true] at hp
    simp only [idBoundList, max_le_iff] at hb
    simp only [holdsSome, holds_agree n M N hA e hp.1 hb.1,
      holdsSome_agree n M N hA es hp.2 hb.2]
end

theorem range_map_mem_allAssign : ∀ (n : Nat) (f : Nat → Bool),
    (List.range n).map f ∈ allAssign n
  | 0, _ => by simp [allAssign]
  | n + 1, f => by
    have ih := range_map_mem_allAssign n (fun i => f (i + 1))
    rw [List.range_succ_eq_map, List.map_cons, List.map_map]
    simp only [allAssign, List.mem_append, List.mem_map]
    cases h0 : f 0
    · exact Or.inl ⟨_, ih, rfl⟩
    · exact Or.inr ⟨_, ih, rfl⟩

theorem bitsOf_mem (M : Model) (n : Nat) : bitsOf M n ∈ allAssign n :=
  range_map_mem_allAssign n _

theorem ofBits_bitsOf_agree (M : Model) (n : Nat) : AgreeBelow n M (ofBits (bitsOf M n)) := by
  intro v hs hlt
  have hv : v = ⟨v.id, .bool⟩ := by cases v; simp only [Var.mk.injEq, true_and]; exact hs
  simp only [ofBits, bitsOf, List.getD_eq_getElem?_getD, List.getElem?_map,
    List.getElem?_range hlt, Option.map_some', Option.getD_some]
  rw [← hv]

theorem isPropList_iff (es : List Expr) : isPropList es = true ↔ ∀ e ∈ es, isProp e = true := by
  induction es with
  | nil => simp [isPropList]
  | cons e es ih => simp [isPropList, ih]

theorem idBoundList_le_iff (n : Nat) (es : List Expr) :
    idBoundList es ≤ n ↔ ∀ e ∈ es, idBound e ≤ n := by
  induction es with
  | nil => simp [idBoundList]
  | cons e es ih => simp [idBoundList, ih]

theorem holdsAll_eq_true_iff (M : Model) (es : List Expr) :
    holdsAll M es = true ↔ ∀ e ∈ es, holds M e = true := by
  induction es with
  | nil => simp [holdsAll]
  | cons e es ih => simp [holdsAll, ih]

theorem findSat_some (n : Nat) (es : List Expr) (b : List Bool) (h : findSat n es = some b) :
    holdsAll (ofBits b) es = true := by
  unfold findSat at h
  exact List.find?_some (p := fun b => holdsAll (ofBits b) es) h

theorem findSat_none (n : Nat) (es : List Expr) (hp : isPropList es = true)
    (hb : idBoundList es ≤ n) (h : findSat n es = none) (M : Model) :
    holdsAll M es = false := by
  unfold findSat at h
  rw [List.find?_eq_none] at h
  have h1 := h (bitsOf M n) (bitsOf_mem M n)
  rw [holdsAll_agree n M _ (ofBits_bitsOf_agree M n) es hp hb]
  simpa using h1

theorem shrink_mem (n : Nat) (A : List Expr) : ∀ (rest kept : List Expr),
    ∀ e ∈ shrink n A kept rest, e ∈ kept ∨ e ∈ rest
  | [], kept, e, h => by
    simp only [shrink] at h
    exact Or.inl h
  | a :: rest, kept, e, h => by
    simp only [shrink] at h
    split at h
    · rcases shrink_mem n A rest kept e h with h1 | h1
      · exact Or.inl h1
      · exact Or.inr (List.mem_cons_of_mem _ h1)
    · rcases shrink_mem n A rest (kept ++ [a]) e h with h1 | h1
      · rcases List.mem_append.1 h1 with h2 | h2
        · exact Or.inl h2
        · simp only [List.mem_singleton] at h2
          exact Or.inr (h2 ▸ List.mem_cons_self _ _)
      · exact Or.inr (List.mem_cons_of_mem _ h1)

theorem shrink_unsat (n : Nat) (A : List Expr) : ∀ (rest kept : List Expr),
    findSat n (A ++ (kept ++ rest)) = none → findSat n (A ++ shrink n A kept rest) = none
  | [], kept, h => by
    simpa [shrink] using h
  | a :: rest, kept, h => by
    simp only [shrink]
    split
    · rename_i hc
      exact shrink_unsat n A rest kept (by simpa using hc)
    · apply shrink_unsat n A rest (kept ++ [a])
      simpa using h

theorem brute_oracle_correct : OracleCorrect brute_oracle := by
  intro asserted asms
  by_cases hp : isPropList (asserted ++ asms) = true
  · cases hf : findSat (idBoundList (asserted ++ asms)) (asserted ++ asms) with
    | some b =>
      simp only [brute_oracle, hp, hf, if_true]
      exact findSat_some _ _ b hf
    | none =>
      simp only [brute_oracle, hp, hf, if_true]
      have hmem := shrink_mem (idBoundList (asserted ++ asms)) asserted asms []
      have hsub : ∀ e ∈ shrink (idBoundList (asserted ++ asms)) asserted [] asms, e ∈ asms := by
        intro e he
        rcases hmem e he with h | h
        · cases h
        · exact h
      refine ⟨hsub, fun M => ?_⟩
      have hu := shrink_unsat (idBoundList (asserted ++ asms)) asserted asms []
        (by simpa using hf)
      apply findSat_none _ _ _ _ hu
      · rw [isPropList_iff] at hp ⊢
        intro e he
        rcases List.mem_append.1 he with h | h
        · exact hp e (List.mem_append_left _ h)
        · exact hp e (List.mem_append_right _ (hsub e h))
      · have hle := (idBoundList_le_iff (idBoundList (asserted ++ asms)) (asserted ++ asms)).1
          (le_refl _)
        rw [idBoundList_le_iff]
        intro e he
        rcases List.mem_append.1 he with h | h
        · exact hle e (List.mem_append_left _ h)
        · exact hle e (List.mem_append_right _ (hsub e h))
  · simp only [brute_oracle, hp]
    trivial

theorem game_matrix_false (M : Model) (h1 : M.bval y1 = true) (h3 : M.bval y3a = true) :
    holds M game_matrix = false := by
  simp [game_matrix, holds, holdsAll, holdsSome, h1, h3]

theorem game_has_no_model : ¬ HasModel ([] :: game_rest) game_matrix := by
  rintro ⟨M, h⟩
  simp only [game_rest, QHolds, QBlock, Bool.not_true, Bool.not_false, if_true, if_false,
    Bool.false_eq_true] at h
  obtain ⟨ra, ba, rb, bb, h2⟩ := h 0 true
  have h3 := h2 0 true 0 true
  rw [game_matrix_false _ (by simp [assign, y1, y3a, y3b, x2a, x2b])
    (by simp [assign, y1, y3a, y3b, x2a, x2b])] at h3
  exact Bool.false_ne_true h3

set_option maxRecDepth 100000 in
theorem game_run_result : (game_run 30).result = some lbool.l_true := by
  decide!

/-- C10, refuted for the answer `sat`: with an oracle that answers every query correctly,
`check_sat` returns `l_true` on `∀ y1 ∃ x2a x2b ∀ y3a y3b. game_matrix`, a hoisted formula
that has no model. At level 4 the core is `[y1, y3a]`; `backtrack` takes the level of `y1`,
which is 1, as the target although level 4 belongs to the existential player, persists
`¬(y1 ∧ true)` under the negated formula, and the query of level 1 is then unsatisfiable. -/
theorem check_sat_answers_sat_without_model :
    OracleCorrect brute_oracle ∧
      (run brute_oracle 5 30 [] [] game_rest game_matrix).result = some lbool.l_true ∧
      ¬ HasModel (hoist [] [] game_rest (reset 5)).m_vars game_matrix :=
  ⟨brute_oracle_correct, game_run_result, game_has_no_model⟩

end qsat
end qe

/-! ## The alternating loop: verdicts of one iteration -/

namespace qe
namespace qsat

theorem minimize_assignment_none (O : Oracle) (s : State) (a : List Expr) (nf : Expr) :
    minimize_assignment O s a nf = none ↔
      ∀ core, kernel_check O s (a ++ [nf]) ≠ Answer.unsat core := by
  unfold minimize_assignment
  cases h : kernel_check O s (a ++ [nf]) <;> simp

/-- C13, main-loop verdicts. One iteration of the loop of `check_sat` at state `s` returns
the answer `r` exactly in these cases: the query of the level is unsat and the level is 0
(`r = l_false`); it is unsat and the level is 1 (`r = l_true`); it is undef
(`r = l_undef`); it is sat and the minimisation query of `get_implicant` is not unsat
(`r = l_undef`). What an iteration returns is what the loop returns. -/
theorem check_sat_step_verdicts (O : Oracle) (s s1 : State) (r : lbool) :
    (check_sat_step O s = Sum.inl (Outcome.answer r s1) ↔
      s1 = s ∧
      ((∃ core, kernel_check O s (assume_tail s s.m_level s.m_assumptions ++ [get_fml s])
            = Answer.unsat core ∧ s.m_level = 0 ∧ r = lbool.l_false) ∨
       (∃ core, kernel_check O s (assume_tail s s.m_level s.m_assumptions ++ [get_fml s])
            = Answer.unsat core ∧ s.m_level = 1 ∧ r = lbool.l_true) ∨
       (kernel_check O s (assume_tail s s.m_level s.m_assumptions ++ [get_fml s])
            = Answer.undef ∧ r = lbool.l_undef) ∨
       (∃ mdl, kernel_check O s (assume_tail s s.m_level s.m_assumptions ++ [get_fml s])
            = Answer.sat mdl ∧
          (∀ core, kernel_check O s (implicant mdl s.m_atoms ++ [mk_not (get_fml s)])
            ≠ Answer.unsat core) ∧ r = lbool.l_undef))) ∧
    (∀ (fuel : Nat) (out : Outcome), check_sat_step O s = Sum.inl out →
      check_sat_loop O (fuel + 1) s = out) := by
  constructor
  · cases hk : kernel_check O s (assume_tail s s.m_level s.m_assumptions ++ [get_fml s]) with
    | sat mdl =>
      cases hm : minimize_assignment O s (implicant mdl s.m_atoms) (mk_not (get_fml s)) with
      | none =>
        have hm2 := (minimize_assignment_none O s _ _).1 hm
        simp only [check_sat_step, check_sat_asms, hk, hm]
        constructor
        · intro h
          injection h with h
          injection h with h1 h2
          exact ⟨h2.symm, Or.inr (Or.inr (Or.inr ⟨mdl, rfl, hm2, h1.symm⟩))⟩
        · rintro ⟨rfl, h | h | h | h⟩
          · obtain ⟨_, hc, _⟩ := h; cases hc
          · obtain ⟨_, hc, _⟩ := h; cases hc
          · cases h.1
          · obtain ⟨_, _, _, rfl⟩ := h; rfl
      | some impl =>
        have hm2 : ¬ ∀ core, kernel_check O s (implicant mdl s.m_atoms ++ [mk_not (get_fml s)])
            ≠ Answer.unsat core := by
          intro hh
          rw [(minimize_assignment_none O s _ _).2 hh] at hm
          cases hm
        simp only [check_sat_step, check_sat_asms, hk, hm]
        constructor
        · intro h
          split at h
          · cases h
          · split at h <;> cases h
        · rintro ⟨rfl, h | h | h | h⟩
          · obtain ⟨_, hc, _⟩ := h; cases hc
          · obtain ⟨_, hc, _⟩ := h; cases hc
          · cases h.1
          · obtain ⟨m2, hc, hh, _⟩ := h
            injection hc with hc
            subst hc
            exact absurd hh hm2
    | unsat core =>
      simp only [check_sat_step, check_sat_asms, hk]
      by_cases h0 : s.m_level = 0
      · rw [if_pos h0]
        constructor
        · intro h
          injection h with h
          injection h with h1 h2
          exact ⟨h2.symm, Or.inl ⟨core, rfl, h0, h1.symm⟩⟩
        · rintro ⟨rfl, h | h | h | h⟩
          · obtain ⟨_, _, _, rfl⟩ := h; rfl
          · obtain ⟨_, _, hc, _⟩ := h; omega
          · cases h.1
          · obtain ⟨_, hc, _⟩ := h; cases hc
      · rw [if_neg h0]
        by_cases h1 : s.m_level = 1
        · rw [if_pos h1]
          constructor
          · intro h
            injection h with h
            injection h with h3 h2
            exact ⟨h2.symm, Or.inr (Or.inl ⟨core, rfl, h1, h3.symm⟩)⟩
          · rintro ⟨rfl, h | h | h | h⟩
            · obtain ⟨_, _, hc, _⟩ := h; omega
            · obtain ⟨_, _, _, rfl⟩ := h; rfl
            · cases h.1
            · obtain ⟨_, hc, _⟩ := h; cases hc
        · rw [if_neg h1]
          constructor
          · intro h
            split at h <;> cases h
          · rintro ⟨rfl, h | h | h | h⟩
            · obtain ⟨_, _, hc, _⟩ := h; exact absurd hc h0
            · obtain ⟨_, _, hc, _⟩ := h; exact absurd hc h1
            · cases h.1
            · obtain ⟨_, hc, _⟩ := h; cases hc
    | undef =>
      simp only [check_sat_step, check_sat_asms, hk]
      constructor
      · intro h
        injection h with h
        injection h with h1 h2
        exact ⟨h2.symm, Or.inr (Or.inr (Or.inl ⟨trivial, h1.symm⟩))⟩
      · rintro ⟨rfl, h | h | h | h⟩
        · obtain ⟨_, hc, _⟩ := h; cases hc
        · obtain ⟨_, hc, _⟩ := h; cases hc
        · obtain ⟨_, rfl⟩ := h; rfl
        · obtain ⟨_, hc, _⟩ := h; cases hc
  · intro fuel out h
    simp only [check_sat_loop, h]

end qsat
end qe

/-! ## The alternating loop: learned lemmas survive pops -/

namespace qe
namespace qsat

theorem mem_asserted (k : List (List Expr)) (e : Expr) :
    e ∈ asserted k ↔ ∃ sc ∈ k, e ∈ sc := by
  induction k with
  | nil => simp [asserted]
  | cons a k ih =>
    have : asserted (a :: k) = a ++ asserted k := rfl
    rw [this, List.mem_append, ih]
    simp

theorem kernel_assert_concat (ki : List (List Expr)) (kl : List Expr) (e : Expr) :
    kernel_assert (ki ++ [kl]) e = ki ++ [kl ++ [e]] := by
  simp [kernel_assert]

theorem foldl_kernel_assert_concat (ki : List (List Expr)) (kl : List Expr) (es : List Expr) :
    es.foldl kernel_assert (ki ++ [kl]) = ki ++ [kl ++ es] := by
  induction es generalizing kl with
  | nil => simp
  | cons e es ih =>
    rw [List.foldl_cons, kernel_assert_concat, ih]
    simp

theorem del_pred_frame (s : State) (p : Expr) :
    (del_pred s p).m_kernel = s.m_kernel ∧ (del_pred s p).m_replay = s.m_replay ∧
    (del_pred s p).m_level = s.m_level ∧
    (del_pred s p).m_assumptions_lim = s.m_assumptions_lim ∧
    (del_pred s p).m_atoms_lim = s.m_atoms_lim ∧
    (del_pred s p).m_assumptions = s.m_assumptions ∧
    (del_pred s p).m_atoms = s.m_atoms ∧ (del_pred s p).m_literals = s.m_literals ∧
    (del_pred s p).m_vars = s.m_vars ∧ (del_pred s p).m_vals = s.m_vals ∧
    (del_pred s p).m_preds = s.m_preds ∧ (del_pred s p).m_fresh = s.m_fresh := by
  unfold del_pred
  split <;> simp

theorem foldl_del_pred_frame (ps : List Expr) (s : State) :
    (ps.foldl del_pred s).m_kernel = s.m_kernel ∧ (ps.foldl del_pred s).m_replay = s.m_replay ∧
    (ps.foldl del_pred s).m_level = s.m_level ∧
    (ps.foldl del_pred s).m_assumptions_lim = s.m_assumptions_lim ∧
    (ps.foldl del_pred s).m_atoms_lim = s.m_atoms_lim ∧
    (ps.foldl del_pred s).m_assumptions = s.m_assumptions ∧
    (ps.foldl del_pred s).m_atoms = s.m_atoms ∧ (ps.foldl del_pred s).m_literals = s.m_literals ∧
    (ps.foldl del_pred s).m_vars = s.m_vars ∧ (ps.foldl del_pred s).m_vals = s.m_vals ∧
    (ps.foldl del_pred s).m_preds = s.m_preds ∧ (ps.foldl del_pred s).m_fresh = s.m_fresh := by
  induction ps generalizing s with
  | nil => simp
  | cons p ps ih =>
    rw [List.foldl_cons]
    obtain ⟨h1, h2, h3, h4, h5, h6, h7, h8, h9, h10, h11, h12⟩ := ih (del_pred s p)
    obtain ⟨g1, g2, g3, g4, g5, g6, g7, g8, g9, g10, g11, g12⟩ := del_pred_frame s p
    exact ⟨h1.trans g1, h2.trans g2, h3.trans g3, h4.trans g4, h5.trans g5, h6.trans g6,
      h7.trans g7, h8.trans g8, h9.trans g9, h10.trans g10, h11.trans g11, h12.trans g12⟩

theorem pop_replay_snd (n : Nat) : ∀ (r1 r2 : List (List Expr)) (acc : List Expr),
    r2.length = n → (pop_replay n (r1 ++ r2) acc).2 = r1 := by
  induction n with
  | zero =>
    intro r1 r2 acc h
    have : r2 = [] := List.length_eq_zero.1 h
    subst this
    simp [pop_replay]
  | succ n ih =>
    intro r1 r2 acc h
    rcases List.eq_nil_or_concat r2 with h2 | ⟨r2a, x, h2⟩
    · subst h2; simp at h
    · subst h2
      have hl : r2a.length = n := by simpa using h
      simp only [pop_replay, List.concat_eq_append]
      rw [← List.append_assoc, List.dropLast_concat]
      exact ih r1 r2a _ hl

theorem pop_replay_fst (n : Nat) : ∀ (r1 r2 : List (List Expr)) (acc : List Expr) (e : Expr),
    r2.length = n →
    (e ∈ (pop_replay n (r1 ++ r2) acc).1 ↔ e ∈ acc ∨ ∃ r ∈ r2, e ∈ r) := by
  induction n with
  | zero =>
    intro r1 r2 acc e h
    have : r2 = [] := List.length_eq_zero.1 h
    subst this
    simp [pop_replay]
  | succ n ih =>
    intro r1 r2 acc e h
    rcases List.eq_nil_or_concat r2 with h2 | ⟨r2a, x, h2⟩
    · subst h2; simp at h
    · subst h2
      have hl : r2a.length = n := by simpa using h
      simp only [pop_replay, List.concat_eq_append]
      rw [← List.append_assoc, List.dropLast_concat]
      rw [ih r1 r2a _ e hl]
      simp only [List.mem_append, List.getLastD_concat, List.mem_singleton]
      constructor
      · rintro ((h | h) | ⟨r, hr, he⟩)
        · exact Or.inl h
        · exact Or.inr ⟨x, Or.inr rfl, h⟩
        · exact Or.inr ⟨r, Or.inl hr, he⟩
      · rintro (h | ⟨r, hr | hr, he⟩)
        · exact Or.inl (Or.inl h)
        · exact Or.inr ⟨r, hr, he⟩
        · subst hr; exact Or.inl (Or.inr he)


theorem split_at_level {α : Type} (K : List α) (l n : Nat) (h : K.length = l + n + 1) :
    ∃ ki kl k2, K = ki ++ [kl] ++ k2 ∧ ki.length = l ∧ k2.length = n := by
  have hl : l < K.length := by omega
  refine ⟨K.take l, K[l], K.drop (l + 1), ?_, ?_, ?_⟩
  · rw [List.append_assoc, List.singleton_append, ← List.drop_eq_getElem_cons hl,
      List.take_append_drop]
  · simp; omega
  · simp; omega

theorem pop_decomposed (s : State) (n l : Nat) (ki : List (List Expr)) (kl : List Expr)
    (k2 : List (List Expr)) (ri : List (List Expr)) (rl : List Expr) (r2 : List (List Expr))
    (alim tlim : Nat)
    (hL : s.m_level = l + n) (hk : s.m_kernel = ki ++ [kl] ++ k2) (hk2 : k2.length = n)
    (hr : s.m_replay = ri ++ [rl] ++ r2) (hr2 : r2.length = n)
    (ha : s.m_assumptions_lim[l]? = some alim) (ht : s.m_atoms_lim[l]? = some tlim) :
    ∃ s1 r1, pop s n = some s1 ∧ s1.m_level = l ∧ s1.m_kernel = ki ++ [kl ++ r1] ∧
      s1.m_replay = (if l > 0 then ri ++ [rl ++ r1] else ri ++ [rl]) ∧
      s1.m_assumptions_lim = s.m_assumptions_lim.take l ∧
      s1.m_atoms_lim = s.m_atoms_lim.take l ∧
      (∀ e, e ∈ r1 ↔ ∃ r ∈ r2, e ∈ r) := by
  have hlev : s.m_level - n = l := by omega
  have hnot : ¬ n > s.m_level := by omega
  have hsnd : (pop_replay n s.m_replay []).2 = ri ++ [rl] := by
    rw [hr]; exact pop_replay_snd n _ r2 [] hr2
  have hfst : ∀ e, e ∈ (pop_replay n s.m_replay []).1 ↔ ∃ r ∈ r2, e ∈ r := by
    intro e
    rw [hr, pop_replay_fst n _ r2 [] e hr2]
    simp
  have hkp : kernel_pop s.m_kernel n = ki ++ [kl] := by
    rw [hk]
    unfold kernel_pop
    have : (ki ++ [kl] ++ k2).length - n = (ki ++ [kl]).length := by
      simp only [List.length_append, List.length_singleton, hk2]
      omega
    rw [this, List.take_left']
    rfl
  obtain ⟨f1, f2, f3, f4, f5, -⟩ := foldl_del_pred_frame (s.m_assumptions.drop alim)
    { s with m_level := l, m_replay := ri ++ [rl] }
  simp only at f1 f2 f3 f4 f5
  unfold pop
  rw [if_neg hnot]
  simp only [hlev, ha, ht, hsnd]
  simp only [f1, f2, f4, f5, hkp, foldl_kernel_assert_concat,
    List.reverse_append, List.reverse_cons, List.reverse_nil, List.nil_append,
    List.singleton_append, List.reverse_reverse]
  by_cases hl0 : l > 0
  · rw [if_pos hl0]
    refine ⟨_, (pop_replay n s.m_replay []).1, rfl, ?_, rfl, ?_, rfl, rfl, hfst⟩
    · exact f3
    · simp [hl0]
  · rw [if_neg hl0]
    refine ⟨_, (pop_replay n s.m_replay []).1, rfl, ?_, rfl, ?_, rfl, rfl, hfst⟩
    · exact f3
    · simp [hl0, f2, hsnd]


/-- Source `push` returns when `m_preds[m_level-2]` exists after the increment. -/
theorem push_isSome (s : State) (h : s.m_level ≤ s.m_preds.length) :
    ∃ s1, push s = some s1 := by
  unfold push
  simp only
  by_cases h2 : s.m_level + 1 ≥ 2
  · rw [if_pos h2]
    have hlt : s.m_level + 1 - 2 < s.m_preds.length := by omega
    rw [List.getElem?_eq_getElem hlt]
    exact ⟨_, rfl⟩
  · rw [if_neg h2]
    exact ⟨_, rfl⟩

/-- Source `push` reads outside `m_preds` at a level above its size. -/
theorem push_none (s : State) (h : s.m_preds.length < s.m_level) : push s = none := by
  unfold push
  simp only
  have h2 : s.m_level + 1 ≥ 2 := by omega
  rw [if_pos h2]
  have hge : s.m_preds.length ≤ s.m_level + 1 - 2 := by omega
  rw [List.getElem?_eq_none hge]

theorem push_fields (s s1 : State) (h : push s = some s1) :
    s1.m_kernel = s.m_kernel ++ [[]] ∧ s1.m_replay = s.m_replay ++ [[]] ∧
    s1.m_level = s.m_level + 1 ∧
    s1.m_assumptions_lim = s.m_assumptions_lim ++ [s.m_assumptions.length] ∧
    s1.m_atoms_lim = s.m_atoms_lim ++ [s.m_atoms.length] ∧ s1.m_preds = s.m_preds := by
  unfold push kernel_push at h
  simp only at h
  split at h
  · split at h
    · injection h with h
      subst h
      simp
    · cases h
  · injection h with h
    subst h
    simp

theorem push_scope (s s1 : State) (hp : push s = some s1) (h : ScopeInv s) : ScopeInv s1 := by
  obtain ⟨h1, h2, h3, h4⟩ := h
  obtain ⟨p1, p2, p3, p4, p5, -⟩ := push_fields s s1 hp
  refine ⟨?_, ?_, ?_, ?_⟩
  · rw [p1, p3]; simp [h1]
  · rw [p2, p3]; simp [h2]
  · rw [p4, p3]; simp [h3]
  · rw [p5, p3]; simp [h4]

theorem push_replayed (s s1 : State) (hp : push s = some s1) (h : ScopeInv s) (e : Expr)
    (he : Replayed s e) : Replayed s1 e := by
  obtain ⟨h1, h2, h3, h4⟩ := h
  obtain ⟨p1, p2, p3, p4, p5, -⟩ := push_fields s s1 hp
  intro k hk
  rw [p3] at hk
  rw [p1, p2]
  by_cases hk2 : k ≤ s.m_level
  · rcases he k hk2 with h | ⟨r, hr, her⟩
    · left
      rw [List.take_append_of_le_length (by omega)]
      exact h
    · right
      refine ⟨r, ?_, her⟩
      rw [List.drop_append_of_le_length (by omega)]
      exact List.mem_append_left _ hr
  · left
    have hall := he s.m_level (le_refl _)
    rcases hall with h | ⟨r, hr, her⟩
    · rw [List.take_of_length_le (by omega)] at h
      rw [List.take_of_length_le (by simp; omega)]
      rw [mem_asserted] at h ⊢
      obtain ⟨sc, hsc, hes⟩ := h
      exact ⟨sc, List.mem_append_left _ hsc, hes⟩
    · rw [List.drop_of_length_le (by omega)] at hr
      cases hr

/-- Source `pop` and `persist_assertion` leave the table `m_preds` as it is. -/
theorem pop_preds (s s1 : State) (n : Nat) (h : pop s n = some s1) :
    s1.m_preds = s.m_preds := by
  unfold pop at h
  split at h
  · cases h
  · simp only at h
    split at h
    · rename_i alim tlim _ _
      have f := (foldl_del_pred_frame (s.m_assumptions.drop alim)
        { s with m_level := s.m_level - n, m_replay := (pop_replay n s.m_replay []).2 }).2.2.2.2.2.2.2.2.2.2.1
      split at h
      · split at h
        · cases h
        · injection h with h
          subst h
          exact f
      · injection h with h
        subst h
        exact f
    · cases h

theorem persist_preds (s s1 : State) (level : Nat) (fml : Expr)
    (h : persist_assertion s level fml = some s1) : s1.m_preds = s.m_preds := by
  unfold persist_assertion at h
  simp only at h
  split at h
  · cases h
  · injection h with h
    subst h
    rfl

theorem persist_inv (s : State) (h : ScopeInv s) (level : Nat) (fml : Expr) :
    ∃ s1, persist_assertion s level fml = some s1 ∧ s1.m_level = s.m_level ∧ ScopeInv s1 ∧
      (∀ e, Replayed s e → Replayed s1 e) ∧
      Replayed s1 (Expr.implies (get_fml_at s level) fml) := by
  obtain ⟨h1, h2, h3, h4⟩ := h
  obtain ⟨ki, kl, k2, hk, hki, hk2⟩ := split_at_level s.m_kernel s.m_level 0 (by omega)
  obtain ⟨ri, rl, r2, hr, hri, hr2⟩ := split_at_level s.m_replay s.m_level 0 (by omega)
  have e1 : k2 = [] := List.length_eq_zero.1 hk2
  have e2 : r2 = [] := List.length_eq_zero.1 hr2
  subst e1 e2
  rw [List.append_nil] at hk hr
  have hpa : persist_assertion s level fml = some
      { s with m_kernel := ki ++ [kl ++ [Expr.implies (get_fml_at s level) fml]],
               m_replay := ri ++ [rl ++ [Expr.implies (get_fml_at s level) fml]] } := by
    unfold persist_assertion
    simp only [hr, hk, kernel_assert_concat, List.reverse_append, List.reverse_cons,
      List.reverse_nil, List.nil_append, List.singleton_append, List.reverse_reverse]
  refine ⟨_, hpa, rfl, ⟨?_, ?_, h3, h4⟩, ?_, ?_⟩
  · simp [hki]
  · simp [hri]
  · intro e he k hk'
    simp only at hk' ⊢
    rcases he k hk' with h | ⟨r, hr', her⟩
    · left
      rw [hk] at h
      rw [mem_asserted] at h ⊢
      obtain ⟨sc, hsc, hes⟩ := h
      rcases Nat.lt_or_ge k s.m_level with hlt | hge
      · rw [List.take_append_of_le_length (by omega)] at hsc ⊢
        exact ⟨sc, hsc, hes⟩
      · rw [List.take_of_length_le (by simp; omega)] at hsc ⊢
        rcases List.mem_append.1 hsc with h5 | h5
        · exact ⟨sc, List.mem_append_left _ h5, hes⟩
        · simp only [List.mem_singleton] at h5
          subst h5
          exact ⟨sc ++ [Expr.implies (get_fml_at s level) fml], by simp,
            List.mem_append_left _ hes⟩
    · right
      rw [hr] at hr'
      rcases Nat.lt_or_ge k s.m_level with hlt | hge
      · rw [List.drop_append_of_le_length (by omega)] at hr' ⊢
        rcases List.mem_append.1 hr' with h5 | h5
        · exact ⟨r, List.mem_append_left _ h5, her⟩
        · simp only [List.mem_singleton] at h5
          subst h5
          exact ⟨r ++ [Expr.implies (get_fml_at s level) fml], by simp,
            List.mem_append_left _ her⟩
      · rw [List.drop_of_length_le (by simp; omega)] at hr'
        cases hr'
  · intro k hk'
    simp only at hk' ⊢
    rcases Nat.lt_or_ge k s.m_level with hlt | hge
    · right
      rw [List.drop_append_of_le_length (by omega)]
      exact ⟨_, List.mem_append_right _ (List.mem_singleton.2 rfl), by simp⟩
    · left
      rw [List.take_of_length_le (by simp; omega), mem_asserted]
      exact ⟨_, List.mem_append_right _ (List.mem_singleton.2 rfl), by simp⟩


theorem pop_inv (s : State) (h : ScopeInv s) (n : Nat) (hn1 : 1 ≤ n) (hn2 : n ≤ s.m_level) :
    ∃ s1, pop s n = some s1 ∧ s1.m_level = s.m_level - n ∧ ScopeInv s1 ∧
      (∀ e, Replayed s e → Replayed s1 e) := by
  obtain ⟨h1, h2, h3, h4⟩ := h
  obtain ⟨l, hl⟩ : ∃ l, s.m_level = l + n := ⟨s.m_level - n, by omega⟩
  obtain ⟨ki, kl, k2, hk, hki, hk2⟩ := split_at_level s.m_kernel l n (by omega)
  obtain ⟨ri, rl, r2, hr, hri, hr2⟩ := split_at_level s.m_replay l n (by omega)
  have hla : l < s.m_assumptions_lim.length := by omega
  have hlt : l < s.m_atoms_lim.length := by omega
  obtain ⟨s1, r1, hp, e1, e2, e3, e4, e5, hmem⟩ := pop_decomposed s n l ki kl k2 ri rl r2
    _ _ hl hk hk2 hr hr2 (List.getElem?_eq_getElem hla) (List.getElem?_eq_getElem hlt)
  refine ⟨s1, hp, by omega, ⟨?_, ?_, ?_, ?_⟩, ?_⟩
  · rw [e1, e2]; simp [hki]
  · rw [e1, e3]; split <;> simp [hri]
  · rw [e1, e4]; simp; omega
  · rw [e1, e5]; simp; omega
  · intro e he k hk'
    rw [e1] at hk'
    rw [e2, e3]
    rcases he k (by omega) with h | ⟨r, hr', her⟩
    · left
      rw [hk, List.append_assoc, mem_asserted] at h
      rw [mem_asserted]
      obtain ⟨sc, hsc, hes⟩ := h
      rcases Nat.lt_or_ge k l with hlt' | hge
      · rw [List.take_append_of_le_length (by omega)] at hsc ⊢
        exact ⟨sc, hsc, hes⟩
      · have hkl : k = l := by omega
        subst hkl
        rw [List.take_of_length_le (by simp; omega)]
        have hsc2 : sc ∈ ki ++ [kl] := by
          rw [← List.append_assoc, List.take_append_of_le_length (by simp; omega),
            List.take_of_length_le (by simp; omega)] at hsc
          exact hsc
        rcases List.mem_append.1 hsc2 with h5 | h5
        · exact ⟨sc, List.mem_append_left _ h5, hes⟩
        · simp only [List.mem_singleton] at h5
          subst h5
          exact ⟨sc ++ r1, by simp, List.mem_append_left _ hes⟩
    · rw [hr, List.append_assoc] at hr'
      rcases Nat.lt_or_ge k l with hlt' | hge
      · right
        have hl0 : l > 0 := by omega
        rw [if_pos hl0]
        rw [List.drop_append_of_le_length (by omega)] at hr' ⊢
        rcases List.mem_append.1 hr' with h5 | h5
        · exact ⟨r, List.mem_append_left _ h5, her⟩
        · rcases List.mem_append.1 h5 with h6 | h6
          · simp only [List.mem_singleton] at h6
            subst h6
            exact ⟨r ++ r1, by simp, List.mem_append_left _ her⟩
          · exact ⟨rl ++ r1, by simp, List.mem_append_right _ ((hmem e).2 ⟨r, h6, her⟩)⟩
      · left
        have hkl : k = l := by omega
        subst hkl
        rw [← List.append_assoc, List.drop_append_of_le_length (by simp; omega),
          List.drop_of_length_le (by simp; omega), List.nil_append] at hr'
        rw [List.take_of_length_le (by simp; omega), mem_asserted]
        exact ⟨kl ++ r1, by simp, List.mem_append_right _ ((hmem e).2 ⟨r, hr', her⟩)⟩

theorem run_ops_inv : ∀ (ops : List ScopeOp) (s : State) (log : List (Nat × Expr)),
    ScopeInv s → (∀ le ∈ log, Replayed s le.2) → valid_ops s.m_level ops = true →
    pushes_fit s.m_preds.length s.m_level ops = true →
    ∃ s1 log1, run_ops ops s log = some (s1, log1) ∧ ScopeInv s1 ∧
      s1.m_level = end_level s.m_level ops ∧ ∀ le ∈ log1, Replayed s1 le.2
  | [], s, log, hs, hl, _, _ => ⟨s, log, rfl, hs, rfl, hl⟩
  | ScopeOp.push :: ops, s, log, hs, hl, hv, hf => by
    simp only [pushes_fit, Bool.and_eq_true, decide_eq_true_eq] at hf
    obtain ⟨s1, hp⟩ := push_isSome s hf.1
    obtain ⟨-, -, p3, -, -, p6⟩ := push_fields s s1 hp
    simp only [run_ops, hp, end_level]
    rw [← p3]
    apply run_ops_inv ops s1 log (push_scope s s1 hp hs)
      (fun le hle => push_replayed s s1 hp hs le.2 (hl le hle))
    · rw [p3]
      simpa [valid_ops] using hv
    · rw [p3, p6]
      exact hf.2
  | ScopeOp.pop n :: ops, s, log, hs, hl, hv, hf => by
    simp only [valid_ops, Bool.and_eq_true, decide_eq_true_eq] at hv
    simp only [pushes_fit] at hf
    obtain ⟨s1, hp, hlev, hs1, hrep⟩ := pop_inv s hs n hv.1.1 hv.1.2
    simp only [run_ops, hp, end_level]
    rw [← hlev]
    apply run_ops_inv ops s1 log hs1 (fun le hle => hrep le.2 (hl le hle))
    · rw [hlev]
      exact hv.2
    · rw [hlev, pop_preds s s1 n hp]
      exact hf
  | ScopeOp.persist level fml :: ops, s, log, hs, hl, hv, hf => by
    simp only [pushes_fit] at hf
    obtain ⟨s1, hp, hlev, hs1, hrep, hnew⟩ := persist_inv s hs level fml
    simp only [run_ops, hp, end_level]
    rw [← hlev]
    apply run_ops_inv ops s1 _ hs1
    · intro le hle
      rcases List.mem_append.1 hle with h | h
      · exact hrep le.2 (hl le h)
      · simp only [List.mem_singleton] at h
        subst h
        exact hnew
    · rw [hlev]
      simpa [valid_ops] using hv
    · rw [hlev, persist_preds s s1 level fml hp]
      exact hf

/-- A sequence with admissible pops that runs through has every push inside `m_preds`. -/
theorem run_ops_fits : ∀ (ops : List ScopeOp) (s : State) (log : List (Nat × Expr)),
    ScopeInv s → valid_ops s.m_level ops = true → (run_ops ops s log).isSome = true →
    pushes_fit s.m_preds.length s.m_level ops = true
  | [], _, _, _, _, _ => rfl
  | ScopeOp.push :: ops, s, log, hs, hv, hr => by
    simp only [pushes_fit, Bool.and_eq_true, decide_eq_true_eq]
    cases hp : push s with
    | none =>
      simp only [run_ops, hp] at hr
      cases hr
    | some s1 =>
      have hle : s.m_level ≤ s.m_preds.length := by
        by_contra hc
        rw [push_none s (by omega)] at hp
        cases hp
      obtain ⟨-, -, p3, -, -, p6⟩ := push_fields s s1 hp
      simp only [run_ops, hp] at hr
      refine ⟨hle, ?_⟩
      have key := run_ops_fits ops s1 log (push_scope s s1 hp hs)
        (by rw [p3]; simpa [valid_ops] using hv) hr
      rw [p3, p6] at key
      exact key
  | ScopeOp.pop n :: ops, s, log, hs, hv, hr => by
    simp only [valid_ops, Bool.and_eq_true, decide_eq_true_eq] at hv
    simp only [pushes_fit]
    obtain ⟨s1, hp, hlev, hs1, -⟩ := pop_inv s hs n hv.1.1 hv.1.2
    simp only [run_ops, hp] at hr
    have key := run_ops_fits ops s1 log hs1 (by rw [hlev]; exact hv.2) hr
    rw [hlev, pop_preds s s1 n hp] at key
    exact key
  | ScopeOp.persist level fml :: ops, s, log, hs, hv, hr => by
    simp only [pushes_fit]
    obtain ⟨s1, hp, hlev, hs1, -, -⟩ := persist_inv s hs level fml
    simp only [run_ops, hp] at hr
    have key := run_ops_fits ops s1 _ hs1 (by rw [hlev]; simpa [valid_ops] using hv) hr
    rw [hlev, persist_preds s s1 level fml hp] at key
    exact key

theorem reset_scope (fresh : Nat) : ScopeInv (reset fresh) := by
  simp [ScopeInv, reset]

theorem replayed_asserted (s : State) (h : ScopeInv s) (e : Expr) (he : Replayed s e) :
    e ∈ asserted s.m_kernel := by
  rcases he s.m_level (le_refl _) with h1 | ⟨r, hr, _⟩
  · rwa [List.take_of_length_le (by rw [h.1])] at h1
  · rw [List.drop_of_length_le (by rw [h.2.1])] at hr
    cases hr

/-- What one `pop(n)` with `1 ≤ n ≤ level` does to the lemmas: the kernel keeps the scopes
`0..level-n`, every lemma of a popped entry of `m_replay` is asserted again in the innermost
surviving scope, and above level 0 it is recorded in the last surviving entry of `m_replay`
(at level 0 the entry stays as it is). -/
theorem pop_reasserts (s : State) (hs : ScopeInv s) (n : Nat) (hn1 : 1 ≤ n)
    (hn2 : n ≤ s.m_level) :
    ∃ s1 r1, pop s n = some s1 ∧ s1.m_level = s.m_level - n ∧
      s1.m_kernel = s.m_kernel.take (s.m_level - n) ++
        [(s.m_kernel.getD (s.m_level - n) []) ++ r1] ∧
      s1.m_replay = s.m_replay.take (s.m_level - n) ++
        [if s.m_level - n > 0 then (s.m_replay.getD (s.m_level - n) []) ++ r1
          else s.m_replay.getD (s.m_level - n) []] ∧
      ∀ e, e ∈ r1 ↔ ∃ r ∈ s.m_replay.drop (s.m_level - n + 1), e ∈ r := by
  obtain ⟨h1, h2, h3, h4⟩ := hs
  obtain ⟨l, hl⟩ : ∃ l, s.m_level = l + n := ⟨s.m_level - n, by omega⟩
  obtain ⟨ki, kl, k2, hk, hki, hk2⟩ := split_at_level s.m_kernel l n (by omega)
  obtain ⟨ri, rl, r2, hr, hri, hr2⟩ := split_at_level s.m_replay l n (by omega)
  have hla : l < s.m_assumptions_lim.length := by omega
  have hlt : l < s.m_atoms_lim.length := by omega
  obtain ⟨s1, r1, hp, e1, e2, e3, -, -, hmem⟩ := pop_decomposed s n l ki kl k2 ri rl r2
    _ _ hl hk hk2 hr hr2 (List.getElem?_eq_getElem hla) (List.getElem?_eq_getElem hlt)
  have hln : s.m_level - n = l := by omega
  rw [hln]
  refine ⟨s1, r1, hp, e1, ?_, ?_, ?_⟩
  · rw [e2, hk, List.append_assoc, List.take_left' hki]
    congr 2
    rw [List.getD_eq_getElem?_getD, List.getElem?_append_right (by omega)]
    simp [hki]
  · rw [e3, hr, List.append_assoc, List.take_left' hri]
    have hget : (ri ++ ([rl] ++ r2)).getD l [] = rl := by
      rw [List.getD_eq_getElem?_getD, List.getElem?_append_right (by omega)]
      simp [hri]
    rw [hget]
    split <;> rfl
  · intro e
    rw [hmem e, hr, List.append_assoc]
    have hd : (ri ++ ([rl] ++ r2)).drop (l + 1) = r2 := by
      rw [← List.append_assoc]
      exact List.drop_left' (by simp [hri])
    rw [hd]

/-- C11 amended, replay preservation. From a state whose scope stacks have the size of its level,
take any sequence of `push`, `pop(n)` with `1 ≤ n ≤ level` and `persist_assertion` calls.
It runs through exactly when every push finds `m_preds[m_level-2]` inside the vector.
When it runs through, at the end the level is the level of the sequence, the kernel has one
scope per level and the base scope, and every lemma persisted on the way, whatever the
level it was persisted at, is asserted in a scope of the kernel. One `pop(n)` keeps the
scopes `0..level-n` of the kernel, asserts every lemma of the popped entries of `m_replay`
in the innermost surviving scope and, when it returns to a level above 0, records it in the
last surviving entry of `m_replay`; on the return to level 0 that entry stays as it was. -/
theorem replay_preservation (s : State) (hs : ScopeInv s) (ops : List ScopeOp)
    (hv : valid_ops s.m_level ops = true) :
    ((run_ops ops s []).isSome = true ↔ pushes_fit s.m_preds.length s.m_level ops = true) ∧
    (∀ s1 log, run_ops ops s [] = some (s1, log) →
      s1.m_level = end_level s.m_level ops ∧
      s1.m_kernel.length = s1.m_level + 1 ∧ s1.m_replay.length = s1.m_level + 1 ∧
      ∀ le ∈ log, le.2 ∈ asserted s1.m_kernel) ∧
    (∀ n : Nat, 1 ≤ n → n ≤ s.m_level →
      ∃ s1 r1, pop s n = some s1 ∧ s1.m_level = s.m_level - n ∧
        s1.m_kernel = s.m_kernel.take (s.m_level - n) ++
          [(s.m_kernel.getD (s.m_level - n) []) ++ r1] ∧
        s1.m_replay = s.m_replay.take (s.m_level - n) ++
          [if s.m_level - n > 0 then (s.m_replay.getD (s.m_level - n) []) ++ r1
            else s.m_replay.getD (s.m_level - n) []] ∧
        ∀ e, e ∈ r1 ↔ ∃ r ∈ s.m_replay.drop (s.m_level - n + 1), e ∈ r) := by
  refine ⟨⟨run_ops_fits ops s [] hs hv, fun hp => ?_⟩, fun s1 log hr => ?_,
    fun n hn1 hn2 => pop_reasserts s hs n hn1 hn2⟩
  · obtain ⟨s1, log, hr, -⟩ := run_ops_inv ops s [] hs (fun _ h => by cases h) hv hp
    rw [hr]
    rfl
  · have hp := run_ops_fits ops s [] hs hv (by rw [hr]; rfl)
    obtain ⟨s2, log2, hr2, hs2, hlev, hl⟩ :=
      run_ops_inv ops s [] hs (fun _ h => by cases h) hv hp
    rw [hr] at hr2
    injection hr2 with hr2
    injection hr2 with e1 e2
    subst e1
    subst e2
    exact ⟨hlev, hs2.1, hs2.2.1, fun le hle => replayed_asserted s1 hs2 le.2 (hl le hle)⟩

end qsat
end qe

/-! ## The alternating loop: what `pop` removes -/

namespace qe
namespace qsat

set_option maxRecDepth 100000 in
/-- C16, refuted on the code. On `∀ z1 ∃ z2 ∀ z3. scope_matrix` with the free `z0`, the
loop reaches level 3 and `backtrack` calls `pop(2)`. The witness literals `z0` of block 0
and `¬z1` of block 1 were bound before the push to level 2 and are bound at level 3;
`pop(2)` removes them from all three maps. The name `z2` was bound at level 2, after that
push, and `pop(2)` leaves it bound. Two iterations later `backtrack` looks up the level of
`z0` and the run ends there. -/
theorem pop_removes_lower_witnesses :
    (bound_in (scope_state 2) (.var z0) = some (2, some 0, true, true) ∧
     bound_in (scope_state 2) (.not (.var z1)) = some (2, some 1, true, true) ∧
     bound_in (scope_state 2) (.var z2) = some (2, none, false, false)) ∧
    (bound_in (scope_state 3) (.var z0) = some (3, some 0, true, true) ∧
     bound_in (scope_state 3) (.not (.var z1)) = some (3, some 1, true, true) ∧
     bound_in (scope_state 3) (.var z2) = some (3, some 2, true, true)) ∧
    (bound_in ((scope_state 3).bind (fun s => pop s 2)) (.var z0)
        = some (1, none, false, false) ∧
     bound_in ((scope_state 3).bind (fun s => pop s 2)) (.not (.var z1))
        = some (1, none, false, false) ∧
     bound_in ((scope_state 3).bind (fun s => pop s 2)) (.var z2)
        = some (1, some 2, true, true)) ∧
    (run brute_oracle 4 30 [z0] [] scope_rest scope_matrix).crashed = true := by
  refine ⟨⟨?_, ?_, ?_⟩, ⟨?_, ?_, ?_⟩, ⟨?_, ?_, ?_⟩, ?_⟩ <;> decide!

end qsat
end qe

/-! ## The EPR loop: levels and answers -/

namespace qe
namespace qepr

theorem assert_defs_level {α : Type} (defs : List Expr) (s s1 : State α)
    (h : assert_defs defs s = some s1) : s1.m_level = s.m_level := by
  induction defs, s using assert_defs.induct with
  | case1 s =>
    simp only [assert_defs, Option.some.injEq] at h
    rw [← h]
  | case2 v b defs s hm =>
    simp only [assert_defs, hm] at h
    cases h
  | case3 v b defs s M hm ih =>
    simp only [assert_defs, hm] at h
    exact ih h
  | case4 s d ds hne =>
    unfold assert_defs at h
    split at h
    · rename_i heq; cases heq
    · rename_i heq
      injection heq with h1 h2
      exact (hne _ _ h1).elim
    · cases h

end qepr
end qe

namespace qe
namespace qepr

theorem push_asms_level {α : Type} (P : PredAbs α) (a : Expr) (r r1 : State α × List Expr)
    (h : push_asms P a r = some r1) : r1.1.m_level = r.1.m_level := by
  unfold push_asms at h
  simp only at h
  split at h
  · cases h
  · rename_i s1 hs
    injection h with h
    rw [← h]
    have := assert_defs_level _ _ _ hs
    simpa using this

theorem push_asms_all_level {α : Type} (P : PredAbs α) : ∀ (as : List Expr)
    (r r1 : State α × List Expr), push_asms_all P as r = some r1 → r1.1.m_level = r.1.m_level
  | [], r, r1, h => by
    simp only [push_asms_all, Option.some.injEq] at h
    rw [← h]
  | a :: as, r, r1, h => by
    simp only [push_asms_all] at h
    split at h
    · cases h
    · rename_i r2 hr
      rw [push_asms_all_level P as r2 r1 h, push_asms_level P a r r2 hr]

theorem push_graphs_level {α : Type} (P : PredAbs α) (poss negs : List Expr) :
    ∀ (as : List Expr) (r r1 : State α × List Expr),
      push_graphs P poss negs as r = some r1 → r1.1.m_level = r.1.m_level
  | [], r, r1, h => by
    simp only [push_graphs, Option.some.injEq] at h
    rw [← h]
  | a :: as, r, r1, h => by
    simp only [push_graphs] at h
    split at h
    · split at h
      · cases h
      · rename_i r2 hr
        rw [push_graphs_level P poss negs as r2 r1 h, push_asms_level P _ r r2 hr]
    · exact push_graphs_level P poss negs as r r1 h

theorem extract_function_graph_level {α : Type} (P : PredAbs α) (p : Decl) (occs : List Expr)
    (r r1 : State α × List Expr) (h : extract_function_graph P p occs r = some r1) :
    r1.1.m_level = r.1.m_level := by
  unfold extract_function_graph at h
  split at h
  · cases h
  · split at h
    · cases h
    · exact push_asms_all_level P _ r r1 h
    · exact push_asms_all_level P _ r r1 h
    · split at h
      · cases h
      · rename_i r2 hr
        rw [push_graphs_level P _ _ _ r2 r1 h, push_graphs_level P _ _ _ r r2 hr]

theorem extract_graphs_of_level {α : Type} (P : PredAbs α) : ∀ (t : pred2occs)
    (r r1 : State α × List Expr), extract_graphs_of P t r = some r1 →
      r1.1.m_level = r.1.m_level
  | [], r, r1, h => by
    simp only [extract_graphs_of, Option.some.injEq] at h
    rw [← h]
  | e :: rest, r, r1, h => by
    simp only [extract_graphs_of] at h
    split at h
    · cases h
    · rename_i r2 hr
      rw [extract_graphs_of_level P rest r2 r1 h, extract_function_graph_level P _ _ r r2 hr]

theorem get_assumptions_level {α : Type} (P : PredAbs α) (s s1 : State α) (asms : List Expr)
    (h : get_assumptions P s = some (s1, asms)) : s1.m_level = s.m_level := by
  unfold get_assumptions at h
  split at h
  · injection h with h; injection h with h1 h2; rw [← h1]
  · split at h
    · split at h
      · cases h
      · rename_i s2 hs
        injection h with h; injection h with h1 h2
        rw [← h1]
        unfold ensure_disequalities at hs
        split at hs
        · cases hs
        · split at hs
          · cases hs
          · have := assert_defs_level _ _ _ hs
            simpa using this
    · split at h
      · unfold extract_function_graphs at h
        split at h
        · cases h
        · rename_i r2 hr
          have e1 := extract_graphs_of_level P _ _ _ h
          have e2 := extract_graphs_of_level P _ _ _ hr
          simp only at e1 e2
          rw [e1, e2]
      · split at h <;>
        · injection h with h; injection h with h1 h2; rw [← h1]

theorem query_level {α : Type} (P : PredAbs α) (O : qsat.Oracle) (s s1 : State α)
    (a : qsat.Answer) (h : query P O s = some (s1, a)) : s1.m_level = s.m_level := by
  unfold query at h
  split at h
  · cases h
  · rename_i s2 asms hg
    injection h with h; injection h with h1 h2
    rw [← h1]
    have := get_assumptions_level P _ _ _ hg
    simpa using this

theorem project_level {α : Type} (P : PredAbs α) (X : Ext) (s s1 : State α)
    (core : List Expr) (h : project P X s core = some s1) : s1.m_level ≤ s.m_level := by
  unfold project at h
  simp only at h
  split at h
  · split at h
    · cases h
    · injection h with h; rw [← h]; simp [pop]
  · split at h
    · injection h with h; rw [← h]; simp [pop]
    · split at h
      · cases h
      · injection h with h; rw [← h]; simp

theorem check_sat_step_level {α : Type} (P : PredAbs α) (X : Ext) (O : qsat.Oracle)
    (s s1 : State α) (h : check_sat_step P X O s = Sum.inr s1) :
    (s1.m_level = s.m_level + 1 ∧ ∃ s2 mdl, query P O s = some (s2, qsat.Answer.sat mdl)) ∨
      s1.m_level ≤ s.m_level := by
  unfold check_sat_step at h
  split at h
  · cases h
  · rename_i s2 mdl hq
    left
    injection h with h
    rw [← h]
    exact ⟨by simp [push, query_level P O s s2 _ hq], s2, mdl, hq⟩
  · rename_i s2 kcore hq
    right
    split at h
    · cases h
    · split at h
      · cases h
      · rename_i s3 hp
        injection h with h
        rw [← h, ← query_level P O s s2 _ hq]
        exact project_level P X s2 s3 kcore hp
  · cases h

theorem loop_state_succ {α : Type} (P : PredAbs α) (X : Ext) (O : qsat.Oracle) :
    ∀ (k : Nat) (s0 s : State α), loop_state P X O (k + 1) s0 = some s →
      ∃ s1, loop_state P X O k s0 = some s1 ∧ check_sat_step P X O s1 = Sum.inr s
  | 0, s0, s, h => by
    simp only [loop_state] at h
    split at h
    · rename_i s1 hs
      injection h with h
      subst h
      exact ⟨s0, rfl, hs⟩
    · cases h
  | k + 1, s0, s, h => by
    rw [loop_state] at h
    split at h
    · rename_i s1 hs
      obtain ⟨s2, h2, h3⟩ := loop_state_succ P X O k s1 s h
      refine ⟨s2, ?_, h3⟩
      rw [loop_state, hs]
      exact h2
    · cases h

end qepr
end qe

namespace qe
namespace qepr

/-- C17 fails on the code: with an oracle that answers `sat` to every query, the loop of
`check_sat`, started at level 0, is at level 4 after four iterations. The loop pushes on
every `sat` answer, whatever the level; the bound of 3 stated in the comment of `project`
and in its `SASSERT(m_level <= 3)` is not kept by the loop. -/
theorem level_exceeds_three :
    (loop_state no_abs no_ext always_sat 4 reset_state).map (fun s => s.m_level) = some 4 := by
  decide

/-- The level is bounded when no query at level 3 is satisfiable. If the oracle answers
`sat` to no query posed at level 3, then every state the loop of `check_sat` reaches from
level 0 has a level of at most 3. A `sat` answer is the only way the level rises, and it
rises by one. -/
theorem level_bounded_without_sat_at_three {α : Type} (P : PredAbs α) (X : Ext)
    (O : qsat.Oracle) (s0 : State α) (h0 : s0.m_level = 0)
    (hno : ∀ (k : Nat) (s : State α), loop_state P X O k s0 = some s → s.m_level = 3 →
      ∀ (s1 : State α) (mdl : Model), query P O s ≠ some (s1, qsat.Answer.sat mdl)) :
    ∀ (k : Nat) (s : State α), loop_state P X O k s0 = some s → s.m_level ≤ 3 := by
  intro k
  induction k with
  | zero =>
    intro s h
    simp only [loop_state, Option.some.injEq] at h
    rw [← h, h0]
    omega
  | succ k ih =>
    intro s h
    obtain ⟨s1, h1, h2⟩ := loop_state_succ P X O k s0 s h
    have hl := ih s1 h1
    rcases check_sat_step_level P X O s1 s h2 with ⟨he, s2, mdl, hq⟩ | hle
    · by_cases h3 : s1.m_level = 3
      · exact absurd hq (hno k s1 h1 h3 s2 mdl)
      · omega
    · omega

end qepr
end qe

namespace qe
namespace qepr

theorem collect_body_todo (X : Ext) (c : Collect) (e : Expr) (h : c.todo ≠ []) :
    (collect_body X c e).todo ≠ [] := by
  unfold collect_body
  split
  · exact h
  · simp only
    intro hc
    have : (c.todo ++ children e) ≠ [] := by
      intro h2
      exact h (List.append_eq_nil.1 h2).1
    apply this
    rw [← hc]
    cases hd : decl_of e with
    | none => simp
    | some d =>
      simp only
      split <;> split <;> rfl

theorem collect_loop_none (X : Ext) : ∀ (fuel : Nat) (c : Collect), c.todo ≠ [] →
    collect_loop X fuel c = none
  | 0, _, _ => rfl
  | fuel + 1, c, h => by
    rw [collect_loop]
    cases hl : c.todo.getLast? with
    | none => exact absurd (List.getLast?_eq_none_iff.1 hl) h
    | some e => exact collect_loop_none X fuel _ (collect_body_todo X c e h)

end qepr
end qe

namespace qe
namespace qepr

end qepr
end qe

/-! ## The projection: more inputs -/

namespace qe
open arith_project_util

/-- C20, refuted on the code (the defect of C1). On the rows of `y ≤ 2·x`, `x ≤ z`,
`x mod 3 = 1` with `x = 1, y = 2, z = 1`, `apply_divides` has `delta = 3`, `u = 1` and gives
`x` the value 0. Under `x ↦ 3·x' + 1` every row keeps its value; the rows it stores have
the values 1 and -2 where the originals have 0 and 0, and the first one, `-6·x + (y - 1)`,
is positive in the updated model: the updated inequality is false although the old model
satisfied the original. -/
theorem apply_divides_rows_not_substituted :
    divides_rows id vx (model_xyz 1 2 1) shift_lits = some (3, 1, 0, [(0, 1), (0, -2)]) := by
  decide!

/-- C19, refuted on the code. Over the reals, on `x = y`, `x = z` with all values 0,
`project` takes the second equality and emits for the first one only `(-y) - (-z) ≤ 0`.
The assignment `y = 1, z = 0` satisfies this output, and no value of `x` satisfies both
equalities there. -/
theorem project_two_equalities_not_exact :
    two_eq_lits.map (holds (model_list [0, 0, 0])) = [true, true] ∧
    (project id (rvar 0) (model_list [0, 0, 0]) two_eq_lits).map
      (fun r => r.1.map (holds (model_list [0, 1, 0]))) = some [true] ∧
    ∀ r : ℚ, holdsAll ((model_list [0, 1, 0]).register_decl (rvar 0) r) two_eq_lits = false := by
  refine ⟨by decide!, by decide!, ?_⟩
  intro r
  simp only [two_eq_lits, holdsAll, holds, sortOf, rvar, eval, Model.register_decl, model_list]
  by_cases h : r = 1
  · subst h; decide!
  · simp [h]

end qe

/-! ## The alternating loop: the first two levels -/

namespace qe
namespace qsat

theorem get2_set2_same (rows : List (List Expr)) (i j : Nat) (e x : Expr)
    (h : get2 rows i j = some x) : get2 (set2 rows i j e) i j = some e := by
  unfold get2 at h ⊢
  unfold set2
  cases hr : rows[i]? with
  | none => rw [hr] at h; cases h
  | some row =>
    rw [hr] at h
    have hi : i < rows.length := (List.getElem?_eq_some_iff.1 hr).1
    have hj : j < row.length := (List.getElem?_eq_some_iff.1 h).1
    have hd : rows.getD i [] = row := by
      rw [List.getD_eq_getElem?_getD, hr]; rfl
    rw [List.getElem?_set_self hi]
    simp only [hd]
    rw [List.getElem?_set_self hj]

theorem get2_set2_other (rows : List (List Expr)) (i j i1 j1 : Nat) (e : Expr)
    (h : ¬ (i1 = i ∧ j1 = j)) : get2 (set2 rows i1 j1 e) i j = get2 rows i j := by
  unfold get2 set2
  by_cases hi : i1 = i
  · subst hi
    have hj : j1 ≠ j := fun hj => h ⟨rfl, hj⟩
    cases hr : rows[i1]? with
    | none =>
      have : rows.length ≤ i1 := by
        by_contra hc
        rw [List.getElem?_eq_getElem (by omega)] at hr
        cases hr
      rw [List.getElem?_eq_none (by simpa using this)]
    | some row =>
      have hlt : i1 < rows.length := (List.getElem?_eq_some_iff.1 hr).1
      have hd : rows.getD i1 [] = row := by
        rw [List.getD_eq_getElem?_getD, hr]; rfl
      rw [List.getElem?_set_self hlt]
      simp only [hd]
      rw [List.getElem?_set_ne hj]
  · rw [List.getElem?_set_ne hi]

theorem set2_shape (rows : List (List Expr)) (i j : Nat) (e : Expr) :
    (set2 rows i j e).map List.length = rows.map List.length := by
  unfold set2
  apply List.ext_getElem?
  intro k
  simp only [List.getElem?_map]
  by_cases hk : i = k
  · subst hk
    cases hr : rows[i]? with
    | none =>
      have : rows.length ≤ i := by
        by_contra hc
        rw [List.getElem?_eq_getElem (by omega)] at hr
        cases hr
      rw [List.getElem?_eq_none (by simpa using this)]
    | some row =>
      have hlt : i < rows.length := (List.getElem?_eq_some_iff.1 hr).1
      have hd : rows.getD i [] = row := by
        rw [List.getD_eq_getElem?_getD, hr]; rfl
      rw [List.getElem?_set_self hlt]
      simp [hr]
  · rw [List.getElem?_set_ne hk]

theorem get2_isSome_of_shape {α β : Type} (r1 : List (List α)) (r2 : List (List β))
    (h : r1.map List.length = r2.map List.length) (i j : Nat) :
    (get2 r1 i j).isSome = (get2 r2 i j).isSome := by
  have hi := congrArg (fun l => l[i]?) h
  simp only [List.getElem?_map] at hi
  unfold get2
  cases h1 : r1[i]? with
  | none =>
    rw [h1] at hi
    cases h2 : r2[i]? with
    | none => rfl
    | some b => rw [h2] at hi; cases hi
  | some a =>
    rw [h1] at hi
    cases h2 : r2[i]? with
    | none => rw [h2] at hi; cases hi
    | some b =>
      rw [h2] at hi
      simp only [Option.map_some', Option.some.injEq] at hi
      simp only
      by_cases hj : j < a.length
      · rw [List.getElem?_eq_getElem hj, List.getElem?_eq_getElem (by omega)]
        rfl
      · rw [List.getElem?_eq_none (by omega), List.getElem?_eq_none (by omega)]
        rfl

end qsat
end qe

namespace qe
namespace qsat

theorem asserted_kernel_assert (k : List (List Expr)) (e x : Expr) (h : x ∈ asserted k) :
    x ∈ asserted (kernel_assert k e) := by
  rw [mem_asserted] at h ⊢
  obtain ⟨sc, hsc, hx⟩ := h
  rcases List.eq_nil_or_concat k with hk | ⟨ki, kl, hk⟩
  · subst hk; cases hsc
  · subst hk
    rw [List.concat_eq_append] at hsc ⊢
    rw [kernel_assert_concat]
    rcases List.mem_append.1 hsc with h1 | h1
    · exact ⟨sc, List.mem_append_left _ h1, hx⟩
    · simp only [List.mem_singleton] at h1
      subst h1
      exact ⟨sc ++ [e], by simp, List.mem_append_left _ hx⟩

theorem asserted_kernel_assert_self (k : List (List Expr)) (e : Expr) :
    e ∈ asserted (kernel_assert k e) := by
  rw [mem_asserted]
  rcases List.eq_nil_or_concat k with hk | ⟨ki, kl, hk⟩
  · subst hk
    exact ⟨[e], by simp [kernel_assert], by simp⟩
  · subst hk
    rw [List.concat_eq_append, kernel_assert_concat]
    exact ⟨kl ++ [e], by simp, by simp⟩

theorem add_pred_fields (s : State) (p lit : Expr) (level : Nat) :
    (add_pred s p lit level).m_vars = s.m_vars ∧ (add_pred s p lit level).m_vals = s.m_vals ∧
    (add_pred s p lit level).m_preds = s.m_preds ∧
    (add_pred s p lit level).m_level = s.m_level ∧
    (add_pred s p lit level).m_fml_pred = s.m_fml_pred ∧
    (add_pred s p lit level).m_nfml_pred = s.m_nfml_pred ∧
    (add_pred s p lit level).m_model = s.m_model ∧
    (add_pred s p lit level).m_fresh = s.m_fresh ∧
    (add_pred s p lit level).m_kernel =
      (if !(p == lit) then kernel_assert s.m_kernel (Expr.eq p lit) else s.m_kernel) := by
  simp [add_pred]

theorem add_pred_kernel_mono (s : State) (p lit : Expr) (level : Nat) (e : Expr)
    (h : e ∈ asserted s.m_kernel) : e ∈ asserted (add_pred s p lit level).m_kernel := by
  rw [(add_pred_fields s p lit level).2.2.2.2.2.2.2.2]
  split
  · exact asserted_kernel_assert _ _ _ h
  · exact h

theorem del_pred_more (s : State) (p : Expr) :
    (del_pred s p).m_fml_pred = s.m_fml_pred ∧ (del_pred s p).m_nfml_pred = s.m_nfml_pred ∧
    (del_pred s p).m_model = s.m_model := by
  unfold del_pred
  split <;> simp

theorem var_bool_ne_eq (n : Nat) (a b : Expr) :
    ((Expr.var ⟨n, Srt.bool⟩ : Expr) == Expr.eq a b) = false := rfl

theorem update_tail_var_spec (M : Model) (i j : Nat) (s : State) (v : Var)
    (hs : Shaped s) (hv : get2 s.m_vars i j = some v) :
    ∃ s1, update_tail_var M i s j = some s1 ∧ TailFrame s s1 ∧ Shaped s1 ∧
      Installed M s1 i j v ∧
      ∀ i1 j1 : Nat, ¬ (i = i1 ∧ j = j1) →
        get2 s1.m_vals i1 j1 = get2 s.m_vals i1 j1 ∧
        get2 s1.m_preds i1 j1 = get2 s.m_preds i1 j1 := by
  have h1 := get2_isSome_of_shape _ _ hs.1 i j
  have h2 := get2_isSome_of_shape _ _ hs.2 i j
  rw [hv] at h1 h2
  obtain ⟨x, hx⟩ := Option.isSome_iff_exists.1 h1
  obtain ⟨p, hp⟩ := Option.isSome_iff_exists.1 h2
  obtain ⟨d1, d2, d3, d4, d5, d6, d7, d8, d9, d10, d11, d12⟩ := del_pred_frame s p
  obtain ⟨d13, d14, d15⟩ := del_pred_more s p
  unfold update_tail_var
  simp only [hp, hv, hx]
  by_cases hb : v.sort = Srt.bool
  · simp only [hb, if_true]
    refine ⟨_, rfl, ?_, ?_, ?_, ?_⟩
    · refine ⟨?_, ?_, ?_, ?_, ?_, ?_⟩
      · simp [add_pred, d9]
      · simp [add_pred, d3]
      · simp [add_pred, d13]
      · simp [add_pred, d14]
      · simp [add_pred, d15]
      · intro e he
        exact add_pred_kernel_mono _ _ _ i e (by simpa [d1] using he)
    · constructor
      · simp [add_pred, d9, d10, set2_shape, hs.1]
      · simp [add_pred, d9, d11, set2_shape, hs.2]
    · refine ⟨?_, ?_, fun h => absurd hb h⟩
      · simp only [add_pred, d10]
        exact get2_set2_same _ _ _ _ _ hx
      · intro _
        simp only [add_pred, d11]
        rw [get2_set2_same _ _ _ _ _ hp]
        simp only [eval_var, hb, if_true]
        cases M.bval v <;> rfl
    · intro i1 j1 hne
      simp only [add_pred, d10, d11]
      exact ⟨get2_set2_other _ _ _ _ _ _ hne, get2_set2_other _ _ _ _ _ _ hne⟩
  · simp only [hb, if_false]
    refine ⟨_, rfl, ?_, ?_, ?_, ?_⟩
    · refine ⟨?_, ?_, ?_, ?_, ?_, ?_⟩
      · simp [add_pred, fresh_bool, d9]
      · simp [add_pred, fresh_bool, d3]
      · simp [add_pred, fresh_bool, d13]
      · simp [add_pred, fresh_bool, d14]
      · simp [add_pred, fresh_bool, d15]
      · intro e he
        exact add_pred_kernel_mono _ _ _ i e (by simpa [fresh_bool, d1] using he)
    · constructor
      · simp [add_pred, fresh_bool, d9, d10, set2_shape, hs.1]
      · simp [add_pred, fresh_bool, d9, d11, set2_shape, hs.2]
    · refine ⟨?_, fun h => absurd h hb, ?_⟩
      · simp only [add_pred, fresh_bool, d10]
        exact get2_set2_same _ _ _ _ _ hx
      · intro _
        refine ⟨s.m_fresh, ?_, ?_⟩
        · simp only [add_pred, fresh_bool, d11, d12]
          exact get2_set2_same _ _ _ _ _ hp
        · simp only [add_pred, fresh_bool, d12, var_bool_ne_eq, Bool.not_false, if_true]
          exact asserted_kernel_assert_self _ _
    · intro i1 j1 hne
      simp only [add_pred, fresh_bool, d10, d11]
      exact ⟨get2_set2_other _ _ _ _ _ _ hne, get2_set2_other _ _ _ _ _ _ hne⟩

end qsat
end qe

namespace qe
namespace qsat

theorem TailFrame.rfl (s : State) : TailFrame s s :=
  ⟨Eq.refl _, Eq.refl _, Eq.refl _, Eq.refl _, Eq.refl _, fun _ h => h⟩

theorem TailFrame.trans (s s1 s2 : State) (h1 : TailFrame s s1) (h2 : TailFrame s1 s2) :
    TailFrame s s2 :=
  ⟨h2.1.trans h1.1, h2.2.1.trans h1.2.1, h2.2.2.1.trans h1.2.2.1,
    h2.2.2.2.1.trans h1.2.2.2.1, h2.2.2.2.2.1.trans h1.2.2.2.2.1,
    fun e he => h2.2.2.2.2.2 e (h1.2.2.2.2.2 e he)⟩

theorem Installed.keep (M : Model) (s s1 : State) (i j : Nat) (v : Var)
    (h : Installed M s i j v) (hf : TailFrame s s1)
    (hg : get2 s1.m_vals i j = get2 s.m_vals i j ∧ get2 s1.m_preds i j = get2 s.m_preds i j) :
    Installed M s1 i j v := by
  obtain ⟨a, b, c⟩ := h
  refine ⟨hg.1.trans a, fun hb => hg.2.trans (b hb), fun hb => ?_⟩
  obtain ⟨n, h1, h2⟩ := c hb
  exact ⟨n, hg.2.trans h1, hf.2.2.2.2.2 _ h2⟩

theorem block_loop_spec (M : Model) (i : Nat) : ∀ (js : List Nat) (s : State),
    Shaped s → js.Nodup → (∀ j ∈ js, ∃ v, get2 s.m_vars i j = some v) →
    ∃ s1, loop_over (update_tail_var M i) js s = some s1 ∧ TailFrame s s1 ∧ Shaped s1 ∧
      (∀ j ∈ js, ∀ v, get2 s.m_vars i j = some v → Installed M s1 i j v) ∧
      ∀ i1 j1 : Nat, ¬ (i1 = i ∧ j1 ∈ js) →
        get2 s1.m_vals i1 j1 = get2 s.m_vals i1 j1 ∧
        get2 s1.m_preds i1 j1 = get2 s.m_preds i1 j1
  | [], s, hs, _, _ =>
    ⟨s, rfl, TailFrame.rfl s, hs, fun _ h => (by cases h), fun _ _ _ => ⟨rfl, rfl⟩⟩
  | j :: js, s, hs, hn, hb => by
    obtain ⟨v, hv⟩ := hb j (List.mem_cons_self _ _)
    obtain ⟨s1, e1, f1, sh1, in1, o1⟩ := update_tail_var_spec M i j s v hs hv
    have hn2 := List.nodup_cons.1 hn
    obtain ⟨s2, e2, f2, sh2, in2, o2⟩ := block_loop_spec M i js s1 sh1 hn2.2
      (fun j1 hj1 => by rw [f1.1]; exact hb j1 (List.mem_cons_of_mem _ hj1))
    refine ⟨s2, ?_, TailFrame.trans _ _ _ f1 f2, sh2, ?_, ?_⟩
    · simp only [loop_over, e1]
      exact e2
    · intro j1 hj1 v1 hv1
      rcases List.mem_cons.1 hj1 with h | h
      · subst h
        rw [hv] at hv1
        injection hv1 with hv1
        subst hv1
        exact Installed.keep M s1 s2 i j1 v in1 f2
          (o2 i j1 (fun hc => hn2.1 hc.2))
      · exact in2 j1 h v1 (by rw [f1.1]; exact hv1)
    · intro i1 j1 hne
      have a := o2 i1 j1 (fun hc => hne ⟨hc.1, List.mem_cons_of_mem _ hc.2⟩)
      have b := o1 i1 j1 (fun hc => hne ⟨hc.1.symm, by rw [hc.2]; exact List.mem_cons_self _ _⟩)
      exact ⟨a.1.trans b.1, a.2.trans b.2⟩

theorem get2_bound {α : Type} (rows : List (List α)) (i j : Nat) (x : α)
    (h : get2 rows i j = some x) : j < (rows.getD i []).length := by
  unfold get2 at h
  cases hr : rows[i]? with
  | none => rw [hr] at h; cases h
  | some row =>
    rw [hr] at h
    rw [List.getD_eq_getElem?_getD, hr]
    exact (List.getElem?_eq_some_iff.1 h).1

theorem get2_of_lt {α : Type} (rows : List (List α)) (i j : Nat)
    (h : j < (rows.getD i []).length) : ∃ x, get2 rows i j = some x := by
  unfold get2
  cases hr : rows[i]? with
  | none =>
    rw [List.getD_eq_getElem?_getD, hr] at h
    simp at h
  | some row =>
    rw [List.getD_eq_getElem?_getD, hr] at h
    exact ⟨row[j], List.getElem?_eq_getElem h⟩

theorem update_tail_block_spec (M : Model) (i : Nat) (s : State) (hs : Shaped s) :
    ∃ s1, update_tail_block M s i = some s1 ∧ TailFrame s s1 ∧ Shaped s1 ∧
      (∀ j v, get2 s.m_vars i j = some v → Installed M s1 i j v) ∧
      ∀ i1 j1 : Nat, i1 ≠ i →
        get2 s1.m_vals i1 j1 = get2 s.m_vals i1 j1 ∧
        get2 s1.m_preds i1 j1 = get2 s.m_preds i1 j1 := by
  obtain ⟨s1, e1, f1, sh1, in1, o1⟩ := block_loop_spec M i
    (List.range (s.m_vars.getD i []).length) s hs (List.nodup_range _)
    (fun j hj => get2_of_lt _ _ _ (List.mem_range.1 hj))
  refine ⟨s1, e1, f1, sh1, ?_, ?_⟩
  · intro j v hv
    exact in1 j (List.mem_range.2 (get2_bound _ _ _ _ hv)) v hv
  · intro i1 j1 hne
    exact o1 i1 j1 (fun hc => hne hc.1)

theorem blocks_loop_spec (M : Model) : ∀ (bs : List Nat) (s : State),
    Shaped s → bs.Nodup →
    ∃ s1, loop_over (update_tail_block M) bs s = some s1 ∧ TailFrame s s1 ∧ Shaped s1 ∧
      (∀ i ∈ bs, ∀ j v, get2 s.m_vars i j = some v → Installed M s1 i j v) ∧
      ∀ i1 j1 : Nat, i1 ∉ bs →
        get2 s1.m_vals i1 j1 = get2 s.m_vals i1 j1 ∧
        get2 s1.m_preds i1 j1 = get2 s.m_preds i1 j1
  | [], s, hs, _ =>
    ⟨s, rfl, TailFrame.rfl s, hs, fun _ h => (by cases h), fun _ _ _ => ⟨rfl, rfl⟩⟩
  | i :: bs, s, hs, hn => by
    obtain ⟨s1, e1, f1, sh1, in1, o1⟩ := update_tail_block_spec M i s hs
    have hn2 := List.nodup_cons.1 hn
    obtain ⟨s2, e2, f2, sh2, in2, o2⟩ := blocks_loop_spec M bs s1 sh1 hn2.2
    refine ⟨s2, ?_, TailFrame.trans _ _ _ f1 f2, sh2, ?_, ?_⟩
    · simp only [loop_over, e1]
      exact e2
    · intro i1 hi1 j v hv
      rcases List.mem_cons.1 hi1 with h | h
      · subst h
        exact Installed.keep M s1 s2 i1 j v (in1 j v hv) f2 (o2 i1 j hn2.1)
      · exact in2 i1 h j v (by rw [f1.1]; exact hv)
    · intro i1 j1 hne
      have a := o2 i1 j1 (fun hc => hne (List.mem_cons_of_mem _ hc))
      have b := o1 i1 j1 (fun hc => hne (by rw [hc]; exact List.mem_cons_self _ _))
      exact ⟨a.1.trans b.1, a.2.trans b.2⟩

theorem mem_tail_blocks (start size i : Nat) :
    i ∈ tail_blocks start size ↔ i < size ∧ start ≤ i ∧ (i - start) % 2 = 0 := by
  simp [tail_blocks, List.mem_filter]

theorem update_tail_spec (M : Model) (start : Nat) (s : State) (hs : Shaped s) :
    ∃ s1, update_tail M start s = some s1 ∧ TailFrame s s1 ∧ Shaped s1 ∧
      (∀ i j v, start ≤ i → (i - start) % 2 = 0 → get2 s.m_vars i j = some v →
        Installed M s1 i j v) ∧
      ∀ i1 j1 : Nat, ¬ (start ≤ i1 ∧ (i1 - start) % 2 = 0) →
        get2 s1.m_vals i1 j1 = get2 s.m_vals i1 j1 ∧
        get2 s1.m_preds i1 j1 = get2 s.m_preds i1 j1 := by
  obtain ⟨s1, e1, f1, sh1, in1, o1⟩ := blocks_loop_spec M
    (tail_blocks start s.m_vars.length) s hs
    (List.Nodup.filter _ (List.nodup_range _))
  refine ⟨s1, e1, f1, sh1, ?_, ?_⟩
  · intro i j v h1 h2 hv
    refine in1 i ((mem_tail_blocks _ _ _).2 ⟨?_, h1, h2⟩) j v hv
    unfold get2 at hv
    cases hr : s.m_vars[i]? with
    | none => rw [hr] at hv; cases hv
    | some row => exact (List.getElem?_eq_some_iff.1 hr).1
  · intro i1 j1 hne
    exact o1 i1 j1 (fun hc => hne ((mem_tail_blocks _ _ _).1 hc).2)

end qsat
end qe

namespace qe
namespace qsat

theorem with_vals_shaped (s : State)
    (hs : s.m_preds.map List.length = s.m_vars.map List.length) : Shaped (with_vals s) := by
  refine ⟨?_, hs⟩
  simp [with_vals, List.map_map, Function.comp_def]

/-- The verdicts of the initialisation, for a state whose table `m_preds` has the shape of
the prefix. With `s` the state after `m_vals` is reset to the prefix: if the query `{φ}` is
unsat the result is `l_false`, if it is undef the result is `l_undef`; if it is sat with
model `mdl`, `update_tail(mdl, 0)` succeeds, and then: if the query `{¬φ}` is unsat the
result is `l_true` with `mdl` stored in `m_model`, if it is undef the result is `l_undef`,
and if it is sat with model `mdl1` the method returns false (the loop starts) at the
level it was called at, with the witness literal of every variable of an even block
installed from `mdl` and of an odd block from `mdl1`. It returns false in no other case. -/
theorem initialise_verdicts (O : Oracle) (s0 : State)
    (hs : s0.m_preds.map List.length = s0.m_vars.map List.length) :
    (∀ core, kernel_check O (with_vals s0) [s0.m_fml_pred] = Answer.unsat core →
      initialise O s0 = some (Sum.inl (lbool.l_false, with_vals s0))) ∧
    (kernel_check O (with_vals s0) [s0.m_fml_pred] = Answer.undef →
      initialise O s0 = some (Sum.inl (lbool.l_undef, with_vals s0))) ∧
    (∀ mdl, kernel_check O (with_vals s0) [s0.m_fml_pred] = Answer.sat mdl →
      ∃ s1, update_tail mdl 0 (with_vals s0) = some s1 ∧
        (∀ core, kernel_check O s1 [s0.m_nfml_pred] = Answer.unsat core →
          initialise O s0 = some (Sum.inl (lbool.l_true, { s1 with m_model := some mdl }))) ∧
        (kernel_check O s1 [s0.m_nfml_pred] = Answer.undef →
          initialise O s0 = some (Sum.inl (lbool.l_undef, s1))) ∧
        (∀ mdl1, kernel_check O s1 [s0.m_nfml_pred] = Answer.sat mdl1 →
          ∃ s2, initialise O s0 = some (Sum.inr s2) ∧ s2.m_level = s0.m_level ∧
            ∀ i j v, get2 s0.m_vars i j = some v →
              Installed (if i % 2 = 0 then mdl else mdl1) s2 i j v)) ∧
    (∀ s2, initialise O s0 = some (Sum.inr s2) →
      ∃ mdl s1 mdl1, kernel_check O (with_vals s0) [s0.m_fml_pred] = Answer.sat mdl ∧
        update_tail mdl 0 (with_vals s0) = some s1 ∧
        kernel_check O s1 [s0.m_nfml_pred] = Answer.sat mdl1) := by
  have hsh := with_vals_shaped s0 hs
  have hinit : initialise O s0 =
      match kernel_check O (with_vals s0) [s0.m_fml_pred] with
      | Answer.unsat _ => some (Sum.inl (lbool.l_false, with_vals s0))
      | Answer.undef => some (Sum.inl (lbool.l_undef, with_vals s0))
      | Answer.sat mdl =>
        match update_tail mdl 0 (with_vals s0) with
        | none => none
        | some s1 =>
          match kernel_check O s1 [s1.m_nfml_pred] with
          | Answer.unsat _ => some (Sum.inl (lbool.l_true, { s1 with m_model := some mdl }))
          | Answer.undef => some (Sum.inl (lbool.l_undef, s1))
          | Answer.sat mdl1 =>
            match update_tail mdl1 1 s1 with
            | none => none
            | some s2 => some (Sum.inr s2) := rfl
  refine ⟨?_, ?_, ?_, ?_⟩
  · intro core h
    rw [hinit, h]
  · intro h
    rw [hinit, h]
  · intro mdl h
    obtain ⟨s1, e1, f1, sh1, in1, o1⟩ := update_tail_spec mdl 0 (with_vals s0) hsh
    have hn : s1.m_nfml_pred = s0.m_nfml_pred := f1.2.2.2.1
    refine ⟨s1, e1, ?_, ?_, ?_⟩
    · intro core h2
      rw [hinit, h]
      simp only [e1, hn, h2]
    · intro h2
      rw [hinit, h]
      simp only [e1, hn, h2]
    · intro mdl1 h2
      obtain ⟨s2, e2, f2, sh2, in2, o2⟩ := update_tail_spec mdl1 1 s1 sh1
      refine ⟨s2, ?_, ?_, ?_⟩
      · rw [hinit, h]
        simp only [e1, hn, h2, e2]
      · rw [f2.2.1, f1.2.1]
        rfl
      · intro i j v hv
        have hv1 : get2 s1.m_vars i j = some v := by rw [f1.1]; exact hv
        by_cases hi : i % 2 = 0
        · rw [if_pos hi]
          refine Installed.keep mdl s1 s2 i j v
            (in1 i j v (Nat.zero_le _) (by simpa using hi) hv) f2 (o2 i j ?_)
          intro hc
          omega
        · rw [if_neg hi]
          exact in2 i j v (by omega) (by omega) hv1
  · intro s2 h
    rw [hinit] at h
    cases h1 : kernel_check O (with_vals s0) [s0.m_fml_pred] with
    | unsat core => rw [h1] at h; cases h
    | undef => rw [h1] at h; cases h
    | sat mdl =>
      rw [h1] at h
      simp only at h
      cases h2 : update_tail mdl 0 (with_vals s0) with
      | none => rw [h2] at h; cases h
      | some s1 =>
        rw [h2] at h
        simp only at h
        obtain ⟨s1a, e1, f1, _⟩ := update_tail_spec mdl 0 (with_vals s0) hsh
        rw [h2] at e1
        injection e1 with e1
        subst e1
        have hn : s1.m_nfml_pred = s0.m_nfml_pred := f1.2.2.2.1
        rw [hn] at h
        cases h3 : kernel_check O s1 [s0.m_nfml_pred] with
        | unsat core => rw [h3] at h; cases h
        | undef => rw [h3] at h; cases h
        | sat mdl1 => exact ⟨mdl, s1, mdl1, rfl, h2, h3⟩

end qsat
end qe

/-! ## Names: the abstraction and the maps between names and literals -/

namespace qe
namespace qsat

theorem map_find_insert_some {β : Type} (m : List (Expr × β)) (k k1 : Expr) (v v1 : β)
    (h : map_find (map_insert m k v) k1 = some v1) :
    (k1 = k ∧ v1 = v) ∨ (k1 ≠ k ∧ map_find m k1 = some v1) := by
  by_cases hk : k1 = k
  · subst hk
    rw [map_find_insert_same] at h
    exact Or.inl ⟨rfl, (Option.some.inj h).symm⟩
  · rw [map_find_insert_other _ _ _ _ hk] at h
    exact Or.inr ⟨hk, h⟩

theorem map_find_remove_some {β : Type} (m : List (Expr × β)) (k k1 : Expr) (v1 : β)
    (h : map_find (map_remove m k) k1 = some v1) : k1 ≠ k ∧ map_find m k1 = some v1 := by
  by_cases hk : k1 = k
  · subst hk
    rw [map_find_remove_same] at h
    cases h
  · rw [map_find_remove_other _ _ _ hk] at h
    exact ⟨hk, h⟩

/-- The maps after `del_pred(p)` when `p` is bound to `lit`. -/
theorem del_pred_bound (s : State) (p lit : Expr) (h : map_find s.m_pred2lit p = some lit) :
    del_pred s p = { s with m_lit2pred := map_remove s.m_lit2pred lit,
                            m_pred2lit := map_remove s.m_pred2lit p,
                            m_pred2level := map_remove s.m_pred2level p } := by
  unfold del_pred
  rw [h]

theorem del_pred_unbound (s : State) (p : Expr) (h : map_find s.m_pred2lit p = none) :
    del_pred s p = s := by
  unfold del_pred
  rw [h]

/-- Source `del_pred` keeps the two maps inverse to each other. -/
theorem del_pred_bijective (s : State) (p : Expr) (hb : Bijective s) :
    Bijective (del_pred s p) := by
  cases h : map_find s.m_pred2lit p with
  | none => rw [del_pred_unbound s p h]; exact hb
  | some lit =>
    rw [del_pred_bound s p lit h]
    have hl : map_find s.m_lit2pred lit = some p := (hb.1 p lit).1 h
    refine ⟨fun q a => ⟨fun hq => ?_, fun hq => ?_⟩, fun q => ?_⟩
    · obtain ⟨hne, hq1⟩ := map_find_remove_some _ _ _ _ hq
      have hqa := (hb.1 q a).1 hq1
      have hal : a ≠ lit := by
        intro hc
        subst hc
        rw [hl] at hqa
        exact hne (Option.some.inj hqa).symm
      show map_find (map_remove s.m_lit2pred lit) a = some q
      rw [map_find_remove_other _ _ _ hal]
      exact hqa
    · obtain ⟨hne, hq1⟩ := map_find_remove_some _ _ _ _ hq
      have hqa := (hb.1 q a).2 hq1
      have hqp : q ≠ p := by
        intro hc
        subst hc
        rw [h] at hqa
        exact hne (Option.some.inj hqa).symm
      show map_find (map_remove s.m_pred2lit p) q = some a
      rw [map_find_remove_other _ _ _ hqp]
      exact hqa
    · show (map_find (map_remove s.m_pred2level p) q).isSome =
        (map_find (map_remove s.m_pred2lit p) q).isSome
      by_cases hqp : q = p
      · subst hqp
        rw [map_find_remove_same, map_find_remove_same]
        rfl
      · rw [map_find_remove_other _ _ _ hqp, map_find_remove_other _ _ _ hqp]
        exact hb.2 q

/-- The maps after `add_pred`. -/
theorem add_pred_maps (s : State) (p lit : Expr) (level : Nat) :
    (add_pred s p lit level).m_pred2lit = map_insert s.m_pred2lit p lit ∧
    (add_pred s p lit level).m_lit2pred = map_insert s.m_lit2pred lit p ∧
    (add_pred s p lit level).m_pred2level = map_insert s.m_pred2level p level :=
  ⟨rfl, rfl, rfl⟩

/-- Source `add_pred(p, lit, level)` keeps the two maps inverse to each other when `p` is
unbound or bound to `lit`, and `lit` is unbound or bound to `p`. -/
theorem add_pred_bijective (s : State) (p lit : Expr) (level : Nat) (hb : Bijective s)
    (hp : ∀ a, map_find s.m_pred2lit p = some a → a = lit)
    (hl : ∀ q, map_find s.m_lit2pred lit = some q → q = p) :
    Bijective (add_pred s p lit level) := by
  obtain ⟨e1, e2, e3⟩ := add_pred_maps s p lit level
  refine ⟨fun q a => ?_, fun q => ?_⟩
  · rw [e1, e2]
    constructor
    · intro hq
      rcases map_find_insert_some _ _ _ _ _ hq with ⟨h1, h2⟩ | ⟨h1, h2⟩
      · subst h1; subst h2
        exact map_find_insert_same _ _ _
      · have hqa := (hb.1 q a).1 h2
        have hal : a ≠ lit := by
          intro hc
          subst hc
          exact h1 (hl q hqa)
        rw [map_find_insert_other _ _ _ _ hal]
        exact hqa
    · intro hq
      rcases map_find_insert_some _ _ _ _ _ hq with ⟨h1, h2⟩ | ⟨h1, h2⟩
      · subst h1; subst h2
        exact map_find_insert_same _ _ _
      · have hqa := (hb.1 q a).2 h2
        have hqp : q ≠ p := by
          intro hc
          subst hc
          exact h1 (hp a hqa)
        rw [map_find_insert_other _ _ _ _ hqp]
        exact hqa
  · rw [e1, e3]
    by_cases hqp : q = p
    · subst hqp
      rw [map_find_insert_same, map_find_insert_same]
      rfl
    · rw [map_find_insert_other _ _ _ _ hqp, map_find_insert_other _ _ _ _ hqp]
      exact hb.2 q

theorem basic_args_none_cases (e : Expr) (h : basic_args e = none) :
    (∀ a, e ≠ .not a) ∧ (∀ a, e ≠ .and a) ∧ (∀ a, e ≠ .or a) ∧ (∀ a b, e ≠ .implies a b) ∧
    (∀ a b, e ≠ .eq a b) ∧ e ≠ .tt ∧ e ≠ .ff := by
  cases e <;> simp [basic_args] at h <;> simp

/-- Concretisation of a formula outside the basic family is a lookup. -/
theorem concretize_leaf (m : List (Expr × Expr)) (e : Expr) (h : basic_args e = none) :
    concretize m e = (map_find m e).getD e := by
  cases e <;> simp [basic_args] at h <;> simp only [concretize] <;>
    cases map_find m _ <;> rfl

theorem concretize_tt (m : List (Expr × Expr)) (h : map_find m .tt = none) :
    concretize m .tt = .tt := by
  simp only [concretize, h]

theorem leaves_leaf (e : Expr) (h : basic_args e = none) : leaves e = [e] := by
  cases e <;> simp [basic_args] at h <;> simp only [leaves]

/-- The image of a formula under the cache, the formula itself when it is not cached. -/
theorem abstract_args_cached (cache : List (Expr × Expr)) : ∀ (fs args : List Expr)
    (diff : Bool) (todo : List Expr), (∀ f ∈ fs, (map_find cache f).isSome = true) →
    abstract_args cache fs args diff todo =
      (args ++ fs.map (fun f => (map_find cache f).getD f),
        diff || fs.any (fun f => !(f == (map_find cache f).getD f)), todo)
  | [], args, diff, todo, _ => by simp [abstract_args]
  | f :: fs, args, diff, todo, h => by
    have hf := h f (List.mem_cons_self _ _)
    cases hc : map_find cache f with
    | none => rw [hc] at hf; cases hf
    | some f1 =>
      unfold abstract_args
      simp only [hc]
      rw [abstract_args_cached cache fs _ _ _ (fun g hg => h g (List.mem_cons_of_mem _ hg))]
      simp [hc, Bool.or_assoc]

theorem abstract_args_count (cache : List (Expr × Expr)) : ∀ (fs args : List Expr)
    (diff : Bool) (todo : List Expr),
    (abstract_args cache fs args diff todo).1.length =
      args.length + (fs.filter (fun f => (map_find cache f).isSome)).length ∧
    (abstract_args cache fs args diff todo).2.2 =
      todo ++ fs.filter (fun f => !(map_find cache f).isSome)
  | [], args, diff, todo => by simp [abstract_args]
  | f :: fs, args, diff, todo => by
    cases hc : map_find cache f with
    | none =>
      unfold abstract_args
      simp only [hc]
      have := abstract_args_count cache fs args diff (todo ++ [f])
      simp [this, hc]
    | some f1 =>
      unfold abstract_args
      simp only [hc]
      have := abstract_args_count cache fs (args ++ [f1]) (diff || !(f == f1)) todo
      simp [this, hc]
      omega

theorem rebuild_basic_args (e : Expr) (fs : List Expr) (h : basic_args e = some fs) :
    rebuild e fs = e := by
  cases e <;> simp [basic_args] at h <;> subst h <;> rfl

theorem concretizeList_map (m : List (Expr × Expr)) (g : Expr → Expr) : ∀ fs : List Expr,
    (∀ f ∈ fs, concretize m (g f) = f) → concretizeList m (fs.map g) = fs
  | [], _ => by simp [concretizeList]
  | f :: fs, h => by
    simp only [List.map, concretizeList]
    rw [h f (List.mem_cons_self _ _),
      concretizeList_map m g fs (fun x hx => h x (List.mem_cons_of_mem _ hx))]

/-- Concretisation of the rebuilt application gives the application back when it does so
on the arguments and no name belongs to the basic family. -/
theorem concretize_rebuild (m : List (Expr × Expr)) (e : Expr) (fs gs : List Expr)
    (h : basic_args e = some fs)
    (hm : ∀ k v : Expr, map_find m k = some v → basic_args k = none)
    (hg : concretizeList m gs = fs) : concretize m (rebuild e gs) = e := by
  have hnone : ∀ k : Expr, (basic_args k).isSome = true → map_find m k = none := by
    intro k hk
    cases hf : map_find m k with
    | none => rfl
    | some v => rw [hm k v hf] at hk; cases hk
  cases e <;> simp [basic_args] at h
  case tt => simp only [rebuild, concretize, hnone Expr.tt rfl]
  case ff => simp only [rebuild, concretize, hnone Expr.ff rfl]
  case not a =>
    subst h
    match gs, hg with
    | [g], hg =>
      simp only [concretizeList, List.cons.injEq, and_true] at hg
      simp only [rebuild, concretize, hnone (Expr.not g) rfl, hg]
  case and as =>
    subst h
    simp only [rebuild, concretize, hnone (Expr.and gs) rfl, hg]
  case or as =>
    subst h
    simp only [rebuild, concretize, hnone (Expr.or gs) rfl, hg]
  case implies a b =>
    subst h
    match gs, hg with
    | [g1, g2], hg =>
      simp only [concretizeList, List.cons.injEq, and_true] at hg
      simp only [rebuild, concretize, hnone (Expr.implies g1 g2) rfl, hg.1, hg.2]
  case eq a b =>
    subst h
    match gs, hg with
    | [g1, g2], hg =>
      simp only [concretizeList, List.cons.injEq, and_true] at hg
      simp only [rebuild, concretize, hnone (Expr.eq g1 g2) rfl, hg.1, hg.2]

theorem mem_leavesList (a : Expr) : ∀ fs : List Expr,
    a ∈ leavesList fs ↔ ∃ f ∈ fs, a ∈ leaves f
  | [] => by simp [leavesList]
  | f :: fs => by simp [leavesList, mem_leavesList a fs]

theorem leaves_basic (e : Expr) (fs : List Expr) (h : basic_args e = some fs) :
    leaves e = leavesList fs := by
  cases e <;> simp [basic_args] at h <;> subst h <;> simp [leaves, leavesList]

theorem mem_occursList (v : Var) : ∀ fs : List Expr,
    occursList v fs = true ↔ ∃ f ∈ fs, occurs v f = true
  | [] => by simp [occursList]
  | f :: fs => by simp [occursList, mem_occursList v fs]

theorem belowFresh_arg (f0 : Nat) (e : Expr) (fs : List Expr) (h : basic_args e = some fs)
    (hb : BelowFresh f0 e) : ∀ f ∈ fs, BelowFresh f0 f := by
  intro f hf v hv hs
  apply hb v _ hs
  cases e with
  | tt => simp [basic_args] at h; subst h; cases hf
  | ff => simp [basic_args] at h; subst h; cases hf
  | not a =>
    simp [basic_args] at h; subst h
    simp at hf; subst hf
    simpa [occurs] using hv
  | and as =>
    simp [basic_args] at h; subst h
    simp only [occurs, mem_occursList]
    exact ⟨f, hf, hv⟩
  | or as =>
    simp [basic_args] at h; subst h
    simp only [occurs, mem_occursList]
    exact ⟨f, hf, hv⟩
  | implies a b =>
    simp [basic_args] at h; subst h
    simp at hf
    rcases hf with hf | hf <;> subst hf <;> simp [occurs, hv]
  | eq a b =>
    simp [basic_args] at h; subst h
    simp at hf
    rcases hf with hf | hf <;> subst hf <;> simp [occurs, hv]
  | _ => simp [basic_args] at h

theorem sizeOf_basic_arg (e : Expr) (fs : List Expr) (h : basic_args e = some fs) :
    ∀ f ∈ fs, sizeOf f < sizeOf e := by
  intro f hf
  cases e with
  | tt => simp [basic_args] at h; subst h; cases hf
  | ff => simp [basic_args] at h; subst h; cases hf
  | not a =>
    simp [basic_args] at h; subst h
    simp at hf; subst hf
    simp
  | and as =>
    simp [basic_args] at h; subst h
    have := List.sizeOf_lt_of_mem hf
    simp; omega
  | or as =>
    simp [basic_args] at h; subst h
    have := List.sizeOf_lt_of_mem hf
    simp; omega
  | implies a b =>
    simp [basic_args] at h; subst h
    simp at hf
    rcases hf with hf | hf <;> (subst hf; simp; try omega)
  | eq a b =>
    simp [basic_args] at h; subst h
    simp at hf
    rcases hf with hf | hf <;> (subst hf; simp; try omega)
  | _ => simp [basic_args] at h

/-- Induction over the arguments of the basic family. -/
theorem basic_induction (P : Expr → Prop)
    (h : ∀ e : Expr, (∀ fs, basic_args e = some fs → ∀ f ∈ fs, P f) → P e) :
    ∀ e : Expr, P e := by
  have key : ∀ (n : Nat) (e : Expr), sizeOf e ≤ n → P e := by
    intro n
    induction n with
    | zero =>
      intro e he
      exact h e (fun fs hfs f hf => by
        have := sizeOf_basic_arg e fs hfs f hf
        omega)
    | succ n ih =>
      intro e he
      exact h e (fun fs hfs f hf => ih f (by
        have := sizeOf_basic_arg e fs hfs f hf
        omega))
  exact fun e => key (sizeOf e) e (Nat.le_refl _)

theorem getLast_snoc (todo : List Expr) (e : Expr) : (todo ++ [e]).getLast? = some e := by
  simp

theorem filter_split_length {α : Type} (p : α → Bool) : ∀ fs : List α,
    (fs.filter p).length + (fs.filter (fun f => !p f)).length = fs.length
  | [] => rfl
  | f :: fs => by
    have := filter_split_length p fs
    cases h : p f <;> simp [List.filter, h] <;> omega

theorem loop_pop (fuel : Nat) (todo : List Expr) (e : Expr) (cache : List (Expr × Expr))
    (s : State) (h : (map_find cache e).isSome = true) :
    mk_abstract_loop (fuel + 1) (todo ++ [e]) cache s = mk_abstract_loop fuel todo cache s := by
  rw [mk_abstract_loop, getLast_snoc]
  simp only [h, if_true,
    List.dropLast_concat]

theorem loop_basic_done (fuel : Nat) (todo : List Expr) (e : Expr)
    (cache : List (Expr × Expr)) (s : State) (fs : List Expr)
    (hc : map_find cache e = none) (hb : basic_args e = some fs)
    (hf : ∀ f ∈ fs, (map_find cache f).isSome = true) :
    mk_abstract_loop (fuel + 1) (todo ++ [e]) cache s =
      mk_abstract_loop fuel todo
        (map_insert cache e (rebuild e (fs.map (fun f => (map_find cache f).getD f)))) s := by
  rw [mk_abstract_loop, getLast_snoc]
  simp only [hc, hb,
    abstract_args_cached cache fs _ _ _ hf, List.nil_append, List.length_map, if_true,
    List.dropLast_concat, Bool.false_or, Option.isSome_none]
  by_cases hd : (fs.any fun f => !(f == (map_find cache f).getD f)) = true
  · simp [hd]
  · have hall : ∀ f ∈ fs, (map_find cache f).getD f = f := by
      intro f hm
      by_contra hne
      apply hd
      rw [List.any_eq_true]
      refine ⟨f, hm, ?_⟩
      have := (Expr.bne_iff f ((map_find cache f).getD f)).2 (fun hc => hne hc.symm)
      simp [this]
    have hmap : fs.map (fun f => (map_find cache f).getD f) = fs := by
      conv => rhs; rw [← List.map_id fs]
      exact List.map_congr_left hall
    simp [hd, hmap, rebuild_basic_args e fs hb]

theorem loop_basic_push (fuel : Nat) (todo : List Expr) (e : Expr)
    (cache : List (Expr × Expr)) (s : State) (fs : List Expr)
    (hc : map_find cache e = none) (hb : basic_args e = some fs)
    (hf : fs.filter (fun f => !(map_find cache f).isSome) ≠ []) :
    mk_abstract_loop (fuel + 1) (todo ++ [e]) cache s =
      mk_abstract_loop fuel ((todo ++ [e]) ++ fs.filter (fun f => !(map_find cache f).isSome))
        cache s := by
  rw [mk_abstract_loop, getLast_snoc]
  have hcount := abstract_args_count cache fs [] false (todo ++ [e])
  have hlen : (abstract_args cache fs [] false (todo ++ [e])).1.length ≠ fs.length := by
    rw [hcount.1]
    intro hl
    apply hf
    have h2 : (fs.filter (fun f => (map_find cache f).isSome)).length = fs.length := by
      simpa using hl
    have h3 := filter_split_length (fun f => (map_find cache f).isSome) fs
    rw [h2] at h3
    exact List.length_eq_zero.1 (by omega)
  simp only [hc, hb, Option.isSome_none, if_neg hlen, hcount.2]
  simp

theorem loop_const (fuel : Nat) (todo : List Expr) (e : Expr) (cache : List (Expr × Expr))
    (s : State) (hc : map_find cache e = none) (hb : basic_args e = none)
    (hu : is_uninterp_const e = true) :
    mk_abstract_loop (fuel + 1) (todo ++ [e]) cache s =
      mk_abstract_loop fuel (todo ++ [e]) (map_insert cache e e) (add_pred s e e 0) := by
  rw [mk_abstract_loop, getLast_snoc]
  simp only [hc, hb, hu,
    Option.isSome_none, if_true]
  simp

theorem loop_fresh (fuel : Nat) (todo : List Expr) (e : Expr) (cache : List (Expr × Expr))
    (s : State) (hc : map_find cache e = none) (hb : basic_args e = none)
    (hu : is_uninterp_const e = false) :
    mk_abstract_loop (fuel + 1) (todo ++ [e]) cache s =
      mk_abstract_loop fuel (todo ++ [e]) (map_insert cache e (fresh_bool s).1)
        (add_pred (fresh_bool s).2 (fresh_bool s).1 e 0) := by
  rw [mk_abstract_loop, getLast_snoc]
  simp only [hc, hb, hu,
    Option.isSome_none]
  simp

theorem cached_getD (cache : List (Expr × Expr)) (f : Expr)
    (h : (map_find cache f).isSome = true) :
    map_find cache f = some ((map_find cache f).getD f) := by
  cases hc : map_find cache f with
  | none => rw [hc] at h; cases h
  | some y => rfl

/-- The invariant of the loop of `mk_abstract` after a basic application whose arguments
are all cached is cached. -/
theorem absInv_basic (f0 : Nat) (cache : List (Expr × Expr)) (s : State) (e : Expr)
    (fs : List Expr) (hi : AbsInv f0 cache s) (hc : map_find cache e = none)
    (hb : basic_args e = some fs) (hf : ∀ f ∈ fs, (map_find cache f).isSome = true)
    (he : BelowFresh f0 e) :
    AbsInv f0 (map_insert cache e (rebuild e (fs.map (fun f => (map_find cache f).getD f))))
      s := by
  have hold : ∀ x y : Expr, map_find (map_insert cache e
      (rebuild e (fs.map (fun f => (map_find cache f).getD f)))) x = some y →
      (x = e ∧ y = rebuild e (fs.map (fun f => (map_find cache f).getD f))) ∨
      (x ≠ e ∧ map_find cache x = some y) := fun x y h => map_find_insert_some _ _ _ _ _ h
  refine ⟨hi.fresh, hi.bij, ?_, ?_, ?_, ?_, ?_⟩
  · intro p l hpl
    obtain ⟨h1, h2, h3, h4⟩ := hi.entry p l hpl
    refine ⟨?_, h2, h3, h4⟩
    have hle : l ≠ e := by
      intro hc2
      subst hc2
      rw [hb] at h2
      cases h2
    rw [map_find_insert_other _ _ _ _ hle]
    exact h1
  · intro x y hxy
    rcases hold x y hxy with ⟨hx, _⟩ | ⟨_, hx⟩
    · subst hx; exact he
    · exact hi.below x y hx
  · intro x y hxy hbx
    rcases hold x y hxy with ⟨hx, _⟩ | ⟨_, hx⟩
    · subst hx
      rw [hb] at hbx
      cases hbx
    · exact hi.leaf x y hx hbx
  · intro x y hxy m1 hm1 hm2
    rcases hold x y hxy with ⟨hx, hy⟩ | ⟨_, hx⟩
    · subst hx; subst hy
      apply concretize_rebuild m1 x fs _ hb hm2
      apply concretizeList_map
      intro f hfm
      exact hi.trip f _ (cached_getD cache f (hf f hfm)) m1 hm1 hm2
    · exact hi.trip x y hx m1 hm1 hm2
  · intro x y hxy a ha
    rcases hold x y hxy with ⟨hx, _⟩ | ⟨_, hx⟩
    · subst hx
      rw [leaves_basic x fs hb, mem_leavesList] at ha
      obtain ⟨f, hfm, haf⟩ := ha
      exact hi.bound f _ (cached_getD cache f (hf f hfm)) a haf
    · exact hi.bound x y hx a ha

theorem belowFresh_not_fresh (f0 : Nat) (e : Expr) (he : BelowFresh f0 e) :
    ¬ fresh_form f0 e := by
  rintro ⟨n, hn, rfl⟩
  have := he ⟨n, .bool⟩ (by simp [occurs]) rfl
  simp at this
  omega

/-- The invariant of the loop of `mk_abstract` after a formula outside the basic family
is given a name: itself when it is a constant, a fresh Boolean constant otherwise. -/
theorem absInv_leaf (f0 : Nat) (cache : List (Expr × Expr)) (s : State) (e p0 : Expr)
    (k : Nat) (hi : AbsInv f0 cache s) (hc : map_find cache e = none)
    (hb : basic_args e = none) (he : BelowFresh f0 e) (hk : s.m_fresh ≤ k)
    (hp : (p0 = e ∧ is_uninterp_const e = true) ∨
      (is_uninterp_const e = false ∧ p0 = Expr.var ⟨s.m_fresh, .bool⟩ ∧ s.m_fresh < k)) :
    AbsInv f0 (map_insert cache e p0) (add_pred { s with m_fresh := k } p0 e 0) := by
  have hnf := belowFresh_not_fresh f0 e he
  have hbp : basic_args p0 = none := by
    rcases hp with ⟨h1, _⟩ | ⟨_, h1, _⟩
    · rw [h1]; exact hb
    · rw [h1]; rfl
  -- the name is not bound yet
  have hpn : map_find s.m_pred2lit p0 = none := by
    cases hq : map_find s.m_pred2lit p0 with
    | none => rfl
    | some l =>
      exfalso
      obtain ⟨h1, _, _, h4⟩ := hi.entry p0 l hq
      rcases hp with ⟨hp1, _⟩ | ⟨_, hp1, _⟩
      · rcases h4 with ⟨h5, _, _⟩ | ⟨_, n, hn1, _, hn3⟩
        · rw [← h5, hp1, hc] at h1
          cases h1
        · exact hnf ⟨n, hn1, hp1 ▸ hn3⟩
      · rcases h4 with ⟨h5, _, h6⟩ | ⟨_, n, _, hn2, hn3⟩
        · exact h6 ⟨s.m_fresh, hi.fresh, h5 ▸ hp1⟩
        · rw [hp1] at hn3
          injection hn3 with hn4
          injection hn4 with hn5
          omega
  have hln : map_find s.m_lit2pred e = none := by
    cases hq : map_find s.m_lit2pred e with
    | none => rfl
    | some q =>
      exfalso
      have h1 := (hi.entry q e ((hi.bij.1 q e).2 hq)).1
      rw [hc] at h1
      cases h1
  have hext : ∀ q v : Expr, map_find s.m_pred2lit q = some v →
      map_find (map_insert s.m_pred2lit p0 e) q = some v := by
    intro q v hq
    have hne : q ≠ p0 := by
      intro hc2
      subst hc2
      rw [hpn] at hq
      cases hq
    rw [map_find_insert_other _ _ _ _ hne]
    exact hq
  have hnew : map_find (map_insert s.m_pred2lit p0 e) p0 = some e := map_find_insert_same _ _ _
  have hold : ∀ x y : Expr, map_find (map_insert cache e p0) x = some y →
      (x = e ∧ y = p0) ∨ (x ≠ e ∧ map_find cache x = some y) :=
    fun x y h => map_find_insert_some _ _ _ _ _ h
  refine ⟨?_, ?_, ?_, ?_, ?_, ?_, ?_⟩
  · exact Nat.le_trans hi.fresh hk
  · apply add_pred_bijective
    · exact hi.bij
    · intro a ha
      rw [show ({ s with m_fresh := k } : State).m_pred2lit = s.m_pred2lit from rfl, hpn] at ha
      cases ha
    · intro q hq
      rw [show ({ s with m_fresh := k } : State).m_lit2pred = s.m_lit2pred from rfl, hln] at hq
      cases hq
  · intro p l hpl
    rcases map_find_insert_some s.m_pred2lit p0 p e l hpl with ⟨h1, h2⟩ | ⟨h1, h2⟩
    · subst h1; subst h2
      refine ⟨map_find_insert_same _ _ _, hb, hbp, ?_⟩
      rcases hp with ⟨hp1, hp2⟩ | ⟨hp1, hp2, hp3⟩
      · exact Or.inl ⟨hp1, hp2, hnf⟩
      · exact Or.inr ⟨hp1, s.m_fresh, hi.fresh, hp3, hp2⟩
    · obtain ⟨h3, h4, h5, h6⟩ := hi.entry p l h2
      have hle : l ≠ e := by
        intro hc2
        subst hc2
        rw [hc] at h3
        cases h3
      refine ⟨?_, h4, h5, ?_⟩
      · rw [map_find_insert_other _ _ _ _ hle]
        exact h3
      · rcases h6 with h6 | ⟨h6, n, hn1, hn2, hn3⟩
        · exact Or.inl h6
        · exact Or.inr ⟨h6, n, hn1, Nat.lt_of_lt_of_le hn2 hk, hn3⟩
  · intro x y hxy
    rcases hold x y hxy with ⟨hx, _⟩ | ⟨_, hx⟩
    · subst hx; exact he
    · exact hi.below x y hx
  · intro x y hxy hbx
    rcases hold x y hxy with ⟨hx, hy⟩ | ⟨_, hx⟩
    · subst hx; subst hy
      exact hnew
    · exact hext y x (hi.leaf x y hx hbx)
  · intro x y hxy m1 hm1 hm2
    rcases hold x y hxy with ⟨hx, hy⟩ | ⟨_, hx⟩
    · subst hx; subst hy
      rw [concretize_leaf m1 y hbp, hm1 y x hnew]
      rfl
    · exact hi.trip x y hx m1 (fun q v hq => hm1 q v (hext q v hq)) hm2
  · intro x y hxy a ha
    rcases hold x y hxy with ⟨hx, hy⟩ | ⟨_, hx⟩
    · subst hx; subst hy
      rw [leaves_leaf x hb] at ha
      simp only [List.mem_singleton] at ha
      subst ha
      exact ⟨y, hnew⟩
    · obtain ⟨p, hp2⟩ := hi.bound x y hx a ha
      exact ⟨p, hext p a hp2⟩

theorem cached_mono (cache cache1 : List (Expr × Expr))
    (hm : ∀ x y : Expr, map_find cache x = some y → map_find cache1 x = some y) (f : Expr)
    (h : (map_find cache f).isSome = true) : (map_find cache1 f).isSome = true := by
  rw [hm f _ (cached_getD cache f h)]
  rfl

/-- The loop of `mk_abstract` visits the formulas on top of the stack one after the other,
the last first. -/
theorem visits_list (f0 : Nat) (ms : List Expr) :
    (∀ f ∈ ms, Visits f0 f) → ∀ (todo : List Expr) (cache : List (Expr × Expr)) (s : State),
    AbsInv f0 cache s → (∀ f ∈ ms, BelowFresh f0 f) →
    ∃ (n : Nat) (cache1 : List (Expr × Expr)) (s1 : State),
      (∀ fuel : Nat, mk_abstract_loop (fuel + n) (todo ++ ms) cache s =
        mk_abstract_loop fuel todo cache1 s1) ∧
      AbsInv f0 cache1 s1 ∧
      (∀ x y : Expr, map_find cache x = some y → map_find cache1 x = some y) ∧
      (∀ f ∈ ms, (map_find cache1 f).isSome = true) ∧ s1.m_vars = s.m_vars ∧
      s1.m_preds = s.m_preds := by
  induction ms using List.reverseRecOn with
  | nil =>
    intro _ todo cache s hi _
    exact ⟨0, cache, s, fun fuel => by simp, hi, fun _ _ h => h, fun _ h => (by cases h),
      rfl, rfl⟩
  | append_singleton ms m ih =>
    intro hv todo cache s hi hb
    obtain ⟨n1, c1, s1, e1, i1, m1, k1, v1, p1⟩ :=
      hv m (by simp) (todo ++ ms) cache s hi (hb m (by simp))
    obtain ⟨n2, c2, s2, e2, i2, m2, k2, v2, p2⟩ :=
      ih (fun f hf => hv f (by simp [hf])) todo c1 s1 i1 (fun f hf => hb f (by simp [hf]))
    refine ⟨n2 + n1, c2, s2, fun fuel => ?_, i2, fun x y h => m2 x y (m1 x y h), ?_,
      v2.trans v1, p2.trans p1⟩
    · rw [← Nat.add_assoc, ← List.append_assoc, e1, e2]
    · intro f hf
      rcases List.mem_append.1 hf with h | h
      · exact k2 f h
      · simp only [List.mem_singleton] at h
        subst h
        exact cached_mono c1 c2 m2 f k1

/-- A formula that is cached is popped. -/
theorem visits_cached (f0 : Nat) (e : Expr) (todo : List Expr) (cache : List (Expr × Expr))
    (s : State) (hi : AbsInv f0 cache s) (hc : (map_find cache e).isSome = true) :
    ∃ (n : Nat) (cache1 : List (Expr × Expr)) (s1 : State),
      (∀ fuel : Nat, mk_abstract_loop (fuel + n) (todo ++ [e]) cache s =
        mk_abstract_loop fuel todo cache1 s1) ∧
      AbsInv f0 cache1 s1 ∧
      (∀ x y : Expr, map_find cache x = some y → map_find cache1 x = some y) ∧
      (map_find cache1 e).isSome = true ∧ s1.m_vars = s.m_vars ∧ s1.m_preds = s.m_preds :=
  ⟨1, cache, s, fun fuel => loop_pop fuel todo e cache s hc, hi, fun _ _ h => h, hc, rfl, rfl⟩

theorem insert_mono (cache : List (Expr × Expr)) (e y : Expr) (hc : map_find cache e = none) :
    ∀ x v : Expr, map_find cache x = some v → map_find (map_insert cache e y) x = some v := by
  intro x v h
  have hne : x ≠ e := by
    intro hc2
    subst hc2
    rw [hc] at h
    cases h
  rw [map_find_insert_other _ _ _ _ hne]
  exact h

/-- A basic application whose arguments are cached is cached and popped. -/
theorem visits_done (f0 : Nat) (e : Expr) (fs : List Expr) (todo : List Expr)
    (cache : List (Expr × Expr)) (s : State) (hi : AbsInv f0 cache s)
    (hc : map_find cache e = none) (hb : basic_args e = some fs)
    (hf : ∀ f ∈ fs, (map_find cache f).isSome = true) (he : BelowFresh f0 e) :
    ∃ (n : Nat) (cache1 : List (Expr × Expr)) (s1 : State),
      (∀ fuel : Nat, mk_abstract_loop (fuel + n) (todo ++ [e]) cache s =
        mk_abstract_loop fuel todo cache1 s1) ∧
      AbsInv f0 cache1 s1 ∧
      (∀ x y : Expr, map_find cache x = some y → map_find cache1 x = some y) ∧
      (map_find cache1 e).isSome = true ∧ s1.m_vars = s.m_vars ∧ s1.m_preds = s.m_preds :=
  ⟨1, _, s, fun fuel => loop_basic_done fuel todo e cache s fs hc hb hf,
    absInv_basic f0 cache s e fs hi hc hb hf he, insert_mono cache e _ hc,
    by rw [map_find_insert_same]; rfl, rfl, rfl⟩

theorem isSome_or_none {β : Type} (o : Option β) : o.isSome = true ∨ o = none := by
  cases o <;> simp

/-- Every formula on top of the stack of `mk_abstract` is cached and popped after finitely
many iterations. -/
theorem visits_all (f0 : Nat) : ∀ e : Expr, Visits f0 e := by
  apply basic_induction
  intro e ih todo cache s hi he
  rcases isSome_or_none (map_find cache e) with hc | hc
  · exact visits_cached f0 e todo cache s hi hc
  cases hb : basic_args e with
  | some fs =>
    by_cases hm : fs.filter (fun f => !(map_find cache f).isSome) = []
    · apply visits_done f0 e fs todo cache s hi hc hb _ he
      intro f hf
      have := List.filter_eq_nil_iff.1 hm f hf
      rcases isSome_or_none (map_find cache f) with h | h
      · exact h
      · simp [h] at this
    · obtain ⟨n1, c1, s1, e1, i1, m1, k1, v1, p1⟩ :=
        visits_list f0 (fs.filter (fun f => !(map_find cache f).isSome))
          (fun f hf => ih fs hb f (List.mem_filter.1 hf).1) (todo ++ [e]) cache s hi
          (fun f hf => belowFresh_arg f0 e fs hb he f (List.mem_filter.1 hf).1)
      have hall : ∀ f ∈ fs, (map_find c1 f).isSome = true := by
        intro f hf
        rcases isSome_or_none (map_find cache f) with h | h
        · exact cached_mono cache c1 m1 f h
        · exact k1 f (List.mem_filter.2 ⟨hf, by simp [h]⟩)
      have h2 : ∃ (n : Nat) (cache1 : List (Expr × Expr)) (s2 : State),
          (∀ fuel : Nat, mk_abstract_loop (fuel + n) (todo ++ [e]) c1 s1 =
            mk_abstract_loop fuel todo cache1 s2) ∧
          AbsInv f0 cache1 s2 ∧
          (∀ x y : Expr, map_find c1 x = some y → map_find cache1 x = some y) ∧
          (map_find cache1 e).isSome = true ∧ s2.m_vars = s1.m_vars ∧
          s2.m_preds = s1.m_preds := by
        rcases isSome_or_none (map_find c1 e) with hc1 | hc1
        · exact visits_cached f0 e todo c1 s1 i1 hc1
        · exact visits_done f0 e fs todo c1 s1 i1 hc1 hb hall he
      obtain ⟨n2, c2, s2, e2, i2, m2, k2, v2, p2⟩ := h2
      refine ⟨n2 + n1 + 1, c2, s2, fun fuel => ?_, i2, fun x y h => m2 x y (m1 x y h), k2,
        v2.trans v1, p2.trans p1⟩
      rw [← Nat.add_assoc, loop_basic_push _ todo e cache s fs hc hb hm, ← Nat.add_assoc, e1, e2]
  | none =>
    cases hu : is_uninterp_const e with
    | true =>
      have hi1 := absInv_leaf f0 cache s e e s.m_fresh hi hc hb he (Nat.le_refl _)
        (Or.inl ⟨rfl, hu⟩)
      refine ⟨2, map_insert cache e e, add_pred s e e 0, fun fuel => ?_, hi1,
        insert_mono cache e e hc, by rw [map_find_insert_same]; rfl, rfl, rfl⟩
      rw [show fuel + 2 = (fuel + 1) + 1 from rfl, loop_const _ todo e cache s hc hb hu,
        loop_pop _ todo e _ _ (by rw [map_find_insert_same]; rfl)]
    | false =>
      have hi1 := absInv_leaf f0 cache s e (Expr.var ⟨s.m_fresh, .bool⟩) (s.m_fresh + 1) hi hc
        hb he (Nat.le_succ _) (Or.inr ⟨hu, rfl, Nat.lt_succ_self _⟩)
      refine ⟨2, map_insert cache e (fresh_bool s).1,
        add_pred (fresh_bool s).2 (fresh_bool s).1 e 0, fun fuel => ?_, hi1,
        insert_mono cache e _ hc, by rw [map_find_insert_same]; rfl, rfl, rfl⟩
      rw [show fuel + 2 = (fuel + 1) + 1 from rfl, loop_fresh _ todo e cache s hc hb hu,
        loop_pop _ todo e _ _ (by rw [map_find_insert_same]; rfl)]

theorem absInv_init (s : State)
    (hm : s.m_pred2lit = [] ∧ s.m_lit2pred = [] ∧ s.m_pred2level = []) :
    AbsInv s.m_fresh [] s := by
  obtain ⟨h1, h2, h3⟩ := hm
  refine ⟨Nat.le_refl _, ⟨fun p a => ?_, fun p => ?_⟩, ?_, ?_, ?_, ?_, ?_⟩
  · rw [h1, h2]
    simp [map_find_nil]
  · rw [h1, h3]
    rfl
  · intro p l h
    rw [h1] at h
    cases h
  all_goals
    intro x y h
    cases h

/-- The loop of `mk_abstract` ends, with the formula cached and the invariant in place. -/
theorem mk_abstract_loop_ends (fml : Expr) (s : State)
    (hm : s.m_pred2lit = [] ∧ s.m_lit2pred = [] ∧ s.m_pred2level = [])
    (hb : BelowFresh s.m_fresh fml) :
    ∃ (n : Nat) (cache : List (Expr × Expr)) (s1 : State) (sk : Expr),
      (∀ fuel : Nat, n ≤ fuel → mk_abstract_loop fuel [fml] [] s = some (cache, s1)) ∧
      AbsInv s.m_fresh cache s1 ∧ map_find cache fml = some sk ∧ s1.m_vars = s.m_vars ∧
      s1.m_preds = s.m_preds := by
  obtain ⟨n, c1, s1, e1, i1, _, k1, v1, p1⟩ :=
    visits_all s.m_fresh fml [] [] s (absInv_init s hm) hb
  refine ⟨n + 1, c1, s1, (map_find c1 fml).getD fml, ?_, i1, cached_getD c1 fml k1, v1, p1⟩
  intro fuel hf
  obtain ⟨k, rfl⟩ : ∃ k, fuel = (k + 1) + n := ⟨fuel - (n + 1), by omega⟩
  have := e1 (k + 1)
  rw [List.nil_append] at this
  rw [this, mk_abstract_loop]
  rfl

theorem mk_abstract_of_loop (fuel : Nat) (fml : Expr) (s s1 : State)
    (cache : List (Expr × Expr)) (sk : Expr)
    (h : mk_abstract_loop fuel [fml] [] s = some (cache, s1))
    (hc : map_find cache fml = some sk) :
    mk_abstract fuel fml s = some
      { (fresh_bool s1).2 with m_fml_pred := (fresh_bool s1).1,
                               m_nfml_pred := Expr.not (fresh_bool s1).1,
                               m_kernel := kernel_assert (fresh_bool s1).2.m_kernel
                                 (Expr.eq (fresh_bool s1).1 sk) } ∧
    skeleton fuel fml s = some sk := by
  unfold mk_abstract skeleton
  rw [h]
  simp only [hc]
  exact ⟨trivial, trivial⟩

theorem namesOk_congr (f0 : Nat) (s t : State) (h1 : t.m_pred2lit = s.m_pred2lit)
    (h2 : t.m_lit2pred = s.m_lit2pred) (h3 : t.m_pred2level = s.m_pred2level)
    (h4 : t.m_fresh = s.m_fresh) (h5 : t.m_vars = s.m_vars) (h6 : t.m_preds = s.m_preds)
    (h : NamesOk f0 s) : NamesOk f0 t := by
  unfold NamesOk Bijective NamesInv PrefixOk at *
  rw [h1, h2, h3, h4, h5, h6]
  exact h

theorem bijective_congr (s t : State) (h1 : t.m_pred2lit = s.m_pred2lit)
    (h2 : t.m_lit2pred = s.m_lit2pred) (h3 : t.m_pred2level = s.m_pred2level)
    (h : Bijective s) : Bijective t := by
  unfold Bijective at *
  rw [h1, h2, h3]
  exact h

theorem del_pred_unbinds (s : State) (p : Expr) :
    map_find (del_pred s p).m_pred2lit p = none := by
  cases h : map_find s.m_pred2lit p with
  | none => rw [del_pred_unbound s p h]; exact h
  | some lit =>
    rw [del_pred_bound s p lit h]
    exact map_find_remove_same _ _

theorem del_pred_sub (s : State) (p : Expr) :
    (∀ q a : Expr, map_find (del_pred s p).m_pred2lit q = some a →
      map_find s.m_pred2lit q = some a) ∧
    ∀ a q : Expr, map_find (del_pred s p).m_lit2pred a = some q →
      map_find s.m_lit2pred a = some q := by
  cases h : map_find s.m_pred2lit p with
  | none => rw [del_pred_unbound s p h]; exact ⟨fun _ _ h => h, fun _ _ h => h⟩
  | some lit =>
    rw [del_pred_bound s p lit h]
    exact ⟨fun q a hq => (map_find_remove_some _ _ _ _ hq).2,
      fun a q hq => (map_find_remove_some _ _ _ _ hq).2⟩

/-- Source `del_pred` keeps the properties of the names. -/
theorem del_pred_names (f0 : Nat) (s : State) (p : Expr) (h : NamesOk f0 s) :
    NamesOk f0 (del_pred s p) := by
  obtain ⟨hb, ⟨hf, he, hk⟩, hp⟩ := h
  obtain ⟨_, _, _, _, _, _, _, _, fv, _, fp, ff⟩ := del_pred_frame s p
  obtain ⟨s1, s2⟩ := del_pred_sub s p
  refine ⟨del_pred_bijective s p hb, ⟨?_, ?_, ?_⟩, ?_⟩
  · rw [ff]; exact hf
  · intro q l hq
    rw [ff]
    exact he q l (s1 q l hq)
  · intro x val q hq
    rw [fv, fp]
    exact hk x val q (s2 _ q hq)
  · unfold PrefixOk
    rw [fv]
    exact hp

theorem foldl_del_pred_names (f0 : Nat) : ∀ (ps : List Expr) (s : State), NamesOk f0 s →
    NamesOk f0 (ps.foldl del_pred s)
  | [], _, h => h
  | p :: ps, s, h => foldl_del_pred_names f0 ps (del_pred s p) (del_pred_names f0 s p h)

/-- A Boolean witness literal becomes its own name. -/
theorem names_add_bool (f0 : Nat) (s t : State) (x : Var) (i j lvl : Nat) (eq : Expr)
    (hs : NamesOk f0 s) (hx : get2 s.m_vars i j = some x) (hb : x.sort = .bool)
    (heq : eq = Expr.var x ∨ eq = Expr.not (Expr.var x))
    (t1 : t.m_pred2lit = map_insert s.m_pred2lit eq eq)
    (t2 : t.m_lit2pred = map_insert s.m_lit2pred eq eq)
    (t3 : t.m_pred2level = map_insert s.m_pred2level eq lvl)
    (t4 : t.m_fresh = s.m_fresh) (t5 : t.m_vars = s.m_vars)
    (t6 : ∀ i1 j1 : Nat, ¬ (i = i1 ∧ j = j1) → get2 t.m_preds i1 j1 = get2 s.m_preds i1 j1) :
    NamesOk f0 t := by
  obtain ⟨hbj, ⟨hf, he, hk⟩, hp⟩ := hs
  have hxid : x.id < f0 := hp.2 i j x hx hb
  have hnf : ¬ fresh_form f0 eq := by
    rintro ⟨n, hn, h⟩
    rcases heq with h1 | h1
    · rw [h1] at h
      injection h with h2
      rw [h2] at hxid
      simp at hxid
      omega
    · rw [h1] at h
      cases h
  have hu : is_uninterp_const eq = true ∨ ∃ e, eq = Expr.not e := by
    rcases heq with h1 | h1
    · exact Or.inl (by rw [h1]; rfl)
    · exact Or.inr ⟨_, h1⟩
  have hself : ∀ q l : Expr, map_find s.m_pred2lit q = some l → (q = eq ∨ l = eq) → q = l := by
    intro q l hq hor
    rcases he q l hq with ⟨h1, _⟩ | ⟨⟨n, hn1, _, hn3⟩, h2, h3⟩
    · exact h1
    · exfalso
      rcases hor with h4 | h4
      · exact hnf ⟨n, hn1, h4 ▸ hn3⟩
      · rcases hu with h5 | ⟨e, h5⟩
        · rw [h4, h5] at h2
          cases h2
        · exact h3 e (h4.trans h5)
  refine ⟨?_, ⟨?_, ?_, ?_⟩, ?_⟩
  · refine bijective_congr (add_pred s eq eq lvl) t t1 t2 t3 ?_
    apply add_pred_bijective s eq eq lvl hbj
    · intro a ha
      exact (hself eq a ha (Or.inl rfl)).symm
    · intro q hq
      exact hself q eq ((hbj.1 q eq).2 hq) (Or.inr rfl)
  · rw [t4]; exact hf
  · intro q l hq
    rw [t4]
    rw [t1] at hq
    rcases map_find_insert_some _ _ _ _ _ hq with ⟨h1, h2⟩ | ⟨_, h2⟩
    · subst h1; subst h2
      exact Or.inl ⟨rfl, hnf⟩
    · exact he q l h2
  · intro y val q hq
    rw [t2] at hq
    rw [t5]
    rcases map_find_insert_some _ _ _ _ _ hq with ⟨h1, _⟩ | ⟨_, h2⟩
    · exfalso
      rcases heq with h3 | h3 <;> rw [h3] at h1 <;> cases h1
    · obtain ⟨hy, i1, j1, hv1, hp1⟩ := hk y val q h2
      refine ⟨hy, i1, j1, hv1, ?_⟩
      rw [t6 i1 j1]
      · exact hp1
      · rintro ⟨rfl, rfl⟩
        rw [hx] at hv1
        injection hv1 with hv2
        exact hy (hv2 ▸ hb)
  · unfold PrefixOk
    rw [t5]
    exact hp

/-- A witness literal `x = val` of another sort gets a fresh name, once the name at the
position of `x` is unbound. -/
theorem names_add_fresh (f0 : Nat) (s t : State) (x : Var) (i j lvl : Nat) (val : Expr)
    (hs : NamesOk f0 s) (hx : get2 s.m_vars i j = some x) (hb : x.sort ≠ .bool)
    (hdel : ∀ q : Expr, get2 s.m_preds i j = some q → map_find s.m_pred2lit q = none)
    (t1 : t.m_pred2lit =
      map_insert s.m_pred2lit (Expr.var ⟨s.m_fresh, .bool⟩) (Expr.eq (Expr.var x) val))
    (t2 : t.m_lit2pred =
      map_insert s.m_lit2pred (Expr.eq (Expr.var x) val) (Expr.var ⟨s.m_fresh, .bool⟩))
    (t3 : t.m_pred2level = map_insert s.m_pred2level (Expr.var ⟨s.m_fresh, .bool⟩) lvl)
    (t4 : t.m_fresh = s.m_fresh + 1) (t5 : t.m_vars = s.m_vars)
    (t6 : ∀ i1 j1 : Nat, ¬ (i = i1 ∧ j = j1) → get2 t.m_preds i1 j1 = get2 s.m_preds i1 j1)
    (t7 : get2 t.m_preds i j = some (Expr.var ⟨s.m_fresh, .bool⟩)) :
    NamesOk f0 t := by
  obtain ⟨hbj, ⟨hf, he, hk⟩, hp⟩ := hs
  -- the fresh name is unbound
  have hpn : map_find s.m_pred2lit (Expr.var ⟨s.m_fresh, .bool⟩) = none := by
    cases hq : map_find s.m_pred2lit (Expr.var ⟨s.m_fresh, .bool⟩) with
    | none => rfl
    | some l =>
      exfalso
      rcases he _ l hq with ⟨_, h1⟩ | ⟨⟨n, _, hn2, hn3⟩, _, _⟩
      · exact h1 ⟨s.m_fresh, hf, rfl⟩
      · injection hn3 with h3
        injection h3 with h4
        omega
  -- no literal on `x` is bound
  have hxn : ∀ (val1 q : Expr), map_find s.m_lit2pred (Expr.eq (Expr.var x) val1) = some q →
      False := by
    intro val1 q hq
    obtain ⟨_, i1, j1, hv1, hp1⟩ := hk x val1 q hq
    obtain ⟨rfl, rfl⟩ := hp.1 i j i1 j1 x hx hv1
    have h1 := hdel q hp1
    rw [(hbj.1 q _).2 hq] at h1
    cases h1
  refine ⟨?_, ⟨?_, ?_, ?_⟩, ?_⟩
  · refine bijective_congr (add_pred s (Expr.var ⟨s.m_fresh, .bool⟩) (Expr.eq (Expr.var x) val)
      lvl) t t1 t2 t3 ?_
    apply add_pred_bijective s _ _ lvl hbj
    · intro a ha
      rw [hpn] at ha
      cases ha
    · intro q hq
      exact (hxn val q hq).elim
  · rw [t4]; exact Nat.le_succ_of_le hf
  · intro q l hq
    rw [t4]
    rw [t1] at hq
    rcases map_find_insert_some _ _ _ _ _ hq with ⟨h1, h2⟩ | ⟨_, h2⟩
    · subst h1; subst h2
      exact Or.inr ⟨⟨s.m_fresh, hf, Nat.lt_succ_self _, rfl⟩, rfl, fun e h => by cases h⟩
    · rcases he q l h2 with h3 | ⟨⟨n, hn1, hn2, hn3⟩, h4⟩
      · exact Or.inl h3
      · exact Or.inr ⟨⟨n, hn1, Nat.lt_succ_of_lt hn2, hn3⟩, h4⟩
  · intro y val1 q hq
    rw [t2] at hq
    rw [t5]
    rcases map_find_insert_some _ _ _ _ _ hq with ⟨h1, h2⟩ | ⟨_, h2⟩
    · injection h1 with h3 h4
      injection h3 with h5
      subst h5; subst h2
      exact ⟨hb, i, j, hx, t7⟩
    · obtain ⟨hy, i1, j1, hv1, hp1⟩ := hk y val1 q h2
      refine ⟨hy, i1, j1, hv1, ?_⟩
      rw [t6 i1 j1]
      · exact hp1
      · rintro ⟨rfl, rfl⟩
        rw [hx] at hv1
        injection hv1 with hv2
        subst hv2
        exact hxn val1 q h2
  · unfold PrefixOk
    rw [t5]
    exact hp

/-- One step of `update_tail` keeps the properties of the names. -/
theorem update_tail_var_names (f0 : Nat) (M : Model) (i j : Nat) (s s1 : State)
    (h : NamesOk f0 s) (he : update_tail_var M i s j = some s1) : NamesOk f0 s1 := by
  unfold update_tail_var at he
  cases hp : get2 s.m_preds i j with
  | none => simp [hp] at he
  | some p =>
    cases hv : get2 s.m_vars i j with
    | none => simp [hp, hv] at he
    | some x =>
      cases hl : get2 s.m_vals i j with
      | none => simp [hp, hv, hl] at he
      | some v0 =>
        simp only [hp, hv, hl] at he
        obtain ⟨_, _, _, _, _, _, _, _, fv, _, fp, ff⟩ := del_pred_frame s p
        have hd := del_pred_names f0 s p h
        have hx1 : get2 (del_pred s p).m_vars i j = some x := by rw [fv]; exact hv
        have hp1 : get2 (del_pred s p).m_preds i j = some p := by rw [fp]; exact hp
        by_cases hs : x.sort = .bool
        · rw [if_pos hs] at he
          injection he with he
          subst he
          refine names_add_bool f0 (del_pred s p) _ x i j i
            (if is_true (eval_var M x) = true then Expr.var x else Expr.not (Expr.var x))
            hd hx1 hs ?_ rfl rfl rfl rfl rfl ?_
          · by_cases hc : is_true (eval_var M x) = true
            · exact Or.inl (if_pos hc)
            · exact Or.inr (if_neg hc)
          · intro i1 j1 hne
            exact get2_set2_other _ _ _ _ _ _ hne
        · rw [if_neg hs] at he
          injection he with he
          subst he
          refine names_add_fresh f0 (del_pred s p) _ x i j i (eval_var M x)
            hd hx1 hs ?_ rfl rfl rfl rfl rfl ?_ ?_
          · intro q hq
            rw [hp1] at hq
            injection hq with hq
            subst hq
            exact del_pred_unbinds s p
          · intro i1 j1 hne
            exact get2_set2_other _ _ _ _ _ _ hne
          · exact get2_set2_same _ _ _ _ _ hp1

theorem loop_over_inv {σ : Type} (P : σ → Prop) (f : σ → Nat → Option σ)
    (hf : ∀ (s : σ) (i : Nat) (s1 : σ), P s → f s i = some s1 → P s1) :
    ∀ (is : List Nat) (s s1 : σ), P s → loop_over f is s = some s1 → P s1
  | [], s, s1, h, he => by
    injection he with he
    exact he ▸ h
  | i :: is, s, s1, h, he => by
    unfold loop_over at he
    cases hi : f s i with
    | none => simp [hi] at he
    | some s2 =>
      simp only [hi] at he
      exact loop_over_inv P f hf is s2 s1 (hf s i s2 h hi) he

/-- Source `update_tail` keeps the properties of the names. -/
theorem update_tail_names (f0 : Nat) (M : Model) (start : Nat) (s s1 : State)
    (h : NamesOk f0 s) (he : update_tail M start s = some s1) : NamesOk f0 s1 := by
  refine loop_over_inv (NamesOk f0) (update_tail_block M) ?_ _ s s1 h he
  intro t i t1 ht hb
  exact loop_over_inv (NamesOk f0) (update_tail_var M i)
    (fun u j u1 hu hj => update_tail_var_names f0 M i j u u1 hu hj) _ t t1 ht hb

/-- Source `push` keeps the properties of the names. -/
theorem push_names (f0 : Nat) (s s1 : State) (hp : push s = some s1) (h : NamesOk f0 s) :
    NamesOk f0 s1 := by
  have key : s1.m_pred2lit = s.m_pred2lit ∧ s1.m_lit2pred = s.m_lit2pred ∧
      s1.m_pred2level = s.m_pred2level ∧ s1.m_fresh = s.m_fresh ∧ s1.m_vars = s.m_vars ∧
      s1.m_preds = s.m_preds := by
    unfold push at hp
    simp only at hp
    split at hp
    · split at hp
      · injection hp with hp
        subst hp
        exact ⟨rfl, rfl, rfl, rfl, rfl, rfl⟩
      · cases hp
    · injection hp with hp
      subst hp
      exact ⟨rfl, rfl, rfl, rfl, rfl, rfl⟩
  obtain ⟨k1, k2, k3, k4, k5, k6⟩ := key
  exact namesOk_congr f0 s s1 k1 k2 k3 k4 k5 k6 h

/-- Source `pop` keeps the properties of the names. -/
theorem pop_names (f0 : Nat) (s s1 : State) (n : Nat) (h : NamesOk f0 s)
    (he : pop s n = some s1) : NamesOk f0 s1 := by
  unfold pop at he
  split at he
  · cases he
  · simp only at he
    split at he
    · rename_i alim tlim _ _
      have hd := foldl_del_pred_names f0 (s.m_assumptions.drop alim)
        { s with m_level := s.m_level - n, m_replay := (pop_replay n s.m_replay []).2 }
        (namesOk_congr f0 s _ rfl rfl rfl rfl rfl rfl h)
      split at he
      · split at he
        · cases he
        · injection he with he
          subst he
          exact namesOk_congr f0 _ _ rfl rfl rfl rfl rfl rfl hd
      · injection he with he
        subst he
        exact namesOk_congr f0 _ _ rfl rfl rfl rfl rfl rfl hd
    · cases he

theorem loop_fuel_succ : ∀ (fuel : Nat) (todo : List Expr) (cache : List (Expr × Expr))
    (s : State) (r : List (Expr × Expr) × State),
    mk_abstract_loop fuel todo cache s = some r →
    mk_abstract_loop (fuel + 1) todo cache s = some r
  | 0, _, _, _, _, h => by
    rw [mk_abstract_loop] at h
    cases h
  | fuel + 1, todo, cache, s, r, h => by
    rw [mk_abstract_loop] at h ⊢
    cases hl : todo.getLast? with
    | none =>
      rw [hl] at h
      exact h
    | some e =>
      rw [hl] at h
      simp only at h ⊢
      split at h
      · rename_i hc
        rw [if_pos hc]
        exact loop_fuel_succ fuel _ _ _ _ h
      · rename_i hc
        rw [if_neg hc]
        split at h
        · split at h
          · rename_i hlen
            rw [if_pos hlen]
            exact loop_fuel_succ fuel _ _ _ _ h
          · rename_i hlen
            rw [if_neg hlen]
            exact loop_fuel_succ fuel _ _ _ _ h
        · split at h
          · rename_i hu
            rw [if_pos hu]
            exact loop_fuel_succ fuel _ _ _ _ h
          · rename_i hu
            rw [if_neg hu]
            exact loop_fuel_succ fuel _ _ _ _ h

theorem loop_fuel_add (todo : List Expr) (cache : List (Expr × Expr)) (s : State)
    (r : List (Expr × Expr) × State) (fuel : Nat)
    (h : mk_abstract_loop fuel todo cache s = some r) :
    ∀ k : Nat, mk_abstract_loop (fuel + k) todo cache s = some r
  | 0 => h
  | k + 1 => loop_fuel_succ _ _ _ _ _ (loop_fuel_add todo cache s r fuel h k)

theorem vars_ok_congr (f0 : Nat) (s t : State) (h : t.m_vars = s.m_vars)
    (hp : PrefixOk f0 s) : PrefixOk f0 t := by
  unfold PrefixOk at *
  rw [h]
  exact hp

/-- The properties of the names hold after `mk_abstract`. -/
theorem mk_abstract_names (fuel : Nat) (fml : Expr) (s0 s : State)
    (hm : s0.m_pred2lit = [] ∧ s0.m_lit2pred = [] ∧ s0.m_pred2level = [])
    (hp : PrefixOk s0.m_fresh s0) (hb : BelowFresh s0.m_fresh fml)
    (he : mk_abstract fuel fml s0 = some s) : NamesOk s0.m_fresh s := by
  obtain ⟨n, c, s1, sk, hends, hi, hc, hv, _⟩ := mk_abstract_loop_ends fml s0 hm hb
  have hl : mk_abstract_loop fuel [fml] [] s0 = some (c, s1) := by
    cases hr : mk_abstract_loop fuel [fml] [] s0 with
    | none =>
      unfold mk_abstract at he
      rw [hr] at he
      cases he
    | some r =>
      have h1 := loop_fuel_add [fml] [] s0 r fuel hr n
      rw [hends (fuel + n) (Nat.le_add_left _ _)] at h1
      rw [← Option.some.inj h1]
  have h2 := (mk_abstract_of_loop fuel fml s0 s1 c sk hl hc).1
  rw [he] at h2
  injection h2 with h2
  subst h2
  refine ⟨bijective_congr s1 _ rfl rfl rfl hi.bij, ⟨?_, ?_, ?_⟩, ?_⟩
  · exact Nat.le_succ_of_le hi.fresh
  · intro p l hpl
    obtain ⟨_, h2, _, h4⟩ := hi.entry p l hpl
    rcases h4 with ⟨h5, _, h6⟩ | ⟨h5, n, hn1, hn2, hn3⟩
    · exact Or.inl ⟨h5, h5 ▸ h6⟩
    · refine Or.inr ⟨⟨n, hn1, Nat.lt_succ_of_lt hn2, hn3⟩, h5, ?_⟩
      intro e hl2
      rw [hl2] at h2
      cases h2
  · intro x val p hq
    exfalso
    have h2 := (hi.entry p _ ((hi.bij.1 p _).2 hq)).2.1
    cases h2
  · exact vars_ok_congr _ s0 _ hv hp

/-- Every reachable state has the properties of the names. -/
theorem reach_names (fuel f0 : Nat) (free first : List Var) (rest : List (List Var))
    (fml : Expr) (hp : PrefixOk f0 (hoist free first rest (reset f0)))
    (hb : BelowFresh f0 fml) (s : State) (hr : Reach fuel f0 free first rest fml s) :
    NamesOk f0 s := by
  induction hr with
  | init s he =>
    exact mk_abstract_names fuel fml (hoist free first rest (reset f0)) s ⟨rfl, rfl, rfl⟩ hp hb he
  | tail s s1 M start _ he ih => exact update_tail_names f0 M start s s1 ih he
  | push s s1 _ he ih => exact push_names f0 s s1 he ih
  | pop s s1 n _ he ih => exact pop_names f0 s s1 n ih he

/-- The round trip of the abstraction over the leaves. From a state with empty name maps
whose counter of fresh
constants is above the Boolean constants of `fml`, `mk_abstract` returns for every large
enough bound on the iterations; the skeleton it computes is the definition it asserts for
the name of the formula; replacing in the skeleton every name by the literal `pred2lit`
gives it yields `fml` itself; and every leaf of `fml` (a subformula outside the basic
family) is the literal of exactly one name. -/
theorem abstraction_round_trip (fml : Expr) (s : State)
    (hm : s.m_pred2lit = [] ∧ s.m_lit2pred = [] ∧ s.m_pred2level = [])
    (hb : BelowFresh s.m_fresh fml) :
    ∃ n : Nat, ∀ fuel : Nat, n ≤ fuel →
      ∃ (s1 : State) (sk : Expr), mk_abstract fuel fml s = some s1 ∧
        skeleton fuel fml s = some sk ∧
        Expr.eq s1.m_fml_pred sk ∈ asserted s1.m_kernel ∧
        concretize s1.m_pred2lit sk = fml ∧
        ∀ a ∈ leaves fml, ∃ p : Expr, map_find s1.m_pred2lit p = some a ∧
          ∀ q : Expr, map_find s1.m_pred2lit q = some a → q = p := by
  obtain ⟨n, cache, s1, sk, hl, hi, hc, _, _⟩ := mk_abstract_loop_ends fml s hm hb
  refine ⟨n, fun fuel hf => ?_⟩
  obtain ⟨e1, e2⟩ := mk_abstract_of_loop fuel fml s s1 cache sk (hl fuel hf) hc
  refine ⟨_, sk, e1, e2, asserted_kernel_assert_self _ _, ?_, ?_⟩
  · exact hi.trip fml sk hc s1.m_pred2lit (fun _ _ h => h)
      (fun k v h => (hi.entry k v h).2.2.1)
  · intro a ha
    obtain ⟨p, hp⟩ := hi.bound fml sk hc a ha
    refine ⟨p, hp, fun q hq => ?_⟩
    have h1 := (hi.bij.1 p a).1 hp
    have h2 := (hi.bij.1 q a).1 hq
    rw [h1] at h2
    exact (Option.some.inj h2).symm

/-- C15, bijection of names and literals. Take a prefix whose constants are pairwise
distinct and a matrix `fml`, the Boolean constants of both numbered below the counter `f0`
of fresh constants. In every state reached from `reset`, `hoist` and `mk_abstract` by
`update_tail`, `push` and `pop`, `pred2lit[p] = a` holds exactly when `lit2pred[a] = p`,
and `pred2level` is defined on exactly the keys of `pred2lit`. -/
theorem names_bijective (fuel f0 : Nat) (free first : List Var) (rest : List (List Var))
    (fml : Expr) (hp : PrefixOk f0 (hoist free first rest (reset f0)))
    (hb : BelowFresh f0 fml) (s : State) (hr : Reach fuel f0 free first rest fml s) :
    (∀ p a : Expr, map_find s.m_pred2lit p = some a ↔ map_find s.m_lit2pred a = some p) ∧
      ∀ p : Expr, (map_find s.m_pred2level p).isSome = (map_find s.m_pred2lit p).isSome :=
  (reach_names fuel f0 free first rest fml hp hb s hr).1

end qsat
end qe

/-! ## The rows of the projection -/

namespace qe
namespace arith_project_util

theorem evalSum_append_list (N : Model) (ts : List Expr) :
    ∀ us : List Expr, evalSum N (ts ++ us) = evalSum N ts + evalSum N us := by
  induction ts with
  | nil => intro us; simp [evalSum]
  | cons t ts ih => intro us; simp [evalSum, ih, add_assoc]

theorem is_linear_other_appends {x : Var} {mul : ℚ} {t : Expr} {c : ℚ} {ts : List Expr}
    {st : State} {c1 : ℚ} {ts1 : List Expr} {st1 : State}
    (h : is_linear_other x mul t c ts st = some (c1, ts1, st1)) :
    ∃ us, ts1 = ts ++ us ∧ FreeList x us := by
  unfold is_linear_other at h
  split at h
  · cases h
  · rename_i hocc
    simp only [Option.some.injEq, Prod.mk.injEq] at h
    obtain ⟨-, rfl, -⟩ := h
    refine ⟨_, rfl, FreeList.single ?_⟩
    rw [occurs_mk_mul]
    simpa using hocc

/-- The term-level `is_linear` only appends to `ts`, and what it appends is `x`-free. -/
theorem is_linear_appends (rw : Expr → Expr) (x : Var) (M : Model) (mul : ℚ) (t : Expr) (c : ℚ)
    (ts : List Expr) (st : State) :
    ∀ c1 ts1 st1, is_linear rw x M mul t c ts st = some (c1, ts1, st1) →
      ∃ us, ts1 = ts ++ us ∧ FreeList x us := by
  apply is_linear.induct rw x M
    (fun mul t c ts st => ∀ c1 ts1 st1, is_linear rw x M mul t c ts st = some (c1, ts1, st1) →
      ∃ us, ts1 = ts ++ us ∧ FreeList x us)
    (fun mul args c ts st => ∀ c1 ts1 st1,
      is_linear_args rw x M mul args c ts st = some (c1, ts1, st1) →
      ∃ us, ts1 = ts ++ us ∧ FreeList x us)
  case case1 =>
    intro mul c ts st c1 ts1 st1 h
    simp only [is_linear, if_true, Option.some.injEq, Prod.mk.injEq] at h
    obtain ⟨-, rfl, -⟩ := h
    exact ⟨[], by simp, FreeList.nil x⟩
  case case2 =>
    intro mul c ts st v hv c1 ts1 st1 h
    simp only [is_linear, if_neg hv] at h
    exact is_linear_other_appends h
  case case3 =>
    intro mul c ts st t2 r s ih c1 ts1 st1 h
    simp only [is_linear] at h
    exact ih c1 ts1 st1 h
  case case4 =>
    intro mul c ts st t1 r s hn ih c1 ts1 st1 h
    simp only [is_linear] at h
    exact ih c1 ts1 st1 h
  case case6 =>
    intro mul c ts st args ih c1 ts1 st1 h
    simp only [is_linear] at h
    exact ih c1 ts1 st1 h
  case case7 =>
    intro mul c ts st t1 t2 hnone ih c1 ts1 st1 h
    simp only [is_linear, hnone] at h
    cases h
  case case8 =>
    intro mul c ts st t1 t2 c2 ts2 st2 hsome ih1 ih2 c1 ts1 st1 h
    simp only [is_linear, hsome] at h
    obtain ⟨u1, e1, f1⟩ := ih1 c2 ts2 st2 hsome
    obtain ⟨u2, e2, f2⟩ := ih2 c1 ts1 st1 h
    exact ⟨u1 ++ u2, by rw [e2, e1, List.append_assoc], f1.append f2⟩
  case case9 =>
    intro mul c ts st t1 ih c1 ts1 st1 h
    simp only [is_linear] at h
    exact ih c1 ts1 st1 h
  case case10 =>
    intro mul c ts st mul1 s c1 ts1 st1 h
    simp only [is_linear, Option.some.injEq, Prod.mk.injEq] at h
    obtain ⟨-, rfl, -⟩ := h
    exact ⟨_, rfl, FreeList.single (occurs_mk_num x _)⟩
  case case11 =>
    intro mul c ts st t1 r s hocc hnone ih c1 ts1 st1 h
    simp only [is_linear, hocc, hnone, if_true] at h
    cases h
  case case12 =>
    intro mul c ts st t1 r s hocc c2 ts2 st2 hsome ih c1 ts1 st1 h
    simp only [is_linear, hocc, hsome, if_true, Option.some.injEq, Prod.mk.injEq] at h
    obtain ⟨-, rfl, -⟩ := h
    refine ⟨_, rfl, FreeList.single ?_⟩
    rw [occurs_mk_mul]
    exact occurs_mk_val x _
  case case13 =>
    intro mul c ts st t1 r s hocc c1 ts1 st1 h
    simp only [is_linear, hocc] at h
    exact is_linear_other_appends h
  case case27 =>
    intro mul c ts st c1 ts1 st1 h
    simp only [is_linear_args, Option.some.injEq, Prod.mk.injEq] at h
    obtain ⟨-, rfl, -⟩ := h
    exact ⟨[], by simp, FreeList.nil x⟩
  case case28 =>
    intro mul c ts st t tail hnone ih c1 ts1 st1 h
    simp only [is_linear_args, hnone] at h
    cases h
  case case29 =>
    intro mul c ts st t tail c2 ts2 st2 hsome ih1 ih2 c1 ts1 st1 h
    simp only [is_linear_args, hsome] at h
    obtain ⟨u1, e1, f1⟩ := ih1 c2 ts2 st2 hsome
    obtain ⟨u2, e2, f2⟩ := ih2 c1 ts1 st1 h
    exact ⟨u1 ++ u2, by rw [e2, e1, List.append_assoc], f1.append f2⟩
  all_goals
    intros
    rename_i h
    simp only [is_linear] at h
    exact is_linear_other_appends h

end arith_project_util
end qe

namespace qe

theorem IsIntVal.ofInt (n : ℤ) : IsIntVal (n : ℚ) := ⟨n, rfl⟩

theorem IsIntVal.add {a b : ℚ} (ha : IsIntVal a) (hb : IsIntVal b) : IsIntVal (a + b) := by
  obtain ⟨m, rfl⟩ := ha
  obtain ⟨n, rfl⟩ := hb
  exact ⟨m + n, by push_cast; rfl⟩

theorem IsIntVal.sub {a b : ℚ} (ha : IsIntVal a) (hb : IsIntVal b) : IsIntVal (a - b) := by
  obtain ⟨m, rfl⟩ := ha
  obtain ⟨n, rfl⟩ := hb
  exact ⟨m - n, by push_cast; rfl⟩

theorem IsIntVal.mul {a b : ℚ} (ha : IsIntVal a) (hb : IsIntVal b) : IsIntVal (a * b) := by
  obtain ⟨m, rfl⟩ := ha
  obtain ⟨n, rfl⟩ := hb
  exact ⟨m * n, by push_cast; rfl⟩

theorem IsIntVal.lt_zero {a : ℚ} (ha : IsIntVal a) (h : a < 0) : a + 1 ≤ 0 := by
  obtain ⟨m, rfl⟩ := ha
  have h1 : m < 0 := by exact_mod_cast h
  have h2 : m + 1 ≤ 0 := by omega
  exact_mod_cast h2

theorem ratMod_int (m n : ℤ) : ratMod (m : ℚ) (n : ℚ) = ((m % n : ℤ) : ℚ) := by
  simp [ratMod]

theorem ratMod_isInt (a b : ℚ) : IsIntVal (ratMod a b) := ⟨_, rfl⟩

theorem ratMod_eq_zero_iff (m n : ℤ) : ratMod (m : ℚ) (n : ℚ) = 0 ↔ n ∣ m := by
  rw [ratMod_int, Int.dvd_iff_emod_eq_zero]
  exact_mod_cast Iff.rfl

namespace arith_project_util

theorem holds_mk_divides (x : Var) (N : Model) (k : ℚ) (t : Expr) :
    holds N (mk_divides x k t) = decide (ratMod (eval N t) (abs k) = 0) := by
  simp [mk_divides, holds, sortOf, eval, eval_mk_num]

end arith_project_util
end qe

namespace qe
namespace arith_project_util

/-- C28, linearisation keeps the value. For a term `t` with no `mod` subterm that contains
`x` and every multiplier `mul`: when the term-level `is_linear` returns, it has only appended
to `ts`, every appended term is `x`-free, and in every model `mul` times the value of `t` is
the amount added to `c` times the value of `x` plus the sum of the appended terms. -/
theorem linearization_value_preserving (rw : Expr → Expr) (x : Var) (M : Model) (mul : ℚ)
    (t : Expr) (c : ℚ) (ts : List Expr) (st : State) (c1 : ℚ) (ts1 : List Expr) (st1 : State)
    (hm : inMod x t = false)
    (h : is_linear rw x M mul t c ts st = some (c1, ts1, st1)) :
    ∃ us : List Expr, ts1 = ts ++ us ∧ (∀ u ∈ us, occurs x u = false) ∧
      ∀ N : Model, mul * eval N t = (c1 - c) * N.val x + evalSum N us := by
  obtain ⟨us, e1, f1⟩ := is_linear_appends rw x M mul t c ts st c1 ts1 st1 h
  refine ⟨us, e1, f1, fun N => ?_⟩
  have h2 := is_linear_sem rw x M mul t c ts st hm c1 ts1 st1 h N
  rw [e1, evalSum_append_list] at h2
  linarith

end arith_project_util
end qe

namespace qe
namespace arith_project_util

end arith_project_util
end qe

namespace qe
namespace arith_project_util

end arith_project_util
end qe

namespace qe
namespace arith_project_util

theorem is_linear_finish_int {x : Var} (hx : is_int x = true) {s0 e0 : Bool}
    {r : Option (ℚ × List Expr × State)} {c : ℚ} {t : Expr} {s e : Bool} {st1 : State}
    (h : is_linear_finish x s0 e0 r = some (c, t, s, e, st1)) : s = false := by
  unfold is_linear_finish at h
  split at h
  · cases h
  · simp only [hx, Bool.and_true] at h
    split at h <;>
    · simp only [Option.some.injEq, Prod.mk.injEq] at h
      obtain ⟨-, -, rfl, -, -⟩ := h
      cases s0 <;> rfl

theorem is_linear_atom_int {rw : Expr → Expr} {x : Var} {M : Model} (hx : is_int x = true)
    {is_not : Bool} {mul : ℚ} {lit : Expr} {st : State} {c : ℚ} {t : Expr} {s e : Bool}
    {st1 : State} (h : is_linear_atom rw x M is_not mul lit st = some (c, t, s, e, st1)) :
    s = false := by
  unfold is_linear_atom at h
  split at h
  · exact is_linear_finish_int hx h
  · exact is_linear_finish_int hx h
  · exact is_linear_finish_int hx h
  · exact is_linear_finish_int hx h
  · split at h
    · split at h
      · exact is_linear_finish_int hx h
      · split at h
        · exact is_linear_finish_int hx h
        · exact is_linear_finish_int hx h
    · cases h
  · cases h

theorem is_linear_lit_int {rw : Expr → Expr} {x : Var} {M : Model} (hx : is_int x = true)
    {lit : Expr} {st : State} {c : ℚ} {t : Expr} {s e : Bool} {st1 : State}
    (h : is_linear_lit rw x M lit st = some (c, t, s, e, st1)) : s = false := by
  unfold is_linear_lit at h
  split at h
  · exact is_linear_atom_int hx h
  · exact is_linear_atom_int hx h

/-- The rows in the state that the literal-level `is_linear` returns are those it was
given. -/
theorem extract_mod_record_ineqs (rw : Expr → Expr) (x : Var) (val : Expr) (k c : ℚ) (t : Expr)
    (st : State) : (extract_mod_record rw x val k c t st).m_ineqs = st.m_ineqs := by
  unfold extract_mod_record
  split <;> rfl

theorem is_linear_other_ineqs {x : Var} {mul : ℚ} {t : Expr} {c : ℚ} {ts : List Expr}
    {st : State} {c1 : ℚ} {ts1 : List Expr} {st1 : State}
    (h : is_linear_other x mul t c ts st = some (c1, ts1, st1)) : st1.m_ineqs = st.m_ineqs := by
  unfold is_linear_other at h
  split at h
  · cases h
  · simp only [Option.some.injEq, Prod.mk.injEq] at h
    obtain ⟨-, -, rfl⟩ := h
    rfl

theorem is_linear_ineqs (rw : Expr → Expr) (x : Var) (M : Model) (mul : ℚ) (t : Expr) (c : ℚ)
    (ts : List Expr) (st : State) :
    ∀ c1 ts1 st1, is_linear rw x M mul t c ts st = some (c1, ts1, st1) →
      st1.m_ineqs = st.m_ineqs := by
  apply is_linear.induct rw x M
    (fun mul t c ts st => ∀ c1 ts1 st1, is_linear rw x M mul t c ts st = some (c1, ts1, st1) →
      st1.m_ineqs = st.m_ineqs)
    (fun mul args c ts st => ∀ c1 ts1 st1,
      is_linear_args rw x M mul args c ts st = some (c1, ts1, st1) → st1.m_ineqs = st.m_ineqs)
  case case1 =>
    intro mul c ts st c1 ts1 st1 h
    simp only [is_linear, if_true, Option.some.injEq, Prod.mk.injEq] at h
    obtain ⟨-, -, rfl⟩ := h
    rfl
  case case2 =>
    intro mul c ts st v hv c1 ts1 st1 h
    simp only [is_linear, if_neg hv] at h
    exact is_linear_other_ineqs h
  case case3 =>
    intro mul c ts st t2 r s ih c1 ts1 st1 h
    simp only [is_linear] at h
    exact ih c1 ts1 st1 h
  case case4 =>
    intro mul c ts st t1 r s hn ih c1 ts1 st1 h
    simp only [is_linear] at h
    exact ih c1 ts1 st1 h
  case case6 =>
    intro mul c ts st args ih c1 ts1 st1 h
    simp only [is_linear] at h
    exact ih c1 ts1 st1 h
  case case7 =>
    intro mul c ts st t1 t2 hnone ih c1 ts1 st1 h
    simp only [is_linear, hnone] at h
    cases h
  case case8 =>
    intro mul c ts st t1 t2 c2 ts2 st2 hsome ih1 ih2 c1 ts1 st1 h
    simp only [is_linear, hsome] at h
    rw [ih2 c1 ts1 st1 h, ih1 c2 ts2 st2 hsome]
  case case9 =>
    intro mul c ts st t1 ih c1 ts1 st1 h
    simp only [is_linear] at h
    exact ih c1 ts1 st1 h
  case case10 =>
    intro mul c ts st mul1 s c1 ts1 st1 h
    simp only [is_linear, Option.some.injEq, Prod.mk.injEq] at h
    obtain ⟨-, -, rfl⟩ := h
    rfl
  case case11 =>
    intro mul c ts st t1 r s hocc hnone ih c1 ts1 st1 h
    simp only [is_linear, hocc, hnone, if_true] at h
    cases h
  case case12 =>
    intro mul c ts st t1 r s hocc c2 ts2 st2 hsome ih c1 ts1 st1 h
    simp only [is_linear, hocc, hsome, if_true, Option.some.injEq, Prod.mk.injEq] at h
    obtain ⟨-, -, rfl⟩ := h
    rw [extract_mod_record_ineqs]
    exact ih c2 ts2 st2 hsome
  case case13 =>
    intro mul c ts st t1 r s hocc c1 ts1 st1 h
    simp only [is_linear, hocc] at h
    exact is_linear_other_ineqs h
  case case27 =>
    intro mul c ts st c1 ts1 st1 h
    simp only [is_linear_args, Option.some.injEq, Prod.mk.injEq] at h
    obtain ⟨-, -, rfl⟩ := h
    rfl
  case case28 =>
    intro mul c ts st t tail hnone ih c1 ts1 st1 h
    simp only [is_linear_args, hnone] at h
    cases h
  case case29 =>
    intro mul c ts st t tail c2 ts2 st2 hsome ih1 ih2 c1 ts1 st1 h
    simp only [is_linear_args, hsome] at h
    rw [ih2 c1 ts1 st1 h, ih1 c2 ts2 st2 hsome]
  all_goals
    intros
    rename_i h
    simp only [is_linear] at h
    exact is_linear_other_ineqs h

theorem is_linear_pair_ineqs {rw : Expr → Expr} {x : Var} {M : Model} {mul : ℚ} {e1 e2 : Expr}
    {st : State} {c1 : ℚ} {ts1 : List Expr} {st1 : State}
    (h : is_linear_pair rw x M mul e1 e2 st = some (c1, ts1, st1)) :
    st1.m_ineqs = st.m_ineqs := by
  unfold is_linear_pair at h
  split at h
  · cases h
  · rename_i c2 ts2 st2 hs
    rw [is_linear_ineqs rw x M (-mul) e2 c2 ts2 st2 c1 ts1 st1 h,
      is_linear_ineqs rw x M mul e1 0 [] st c2 ts2 st2 hs]

theorem is_linear_finish_ineqs {x : Var} {s0 e0 : Bool} {r : Option (ℚ × List Expr × State)}
    {c : ℚ} {t : Expr} {s e : Bool} {st1 : State}
    (h : is_linear_finish x s0 e0 r = some (c, t, s, e, st1)) :
    ∃ c2 ts2, r = some (c2, ts2, st1) := by
  unfold is_linear_finish at h
  split at h
  · cases h
  · rename_i c2 ts2 st2
    simp only at h
    split at h <;>
    · simp only [Option.some.injEq, Prod.mk.injEq] at h
      obtain ⟨-, -, -, -, rfl⟩ := h
      exact ⟨c2, ts2, rfl⟩

theorem is_linear_lit_ineqs {rw : Expr → Expr} {x : Var} {M : Model} {lit : Expr} {st : State}
    {c : ℚ} {t : Expr} {s e : Bool} {st1 : State}
    (h : is_linear_lit rw x M lit st = some (c, t, s, e, st1)) : st1.m_ineqs = st.m_ineqs := by
  have key : ∀ (is_not : Bool) (mul : ℚ) (l : Expr),
      is_linear_atom rw x M is_not mul l st = some (c, t, s, e, st1) →
      st1.m_ineqs = st.m_ineqs := by
    intro is_not mul l h
    have fin : ∀ (s0 e0 : Bool) (a b : Expr),
        is_linear_finish x s0 e0 (is_linear_pair rw x M mul a b st) = some (c, t, s, e, st1) →
        st1.m_ineqs = st.m_ineqs := by
      intro s0 e0 a b hf
      obtain ⟨c2, ts2, hr⟩ := is_linear_finish_ineqs hf
      exact is_linear_pair_ineqs hr
    unfold is_linear_atom at h
    split at h
    · exact fin _ _ _ _ h
    · exact fin _ _ _ _ h
    · exact fin _ _ _ _ h
    · exact fin _ _ _ _ h
    · split at h
      · split at h
        · exact fin _ _ _ _ h
        · split at h
          · exact fin _ _ _ _ h
          · exact fin _ _ _ _ h
      · cases h
    · cases h
  unfold is_linear_lit at h
  split at h
  · exact key _ _ _ h
  · exact key _ _ _ h

theorem project_step_int {rw : Expr → Expr} {x : Var} {M : Model} (hx : is_int x = true)
    {acc acc1 : State × Counters} {e : Expr} (h : project_step rw x M acc e = some acc1)
    (hs : ∀ q ∈ acc.1.m_ineqs, q.strict = false) : ∀ q ∈ acc1.1.m_ineqs, q.strict = false := by
  unfold project_step at h
  split at h
  · simp only [Option.some.injEq] at h
    subst h
    exact hs
  · split at h
    · cases h
    · rename_i c t is_strict is_eq st1 hl
      have h1 := is_linear_lit_int hx hl
      have h2 := is_linear_lit_ineqs hl
      subst h1
      have hnew : ∀ q ∈ st1.m_ineqs ++ [(⟨c, t, false⟩ : Ineq)], q.strict = false := by
        intro q hq
        rcases List.mem_append.1 hq with hq | hq
        · rw [h2] at hq
          exact hs q hq
        · simp only [List.mem_singleton] at hq
          subst hq
          rfl
      split at h
      · simp only [Option.some.injEq] at h
        subst h
        intro q hq
        have hq2 : q ∈ st1.m_ineqs := hq
        rw [h2] at hq2
        exact hs q hq2
      · simp only at h
        split at h
        · simp only [Option.some.injEq] at h
          subst h
          exact hnew
        · split at h <;>
          · simp only [Option.some.injEq] at h
            subst h
            exact hnew

theorem project_loop_int {rw : Expr → Expr} {x : Var} {M : Model} (hx : is_int x = true) :
    ∀ (lits : List Expr) (acc acc1 : State × Counters),
      project_loop rw x M lits acc = some acc1 → (∀ q ∈ acc.1.m_ineqs, q.strict = false) →
      ∀ q ∈ acc1.1.m_ineqs, q.strict = false
  | [], acc, acc1, h, hs => by
    simp only [project_loop, Option.some.injEq] at h
    subst h
    exact hs
  | e :: es, acc, acc1, h, hs => by
    simp only [project_loop] at h
    split at h
    · cases h
    · rename_i acc2 hstep
      exact project_loop_int hx es acc2 acc1 h (project_step_int hx hstep hs)

theorem ineq_strict_of_all (st : State) (h : ∀ q ∈ st.m_ineqs, q.strict = false) (i : Nat) :
    ineq_strict st i = false := by
  unfold ineq_strict
  rw [List.getD_eq_getElem?_getD]
  cases hq : st.m_ineqs[i]? with
  | none => rfl
  | some q => exact h q (mem_of_getElem_some hq)

theorem after_divides_strict (rw : Expr → Expr) (x : Var) (M : Model) (st : State)
    (h : ∀ q ∈ st.m_ineqs, q.strict = false) :
    ∀ q ∈ (after_divides rw x M st).1.m_ineqs, q.strict = false := by
  unfold after_divides
  split
  · unfold apply_divides
    split
    · exact h
    · intro q hq
      simp only [List.mem_map] at hq
      obtain ⟨q0, hq0, rfl⟩ := hq
      exact h q0 hq0
  · exact h

/-- One iteration of the classification loop on a strict literal, for an integer `x`: with
`c·x + Σ ts` the linear form and `c ≠ 0`, the non-strict row `(c, add(ts ++ [1]))` is
appended to the rows. The literal is `e1 < e2` or `e2 > e1`, linearised with multiplier 1,
or `¬(e1 ≤ e2)` or `¬(e2 ≥ e1)`, linearised with multiplier `-1`. -/
theorem project_step_strict {rw : Expr → Expr} {x : Var} {M : Model} (hx : is_int x = true)
    (acc : State × Counters) (e1 e2 : Expr) (c : ℚ) (ts : List Expr) (st1 : State)
    (hocc : (occurs x e1 || occurs x e2) = true) (hc : c ≠ 0) :
    (is_linear_pair rw x M 1 e1 e2 acc.1 = some (c, ts, st1) →
      project_step rw x M acc (.lt e1 e2)
        = some ({ st1 with m_ineqs := st1.m_ineqs ++ [strict_row x c ts] }, count_row acc.2 c) ∧
      project_step rw x M acc (.gt e2 e1)
        = some ({ st1 with m_ineqs := st1.m_ineqs ++ [strict_row x c ts] },
            count_row acc.2 c)) ∧
    (is_linear_pair rw x M (-1) e1 e2 acc.1 = some (c, ts, st1) →
      project_step rw x M acc (.not (.le e1 e2))
        = some ({ st1 with m_ineqs := st1.m_ineqs ++ [strict_row x c ts] }, count_row acc.2 c) ∧
      project_step rw x M acc (.not (.ge e2 e1))
        = some ({ st1 with m_ineqs := st1.m_ineqs ++ [strict_row x c ts] },
            count_row acc.2 c)) := by
  have hocc2 : (occurs x e2 || occurs x e1) = true := by
    rw [Bool.or_comm]; exact hocc
  refine ⟨fun hp => ⟨?_, ?_⟩, fun hp => ⟨?_, ?_⟩⟩
  · unfold project_step
    simp only [occurs, hocc, Bool.not_true, Bool.false_eq_true, if_false, is_linear_lit,
      is_linear_atom, hp, is_linear_finish, hx, Bool.not_false, Bool.and_self, if_true,
      Bool.false_and, if_neg hc, strict_row, count_row]
    split <;> rfl
  · unfold project_step
    simp only [occurs, hocc2, Bool.not_true, Bool.false_eq_true, if_false, is_linear_lit,
      is_linear_atom, hp, is_linear_finish, hx, Bool.not_false, Bool.and_self, if_true,
      Bool.false_and, if_neg hc, strict_row, count_row]
    split <;> rfl
  · unfold project_step
    simp only [occurs, hocc, Bool.not_true, Bool.false_eq_true, if_false, is_linear_lit,
      is_linear_atom, hp, is_linear_finish, hx, Bool.not_false, Bool.and_self, if_true,
      Bool.false_and, if_neg hc, strict_row, count_row]
    split <;> rfl
  · unfold project_step
    simp only [occurs, hocc2, Bool.not_true, Bool.false_eq_true, if_false, is_linear_lit,
      is_linear_atom, hp, is_linear_finish, hx, Bool.not_false, Bool.and_self, if_true,
      Bool.false_and, if_neg hc, strict_row, count_row]
    split <;> rfl

/-- One iteration of the classification loop on a strict literal whose linear form has
coefficient 0, for an integer `x`: no row is stored, and the literal `add(ts ++ [1]) ≤ 0` is
rewritten and appended to `m_new_lits` unless it became `true`. -/
theorem project_step_strict_zero {rw : Expr → Expr} {x : Var} {M : Model} (hx : is_int x = true)
    (acc : State × Counters) (e1 e2 : Expr) (ts : List Expr) (st1 : State)
    (hocc : (occurs x e1 || occurs x e2) = true) :
    (is_linear_pair rw x M 1 e1 e2 acc.1 = some (0, ts, st1) →
      project_step rw x M acc (.lt e1 e2)
        = some ({ st1 with m_new_lits :=
            (if is_true (rw (strict_lit x ts)) = true then st1.m_new_lits
              else st1.m_new_lits ++ [rw (strict_lit x ts)]) }, acc.2) ∧
      project_step rw x M acc (.gt e2 e1)
        = some ({ st1 with m_new_lits :=
            (if is_true (rw (strict_lit x ts)) = true then st1.m_new_lits
              else st1.m_new_lits ++ [rw (strict_lit x ts)]) }, acc.2)) ∧
    (is_linear_pair rw x M (-1) e1 e2 acc.1 = some (0, ts, st1) →
      project_step rw x M acc (.not (.le e1 e2))
        = some ({ st1 with m_new_lits :=
            (if is_true (rw (strict_lit x ts)) = true then st1.m_new_lits
              else st1.m_new_lits ++ [rw (strict_lit x ts)]) }, acc.2) ∧
      project_step rw x M acc (.not (.ge e2 e1))
        = some ({ st1 with m_new_lits :=
            (if is_true (rw (strict_lit x ts)) = true then st1.m_new_lits
              else st1.m_new_lits ++ [rw (strict_lit x ts)]) }, acc.2)) := by
  have hocc2 : (occurs x e2 || occurs x e1) = true := by
    rw [Bool.or_comm]; exact hocc
  refine ⟨fun hp => ⟨?_, ?_⟩, fun hp => ⟨?_, ?_⟩⟩
  · unfold project_step
    simp only [occurs, hocc, Bool.not_true, Bool.false_eq_true, if_false, is_linear_lit,
      is_linear_atom, hp, is_linear_finish, hx, Bool.not_false, Bool.and_self, if_true,
      Bool.false_and, strict_lit, add_lit]
  · unfold project_step
    simp only [occurs, hocc2, Bool.not_true, Bool.false_eq_true, if_false, is_linear_lit,
      is_linear_atom, hp, is_linear_finish, hx, Bool.not_false, Bool.and_self, if_true,
      Bool.false_and, strict_lit, add_lit]
  · unfold project_step
    simp only [occurs, hocc, Bool.not_true, Bool.false_eq_true, if_false, is_linear_lit,
      is_linear_atom, hp, is_linear_finish, hx, Bool.not_false, Bool.and_self, if_true,
      Bool.false_and, strict_lit, add_lit]
  · unfold project_step
    simp only [occurs, hocc2, Bool.not_true, Bool.false_eq_true, if_false, is_linear_lit,
      is_linear_atom, hp, is_linear_finish, hx, Bool.not_false, Bool.and_self, if_true,
      Bool.false_and, strict_lit, add_lit]

/-- C30, strictness on integers. For an integer `x`, one iteration of the classification
loop on a strict literal containing `x` whose linear form `c·x + Σ ts < 0` has `c ≠ 0`
(the literal `e1 < e2`, `e2 > e1`, `¬(e1 ≤ e2)` or `¬(e2 ≥ e1)`) appends the non-strict row
`(c, add(ts ++ [1]))` to the rows and counts it on the side of the sign of `c`; with `c = 0`
it stores no row and appends the rewritten literal `add(ts ++ [1]) ≤ 0` to `m_new_lits`,
unless it became `true`. Wherever `c·x + Σ ts` is an integer, `c·x + Σ ts < 0` holds exactly
when the stored row does. After the classification loop no row is strict, and none is in
the fields with which `project` calls `find_max` and `mk_int_lt`, so that `ineq_strict(i)`
is false for every `i` there. -/
theorem integer_rows_not_strict (rw : Expr → Expr) (x : Var) (M : Model) (lits : List Expr)
    (st : State) (cn : Counters) (hx : is_int x = true)
    (h : classify rw x M lits = some (st, cn)) :
    (∀ (acc : State × Counters) (e1 e2 : Expr) (c : ℚ) (ts : List Expr) (st1 : State),
      (occurs x e1 || occurs x e2) = true → c ≠ 0 →
      (is_linear_pair rw x M 1 e1 e2 acc.1 = some (c, ts, st1) →
        project_step rw x M acc (.lt e1 e2)
          = some ({ st1 with m_ineqs := st1.m_ineqs ++ [strict_row x c ts] },
              count_row acc.2 c) ∧
        project_step rw x M acc (.gt e2 e1)
          = some ({ st1 with m_ineqs := st1.m_ineqs ++ [strict_row x c ts] },
              count_row acc.2 c)) ∧
      (is_linear_pair rw x M (-1) e1 e2 acc.1 = some (c, ts, st1) →
        project_step rw x M acc (.not (.le e1 e2))
          = some ({ st1 with m_ineqs := st1.m_ineqs ++ [strict_row x c ts] },
              count_row acc.2 c) ∧
        project_step rw x M acc (.not (.ge e2 e1))
          = some ({ st1 with m_ineqs := st1.m_ineqs ++ [strict_row x c ts] },
              count_row acc.2 c))) ∧
    (∀ (acc : State × Counters) (e1 e2 : Expr) (ts : List Expr) (st1 : State),
      (occurs x e1 || occurs x e2) = true →
      (is_linear_pair rw x M 1 e1 e2 acc.1 = some (0, ts, st1) →
        project_step rw x M acc (.lt e1 e2)
          = some ({ st1 with m_new_lits :=
              (if is_true (rw (strict_lit x ts)) = true then st1.m_new_lits
                else st1.m_new_lits ++ [rw (strict_lit x ts)]) }, acc.2) ∧
        project_step rw x M acc (.gt e2 e1)
          = some ({ st1 with m_new_lits :=
              (if is_true (rw (strict_lit x ts)) = true then st1.m_new_lits
                else st1.m_new_lits ++ [rw (strict_lit x ts)]) }, acc.2)) ∧
      (is_linear_pair rw x M (-1) e1 e2 acc.1 = some (0, ts, st1) →
        project_step rw x M acc (.not (.le e1 e2))
          = some ({ st1 with m_new_lits :=
              (if is_true (rw (strict_lit x ts)) = true then st1.m_new_lits
                else st1.m_new_lits ++ [rw (strict_lit x ts)]) }, acc.2) ∧
        project_step rw x M acc (.not (.ge e2 e1))
          = some ({ st1 with m_new_lits :=
              (if is_true (rw (strict_lit x ts)) = true then st1.m_new_lits
                else st1.m_new_lits ++ [rw (strict_lit x ts)]) }, acc.2))) ∧
    (∀ (c : ℚ) (ts : List Expr) (N : Model), IsIntVal (c * N.val x + evalSum N ts) →
      (c * N.val x + evalSum N ts < 0 ↔ rowHolds x N (strict_row x c ts))) ∧
    (∀ q ∈ st.m_ineqs, q.strict = false) ∧
    (∀ i : Nat, ineq_strict st i = false) ∧
    ∀ i : Nat, ineq_strict (after_divides rw x M st).1 i = false := by
  have hall : ∀ q ∈ st.m_ineqs, q.strict = false :=
    project_loop_int hx lits _ _ h (fun q hq => by cases hq)
  refine ⟨fun acc e1 e2 c ts st1 hocc hc => project_step_strict hx acc e1 e2 c ts st1 hocc hc,
    fun acc e1 e2 ts st1 hocc => project_step_strict_zero hx acc e1 e2 ts st1 hocc,
    fun c ts N hi => ?_, hall, ineq_strict_of_all st hall,
    ineq_strict_of_all _ (after_divides_strict rw x M st hall)⟩
  unfold rowHolds strict_row
  simp only [Bool.false_eq_true, if_false, eval_add, evalSum_append, eval_mk_num]
  constructor
  · intro hlt
    have := hi.lt_zero hlt
    linarith
  · intro hle
    linarith

end arith_project_util
end qe

namespace qe
namespace arith_project_util

theorem ineq_fields_of_get {st : State} {i : Nat} {q : Ineq} (h : st.m_ineqs[i]? = some q) :
    ineq_coeff st i = q.coeff ∧ ineq_term st i = q.term ∧ ineq_strict st i = q.strict := by
  simp only [ineq_coeff, ineq_term, ineq_strict]
  rw [getD_of_getElem? _ h]
  exact ⟨rfl, rfl, rfl⟩

theorem holds_resolvent_lit (x : Var) (N : Model) (q qr : Ineq) :
    holds N (resolvent_lit x q qr) = true ↔
      (if (q.strict || qr.strict) = true then
        abs q.coeff * eval N qr.term + abs qr.coeff * eval N q.term < 0
      else abs q.coeff * eval N qr.term + abs qr.coeff * eval N q.term ≤ 0) := by
  unfold resolvent_lit
  have hval : eval N (mk_add (mk_mul x (abs qr.coeff) q.term) (mk_mul x (abs q.coeff) qr.term))
      = abs q.coeff * eval N qr.term + abs qr.coeff * eval N q.term := by
    simp only [mk_add, eval, evalSum, eval_mk_mul]
    ring
  split
  · simp only [holds, hval, eval_mk_num, decide_eq_true_eq]
  · simp only [holds, hval, eval_mk_num, decide_eq_true_eq]

/-- C24, opposite-sign resolution. Let row `i` be `(c', t', strict')` and row `j` the
representative `(c*, t*, strict*)`, of opposite signs, with `x` not an integer or one of the
two coefficients of absolute value 1. Then `mk_lt` emits exactly one literal,
`|c*|·t' + |c'|·t* ⋈ 0`, strict when one of the rows is: the list it returns is the list it
was given followed by the rewritten literal (the list it was given when the literal is
rewritten to `true`). In every model the truth value of the literal is
that of `|c'|·t* + |c*|·t' ⋈ 0`, and it is true in every model in which both rows
hold. -/
theorem opposite_sign_resolution (rw : Expr → Expr) (x : Var) (M : Model) (st : State)
    (lits : List Expr) (i j : Nat) (qi qj : Ineq)
    (hi : st.m_ineqs[i]? = some qi) (hj : st.m_ineqs[j]? = some qj)
    (hb : is_int x = false ∨ abs qi.coeff = 1 ∨ abs qj.coeff = 1)
    (hsign : (qi.coeff < 0 ∧ 0 < qj.coeff) ∨ (0 < qi.coeff ∧ qj.coeff < 0)) :
    mk_lt rw x M st lits i j =
      (if is_true (rw (resolvent_lit x qi qj)) = true then lits
        else lits ++ [rw (resolvent_lit x qi qj)]) ∧
    ∀ N : Model,
      (holds N (resolvent_lit x qi qj) = true ↔
        (if (qi.strict || qj.strict) = true then
          abs qi.coeff * eval N qj.term + abs qj.coeff * eval N qi.term < 0
        else abs qi.coeff * eval N qj.term + abs qj.coeff * eval N qi.term ≤ 0)) ∧
      (rowHolds x N qi → rowHolds x N qj → holds N (resolvent_lit x qi qj) = true) := by
  obtain ⟨ci, ti, si⟩ := ineq_fields_of_get hi
  obtain ⟨cj, tj, sj⟩ := ineq_fields_of_get hj
  have hbranch : (is_int x && !(decide (abs qi.coeff = 1)) && !(decide (abs qj.coeff = 1)))
      = false := by
    rcases hb with h | h | h
    · simp [h]
    · simp [h]
    · simp [h]
  refine ⟨?_, fun N => ⟨holds_resolvent_lit x N qi qj, fun hri hrj => ?_⟩⟩
  · unfold mk_lt
    simp only [ci, cj, ti, tj, si, sj, hbranch, Bool.false_eq_true, if_false]
    unfold resolvent_lit add_lit
    split <;> rfl
  · rw [holds_resolvent_lit]
    unfold rowHolds at hri hrj
    -- b·(c_j·x + t_j) + a·(c_i·x + t_i) with a = |c_j|, b = |c_i|: the `x` cancels
    have hcancel : abs qi.coeff * qj.coeff + abs qj.coeff * qi.coeff = 0 := by
      rcases hsign with ⟨h1, h2⟩ | ⟨h1, h2⟩
      · rw [abs_of_neg h1, abs_of_pos h2]; ring
      · rw [abs_of_pos h1, abs_of_neg h2]; ring
    have ha : 0 < abs qi.coeff := by
      rcases hsign with ⟨h1, _⟩ | ⟨h1, _⟩
      · exact abs_pos.2 (ne_of_lt h1)
      · exact abs_pos.2 (ne_of_gt h1)
    have hbp : 0 < abs qj.coeff := by
      rcases hsign with ⟨_, h2⟩ | ⟨_, h2⟩
      · exact abs_pos.2 (ne_of_gt h2)
      · exact abs_pos.2 (ne_of_lt h2)
    have hsum : abs qi.coeff * eval N qj.term + abs qj.coeff * eval N qi.term
        = abs qi.coeff * (qj.coeff * N.val x + eval N qj.term)
          + abs qj.coeff * (qi.coeff * N.val x + eval N qi.term) := by
      linear_combination (-N.val x) * hcancel
    rw [hsum]
    cases hsi : qi.strict <;> cases hsj : qj.strict <;>
      simp only [hsi, hsj, Bool.false_eq_true, if_false, if_true] at hri hrj <;>
      simp only [Bool.or_false, Bool.or_true, Bool.false_eq_true, if_false, if_true]
    · have h1 := mul_nonpos_of_nonneg_of_nonpos ha.le hrj
      have h2 := mul_nonpos_of_nonneg_of_nonpos hbp.le hri
      linarith
    · have h1 := mul_neg_of_pos_of_neg ha hrj
      have h2 := mul_nonpos_of_nonneg_of_nonpos hbp.le hri
      linarith
    · have h1 := mul_nonpos_of_nonneg_of_nonpos ha.le hrj
      have h2 := mul_neg_of_pos_of_neg hbp hri
      linarith
    · have h1 := mul_neg_of_pos_of_neg ha hrj
      have h2 := mul_neg_of_pos_of_neg hbp hri
      linarith

end arith_project_util
end qe

namespace qe
namespace arith_project_util

theorem apply_equality_divs_eq (rw : Expr → Expr) (x : Var) (c : ℚ) (t : Expr) :
    ∀ (divs : List Div) (lits : List Expr),
      apply_equality_divs rw x c t divs lits
        = (divs.map (equality_div_lit x c t)).foldl (add_lit rw) lits
  | [], _ => rfl
  | d :: rest, lits => by
    simp only [apply_equality_divs, List.map, List.foldl]
    exact apply_equality_divs_eq rw x c t rest _

theorem apply_equality_ineqs_eq (rw : Expr → Expr) (x : Var) (c : ℚ) (t : Expr) (k : Nat) :
    ∀ (ineqs : List Ineq) (i : Nat) (lits : List Expr),
      apply_equality_ineqs rw x c t k ineqs i lits
        = ((rows_except k ineqs i).map (equality_ineq_lit x c t)).foldl (add_lit rw) lits
  | [], _, _ => rfl
  | q :: rest, i, lits => by
    simp only [apply_equality_ineqs, rows_except]
    split
    · simp only [List.map, List.foldl]
      rw [apply_equality_ineqs_eq rw x c t k rest (i + 1)]
      unfold equality_ineq_lit
      split <;> rfl
    · exact apply_equality_ineqs_eq rw x c t k rest (i + 1) lits

theorem apply_equality_eq (rw : Expr → Expr) (x : Var) (st : State) (k : Nat)
    (lits : List Expr) :
    apply_equality rw x st k lits
      = (equality_lits x (ineq_coeff st k) (ineq_term st k) k st.m_divs st.m_ineqs).foldl
          (add_lit rw) lits := by
  unfold apply_equality equality_lits
  simp only [apply_equality_ineqs_eq, apply_equality_divs_eq, List.foldl_append]
  cases is_int x <;> rfl

theorem holds_equality_ineq_lit (x : Var) (N : Model) (c : ℚ) (t : Expr) (q : Ineq)
    (hc : 0 < c) (heq : c * N.val x + eval N t = 0) :
    holds N (equality_ineq_lit x c t q) = true ↔ rowHolds x N q := by
  have hval : eval N (Expr.sub (mk_mul x c q.term) (mk_mul x q.coeff t))
      = c * (q.coeff * N.val x + eval N q.term) := by
    simp only [eval, eval_mk_mul]
    linear_combination (-q.coeff) * heq
  unfold equality_ineq_lit rowHolds
  cases hs : q.strict
  · simp only [Bool.false_eq_true, if_false, holds, hval, eval_mk_num, decide_eq_true_eq]
    constructor
    · intro h
      by_contra hn
      have := mul_pos hc (not_le.1 hn)
      linarith
    · intro h
      exact mul_nonpos_of_nonneg_of_nonpos hc.le h
  · simp only [if_true, holds, hval, eval_mk_num, decide_eq_true_eq]
    constructor
    · intro h
      by_contra hn
      have := mul_nonneg hc.le (not_lt.1 hn)
      linarith
    · intro h
      exact mul_neg_of_pos_of_neg hc h

theorem holds_equality_div_lit (x : Var) (N : Model) (c : ℚ) (t : Expr) (d : Div)
    (hc : 0 < c) (heq : c * N.val x + eval N t = 0) (ic : IsIntVal c) (ix : IsIntVal (N.val x))
    (ia : IsIntVal d.coeff) (id : IsIntVal d.divisor) (is : IsIntVal (eval N d.term)) :
    holds N (equality_div_lit x c t d) = true ↔ divHolds x N d := by
  obtain ⟨cz, hcz⟩ := ic
  obtain ⟨xz, hxz⟩ := ix
  obtain ⟨az, haz⟩ := ia
  obtain ⟨dz, hdz⟩ := id
  obtain ⟨sz, hsz⟩ := is
  have hczpos : cz ≠ 0 := by
    intro h0
    rw [hcz, h0] at hc
    simp at hc
  have hval : eval N (Expr.sub (mk_mul x c d.term) (mk_mul x d.coeff t))
      = ((cz * (az * xz + sz) : ℤ) : ℚ) := by
    simp only [eval, eval_mk_mul]
    push_cast
    rw [← hcz, ← haz, ← hxz, ← hsz]
    linear_combination (-d.coeff) * heq
  have hdiv : abs (c * d.divisor) = ((|cz * dz| : ℤ) : ℚ) := by
    rw [hcz, hdz]
    push_cast
    rfl
  have hrow : d.coeff * N.val x + eval N d.term = ((az * xz + sz : ℤ) : ℚ) := by
    rw [haz, hxz, hsz]
    push_cast
    rfl
  unfold equality_div_lit divHolds
  rw [holds_mk_divides, hval, hdiv, hrow, hdz, decide_eq_true_eq, ratMod_eq_zero_iff,
    ratMod_eq_zero_iff, abs_dvd]
  exact mul_dvd_mul_iff_left hczpos

theorem holds_equality_self (x : Var) (N : Model) (c : ℚ) (t : Expr)
    (heq : c * N.val x + eval N t = 0) (ic : IsIntVal c) (ix : IsIntVal (N.val x)) :
    holds N (mk_divides x c t) = true := by
  obtain ⟨cz, hcz⟩ := ic
  obtain ⟨xz, hxz⟩ := ix
  have hval : eval N t = ((-(cz * xz) : ℤ) : ℚ) := by
    push_cast
    rw [← hcz, ← hxz]
    linarith
  have hdiv : abs c = ((|cz| : ℤ) : ℚ) := by
    rw [hcz]
    push_cast
    rfl
  rw [holds_mk_divides, hval, hdiv, decide_eq_true_eq, ratMod_eq_zero_iff, abs_dvd]
  exact ⟨-xz, by ring⟩

/-- What `add_lit` does to a list of literals, one after the other: each is rewritten, and
appended unless it became `true`. -/
theorem foldl_add_lit (rw : Expr → Expr) : ∀ (es lits : List Expr),
    es.foldl (add_lit rw) lits = lits ++ (es.map rw).filter (fun e => !(is_true e))
  | [], lits => by simp
  | e :: es, lits => by
    rw [List.foldl_cons, foldl_add_lit rw es]
    unfold add_lit
    by_cases h : is_true (rw e) = true
    · simp [h]
    · simp [h]

/-- C25, equality substitution. With the selected equality row `c·x + t = 0` at position
`k`, `c > 0`: `apply_equality` returns the list it was given followed by these literals,
rewritten, in this order, leaving out those rewritten to `true`: `c | t` when `x` is an
integer, `c·d | (c·s − a·t)` for every divisibility row `d | (a·x + s)`, and
`c·t_i − b_i·t ⋈ 0` with the strictness of the row for every other row `b_i·x + t_i ⋈ 0`.
In a model with `c·x + t = 0`, the literal of a row holds exactly when the row does; and
when `c` and the value of `x` are integers, `c | t` holds, and the literal of a
divisibility row with integer coefficient, divisor and term value holds exactly when the
row does. -/
theorem equality_substitution (rw : Expr → Expr) (x : Var) (st : State) (k : Nat)
    (lits : List Expr) (q : Ineq) (hk : st.m_ineqs[k]? = some q) (hc : 0 < q.coeff) :
    apply_equality rw x st k lits
      = lits ++ ((equality_lits x q.coeff q.term k st.m_divs st.m_ineqs).map rw).filter
          (fun e => !(is_true e)) ∧
    ∀ N : Model, q.coeff * N.val x + eval N q.term = 0 →
      (∀ r ∈ rows_except k st.m_ineqs 0,
        (holds N (equality_ineq_lit x q.coeff q.term r) = true ↔ rowHolds x N r)) ∧
      (IsIntVal q.coeff → IsIntVal (N.val x) →
        holds N (mk_divides x q.coeff q.term) = true ∧
        ∀ d ∈ st.m_divs, IsIntVal d.coeff → IsIntVal d.divisor → IsIntVal (eval N d.term) →
          (holds N (equality_div_lit x q.coeff q.term d) = true ↔ divHolds x N d)) := by
  obtain ⟨e1, e2, -⟩ := ineq_fields_of_get hk
  refine ⟨?_, fun N heq => ⟨fun r _ => holds_equality_ineq_lit x N _ _ r hc heq,
    fun ic ix => ⟨holds_equality_self x N _ _ heq ic ix,
      fun d _ ia id is => holds_equality_div_lit x N _ _ d hc heq ic ix ia id is⟩⟩⟩
  rw [apply_equality_eq, e1, e2, foldl_add_lit]

end arith_project_util
end qe

namespace qe
namespace arith_project_util

theorem ratLcm_num (a b : ℚ) : (ratLcm a b).num = ((Int.lcm a.num b.num : ℕ) : ℤ) := by
  unfold ratLcm
  simp

theorem ratLcm_isInt (a b : ℚ) : IsIntVal (ratLcm a b) := ⟨((Int.lcm a.num b.num : ℕ) : ℤ), by
  unfold ratLcm
  push_cast
  rfl⟩

theorem isIntVal_num {r : ℚ} (h : IsIntVal r) : r = ((r.num : ℤ) : ℚ) := by
  obtain ⟨n, rfl⟩ := h
  simp

/-- The fold of `lcm` over the divisors, from an integer `d0`: an integer that every
divisor and `d0` divide, that divides every common multiple, and that is positive when `d0`
and the divisors are. -/
theorem lcm_fold_spec : ∀ (divs : List Div) (d0 : ℚ), IsIntVal d0 →
    IsIntVal (divs.foldl (fun d row => ratLcm d row.divisor) d0) ∧
    d0.num ∣ (divs.foldl (fun d row => ratLcm d row.divisor) d0).num ∧
    (∀ d ∈ divs, d.divisor.num ∣ (divs.foldl (fun d row => ratLcm d row.divisor) d0).num) ∧
    (∀ m : ℤ, d0.num ∣ m → (∀ d ∈ divs, d.divisor.num ∣ m) →
      (divs.foldl (fun d row => ratLcm d row.divisor) d0).num ∣ m) ∧
    (0 < d0 → (∀ d ∈ divs, 0 < d.divisor) →
      0 < divs.foldl (fun d row => ratLcm d row.divisor) d0)
  | [], d0, h0 => ⟨h0, dvd_refl _, fun _ h => (by cases h), fun _ h _ => h, fun h _ => h⟩
  | r :: rest, d0, h0 => by
    obtain ⟨i1, i2, i3, i4, i5⟩ := lcm_fold_spec rest (ratLcm d0 r.divisor) (ratLcm_isInt _ _)
    rw [ratLcm_num] at i2 i4
    simp only [List.foldl]
    refine ⟨i1, dvd_trans Int.dvd_lcm_left i2, ?_, ?_, ?_⟩
    · intro d hd
      rcases List.mem_cons.1 hd with rfl | hd
      · exact dvd_trans Int.dvd_lcm_right i2
      · exact i3 d hd
    · intro m hm hall
      exact i4 m (Int.lcm_dvd hm (hall r (List.mem_cons_self _ _)))
        (fun d hd => hall d (List.mem_cons_of_mem _ hd))
    · intro hp hall
      apply i5 _ (fun d hd => hall d (List.mem_cons_of_mem _ hd))
      unfold ratLcm
      have h1 : d0.num ≠ 0 := ne_of_gt (Rat.num_pos.2 hp)
      have h2 : r.divisor.num ≠ 0 := ne_of_gt (Rat.num_pos.2 (hall r (List.mem_cons_self _ _)))
      have h3 : 0 < Int.lcm d0.num r.divisor.num :=
        Nat.lcm_pos (Int.natAbs_pos.2 h1) (Int.natAbs_pos.2 h2)
      exact_mod_cast h3

theorem apply_divides_lits_eq (rw : Expr → Expr) (x : Var) (u : ℚ) :
    ∀ (divs : List Div) (lits : List Expr),
      apply_divides_lits rw x u divs lits = (divs.map (divides_lit x u)).foldl (add_lit rw) lits
  | [], _ => rfl
  | d :: rest, lits => by
    simp only [apply_divides_lits, List.map, List.foldl]
    exact apply_divides_lits_eq rw x u rest _

theorem holds_divides_lit (x : Var) (M : Model) (delta : ℚ) (d : Div)
    (hdiv : d.divisor.num ∣ delta.num) (hp : 0 < d.divisor) (ia : IsIntVal d.coeff)
    (ix : IsIntVal (M.val x)) (is : IsIntVal (eval M d.term)) (h : divHolds x M d) :
    holds M (divides_lit x (ratMod (M.val x) delta) d) = true := by
  obtain ⟨az, haz⟩ := ia
  obtain ⟨xz, hxz⟩ := ix
  obtain ⟨sz, hsz⟩ := is
  unfold divHolds at h
  have hrow : d.coeff * M.val x + eval M d.term = ((az * xz + sz : ℤ) : ℚ) := by
    rw [haz, hxz, hsz]
    push_cast
    rfl
  have hdn : ∀ r : ℚ, ratMod r d.divisor = ratMod r ((d.divisor.num : ℤ) : ℚ) := by
    intro r
    simp [ratMod]
  rw [hrow, hdn, ratMod_eq_zero_iff] at h
  have hu : ratMod (M.val x) delta = ((xz % delta.num : ℤ) : ℚ) := by
    rw [hxz]
    simp [ratMod]
  have hval : eval M (Expr.add [mk_num x (d.coeff * ratMod (M.val x) delta), d.term])
      = ((az * (xz % delta.num) + sz : ℤ) : ℚ) := by
    simp only [eval, evalSum, eval_mk_num, hu, haz, hsz]
    push_cast
    ring
  unfold divides_lit
  rw [holds_mk_divides, abs_of_pos hp, hval, hdn, decide_eq_true_eq, ratMod_eq_zero_iff]
  have e : az * (xz % delta.num) + sz = (az * xz + sz) - az * (delta.num * (xz / delta.num)) := by
    have := Int.emod_add_ediv xz delta.num
    linear_combination az * this
  rw [e]
  exact dvd_sub h (Dvd.dvd.mul_left (Dvd.dvd.mul_right hdiv _) _)

theorem apply_divides_fields (rw : Expr → Expr) (x : Var) (M : Model) (st : State)
    (lits : List Expr) (hnd : ¬ num_divs st = 0) :
    (apply_divides rw x M st lits).1.m_delta
      = st.m_divs.foldl (fun d row => ratLcm d row.divisor) st.m_delta ∧
    (apply_divides rw x M st lits).1.m_u
      = ratMod (M.val x) (st.m_divs.foldl (fun d row => ratLcm d row.divisor) st.m_delta) ∧
    (apply_divides rw x M st lits).2.2
      = apply_divides_lits rw x
          (ratMod (M.val x) (st.m_divs.foldl (fun d row => ratLcm d row.divisor) st.m_delta))
          st.m_divs lits := by
  unfold apply_divides
  rw [if_neg hnd]
  exact ⟨rfl, rfl, rfl⟩

/-- Divisibility consolidation with positive divisors. When a divisibility row is recorded,
`m_delta` is 1 and every recorded divisor is positive, `apply_divides` sets `m_delta` to the
least common multiple `δ` of the divisors (a positive integer that every divisor divides and
that divides every common multiple) and `m_u` to `u = M(x) mod δ`, with `0 ≤ u < δ`; it
returns the list it was given followed, in the order of the rows, by the rewritten literal
`d | (c·u + t)` of every row `(c, t, d)`, leaving out those rewritten to `true`; and such a
literal is true in `M` whenever the row holds in `M`, for an integer `c` and integer values
of `x` and `t`. -/
theorem consolidation_positive_divisors (rw : Expr → Expr) (x : Var) (M : Model) (st : State)
    (lits : List Expr) (hn : st.m_divs ≠ []) (hd : st.m_delta = 1)
    (hpos : ∀ d ∈ st.m_divs, 0 < d.divisor) :
    ∃ delta u : ℚ,
      (apply_divides rw x M st lits).1.m_delta = delta ∧
      (apply_divides rw x M st lits).1.m_u = u ∧
      IsIntVal delta ∧ 0 < delta ∧ (∀ d ∈ st.m_divs, d.divisor.num ∣ delta.num) ∧
      (∀ m : ℤ, (∀ d ∈ st.m_divs, d.divisor.num ∣ m) → delta.num ∣ m) ∧
      u = ratMod (M.val x) delta ∧ 0 ≤ u ∧ u < delta ∧
      (apply_divides rw x M st lits).2.2
        = lits ++ ((st.m_divs.map (divides_lit x u)).map rw).filter (fun e => !(is_true e)) ∧
      ∀ d ∈ st.m_divs, IsIntVal d.coeff → IsIntVal (M.val x) → IsIntVal (eval M d.term) →
        divHolds x M d → holds M (divides_lit x u d) = true := by
  have hnd : ¬ num_divs st = 0 := by
    unfold num_divs
    intro h
    exact hn (List.length_eq_zero.1 h)
  have h0 : IsIntVal st.m_delta := by
    rw [hd]
    exact ⟨1, by simp⟩
  obtain ⟨i1, -, i3, i4, i5⟩ := lcm_fold_spec st.m_divs st.m_delta h0
  have hdp := i5 (by rw [hd]; exact one_pos) hpos
  obtain ⟨f1, f2, f3⟩ := apply_divides_fields rw x M st lits hnd
  rw [f1, f2, f3]
  generalize st.m_divs.foldl (fun d row => ratLcm d row.divisor) st.m_delta = delta at *
  have hnum : 0 < delta.num := Rat.num_pos.2 hdp
  refine ⟨delta, ratMod (M.val x) delta, rfl, rfl, i1, hdp, i3, ?_, rfl, ?_, ?_, ?_, ?_⟩
  · intro m hm
    exact i4 m (by rw [hd]; simp) hm
  · unfold ratMod
    exact_mod_cast Int.emod_nonneg _ (ne_of_gt hnum)
  · have h1 := Int.emod_lt_of_pos (M.val x).num hnum
    rw [isIntVal_num i1]
    unfold ratMod
    simp only [Rat.num_intCast]
    exact_mod_cast h1
  · rw [apply_divides_lits_eq, foldl_add_lit]
  · intro d hdm ia ix is h
    exact holds_divides_lit x M _ d (i3 d hdm) (hpos d hdm) ia ix is h

end arith_project_util
end qe

namespace qe
namespace arith_project_util

end arith_project_util
end qe

namespace qe
namespace arith_project_util

theorem getElem?_append_lt {α : Type} (pre suf : List α) (i : Nat) (a : α)
    (h : pre[i]? = some a) : (pre ++ suf)[i]? = some a := by
  have hi : i < pre.length := (List.getElem?_eq_some.1 h).1
  rw [List.getElem?_append_left hi]
  exact h

/-- The loop of `find_max` after the rows `pre`: when a row of the requested side has been
seen (`new_max` is false), `result` is the position of a row of that side whose ratio
`M(t)/|c|` is `max_r` and is the largest among the rows of that side in `pre`; for a
non-integer `x` it is strict when a strict row of `pre` attains the same ratio; for an
integer `x` without strict rows it has coefficient 1 when a row of `pre` with
coefficient 1 attains the same ratio. The loop keeps this up to the end. -/
theorem find_max_loop_inv (x : Var) (M : Model) (do_pos : Bool) :
    ∀ (rest pre : List Ineq) (result : Nat) (new_max : Bool) (max_r : ℚ),
      (new_max = true → ∀ q ∈ pre, decide (0 < q.coeff) ≠ do_pos) →
      (new_max = false → ∃ qr, pre[result]? = some qr ∧ decide (0 < qr.coeff) = do_pos ∧
        max_r = eval M qr.term / abs qr.coeff ∧
        (∀ q ∈ pre, decide (0 < q.coeff) = do_pos →
          eval M q.term / abs q.coeff ≤ eval M qr.term / abs qr.coeff) ∧
        (is_int x = false → ∀ q ∈ pre, decide (0 < q.coeff) = do_pos →
          eval M q.term / abs q.coeff = eval M qr.term / abs qr.coeff → q.strict = true →
          qr.strict = true) ∧
        (is_int x = true → (∀ q ∈ pre, q.strict = false) →
          ∀ q ∈ pre, decide (0 < q.coeff) = do_pos →
          eval M q.term / abs q.coeff = eval M qr.term / abs qr.coeff → q.coeff = 1 →
          qr.coeff = 1)) →
      (new_max = true → ∃ q ∈ rest, decide (0 < q.coeff) = do_pos) →
      ∃ qr, (pre ++ rest)[find_max_loop x M do_pos rest pre.length result new_max max_r]?
          = some qr ∧ decide (0 < qr.coeff) = do_pos ∧
        (∀ q ∈ pre ++ rest, decide (0 < q.coeff) = do_pos →
          eval M q.term / abs q.coeff ≤ eval M qr.term / abs qr.coeff) ∧
        (is_int x = false → ∀ q ∈ pre ++ rest, decide (0 < q.coeff) = do_pos →
          eval M q.term / abs q.coeff = eval M qr.term / abs qr.coeff → q.strict = true →
          qr.strict = true) ∧
        (is_int x = true → (∀ q ∈ pre ++ rest, q.strict = false) →
          ∀ q ∈ pre ++ rest, decide (0 < q.coeff) = do_pos →
          eval M q.term / abs q.coeff = eval M qr.term / abs qr.coeff → q.coeff = 1 →
          qr.coeff = 1)
  | [], pre, result, new_max, max_r, h1, h2, h3 => by
    cases new_max with
    | true =>
      obtain ⟨q, hq, _⟩ := h3 rfl
      cases hq
    | false =>
      obtain ⟨qr, a1, a2, -, a4, a5, a6⟩ := h2 rfl
      simp only [List.append_nil, find_max_loop]
      exact ⟨qr, a1, a2, a4, a5, a6⟩
  | q :: rest, pre, result, new_max, max_r, h1, h2, h3 => by
    have hlen : (pre ++ [q]).length = pre.length + 1 := by simp
    have happ : pre ++ q :: rest = (pre ++ [q]) ++ rest := by simp
    have hget : (pre ++ [q])[pre.length]? = some q := by simp
    simp only [find_max_loop]
    rw [happ, ← hlen]
    by_cases hside : decide (0 < q.coeff) = do_pos
    · rw [if_pos hside]
      split
      · -- the row becomes the representative
        rename_i hnm
        refine find_max_loop_inv x M do_pos rest (pre ++ [q]) _ false _ (fun h => by cases h)
          (fun _ => ⟨q, ?_, hside, rfl, ?_, ?_, ?_⟩) (fun h => by cases h)
        · exact hget
        · intro p hp hps
          rcases List.mem_append.1 hp with hp | hp
          · cases new_max with
            | true => exact absurd hps (h1 rfl p hp)
            | false =>
              obtain ⟨qr, -, -, a3, a4, -, -⟩ := h2 rfl
              have hp4 := a4 p hp hps
              rw [← a3] at hp4
              simp only [Bool.false_or, Bool.or_eq_true, Bool.and_eq_true,
                decide_eq_true_eq] at hnm
              rcases hnm with (hgt | ⟨heq, _⟩) | ⟨⟨heq, _⟩, _⟩
              · exact le_of_lt (lt_of_le_of_lt hp4 hgt)
              · rw [heq]; exact hp4
              · rw [heq]; exact hp4
          · simp only [List.mem_singleton] at hp
            subst hp
            exact le_refl _
        · intro hx p hp hps hpe hst
          rcases List.mem_append.1 hp with hp | hp
          · cases new_max with
            | true => exact absurd hps (h1 rfl p hp)
            | false =>
              obtain ⟨qr, -, -, a3, a4, -, -⟩ := h2 rfl
              have hp4 := a4 p hp hps
              rw [← a3, hpe] at hp4
              simp only [Bool.false_or, Bool.or_eq_true, Bool.and_eq_true,
                decide_eq_true_eq, hx, Bool.false_eq_true, and_false, false_and,
                or_false] at hnm
              rcases hnm with hgt | ⟨_, hs⟩
              · exact absurd hgt (not_lt.2 hp4)
              · exact hs
          · simp only [List.mem_singleton] at hp
            subst hp
            exact hst
        · intro hx hall p hp hps hpe hc
          rcases List.mem_append.1 hp with hp | hp
          · cases new_max with
            | true => exact absurd hps (h1 rfl p hp)
            | false =>
              obtain ⟨qr, -, -, a3, a4, -, -⟩ := h2 rfl
              have hp4 := a4 p hp hps
              rw [← a3, hpe] at hp4
              have hqs : q.strict = false := hall q (by simp)
              simp only [Bool.false_or, Bool.or_eq_true, Bool.and_eq_true,
                decide_eq_true_eq, hqs, Bool.false_eq_true, and_false, or_false] at hnm
              rcases hnm with hgt | ⟨_, hc1⟩
              · exact absurd hgt (not_lt.2 hp4)
              · exact hc1
          · simp only [List.mem_singleton] at hp
            subst hp
            exact hc
      · -- the representative stays
        rename_i hnm
        have hnf : new_max = false := by
          cases new_max
          · rfl
          · simp at hnm
        subst hnf
        obtain ⟨qr, a1, a2, a3, a4, a5, a6⟩ := h2 rfl
        simp only [Bool.false_or, Bool.or_eq_true, Bool.and_eq_true, decide_eq_true_eq,
          not_or, not_and, not_lt] at hnm
        obtain ⟨⟨n1, n2⟩, n3⟩ := hnm
        rw [a3] at n1 n2 n3
        refine find_max_loop_inv x M do_pos rest (pre ++ [q]) result false max_r
          (fun h => by cases h)
          (fun _ => ⟨qr, getElem?_append_lt pre [q] result qr a1, a2, a3, ?_, ?_, ?_⟩)
          (fun h => by cases h)
        · intro p hp hps
          rcases List.mem_append.1 hp with hp | hp
          · exact a4 p hp hps
          · simp only [List.mem_singleton] at hp
            subst hp
            exact n1
        · intro hx p hp hps hpe hst
          rcases List.mem_append.1 hp with hp | hp
          · exact a5 hx p hp hps hpe hst
          · simp only [List.mem_singleton] at hp
            subst hp
            exact absurd hst (by simpa using n2 hpe)
        · intro hx hall p hp hps hpe hc
          rcases List.mem_append.1 hp with hp | hp
          · exact a6 hx (fun r hr => hall r (List.mem_append_left _ hr)) p hp hps hpe hc
          · simp only [List.mem_singleton] at hp
            subst hp
            exact absurd hc (n3 ⟨hpe, hx⟩)
    · rw [if_neg hside]
      refine find_max_loop_inv x M do_pos rest (pre ++ [q]) result new_max max_r ?_ ?_ ?_
      · intro hn p hp
        rcases List.mem_append.1 hp with hp | hp
        · exact h1 hn p hp
        · simp only [List.mem_singleton] at hp
          subst hp
          exact hside
      · intro hn
        obtain ⟨qr, a1, a2, a3, a4, a5, a6⟩ := h2 hn
        refine ⟨qr, getElem?_append_lt pre [q] result qr a1, a2, a3, ?_, ?_, ?_⟩
        · intro p hp hps
          rcases List.mem_append.1 hp with hp | hp
          · exact a4 p hp hps
          · simp only [List.mem_singleton] at hp
            subst hp
            exact absurd hps hside
        · intro hx p hp hps hpe hst
          rcases List.mem_append.1 hp with hp | hp
          · exact a5 hx p hp hps hpe hst
          · simp only [List.mem_singleton] at hp
            subst hp
            exact absurd hps hside
        · intro hx hall p hp hps hpe hc
          rcases List.mem_append.1 hp with hp | hp
          · exact a6 hx (fun r hr => hall r (List.mem_append_left _ hr)) p hp hps hpe hc
          · simp only [List.mem_singleton] at hp
            subst hp
            exact absurd hps hside
      · intro hn
        obtain ⟨p, hp, hps⟩ := h3 hn
        rcases List.mem_cons.1 hp with rfl | hp
        · exact absurd hps hside
        · exact ⟨p, hp, hps⟩

/-- Representative selection of `find_max`. When a row lies on the requested side, `find_max`
returns the position of a row of that side whose `M(t)/|c|` is the largest on that side.
For a non-integer `x` the row is strict when a strict row of the side attains the largest
ratio. For an integer `x` without strict rows the row has coefficient 1 when a row of
coefficient 1 of the side attains the largest ratio. -/
theorem find_max_representative (x : Var) (M : Model) (st : State) (do_pos : Bool)
    (h : ∃ q ∈ st.m_ineqs, decide (0 < q.coeff) = do_pos) :
    ∃ qr, st.m_ineqs[find_max x M st do_pos]? = some qr ∧ decide (0 < qr.coeff) = do_pos ∧
      (∀ q ∈ st.m_ineqs, decide (0 < q.coeff) = do_pos →
        eval M q.term / abs q.coeff ≤ eval M qr.term / abs qr.coeff) ∧
      (is_int x = false → ∀ q ∈ st.m_ineqs, decide (0 < q.coeff) = do_pos →
        eval M q.term / abs q.coeff = eval M qr.term / abs qr.coeff → q.strict = true →
        qr.strict = true) ∧
      (is_int x = true → (∀ q ∈ st.m_ineqs, q.strict = false) →
        ∀ q ∈ st.m_ineqs, decide (0 < q.coeff) = do_pos →
        eval M q.term / abs q.coeff = eval M qr.term / abs qr.coeff → q.coeff = 1 →
        qr.coeff = 1) := by
  have := find_max_loop_inv x M do_pos st.m_ineqs [] 0 true 0 (fun _ q hq => by cases hq)
    (fun hc => by cases hc) (fun _ => h)
  simpa [find_max] using this

end arith_project_util
end qe

namespace qe
open arith_project_util

/-- C21, refuted on the code. On `3·x + y ≤ 0`, `-3·x + z ≤ 0` over the integers with
`x = 0, y = 0, z = -3` both literals are true, the rows are `(3, y)` and `(-3, z)`, and
`mk_int_lt` takes the slack case. The one literal `project` emits,
`3·z + 3·y + (-4) ≤ 0`, is true for `y = 0, z = 1`, where no value of `x`, integer or not,
satisfies both literals. -/
theorem slack_case_not_exact :
    slack_lits.map (holds (model_xyz 0 0 (-3))) = [true, true] ∧
    (classify id vx (model_xyz 0 0 (-3)) slack_lits).map
      (fun r => (r.1.m_ineqs.map (fun q => (q.coeff, q.strict)),
        find_max vx (model_xyz 0 0 (-3)) r.1 (decide (r.2.num_pos < r.2.num_neg)),
        mk_int_lt_case1 (model_xyz 0 0 (-3)) r.1 0 1))
      = some ([(3, false), (-3, false)], 1, true) ∧
    (project id vx (model_xyz 0 0 (-3)) slack_lits).map
      (fun r => r.1.map (holds (model_xyz 0 0 1))) = some [true] ∧
    ∀ r : ℚ, holdsAll ((model_xyz 0 0 1).register_decl vx r) slack_lits = false := by
  refine ⟨by decide!, by decide!, by decide!, ?_⟩
  intro r
  simp only [slack_lits, holdsAll, holds, eval, evalSum, inum, vx, vy, vz, Model.register_decl,
    model_xyz]
  by_cases h : 3 * r ≤ 0
  · have h2 : ¬ (-3 * r + 1 ≤ 0) := by linarith
    simp [h2]
    intro _
    linarith
  · simp [h]

/-- C22, refuted on the code. On `y ≤ 2·x`, `z ≤ x`, `x ≤ w`, `x ≤ u` over the integers with
`x = 1, y = 2, z = 1, w = 1, u = 2` all literals are true; the rows are `(-2, y)`,
`(-1, z)`, `(1, -w)`, `(1, -u)`, so `find_max` is asked for the negative side, where both
rows have `M(t)/|c| = 1`. It returns row 0, of coefficient `-2`, although row 1 attains the
maximum with `|c| = 1`. -/
theorem find_max_misses_unit_row :
    unit_tie_lits.map (holds (model_list [1, 2, 1, 1, 2])) = [true, true, true, true] ∧
    (classify id (ivar 0) (model_list [1, 2, 1, 1, 2]) unit_tie_lits).map
      (fun r => (r.1.m_ineqs.map
          (fun q => (q.coeff, eval (model_list [1, 2, 1, 1, 2]) q.term / abs q.coeff, q.strict)),
        r.2.num_pos, r.2.num_neg,
        find_max (ivar 0) (model_list [1, 2, 1, 1, 2]) r.1 (decide (r.2.num_pos < r.2.num_neg))))
      = some ([(-2, 1, false), (-1, 1, false), (1, -1, false), (1, -2, false)], 2, 2, 0) := by
  refine ⟨by decide!, by decide!⟩

end qe
namespace qe
namespace qepr

theorem collect_iter_todo (X : Ext) : ∀ (k : Nat) (c : Collect), c.todo ≠ [] →
    (collect_iter X k c).todo ≠ []
  | 0, _, h => h
  | k + 1, c, h => by
    rw [collect_iter]
    cases hl : c.todo.getLast? with
    | none => exact h
    | some e => exact collect_iter_todo X k _ (collect_body_todo X c e h)

/-- The loop stands still once the expression on top of the stack is marked. -/
theorem collect_iter_stuck (X : Ext) (c : Collect) (e : Expr) (h1 : c.todo.getLast? = some e)
    (h2 : c.marked.contains e = true) : ∀ k : Nat, collect_iter X k c = c
  | 0 => rfl
  | k + 1 => by
    rw [collect_iter, h1]
    have hb : collect_body X c e = c := by
      unfold collect_body
      rw [if_pos h2]
    simp only [hb]
    exact collect_iter_stuck X c e h1 h2 k

theorem collect_iter_done (X : Ext) (c : Collect) (h : c.todo.getLast? = none) :
    ∀ k : Nat, collect_iter X k c = c
  | 0 => rfl
  | k + 1 => by rw [collect_iter, h]

theorem collect_iter_add (X : Ext) : ∀ (a b : Nat) (c : Collect),
    collect_iter X (a + b) c = collect_iter X b (collect_iter X a c)
  | 0, b, c => by simp [collect_iter]
  | a + 1, b, c => by
    rw [Nat.add_right_comm, collect_iter, collect_iter]
    cases hl : c.todo.getLast? with
    | none =>
      simp only
      exact (collect_iter_done X c hl b).symm
    | some e => exact collect_iter_add X a b _

/-- C39, refuted on the code. The loop of `collect_predicates` never takes an expression
off its stack: whatever the formula, the stack is non-empty after every number of
iterations, so the loop does not end and `collect_predicates` returns with no amount of
fuel. On the formula `true` the state after the first iteration is the state after every
later one. -/
theorem collect_predicates_never_returns {α : Type} (X : Ext) (fml : Expr) (s : State α) :
    (∀ k : Nat, (collect_iter X k (collect_start fml)).todo ≠ []) ∧
    (∀ fuel : Nat, collect_predicates X fuel fml s = none) ∧
    ∀ k : Nat, collect_iter X (1 + k) (collect_start Expr.tt) =
      ⟨[Expr.tt], [Expr.tt], [], [], [], [], []⟩ := by
  refine ⟨fun k => collect_iter_todo X k _ (by simp [collect_start]), fun fuel => ?_,
    fun k => ?_⟩
  · unfold collect_predicates
    rw [collect_loop_none X fuel _ (by simp)]
  · rw [collect_iter_add]
    have h1 : collect_iter X 1 (collect_start Expr.tt) =
        ⟨[Expr.tt], [Expr.tt], [], [], [], [], []⟩ := by
      simp [collect_iter, collect_start, collect_body, decl_of, children]
    rw [h1]
    exact collect_iter_stuck X ⟨[Expr.tt], [Expr.tt], [], [], [], [], []⟩ Expr.tt rfl
      (by decide!) k

/-- C40, refuted on the code. On the matrix of scenario S6, `P(x) ∧ ¬P(y) → x ≠ y`, the loop
of `collect_predicates` descends to the constant `y` and stays there: after every number
of iterations the stack is non-empty and the four tables are empty, although `P(x)` and
`P(y)` occur in the formula. On `P(x) ∧ P(y)` the tables hold one occurrence of `P`
after every number of iterations from the second on. And an iteration on an application
whose declaration is marked records nothing, whatever the state: only the first
application of a symbol can be recorded. -/
theorem collect_predicates_misses_occurrences :
    (∀ k : Nat, (collect_iter no_ext k (collect_start s6_matrix)).todo ≠ [] ∧
      (collect_iter no_ext k (collect_start s6_matrix)).tables = ([], [], [], [])) ∧
    (∀ k : Nat, (collect_iter no_ext (2 + k) (collect_start two_occs)).tables =
      ([Decl.fn 0 Srt.bool], [], [(Decl.fn 0 Srt.bool, 1)], [])) ∧
    ∀ (X : Ext) (c : Collect) (e : Expr) (d : Decl), decl_of e = some d →
      c.marked_decls.contains d = true →
      (collect_body X c e).bound_occs = c.bound_occs ∧
      (collect_body X c e).free_occs = c.free_occs ∧
      (collect_body X c e).bound_preds = c.bound_preds ∧
      (collect_body X c e).free_preds = c.free_preds := by
  refine ⟨fun k => ⟨collect_iter_todo _ k _ (by simp [collect_start]), ?_⟩, fun k => ?_, ?_⟩
  · have h4 : ∀ j : Nat, collect_iter no_ext (4 + j) (collect_start s6_matrix) =
        collect_iter no_ext 4 (collect_start s6_matrix) := by
      intro j
      rw [collect_iter_add]
      exact collect_iter_stuck _ _ (Expr.var (uvar 1)) (by with_unfolding_all rfl)
        (by decide!) j
    by_cases hk : k < 4
    · interval_cases k <;> decide!
    · obtain ⟨j, rfl⟩ : ∃ j, k = 4 + j := ⟨k - 4, by omega⟩
      rw [h4]
      decide!
  · cases k with
    | zero => decide!
    | succ j =>
      rw [show 2 + (j + 1) = 3 + j by omega, collect_iter_add,
        collect_iter_stuck _ _ (Expr.var (uvar 1)) (by with_unfolding_all rfl) (by decide!) j]
      decide!
  · intro X c e d hd hm
    unfold collect_body
    split
    · exact ⟨rfl, rfl, rfl, rfl⟩
    · simp only [hd]
      have hmem : d ∈ c.marked_decls := by simpa using hm
      simp [hmem]

end qepr
end qe
namespace qe
namespace arith_project_util

theorem extract_mod_record_divs (rw : Expr → Expr) (x : Var) (val : Expr) (k c : ℚ) (t : Expr)
    (st : State) : ∀ d ∈ (extract_mod_record rw x val k c t st).m_divs,
      d ∈ st.m_divs ∨ (d.coeff ≠ 0 ∧ d.divisor = k) := by
  intro d hd
  unfold extract_mod_record at hd
  split at hd
  · rename_i hc
    rcases List.mem_append.1 hd with h | h
    · exact Or.inl h
    · simp only [List.mem_singleton] at h
      subst h
      exact Or.inr ⟨hc, rfl⟩
  · exact Or.inl hd

theorem is_linear_other_divs {x : Var} {mul : ℚ} {t : Expr} {c : ℚ} {ts : List Expr}
    {st : State} {c1 : ℚ} {ts1 : List Expr} {st1 : State}
    (h : is_linear_other x mul t c ts st = some (c1, ts1, st1)) : st1.m_divs = st.m_divs := by
  unfold is_linear_other at h
  split at h
  · cases h
  · simp only [Option.some.injEq, Prod.mk.injEq] at h
    obtain ⟨-, -, rfl⟩ := h
    rfl

/-- The term-level `is_linear` records only rows with a non-zero coefficient whose divisor
is the numeral of a `mod` inside the term. -/
theorem is_linear_divs (rw : Expr → Expr) (x : Var) (M : Model) (mul : ℚ) (t : Expr) (c : ℚ)
    (ts : List Expr) (st : State) :
    ∀ c1 ts1 st1, is_linear rw x M mul t c ts st = some (c1, ts1, st1) →
      ∀ d ∈ st1.m_divs, d ∈ st.m_divs ∨ (d.coeff ≠ 0 ∧ d.divisor ∈ mod_numerals t) := by
  apply is_linear.induct rw x M
    (fun mul t c ts st => ∀ c1 ts1 st1, is_linear rw x M mul t c ts st = some (c1, ts1, st1) →
      ∀ d ∈ st1.m_divs, d ∈ st.m_divs ∨ (d.coeff ≠ 0 ∧ d.divisor ∈ mod_numerals t))
    (fun mul args c ts st => ∀ c1 ts1 st1,
      is_linear_args rw x M mul args c ts st = some (c1, ts1, st1) →
      ∀ d ∈ st1.m_divs, d ∈ st.m_divs ∨ (d.coeff ≠ 0 ∧ d.divisor ∈ mod_numeralsList args))
  case case1 =>
    intro mul c ts st c1 ts1 st1 h d hd
    simp only [is_linear, if_true, Option.some.injEq, Prod.mk.injEq] at h
    obtain ⟨-, -, rfl⟩ := h
    exact Or.inl hd
  case case2 =>
    intro mul c ts st v hv c1 ts1 st1 h d hd
    simp only [is_linear, if_neg hv] at h
    rw [is_linear_other_divs h] at hd
    exact Or.inl hd
  case case3 =>
    intro mul c ts st t2 r s ih c1 ts1 st1 h d hd
    simp only [is_linear] at h
    rcases ih c1 ts1 st1 h d hd with h1 | ⟨h1, h2⟩
    · exact Or.inl h1
    · exact Or.inr ⟨h1, by simp [mod_numerals, h2]⟩
  case case4 =>
    intro mul c ts st t1 r s hn ih c1 ts1 st1 h d hd
    simp only [is_linear] at h
    rcases ih c1 ts1 st1 h d hd with h1 | ⟨h1, h2⟩
    · exact Or.inl h1
    · exact Or.inr ⟨h1, by simp [mod_numerals, h2]⟩
  case case6 =>
    intro mul c ts st args ih c1 ts1 st1 h d hd
    simp only [is_linear] at h
    rcases ih c1 ts1 st1 h d hd with h1 | ⟨h1, h2⟩
    · exact Or.inl h1
    · exact Or.inr ⟨h1, by simpa [mod_numerals] using h2⟩
  case case7 =>
    intro mul c ts st t1 t2 hnone ih c1 ts1 st1 h
    simp only [is_linear, hnone] at h
    cases h
  case case8 =>
    intro mul c ts st t1 t2 c2 ts2 st2 hsome ih1 ih2 c1 ts1 st1 h d hd
    simp only [is_linear, hsome] at h
    rcases ih2 c1 ts1 st1 h d hd with h1 | ⟨h1, h2⟩
    · rcases ih1 c2 ts2 st2 hsome d h1 with h3 | ⟨h3, h4⟩
      · exact Or.inl h3
      · exact Or.inr ⟨h3, by simp [mod_numerals, h4]⟩
    · exact Or.inr ⟨h1, by simp [mod_numerals, h2]⟩
  case case9 =>
    intro mul c ts st t1 ih c1 ts1 st1 h d hd
    simp only [is_linear] at h
    rcases ih c1 ts1 st1 h d hd with h1 | ⟨h1, h2⟩
    · exact Or.inl h1
    · exact Or.inr ⟨h1, by simpa [mod_numerals] using h2⟩
  case case10 =>
    intro mul c ts st mul1 s c1 ts1 st1 h d hd
    simp only [is_linear, Option.some.injEq, Prod.mk.injEq] at h
    obtain ⟨-, -, rfl⟩ := h
    exact Or.inl hd
  case case11 =>
    intro mul c ts st t1 r s hocc hnone ih c1 ts1 st1 h
    simp only [is_linear, hocc, hnone, if_true] at h
    cases h
  case case12 =>
    intro mul c ts st t1 r s hocc c2 ts2 st2 hsome ih c1 ts1 st1 h d hd
    simp only [is_linear, hocc, hsome, if_true, Option.some.injEq, Prod.mk.injEq] at h
    obtain ⟨-, -, rfl⟩ := h
    rcases extract_mod_record_divs rw x _ _ _ _ _ d hd with h1 | ⟨h1, h2⟩
    · rcases ih c2 ts2 st2 hsome d h1 with h3 | ⟨h3, h4⟩
      · exact Or.inl h3
      · exact Or.inr ⟨h3, by simp [mod_numerals, h4]⟩
    · exact Or.inr ⟨h1, by simp [mod_numerals, h2]⟩
  case case13 =>
    intro mul c ts st t1 r s hocc c1 ts1 st1 h d hd
    simp only [is_linear, hocc] at h
    rw [is_linear_other_divs h] at hd
    exact Or.inl hd
  case case27 =>
    intro mul c ts st c1 ts1 st1 h d hd
    simp only [is_linear_args, Option.some.injEq, Prod.mk.injEq] at h
    obtain ⟨-, -, rfl⟩ := h
    exact Or.inl hd
  case case28 =>
    intro mul c ts st t tail hnone ih c1 ts1 st1 h
    simp only [is_linear_args, hnone] at h
    cases h
  case case29 =>
    intro mul c ts st t tail c2 ts2 st2 hsome ih1 ih2 c1 ts1 st1 h d hd
    simp only [is_linear_args, hsome] at h
    rcases ih2 c1 ts1 st1 h d hd with h1 | ⟨h1, h2⟩
    · rcases ih1 c2 ts2 st2 hsome d h1 with h3 | ⟨h3, h4⟩
      · exact Or.inl h3
      · exact Or.inr ⟨h3, by simp [mod_numeralsList, h4]⟩
    · exact Or.inr ⟨h1, by simp [mod_numeralsList, h2]⟩
  all_goals
    intros
    rename_i h d hd
    simp only [is_linear] at h
    rw [is_linear_other_divs h] at hd
    exact Or.inl hd

theorem is_linear_pair_divs {rw : Expr → Expr} {x : Var} {M : Model} {mul : ℚ} {e1 e2 : Expr}
    {st : State} {c1 : ℚ} {ts1 : List Expr} {st1 : State}
    (h : is_linear_pair rw x M mul e1 e2 st = some (c1, ts1, st1)) :
    ∀ d ∈ st1.m_divs, d ∈ st.m_divs ∨
      (d.coeff ≠ 0 ∧ d.divisor ∈ mod_numerals e1 ++ mod_numerals e2) := by
  intro d hd
  unfold is_linear_pair at h
  split at h
  · cases h
  · rename_i c2 ts2 st2 hs
    rcases is_linear_divs rw x M (-mul) e2 c2 ts2 st2 c1 ts1 st1 h d hd with h1 | ⟨h1, h2⟩
    · rcases is_linear_divs rw x M mul e1 0 [] st c2 ts2 st2 hs d h1 with h3 | ⟨h3, h4⟩
      · exact Or.inl h3
      · exact Or.inr ⟨h3, List.mem_append_left _ h4⟩
    · exact Or.inr ⟨h1, List.mem_append_right _ h2⟩

theorem is_linear_lit_divs {rw : Expr → Expr} {x : Var} {M : Model} {lit : Expr} {st : State}
    {c : ℚ} {t : Expr} {s e : Bool} {st1 : State}
    (h : is_linear_lit rw x M lit st = some (c, t, s, e, st1)) :
    ∀ d ∈ st1.m_divs, d ∈ st.m_divs ∨ (d.coeff ≠ 0 ∧ d.divisor ∈ mod_numerals lit) := by
  have key : ∀ (is_not : Bool) (mul : ℚ) (l : Expr),
      is_linear_atom rw x M is_not mul l st = some (c, t, s, e, st1) →
      ∀ d ∈ st1.m_divs, d ∈ st.m_divs ∨ (d.coeff ≠ 0 ∧ d.divisor ∈ mod_numerals l) := by
    intro is_not mul l h
    have fin : ∀ (s0 e0 : Bool) (a b : Expr),
        is_linear_finish x s0 e0 (is_linear_pair rw x M mul a b st) = some (c, t, s, e, st1) →
        ∀ d ∈ st1.m_divs, d ∈ st.m_divs ∨
          (d.coeff ≠ 0 ∧ d.divisor ∈ mod_numerals a ++ mod_numerals b) := by
      intro s0 e0 a b hf
      obtain ⟨c2, ts2, hr⟩ := is_linear_finish_ineqs hf
      exact is_linear_pair_divs hr
    have sw : ∀ (a b : Expr) (d : Div),
        (d ∈ st.m_divs ∨ (d.coeff ≠ 0 ∧ d.divisor ∈ mod_numerals a ++ mod_numerals b)) →
        (d ∈ st.m_divs ∨ (d.coeff ≠ 0 ∧ d.divisor ∈ mod_numerals b ++ mod_numerals a)) := by
      intro a b d hd
      rcases hd with h1 | ⟨h1, h2⟩
      · exact Or.inl h1
      · refine Or.inr ⟨h1, ?_⟩
        rcases List.mem_append.1 h2 with h3 | h3
        · exact List.mem_append_right _ h3
        · exact List.mem_append_left _ h3
    unfold is_linear_atom at h
    split at h
    · simpa [mod_numerals] using fin _ _ _ _ h
    · intro d hd
      simpa [mod_numerals] using sw _ _ d (fin _ _ _ _ h d hd)
    · simpa [mod_numerals] using fin _ _ _ _ h
    · intro d hd
      simpa [mod_numerals] using sw _ _ d (fin _ _ _ _ h d hd)
    · split at h
      · split at h
        · simpa [mod_numerals] using fin _ _ _ _ h
        · split at h
          · intro d hd
            simpa [mod_numerals] using sw _ _ d (fin _ _ _ _ h d hd)
          · simpa [mod_numerals] using fin _ _ _ _ h
      · cases h
    · cases h
  unfold is_linear_lit at h
  split at h
  · simpa [mod_numerals] using key _ _ _ h
  · exact key _ _ _ h

/-- The invariant of the classification loop for the recorded rows: every divisibility row
has a non-zero coefficient and the numeral of a `mod` of the literals as divisor, every
other row has a non-zero coefficient. -/
theorem project_step_rows {rw : Expr → Expr} {x : Var} {M : Model} (L : List ℚ)
    {acc acc1 : State × Counters} {e : Expr} (h : project_step rw x M acc e = some acc1)
    (hL : ∀ k ∈ mod_numerals e, k ∈ L)
    (hs : (∀ d ∈ acc.1.m_divs, d.coeff ≠ 0 ∧ d.divisor ∈ L) ∧ ∀ q ∈ acc.1.m_ineqs, q.coeff ≠ 0) :
    (∀ d ∈ acc1.1.m_divs, d.coeff ≠ 0 ∧ d.divisor ∈ L) ∧ ∀ q ∈ acc1.1.m_ineqs, q.coeff ≠ 0 := by
  unfold project_step at h
  split at h
  · simp only [Option.some.injEq] at h
    subst h
    exact hs
  · split at h
    · cases h
    · rename_i c t is_strict is_eq st1 hl
      have h1 := is_linear_lit_divs hl
      have h2 := is_linear_lit_ineqs hl
      have hd : ∀ d ∈ st1.m_divs, d.coeff ≠ 0 ∧ d.divisor ∈ L := by
        intro d hd
        rcases h1 d hd with h3 | ⟨h3, h4⟩
        · exact hs.1 d h3
        · exact ⟨h3, hL _ h4⟩
      split at h
      · simp only [Option.some.injEq] at h
        subst h
        refine ⟨hd, ?_⟩
        intro q hq
        have hq2 : q ∈ st1.m_ineqs := hq
        rw [h2] at hq2
        exact hs.2 q hq2
      · rename_i hc
        have hnew : ∀ q ∈ st1.m_ineqs ++ [(⟨c, t, is_strict⟩ : Ineq)], q.coeff ≠ 0 := by
          intro q hq
          rcases List.mem_append.1 hq with hq | hq
          · rw [h2] at hq
            exact hs.2 q hq
          · simp only [List.mem_singleton] at hq
            subst hq
            exact hc
        simp only at h
        split at h
        · simp only [Option.some.injEq] at h
          subst h
          exact ⟨hd, hnew⟩
        · split at h <;>
          · simp only [Option.some.injEq] at h
            subst h
            exact ⟨hd, hnew⟩

theorem project_loop_rows {rw : Expr → Expr} {x : Var} {M : Model} (L : List ℚ) :
    ∀ (lits : List Expr) (acc acc1 : State × Counters),
      project_loop rw x M lits acc = some acc1 → (∀ k ∈ mod_numeralsList lits, k ∈ L) →
      ((∀ d ∈ acc.1.m_divs, d.coeff ≠ 0 ∧ d.divisor ∈ L) ∧ ∀ q ∈ acc.1.m_ineqs, q.coeff ≠ 0) →
      (∀ d ∈ acc1.1.m_divs, d.coeff ≠ 0 ∧ d.divisor ∈ L) ∧ ∀ q ∈ acc1.1.m_ineqs, q.coeff ≠ 0
  | [], acc, acc1, h, _, hs => by
    simp only [project_loop, Option.some.injEq] at h
    subst h
    exact hs
  | e :: es, acc, acc1, h, hL, hs => by
    simp only [project_loop] at h
    split at h
    · cases h
    · rename_i acc2 hstep
      exact project_loop_rows L es acc2 acc1 h
        (fun k hk => hL k (by simp [mod_numeralsList, hk]))
        (project_step_rows L hstep (fun k hk => hL k (by simp [mod_numeralsList, hk])) hs)

/-- The rows of the classification. When the classification loop of `project` ends, every
divisibility row has a coefficient other than 0 and, as divisor, the numeral of a term
`t mod k` of the literals, and every other row has a coefficient other than 0. So the
divisors are positive when the numerals under the `mod`s of the literals are. -/
theorem classify_rows (rw : Expr → Expr) (x : Var) (M : Model) (lits : List Expr)
    (st : State) (cn : Counters) (h : classify rw x M lits = some (st, cn)) :
    (∀ d ∈ st.m_divs, d.coeff ≠ 0 ∧ d.divisor ∈ mod_numeralsList lits) ∧
    (∀ q ∈ st.m_ineqs, q.coeff ≠ 0) ∧
    ((∀ k ∈ mod_numeralsList lits, 0 < k) → ∀ d ∈ st.m_divs, 0 < d.divisor) := by
  have := project_loop_rows (mod_numeralsList lits) lits _ _ h (fun k hk => hk)
    ⟨fun d hd => (by cases hd), fun q hq => (by cases hq)⟩
  exact ⟨this.1, this.2, fun hp d hd => hp _ (this.1 d hd).2⟩

end arith_project_util

open arith_project_util in
/-- C31, refuted on the code. On `x mod (-3) = 0` over the integers, true for `x = 0`, the
classification records the divisibility row with coefficient 1 and divisor `-3`; on
`x mod 0 = 0` it records coefficient 1 and divisor 0, for every model, and `apply_divides`
then sets `m_delta` to 0, where its assertion `0 ≤ m_u < m_delta` cannot hold. -/
theorem nonpositive_divisor_recorded :
    neg_mod_lits.map (holds (model_xyz 0 0 0)) = [true] ∧
    (classify id vx (model_xyz 0 0 0) neg_mod_lits).map
      (fun r => r.1.m_divs.map (fun d => (d.coeff, d.divisor))) = some [(1, -3)] ∧
    (∀ M : Model, (classify id vx M zero_mod_lits).map
      (fun r => (r.1.m_divs.map (fun d => (d.coeff, d.divisor)), r.1.m_ineqs.length))
        = some ([(1, 0)], 0)) ∧
    ∀ M : Model, (classify id vx M zero_mod_lits).map
      (fun r => (apply_divides id vx M r.1 r.1.m_new_lits).1.m_delta) = some 0 := by
  refine ⟨by decide!, by decide!, fun M => ?_, fun M => ?_⟩
  · simp [zero_mod_lits, classify, project_loop, project_step, occurs, vx, inum,
      is_linear_lit, is_linear_atom, is_arith, sortOf, is_linear_pair, is_linear,
      is_linear_finish, extract_mod_record, reset, add, mk_num, is_int, add_lit]
  · simp [zero_mod_lits, classify, project_loop, project_step, occurs, vx, inum,
      is_linear_lit, is_linear_atom, is_arith, sortOf, is_linear_pair, is_linear,
      is_linear_finish, extract_mod_record, reset, add, mk_num, is_int, add_lit,
      apply_divides, num_divs, ratLcm]

end qe
namespace qe
namespace arith_project_util

theorem driver_step_frame (rw : Expr → Expr) (s : DriverState) (nv : List Var) (v : Var) :
    ∃ nv1, driver_step rw { s with new_vars := nv } v =
      { driver_step rw s v with new_vars := nv1 } := by
  unfold driver_step
  split
  · simp only
    cases project rw v s.model s.result with
    | none => exact ⟨_, rfl⟩
    | some r => exact ⟨_, rfl⟩
  · exact ⟨_, rfl⟩

/-- The literals and the model of the loop of `operator()` do not depend on `new_vars`. -/
theorem driver_loop_frame (rw : Expr → Expr) : ∀ (vs : List Var) (s : DriverState)
    (nv : List Var),
    (driver_loop rw vs { s with new_vars := nv }).result = (driver_loop rw vs s).result ∧
    (driver_loop rw vs { s with new_vars := nv }).model = (driver_loop rw vs s).model
  | [], _, _ => ⟨rfl, rfl⟩
  | v :: vs, s, nv => by
    obtain ⟨nv1, h⟩ := driver_step_frame rw s nv v
    simp only [driver_loop]
    rw [h]
    exact driver_loop_frame rw vs (driver_step rw s v) nv1

/-- C32, failure atomicity. When `project` throws `cant_project` on the variable `v`, the
iteration of `operator()` on `v` leaves the literals and the model as they were and only
appends `v` to `new_vars`; the literals and the model at the end of the loop over the
variables after `v` are those of the loop without `v`. The throw comes from the
classification loop, whatever it had recorded before. -/
theorem failure_atomicity (rw : Expr → Expr) (s : DriverState) (v : Var) (vs : List Var)
    (h : project rw v s.model s.result = none) :
    classify rw v s.model s.result = none ∧
    (driver_step rw s v).result = s.result ∧ (driver_step rw s v).model = s.model ∧
    (driver_step rw s v).new_vars = s.new_vars ++ [v] ∧
    (driver_loop rw (v :: vs) s).result = (driver_loop rw vs s).result ∧
    (driver_loop rw (v :: vs) s).model = (driver_loop rw vs s).model := by
  have hc : classify rw v s.model s.result = none := by
    unfold project at h
    split at h
    · assumption
    · cases h
  have hstep : driver_step rw s v = { s with new_vars := s.new_vars ++ [v] } := by
    unfold driver_step
    split
    · simp only [h]
    · rfl
  refine ⟨hc, ?_, ?_, ?_, ?_, ?_⟩
  · rw [hstep]
  · rw [hstep]
  · rw [hstep]
  · simp only [driver_loop]
    rw [hstep]
    exact (driver_loop_frame rw vs s _).1
  · simp only [driver_loop]
    rw [hstep]
    exact (driver_loop_frame rw vs s _).2

end arith_project_util
end qe
namespace qe
namespace qepr

end qepr
end qe
namespace qe
namespace qepr

theorem holds_mk_and (M : Model) (es : List Expr) :
    holds M (qsat.mk_and es) = holdsAll M es := by
  match es with
  | [] => rfl
  | [e] => simp [qsat.mk_and, holdsAll]
  | e1 :: e2 :: es => simp [qsat.mk_and, holds]

theorem holds_mk_or (M : Model) (es : List Expr) :
    holds M (mk_or es) = holdsSome M es := by
  match es with
  | [] => rfl
  | [e] => simp [mk_or, holdsSome]
  | e1 :: e2 :: es => simp [mk_or, holds]

theorem holdsSome_eq_true_iff (M : Model) (es : List Expr) :
    holdsSome M es = true ↔ ∃ e ∈ es, holds M e = true := by
  induction es with
  | nil => simp [holdsSome]
  | cons e es ih => simp [holdsSome, ih]

theorem holds_eq_self (M : Model) (a : Expr) : holds M (Expr.eq a a) = true := by
  simp [holds]

theorem mem_zip_self {α : Type} : ∀ (l : List α) (ab : α × α), ab ∈ l.zip l → ab.1 = ab.2
  | [], _, h => by cases h
  | a :: l, ab, h => by
    rw [List.zip_cons_cons] at h
    rcases List.mem_cons.1 h with h1 | h1
    · rw [h1]
    · exact mem_zip_self l ab h1

/-- The conjunction `eq_args(p, q)` is true exactly when the arguments agree. -/
theorem holds_eq_args (M : Model) (p q : Expr) :
    holds M (eq_args p q) = true ↔ ArgsEq M p q := by
  unfold eq_args ArgsEq
  rw [holds_mk_and, qsat.holdsAll_eq_true_iff]
  constructor
  · intro h ab hab
    by_cases hb : (ab.1 == ab.2) = true
    · rw [(Expr.beq_iff _ _).1 hb]
      exact holds_eq_self M _
    · apply h
      rw [List.mem_filterMap]
      exact ⟨ab, hab, by simp [hb]⟩
  · intro h e he
    rw [List.mem_filterMap] at he
    obtain ⟨ab, hab, hab2⟩ := he
    split at hab2
    · cases hab2
    · injection hab2 with hab2
      rw [← hab2]
      exact h ab hab

/-- Applications of one predicate symbol to arguments of a sort other than `Bool`, of the
same number, that agree in the model have the same truth value. -/
theorem holds_congr_args (M : Model) (f : Nat) (as bs : List Expr)
    (hl : as.length = bs.length) (hs : ∀ a ∈ as, sortOf a ≠ Srt.bool)
    (h : ArgsEq M (Expr.app f Srt.bool as) (Expr.app f Srt.bool bs)) :
    holds M (Expr.app f Srt.bool as) = holds M (Expr.app f Srt.bool bs) := by
  have key : ∀ (as bs : List Expr), as.length = bs.length → (∀ a ∈ as, sortOf a ≠ Srt.bool) →
      (∀ ab ∈ as.zip bs, holds M (Expr.eq ab.1 ab.2) = true) → evalList M as = evalList M bs := by
    intro as
    induction as with
    | nil =>
      intro bs hl _ _
      cases bs with
      | nil => rfl
      | cons b bs => cases hl
    | cons a as ih =>
      intro bs hl hs h
      cases bs with
      | nil => cases hl
      | cons b bs =>
        have h1 := h (a, b) (by simp)
        have hsa := hs a (List.mem_cons_self _ _)
        simp only [holds, hsa, if_false, decide_eq_true_eq] at h1
        simp only [evalList, h1]
        rw [ih bs (by simpa using hl) (fun x hx => hs x (List.mem_cons_of_mem _ hx))
          (fun ab hab => h ab (by
            rw [List.zip_cons_cons]
            exact List.mem_cons_of_mem _ hab))]
  simp only [holds]
  rw [key as bs hl hs h]

/-- C38, the function graph. For occurrences of one predicate symbol, applied to the same
number of arguments of a sort other than `Bool`: in every model the formula
`mk_graph(p, pos, neg)` says that `p` holds exactly when its arguments agree with those of
some `posᵢ` and with those of no `negⱼ`; and it is true in every model in which each
`posᵢ` is true and each `negⱼ` is false, when `p` is one of the occurrences. -/
theorem function_graph (M : Model) (f n : Nat) (p : Expr) (pos neg : List Expr)
    (hocc : ∀ q ∈ pos ++ neg, ∃ args, q = Expr.app f Srt.bool args ∧ args.length = n ∧
      ∀ a ∈ args, sortOf a ≠ Srt.bool)
    (hpos : ∀ q ∈ pos, holds M q = true) (hneg : ∀ q ∈ neg, holds M q = false)
    (hp : p ∈ pos ++ neg) :
    (∀ N : Model, holds N (mk_graph p pos neg) = true ↔
      (holds N p = true ↔ ((∃ q ∈ pos, ArgsEq N p q) ∧ ∀ q ∈ neg, ¬ ArgsEq N p q))) ∧
    holds M (mk_graph p pos neg) = true := by
  obtain ⟨args, hpa, hlen, hsort⟩ := hocc p hp
  have sem : ∀ N : Model, holds N (mk_graph p pos neg) = true ↔
      (holds N p = true ↔ ((∃ q ∈ pos, ArgsEq N p q) ∧ ∀ q ∈ neg, ¬ ArgsEq N p q)) := by
    intro N
    have hsp : sortOf p = Srt.bool := by rw [hpa]; rfl
    unfold mk_graph
    simp only [holds, hsp, if_true]
    rw [holds_mk_and]
    have hr : holdsAll N (mk_or (pos.map (eq_args p)) ::
        neg.map (fun n => Expr.not (eq_args p n))) = true ↔
        ((∃ q ∈ pos, ArgsEq N p q) ∧ ∀ q ∈ neg, ¬ ArgsEq N p q) := by
      simp only [holdsAll, Bool.and_eq_true, holds_mk_or, holdsSome_eq_true_iff,
        qsat.holdsAll_eq_true_iff, List.mem_map]
      constructor
      · rintro ⟨⟨e, ⟨q, hq, rfl⟩, he⟩, h2⟩
        refine ⟨⟨q, hq, (holds_eq_args N p q).1 he⟩, fun q hq hc => ?_⟩
        have := h2 _ ⟨q, hq, rfl⟩
        simp only [holds, Bool.not_eq_true'] at this
        rw [(holds_eq_args N p q).2 hc] at this
        cases this
      · rintro ⟨⟨q, hq, ha⟩, h2⟩
        refine ⟨⟨_, ⟨q, hq, rfl⟩, (holds_eq_args N p q).2 ha⟩, ?_⟩
        rintro e ⟨q, hq, rfl⟩
        simp only [holds, Bool.not_eq_true']
        cases hv : holds N (eq_args p q) with
        | false => rfl
        | true => exact absurd ((holds_eq_args N p q).1 hv) (h2 q hq)
    constructor
    · intro h
      rw [← hr]
      have := (beq_iff_eq).1 h
      rw [this]
    · intro h
      rw [beq_iff_eq]
      cases h1 : holds N p <;> cases h2 : holdsAll N (mk_or (pos.map (eq_args p)) ::
        neg.map (fun n => Expr.not (eq_args p n))) <;> simp_all
  refine ⟨sem, ?_⟩
  rw [sem M]
  have self : ArgsEq M p p := fun ab hab => by
    rw [mem_zip_self _ ab hab]
    exact holds_eq_self M _
  rcases List.mem_append.1 hp with hpp | hpn
  · have ht := hpos p hpp
    simp only [ht, true_iff]
    refine ⟨⟨p, hpp, self⟩, fun q hq hc => ?_⟩
    obtain ⟨args2, hq2, hlen2, -⟩ := hocc q (List.mem_append_right _ hq)
    have hfalse := hneg q hq
    subst hpa hq2
    rw [holds_congr_args M f args args2 (by omega) hsort hc] at ht
    rw [ht] at hfalse
    cases hfalse
  · have hf := hneg p hpn
    simp only [hf, Bool.false_eq_true, false_iff, not_and, not_forall, not_not]
    intro _
    exact ⟨p, hpn, self⟩

end qepr
end qe
namespace qe
namespace qepr

theorem first_diff_some (mdl : Model) (p n : Expr) : ∀ (ks : List Nat) (a b : Expr),
    first_diff mdl p n ks = some (a, b) →
    ∃ k ∈ ks, a = arg p k ∧ b = arg n k ∧ model_value mdl a ≠ model_value mdl b
  | [], a, b, h => by cases h
  | k :: ks, a, b, h => by
    simp only [first_diff] at h
    split at h
    · rename_i hd
      simp only [Option.some.injEq, Prod.mk.injEq] at h
      obtain ⟨rfl, rfl⟩ := h
      refine ⟨k, List.mem_cons_self _ _, rfl, rfl, ?_⟩
      intro hc
      simp only [Bool.not_eq_true'] at hd
      exact (Expr.bne_iff _ _).1 hd hc
    · obtain ⟨k1, hk1, h1⟩ := first_diff_some mdl p n ks a b h
      exact ⟨k1, List.mem_cons_of_mem _ hk1, h1⟩

theorem first_diff_none (mdl : Model) (p n : Expr) : ∀ (ks : List Nat),
    first_diff mdl p n ks = none →
    ∀ k ∈ ks, model_value mdl (arg p k) = model_value mdl (arg n k)
  | [], _, k, hk => by cases hk
  | k0 :: ks, h, k, hk => by
    simp only [first_diff] at h
    split at h
    · cases h
    · rename_i hd
      rcases List.mem_cons.1 hk with rfl | hk1
      · simp only [Bool.not_eq_true', Bool.not_eq_false] at hd
        exact (Expr.beq_iff _ _).1 hd
      · exact first_diff_none mdl p n ks h k hk1

theorem any_pair (known : List (Expr × Expr)) (a b : Expr)
    (h : ∃ q ∈ known, (q.1 == a) = true ∧ (q.2 == b) = true) : (a, b) ∈ known := by
  obtain ⟨q, hq, h1⟩ := h
  have e1 := (Expr.beq_iff _ _).1 h1.1
  have e2 := (Expr.beq_iff _ _).1 h1.2
  have : q = (a, b) := by
    cases q
    simp only at e1 e2
    rw [e1, e2]
  rw [← this]
  exact hq

theorem known_skip_true (known : List (Expr × Expr)) (p n : Expr)
    (h : known_skip known p n = true) :
    ∃ k, k < (children p).length ∧
      ((arg p k, arg n k) ∈ known ∨ (arg n k, arg p k) ∈ known) := by
  unfold known_skip at h
  simp only [Bool.and_eq_true, List.any_eq_true, List.mem_range, Bool.or_eq_true] at h
  obtain ⟨-, k, hk, h1⟩ := h
  refine ⟨k, hk, ?_⟩
  rcases h1 with h1 | h1
  · exact Or.inl (any_pair known _ _ h1)
  · exact Or.inr (any_pair known _ _ h1)

theorem Covered.mono {ds ds1 : List Expr} {p n : Expr} (h : Covered ds p n)
    (hs : ∀ x ∈ ds, x ∈ ds1) : Covered ds1 p n := by
  obtain ⟨k, hk, h1⟩ := h
  exact ⟨k, hk, h1.imp (hs _) (hs _)⟩

theorem diseq_negs_spec (mdl : Model) (p : Expr) : ∀ (negs : List Expr)
    (r : List Expr × List (Expr × Expr)), DiseqInv mdl r →
    DiseqInv mdl (diseq_negs mdl p negs r) ∧ (∀ x ∈ r.1, x ∈ (diseq_negs mdl p negs r).1) ∧
      ∀ n ∈ negs, Differ mdl p n → Covered (diseq_negs mdl p negs r).1 p n
  | [], r, h => ⟨h, fun _ hx => hx, fun _ hn => by cases hn⟩
  | n :: negs, r, h => by
    simp only [diseq_negs]
    split
    · rename_i hskip
      obtain ⟨i1, i2, i3⟩ := diseq_negs_spec mdl p negs r h
      refine ⟨i1, i2, ?_⟩
      intro n1 hn1 hd
      rcases List.mem_cons.1 hn1 with rfl | hn2
      · obtain ⟨k, hk, h1⟩ := known_skip_true r.2 p n1 hskip
        exact ⟨k, hk, h1.imp (fun h2 => i2 _ (h.1 _ _ h2)) (fun h2 => i2 _ (h.1 _ _ h2))⟩
      · exact i3 n1 hn2 hd
    · split
      · rename_i a b hfd
        obtain ⟨k, hk, rfl, rfl, hne⟩ := first_diff_some mdl p n _ _ _ hfd
        have hinv : DiseqInv mdl (r.1 ++ [Expr.not (Expr.eq (arg p k) (arg n k))],
            r.2 ++ [(arg p k, arg n k)]) := by
          refine ⟨?_, ?_⟩
          · intro a b hab
            rcases List.mem_append.1 hab with h1 | h1
            · exact List.mem_append_left _ (h.1 a b h1)
            · simp only [List.mem_singleton, Prod.mk.injEq] at h1
              obtain ⟨rfl, rfl⟩ := h1
              exact List.mem_append_right _ (List.mem_singleton.2 rfl)
          · intro x hx
            rcases List.mem_append.1 hx with h1 | h1
            · exact h.2 x h1
            · simp only [List.mem_singleton] at h1
              exact ⟨_, _, h1, hne⟩
        obtain ⟨i1, i2, i3⟩ := diseq_negs_spec mdl p negs _ hinv
        refine ⟨i1, fun x hx => i2 x (List.mem_append_left _ hx), ?_⟩
        intro n1 hn1 hd
        rcases List.mem_cons.1 hn1 with rfl | hn2
        · exact ⟨k, List.mem_range.1 hk,
            Or.inl (i2 _ (List.mem_append_right _ (List.mem_singleton.2 rfl)))⟩
        · exact i3 n1 hn2 hd
      · rename_i hfd
        obtain ⟨i1, i2, i3⟩ := diseq_negs_spec mdl p negs r h
        refine ⟨i1, i2, ?_⟩
        intro n1 hn1 hd
        rcases List.mem_cons.1 hn1 with rfl | hn2
        · obtain ⟨k, hk, hne⟩ := hd
          exact absurd (first_diff_none mdl p n1 _ hfd k (List.mem_range.2 hk)) hne
        · exact i3 n1 hn2 hd

theorem diseq_poss_spec (mdl : Model) (negs : List Expr) : ∀ (poss : List Expr)
    (r : List Expr × List (Expr × Expr)), DiseqInv mdl r →
    DiseqInv mdl (diseq_poss mdl negs poss r) ∧
      (∀ x ∈ r.1, x ∈ (diseq_poss mdl negs poss r).1) ∧
      ∀ p ∈ poss, ∀ n ∈ negs, Differ mdl p n → Covered (diseq_poss mdl negs poss r).1 p n
  | [], r, h => ⟨h, fun _ hx => hx, fun _ hp => by cases hp⟩
  | p :: poss, r, h => by
    simp only [diseq_poss]
    obtain ⟨j1, j2, j3⟩ := diseq_negs_spec mdl p negs r h
    obtain ⟨i1, i2, i3⟩ := diseq_poss_spec mdl negs poss _ j1
    refine ⟨i1, fun x hx => i2 x (j2 x hx), ?_⟩
    intro p1 hp1 n hn hd
    rcases List.mem_cons.1 hp1 with rfl | hp2
    · exact (j3 n hn hd).mono i2
    · exact i3 p1 hp2 n hn hd

theorem diseq_entries_spec (mdl : Model) (neg : pred2occs) : ∀ (pos : pred2occs)
    (r : List Expr × List (Expr × Expr)), DiseqInv mdl r →
    DiseqInv mdl (diseq_entries mdl neg pos r) ∧
      (∀ x ∈ r.1, x ∈ (diseq_entries mdl neg pos r).1) ∧
      ∀ e ∈ pos, ∀ negs, occs_find neg e.1 = some negs → ∀ p ∈ e.2, ∀ n ∈ negs,
        Differ mdl p n → Covered (diseq_entries mdl neg pos r).1 p n
  | [], r, h => ⟨h, fun _ hx => hx, fun _ he => by cases he⟩
  | e :: rest, r, h => by
    simp only [diseq_entries]
    split
    · rename_i hnone
      obtain ⟨i1, i2, i3⟩ := diseq_entries_spec mdl neg rest r h
      refine ⟨i1, i2, ?_⟩
      intro e1 he1 negs hf
      rcases List.mem_cons.1 he1 with rfl | he2
      · rw [hnone] at hf
        cases hf
      · exact i3 e1 he2 negs hf
    · rename_i negs0 hsome
      obtain ⟨j1, j2, j3⟩ := diseq_poss_spec mdl negs0 e.2 r h
      obtain ⟨i1, i2, i3⟩ := diseq_entries_spec mdl neg rest _ j1
      refine ⟨i1, fun x hx => i2 x (j2 x hx), ?_⟩
      intro e1 he1 negs hf
      rcases List.mem_cons.1 he1 with rfl | he2
      · rw [hsome] at hf
        injection hf with hf
        subst hf
        intro p hp n hn hd
        exact (j3 p hp n hn hd).mono i2
      · exact i3 e1 he2 negs hf

theorem occs_find_map_push (t : pred2occs) (d d1 : Decl) (a : Expr) :
    occs_find (t.map (fun p => if p.1 = d then (p.1, p.2 ++ [a]) else p)) d1 =
      (occs_find t d1).map (fun l => if d1 = d then l ++ [a] else l) := by
  induction t with
  | nil => rfl
  | cons e t ih =>
    unfold occs_find at ih ⊢
    simp only [List.map_cons, List.find?_cons]
    have hfst : (if e.1 = d then (e.1, e.2 ++ [a]) else e).1 = e.1 := by
      split <;> rfl
    by_cases h2 : e.1 = d1
    · have hdec : decide ((if e.1 = d then (e.1, e.2 ++ [a]) else e).1 = d1) = true := by
        rw [hfst]
        exact decide_eq_true h2
      have hdec2 : decide (e.1 = d1) = true := decide_eq_true h2
      rw [hdec, hdec2]
      simp only [Option.map_some']
      rw [← h2]
      split <;> rfl
    · have hdec : decide ((if e.1 = d then (e.1, e.2 ++ [a]) else e).1 = d1) = false := by
        rw [hfst]
        exact decide_eq_false h2
      have hdec2 : decide (e.1 = d1) = false := decide_eq_false h2
      rw [hdec, hdec2]
      exact ih

theorem occs_find_append_none (t : pred2occs) (d d1 : Decl) (l : List Expr)
    (h : occs_find t d = none) :
    occs_find (t ++ [(d, l)]) d1 = if d1 = d then some l else occs_find t d1 := by
  unfold occs_find at h ⊢
  rw [List.find?_append]
  by_cases hd : d1 = d
  · subst hd
    simp only [Option.map_eq_none'] at h
    simp [h]
  · simp only [if_neg hd]
    cases hf : List.find? (fun p => decide (p.1 = d1)) t with
    | some x => simp
    | none =>
      have : ¬ d = d1 := fun hc => hd hc.symm
      simp [this]

/-- Source `add_predicate` records its argument and keeps what is recorded. -/
theorem add_predicate_recorded (t : pred2occs) (p : Expr) (d : Decl) (hd : decl_of p = some d) :
    Recorded (add_predicate t p) d p ∧
      ∀ d1 a, Recorded t d1 a → Recorded (add_predicate t p) d1 a := by
  unfold add_predicate
  simp only [hd]
  unfold occs_push
  cases hf : occs_find t d with
  | some l0 =>
    simp only
    have hmem : ∃ e ∈ t, e.1 = d := by
      unfold occs_find at hf
      simp only [Option.map_eq_some'] at hf
      obtain ⟨e, he, -⟩ := hf
      exact ⟨e, List.mem_of_find?_eq_some he, by simpa using List.find?_some he⟩
    refine ⟨⟨?_, ?_⟩, ?_⟩
    · obtain ⟨e, he, he1⟩ := hmem
      refine ⟨(e.1, e.2 ++ [p]), ?_, he1, by simp⟩
      rw [List.mem_map]
      exact ⟨e, he, by simp [he1]⟩
    · rw [occs_find_map_push, hf]
      exact ⟨l0 ++ [p], by simp, by simp⟩
    · rintro d1 a ⟨⟨e, he, he1, he2⟩, l, hl, hal⟩
      refine ⟨?_, ?_⟩
      · by_cases hc : e.1 = d
        · refine ⟨(e.1, e.2 ++ [p]), ?_, he1, List.mem_append_left _ he2⟩
          rw [List.mem_map]
          exact ⟨e, he, by simp [hc]⟩
        · refine ⟨e, ?_, he1, he2⟩
          rw [List.mem_map]
          exact ⟨e, he, by simp [hc]⟩
      · rw [occs_find_map_push, hl]
        refine ⟨_, rfl, ?_⟩
        split
        · exact List.mem_append_left _ hal
        · exact hal
  | none =>
    simp only
    refine ⟨⟨⟨(d, [p]), by simp, rfl, by simp⟩, ?_⟩, ?_⟩
    · rw [occs_find_append_none t d d [p] hf]
      exact ⟨[p], by simp, by simp⟩
    · rintro d1 a ⟨⟨e, he, he1, he2⟩, l, hl, hal⟩
      refine ⟨⟨e, List.mem_append_left _ he, he1, he2⟩, ?_⟩
      rw [occs_find_append_none t d d1 [p] hf]
      by_cases hc : d1 = d
      · subst hc
        rw [hf] at hl
        cases hl
      · rw [if_neg hc]
        exact ⟨l, hl, hal⟩

theorem add_predicate_none (t : pred2occs) (p : Expr) (hd : decl_of p = none) :
    add_predicate t p = t := by
  unfold add_predicate
  simp only [hd]

theorem add_predicate_keeps (t : pred2occs) (p : Expr) (d1 : Decl) (a : Expr)
    (h : Recorded t d1 a) : Recorded (add_predicate t p) d1 a := by
  cases hd : decl_of p with
  | none => rw [add_predicate_none t p hd]; exact h
  | some d => exact (add_predicate_recorded t p d hd).2 d1 a h

/-- Source `collect_pos_neg` sorts the occurrences by their truth value in the model. -/
theorem collect_pos_neg_spec (mdl : Model) : ∀ (occs : List Expr) (r r1 : pred2occs × pred2occs),
    collect_pos_neg (some mdl) occs r = some r1 →
    (∀ d a, Recorded r.1 d a → Recorded r1.1 d a) ∧
    (∀ d a, Recorded r.2 d a → Recorded r1.2 d a) ∧
    ∀ a ∈ occs, ∀ d, decl_of a = some d →
      (holds mdl a = true → Recorded r1.1 d a) ∧ (holds mdl a = false → Recorded r1.2 d a)
  | [], r, r1, h => by
    simp only [collect_pos_neg, Option.some.injEq] at h
    subst h
    exact ⟨fun _ _ h => h, fun _ _ h => h, fun _ ha => by cases ha⟩
  | a :: occs, r, r1, h => by
    simp only [collect_pos_neg] at h
    split at h
    · rename_i ht
      obtain ⟨i1, i2, i3⟩ := collect_pos_neg_spec mdl occs _ r1 h
      refine ⟨fun d x hx => i1 d x (add_predicate_keeps _ _ _ _ hx), i2, ?_⟩
      intro a1 ha1 d hd
      rcases List.mem_cons.1 ha1 with rfl | ha2
      · refine ⟨fun _ => i1 d a1 (add_predicate_recorded _ _ _ hd).1, fun hf => ?_⟩
        rw [ht] at hf
        cases hf
      · exact i3 a1 ha2 d hd
    · rename_i ht
      obtain ⟨i1, i2, i3⟩ := collect_pos_neg_spec mdl occs _ r1 h
      refine ⟨i1, fun d x hx => i2 d x (add_predicate_keeps _ _ _ _ hx), ?_⟩
      intro a1 ha1 d hd
      rcases List.mem_cons.1 ha1 with rfl | ha2
      · refine ⟨fun hf => absurd hf ht, fun _ => i2 d a1 (add_predicate_recorded _ _ _ hd).1⟩
      · exact i3 a1 ha2 d hd

theorem collect_pos_neg_all_spec (mdl : Model) : ∀ (t : pred2occs) (r r1 : pred2occs × pred2occs),
    collect_pos_neg_all (some mdl) t r = some r1 →
    (∀ d a, Recorded r.1 d a → Recorded r1.1 d a) ∧
    (∀ d a, Recorded r.2 d a → Recorded r1.2 d a) ∧
    ∀ e ∈ t, ∀ a ∈ e.2, ∀ d, decl_of a = some d →
      (holds mdl a = true → Recorded r1.1 d a) ∧ (holds mdl a = false → Recorded r1.2 d a)
  | [], r, r1, h => by
    simp only [collect_pos_neg_all, Option.some.injEq] at h
    subst h
    exact ⟨fun _ _ h => h, fun _ _ h => h, fun _ he => by cases he⟩
  | e :: t, r, r1, h => by
    simp only [collect_pos_neg_all] at h
    split at h
    · cases h
    · rename_i r2 hr
      obtain ⟨j1, j2, j3⟩ := collect_pos_neg_spec mdl e.2 r r2 hr
      obtain ⟨i1, i2, i3⟩ := collect_pos_neg_all_spec mdl t r2 r1 h
      refine ⟨fun d a ha => i1 d a (j1 d a ha), fun d a ha => i2 d a (j2 d a ha), ?_⟩
      intro e1 he1 a ha d hd
      rcases List.mem_cons.1 he1 with rfl | he2
      · exact ⟨fun ht => i1 d a ((j3 a ha d hd).1 ht), fun hf => i2 d a ((j3 a ha d hd).2 hf)⟩
      · exact i3 e1 he2 a ha d hd

/-- C37, forced disequalities. With the tables `pos` and `neg` that `collect_pos_neg` makes
of the occurrences `occs` in the model `M`, `extract_disequalities` returns a list such
that: for every two occurrences `p`, `n` of one declaration in `occs`, `p` true and `n`
false in `M`, whose arguments get different values at some position, a disequality
between the arguments of `p` and `n` at one position is in the list (written
`pₖ ≠ nₖ`, or `nₖ ≠ pₖ` when it was emitted for a pair with these arguments in the
other roles); and every disequality `a ≠ b` of the list has `M(a) ≠ M(b)`. -/
theorem forced_disequalities (mdl : Model) (occs pos neg : pred2occs)
    (h : collect_pos_neg_all (some mdl) occs ([], []) = some (pos, neg)) :
    ∃ diseqs, extract_disequalities (some mdl) pos neg = some diseqs ∧
      (∀ e1 ∈ occs, ∀ e2 ∈ occs, ∀ p ∈ e1.2, ∀ n ∈ e2.2, ∀ d,
        decl_of p = some d → decl_of n = some d → holds mdl p = true → holds mdl n = false →
        Differ mdl p n → Covered diseqs p n) ∧
      ∀ x ∈ diseqs, ∃ a b : Expr, x = Expr.not (Expr.eq a b) ∧
        model_value mdl a ≠ model_value mdl b := by
  have hinv : DiseqInv mdl ([], []) :=
    ⟨fun _ _ hab => (by cases hab), fun _ hx => (by cases hx)⟩
  obtain ⟨i1, -, i3⟩ := diseq_entries_spec mdl neg pos ([], []) hinv
  obtain ⟨-, -, c3⟩ := collect_pos_neg_all_spec mdl occs ([], []) (pos, neg) h
  refine ⟨_, rfl, ?_, i1.2⟩
  intro e1 he1 e2 he2 p hp n hn d hdp hdn ht hf hd
  obtain ⟨⟨e, he, hed, hpe⟩, -⟩ := (c3 e1 he1 p hp d hdp).1 ht
  obtain ⟨-, negs, hnegs, hnn⟩ := (c3 e2 he2 n hn d hdn).2 hf
  exact i3 e he negs (by rw [hed]; exact hnegs) p hpe n hnn hd

end qepr
end qe
namespace qe
namespace qsat

theorem del_pred_find_other (s : State) (p k : Expr) (h : k ≠ p) :
    map_find (del_pred s p).m_pred2lit k = map_find s.m_pred2lit k ∧
    map_find (del_pred s p).m_pred2level k = map_find s.m_pred2level k := by
  cases hf : map_find s.m_pred2lit p with
  | none => rw [del_pred_unbound s p hf]; exact ⟨rfl, rfl⟩
  | some lit =>
    rw [del_pred_bound s p lit hf]
    exact ⟨map_find_remove_other _ _ _ h, map_find_remove_other _ _ _ h⟩

/-- The name that one step of `update_tail` gives the constant `v`. -/
theorem witness_name_ne (f0 : Nat) (s : State) (M : Model) (i j a b : Nat) (v : Var) (q : Expr)
    (hp : PrefixOk f0 s) (hk : PredsOk f0 s) (hv : get2 s.m_vars i j = some v)
    (hq : get2 s.m_preds a b = some q) (hne : ¬ (i = a ∧ j = b)) :
    q ≠ (if v.sort = Srt.bool then witness_lit M v else Expr.var ⟨s.m_fresh, Srt.bool⟩) := by
  obtain ⟨w, hw, hform⟩ := hk.2.1 a b q hq
  have hvw : v ≠ w := by
    intro hc
    subst hc
    exact hne (hp.1 i j a b v hv hw)
  by_cases hb : v.sort = Srt.bool
  · have hvid := hp.2 i j v hv hb
    simp only [hb, if_true, witness_lit]
    rcases hform with rfl | rfl | ⟨n, hn1, hn2, rfl⟩
    · split
      · intro hc
        injection hc with hc
        exact hvw hc.symm
      · intro hc
        cases hc
    · split
      · intro hc
        cases hc
      · intro hc
        injection hc with hc
        injection hc with hc
        exact hvw hc.symm
    · split
      · intro hc
        injection hc with hc
        rw [← hc] at hvid
        simp only at hvid
        omega
      · intro hc
        cases hc
  · simp only [hb, if_false]
    rcases hform with rfl | rfl | ⟨n, hn1, hn2, rfl⟩
    · intro hc
      injection hc with hc
      have hwb : w.sort = Srt.bool := by rw [hc]
      have := hp.2 a b w hw hwb
      rw [hc] at this
      simp only at this
      have := hk.1
      omega
    · intro hc
      cases hc
    · intro hc
      injection hc with hc
      injection hc with hc
      omega

/-- One step of `update_tail`: what it binds, and what it keeps. -/
theorem update_tail_var_bound (f0 : Nat) (M : Model) (i j : Nat) (s : State) (v : Var)
    (hs : Shaped s) (hp : PrefixOk f0 s) (hk : PredsOk f0 s)
    (hv : get2 s.m_vars i j = some v) :
    ∃ s1, update_tail_var M i s j = some s1 ∧ Shaped s1 ∧ s1.m_vars = s.m_vars ∧
      PredsOk f0 s1 ∧ BoundAt M s1 i j v ∧
      (∀ a b : Nat, ¬ (i = a ∧ j = b) →
        get2 s1.m_vals a b = get2 s.m_vals a b ∧ get2 s1.m_preds a b = get2 s.m_preds a b) ∧
      ∀ (N : Model) (a b : Nat) (w : Var), ¬ (i = a ∧ j = b) → BoundAt N s a b w →
        BoundAt N s1 a b w := by
  have h1 := get2_isSome_of_shape _ _ hs.1 i j
  have h2 := get2_isSome_of_shape _ _ hs.2 i j
  rw [hv] at h1 h2
  obtain ⟨x, hx⟩ := Option.isSome_iff_exists.1 h1
  obtain ⟨p, hpr⟩ := Option.isSome_iff_exists.1 h2
  obtain ⟨s1, e1, f1, sh1, -, o1⟩ := update_tail_var_spec M i j s v hs hv
  obtain ⟨d1, d2, d3, d4, d5, d6, d7, d8, d9, d10, d11, d12⟩ := del_pred_frame s p
  -- the result, explicitly
  have hq : ∃ q, q = (if v.sort = Srt.bool then witness_lit M v
      else Expr.var ⟨s.m_fresh, Srt.bool⟩) ∧
      get2 s1.m_preds i j = some q ∧ get2 s1.m_vals i j = some (eval_var M v) ∧
      s1.m_pred2lit = map_insert (del_pred s p).m_pred2lit q (witness_lit M v) ∧
      s1.m_pred2level = map_insert (del_pred s p).m_pred2level q i ∧
      s1.m_fresh = (if v.sort = Srt.bool then s.m_fresh else s.m_fresh + 1) := by
    unfold update_tail_var at e1
    simp only [hpr, hv, hx] at e1
    by_cases hb : v.sort = Srt.bool
    · simp only [hb, if_true] at e1 ⊢
      injection e1 with e1
      subst e1
      have hw : witness_lit M v =
          (if is_true (eval_var M v) = true then Expr.var v else Expr.not (Expr.var v)) := by
        simp only [witness_lit, eval_var, hb, if_true]
        cases M.bval v <;> rfl
      refine ⟨_, rfl, ?_, ?_, ?_, ?_, ?_⟩
      · simp only [add_pred, d11]
        rw [get2_set2_same _ _ _ _ _ hpr, hw]
      · simp only [add_pred, d10]
        exact get2_set2_same _ _ _ _ _ hx
      · simp only [add_pred, hw]
      · simp only [add_pred, hw]
      · simp only [add_pred, d12]
    · simp only [hb, if_false] at e1 ⊢
      injection e1 with e1
      subst e1
      have hw : witness_lit M v = Expr.eq (Expr.var v) (eval_var M v) := by
        simp only [witness_lit, hb, if_false]
      refine ⟨_, rfl, ?_, ?_, ?_, ?_, ?_⟩
      · simp only [add_pred, fresh_bool, d11, d12]
        exact get2_set2_same _ _ _ _ _ hpr
      · simp only [add_pred, fresh_bool, d10]
        exact get2_set2_same _ _ _ _ _ hx
      · simp only [add_pred, fresh_bool, hw, d12]
      · simp only [add_pred, fresh_bool, d12]
      · simp only [add_pred, fresh_bool, d12]
  obtain ⟨q, hqdef, q1, q2, q3, q4, q5⟩ := hq
  have hfresh : s.m_fresh ≤ s1.m_fresh := by
    rw [q5]
    split <;> omega
  have hqform : q = Expr.var v ∨ q = Expr.not (Expr.var v) ∨
      ∃ n : Nat, f0 ≤ n ∧ n < s1.m_fresh ∧ q = Expr.var ⟨n, Srt.bool⟩ := by
    by_cases hb : v.sort = Srt.bool
    · rw [hqdef]
      simp only [hb, if_true, witness_lit]
      split
      · exact Or.inl rfl
      · exact Or.inr (Or.inl rfl)
    · rw [hqdef]
      simp only [hb, if_false]
      refine Or.inr (Or.inr ⟨s.m_fresh, hk.1, ?_, rfl⟩)
      rw [q5, if_neg hb]
      omega
  have hother : ∀ (a b : Nat) (r : Expr), ¬ (i = a ∧ j = b) → get2 s.m_preds a b = some r →
      r ≠ q ∧ r ≠ p := by
    intro a b r hne hr
    refine ⟨?_, ?_⟩
    · rw [hqdef]
      exact witness_name_ne f0 s M i j a b v r hp hk hv hr hne
    · intro hc
      subst hc
      exact hne (hk.2.2 i j a b r hpr hr)
  refine ⟨s1, e1, sh1, f1.1, ⟨?_, ?_, ?_⟩, ⟨q, q1, ?_, ?_, q2⟩, o1, ?_⟩
  · exact le_trans hk.1 hfresh
  · intro a b r hr
    by_cases hab : i = a ∧ j = b
    · obtain ⟨rfl, rfl⟩ := hab
      rw [q1] at hr
      injection hr with hr
      subst hr
      exact ⟨v, by rw [f1.1]; exact hv, hqform⟩
    · rw [(o1 a b hab).2] at hr
      obtain ⟨w, hw, hform⟩ := hk.2.1 a b r hr
      refine ⟨w, by rw [f1.1]; exact hw, ?_⟩
      rcases hform with h | h | ⟨n, hn1, hn2, h⟩
      · exact Or.inl h
      · exact Or.inr (Or.inl h)
      · exact Or.inr (Or.inr ⟨n, hn1, by omega, h⟩)
  · intro a1 b1 a2 b2 r hr1 hr2
    by_cases hab1 : i = a1 ∧ j = b1
    · obtain ⟨rfl, rfl⟩ := hab1
      by_cases hab2 : i = a2 ∧ j = b2
      · exact hab2
      · rw [q1] at hr1
        injection hr1 with hr1
        subst hr1
        rw [(o1 a2 b2 hab2).2] at hr2
        exact absurd rfl (hother a2 b2 q hab2 hr2).1
    · by_cases hab2 : i = a2 ∧ j = b2
      · obtain ⟨rfl, rfl⟩ := hab2
        rw [q1] at hr2
        injection hr2 with hr2
        subst hr2
        rw [(o1 a1 b1 hab1).2] at hr1
        exact absurd rfl (hother a1 b1 q hab1 hr1).1
      · rw [(o1 a1 b1 hab1).2] at hr1
        rw [(o1 a2 b2 hab2).2] at hr2
        exact hk.2.2 a1 b1 a2 b2 r hr1 hr2
  · rw [q3]
    exact map_find_insert_same _ _ _
  · rw [q4]
    exact map_find_insert_same _ _ _
  · intro N a b w hab ⟨r, r1, r2, r3, r4⟩
    obtain ⟨n1, n2⟩ := hother a b r hab r1
    obtain ⟨g1, g2⟩ := del_pred_find_other s p r n2
    refine ⟨r, by rw [(o1 a b hab).2]; exact r1, ?_, ?_, by rw [(o1 a b hab).1]; exact r4⟩
    · rw [q3, map_find_insert_other _ _ _ _ n1, g1]
      exact r2
    · rw [q4, map_find_insert_other _ _ _ _ n1, g2]
      exact r3

/-- The inner loop of `update_tail` binds the positions it visits and keeps the others. -/
theorem block_loop_bound (f0 : Nat) (M : Model) (i : Nat) : ∀ (js : List Nat) (s : State),
    Shaped s → PrefixOk f0 s → PredsOk f0 s → js.Nodup →
    (∀ j ∈ js, ∃ v, get2 s.m_vars i j = some v) →
    ∃ s1, loop_over (update_tail_var M i) js s = some s1 ∧ Shaped s1 ∧ s1.m_vars = s.m_vars ∧
      PredsOk f0 s1 ∧
      (∀ j ∈ js, ∀ v, get2 s.m_vars i j = some v → BoundAt M s1 i j v) ∧
      (∀ a b : Nat, ¬ (a = i ∧ b ∈ js) →
        get2 s1.m_vals a b = get2 s.m_vals a b ∧ get2 s1.m_preds a b = get2 s.m_preds a b) ∧
      ∀ (N : Model) (a b : Nat) (w : Var), ¬ (a = i ∧ b ∈ js) → BoundAt N s a b w →
        BoundAt N s1 a b w
  | [], s, hs, _, hk, _, _ =>
    ⟨s, rfl, hs, rfl, hk, fun _ h => (by cases h), fun _ _ _ => ⟨rfl, rfl⟩,
      fun _ _ _ _ _ h => h⟩
  | j :: js, s, hs, hp, hk, hn, hb => by
    obtain ⟨v, hv⟩ := hb j (List.mem_cons_self _ _)
    obtain ⟨s1, e1, sh1, v1, k1, b1, o1, keep1⟩ := update_tail_var_bound f0 M i j s v hs hp hk hv
    have hn2 := List.nodup_cons.1 hn
    obtain ⟨s2, e2, sh2, v2, k2, b2, o2, keep2⟩ := block_loop_bound f0 M i js s1 sh1
      (vars_ok_congr f0 s s1 v1 hp) k1 hn2.2
      (fun j1 hj1 => by rw [v1]; exact hb j1 (List.mem_cons_of_mem _ hj1))
    refine ⟨s2, ?_, sh2, v2.trans v1, k2, ?_, ?_, ?_⟩
    · simp only [loop_over, e1]
      exact e2
    · intro j1 hj1 w hw
      rcases List.mem_cons.1 hj1 with h | h
      · subst h
        rw [hv] at hw
        injection hw with hw
        subst hw
        exact keep2 M i j1 v (fun hc => hn2.1 hc.2) b1
      · exact b2 j1 h w (by rw [v1]; exact hw)
    · intro a b hne
      have x := o2 a b (fun hc => hne ⟨hc.1, List.mem_cons_of_mem _ hc.2⟩)
      have y := o1 a b (fun hc => hne ⟨hc.1.symm, by rw [hc.2]; exact List.mem_cons_self _ _⟩)
      exact ⟨x.1.trans y.1, x.2.trans y.2⟩
    · intro N a b w hne hbd
      exact keep2 N a b w (fun hc => hne ⟨hc.1, List.mem_cons_of_mem _ hc.2⟩)
        (keep1 N a b w
          (fun hc => hne ⟨hc.1.symm, by rw [hc.2]; exact List.mem_cons_self _ _⟩) hbd)

theorem update_tail_block_bound (f0 : Nat) (M : Model) (i : Nat) (s : State) (hs : Shaped s)
    (hp : PrefixOk f0 s) (hk : PredsOk f0 s) :
    ∃ s1, update_tail_block M s i = some s1 ∧ Shaped s1 ∧ s1.m_vars = s.m_vars ∧
      PredsOk f0 s1 ∧
      (∀ j v, get2 s.m_vars i j = some v → BoundAt M s1 i j v) ∧
      (∀ a b : Nat, a ≠ i →
        get2 s1.m_vals a b = get2 s.m_vals a b ∧ get2 s1.m_preds a b = get2 s.m_preds a b) ∧
      ∀ (N : Model) (a b : Nat) (w : Var), a ≠ i → BoundAt N s a b w → BoundAt N s1 a b w := by
  obtain ⟨s1, e1, sh1, v1, k1, b1, o1, keep1⟩ := block_loop_bound f0 M i
    (List.range (s.m_vars.getD i []).length) s hs hp hk (List.nodup_range _)
    (fun j hj => get2_of_lt _ _ _ (List.mem_range.1 hj))
  refine ⟨s1, e1, sh1, v1, k1, ?_, ?_, ?_⟩
  · intro j v hv
    exact b1 j (List.mem_range.2 (get2_bound _ _ _ _ hv)) v hv
  · intro a b hne
    exact o1 a b (fun hc => hne hc.1)
  · intro N a b w hne hbd
    exact keep1 N a b w (fun hc => hne hc.1) hbd

theorem blocks_loop_bound (f0 : Nat) (M : Model) : ∀ (bs : List Nat) (s : State),
    Shaped s → PrefixOk f0 s → PredsOk f0 s → bs.Nodup →
    ∃ s1, loop_over (update_tail_block M) bs s = some s1 ∧ Shaped s1 ∧ s1.m_vars = s.m_vars ∧
      PredsOk f0 s1 ∧
      (∀ i ∈ bs, ∀ j v, get2 s.m_vars i j = some v → BoundAt M s1 i j v) ∧
      (∀ a b : Nat, a ∉ bs →
        get2 s1.m_vals a b = get2 s.m_vals a b ∧ get2 s1.m_preds a b = get2 s.m_preds a b) ∧
      ∀ (N : Model) (a b : Nat) (w : Var), a ∉ bs → BoundAt N s a b w → BoundAt N s1 a b w
  | [], s, hs, _, hk, _ =>
    ⟨s, rfl, hs, rfl, hk, fun _ h => (by cases h), fun _ _ _ => ⟨rfl, rfl⟩,
      fun _ _ _ _ _ h => h⟩
  | i :: bs, s, hs, hp, hk, hn => by
    obtain ⟨s1, e1, sh1, v1, k1, b1, o1, keep1⟩ := update_tail_block_bound f0 M i s hs hp hk
    have hn2 := List.nodup_cons.1 hn
    obtain ⟨s2, e2, sh2, v2, k2, b2, o2, keep2⟩ := blocks_loop_bound f0 M bs s1 sh1
      (vars_ok_congr f0 s s1 v1 hp) k1 hn2.2
    refine ⟨s2, ?_, sh2, v2.trans v1, k2, ?_, ?_, ?_⟩
    · simp only [loop_over, e1]
      exact e2
    · intro i1 hi1 j v hv
      rcases List.mem_cons.1 hi1 with h | h
      · subst h
        exact keep2 M i1 j v hn2.1 (b1 j v hv)
      · exact b2 i1 h j v (by rw [v1]; exact hv)
    · intro a b hne
      have x := o2 a b (fun hc => hne (List.mem_cons_of_mem _ hc))
      have y := o1 a b (fun hc => hne (by rw [hc]; exact List.mem_cons_self _ _))
      exact ⟨x.1.trans y.1, x.2.trans y.2⟩
    · intro N a b w hne hbd
      exact keep2 N a b w (fun hc => hne (List.mem_cons_of_mem _ hc))
        (keep1 N a b w (fun hc => hne (by rw [hc]; exact List.mem_cons_self _ _)) hbd)

/-- The witness literals in a shaped state. In a state whose tables have the shape of the
prefix, with
pairwise distinct constants in the prefix and well-formed names in `m_preds`,
`update_tail(M, start)` runs through, and afterwards: for every block `i ≥ start` with
`i ≡ start (mod 2)` and every constant `v` at position `j` of the block, the name
`m_preds[i][j]` is mapped by `pred2lit` to `v = M(v)` (to `v` or `¬v` as `M` says for a
Boolean `v`) and by `pred2level` to `i`, and `m_vals[i][j]` is `M(v)`; the entries of
`m_preds` and `m_vals` of every other block are unchanged. -/
theorem witness_literals (f0 : Nat) (M : Model) (start : Nat) (s : State) (hs : Shaped s)
    (hp : PrefixOk f0 s) (hk : PredsOk f0 s) :
    ∃ s1, update_tail M start s = some s1 ∧
      (∀ i j v, start ≤ i → (i - start) % 2 = 0 → get2 s.m_vars i j = some v →
        ∃ p : Expr, get2 s1.m_preds i j = some p ∧
          map_find s1.m_pred2lit p = some (witness_lit M v) ∧
          map_find s1.m_pred2level p = some i ∧ get2 s1.m_vals i j = some (eval_var M v)) ∧
      ∀ a b : Nat, ¬ (start ≤ a ∧ (a - start) % 2 = 0) →
        get2 s1.m_vals a b = get2 s.m_vals a b ∧ get2 s1.m_preds a b = get2 s.m_preds a b := by
  obtain ⟨s1, e1, -, -, -, b1, o1, -⟩ := blocks_loop_bound f0 M
    (tail_blocks start s.m_vars.length) s hs hp hk
    (List.Nodup.filter _ (List.nodup_range _))
  refine ⟨s1, e1, ?_, ?_⟩
  · intro i j v h1 h2 hv
    refine b1 i ((mem_tail_blocks _ _ _).2 ⟨?_, h1, h2⟩) j v hv
    unfold get2 at hv
    cases hr : s.m_vars[i]? with
    | none => rw [hr] at hv; cases hv
    | some row => exact (List.getElem?_eq_some_iff.1 hr).1
  · intro a b hne
    exact o1 a b (fun hc => hne ((mem_tail_blocks _ _ _).1 hc).2)

end qsat
end qe
namespace qe
namespace qsat

/-- What `pop` does to the fields other than the scopes of the kernel and the replay
lists. -/
theorem pop_sizes (s s1 : State) (n : Nat) (h : pop s n = some s1) :
    ∃ alim tlim, s.m_assumptions_lim[s.m_level - n]? = some alim ∧
      s.m_atoms_lim[s.m_level - n]? = some tlim ∧
      s1.m_atoms = s.m_atoms.take tlim ∧ s1.m_assumptions = s.m_assumptions.take alim ∧
      s1.m_atoms_lim = s.m_atoms_lim.take (s.m_level - n) ∧
      s1.m_assumptions_lim = s.m_assumptions_lim.take (s.m_level - n) ∧
      s1.m_level = s.m_level - n ∧ s1.m_fml_pred = s.m_fml_pred ∧
      s1.m_nfml_pred = s.m_nfml_pred ∧ s1.m_vars = s.m_vars ∧ s1.m_vals = s.m_vals ∧
      s1.m_preds = s.m_preds ∧ s1.m_fresh = s.m_fresh := by
  unfold pop at h
  split at h
  · cases h
  · simp only at h
    split at h
    · rename_i alim tlim ha ht
      obtain ⟨f1, f2, f3, f4, f5, f6, f7, f8, f9, f10, f11, f12⟩ :=
        foldl_del_pred_frame (s.m_assumptions.drop alim)
          { s with m_level := s.m_level - n, m_replay := (pop_replay n s.m_replay []).2 }
      have g : ∀ (ps : List Expr) (t : State), (ps.foldl del_pred t).m_fml_pred = t.m_fml_pred ∧
          (ps.foldl del_pred t).m_nfml_pred = t.m_nfml_pred := by
        intro ps
        induction ps with
        | nil => intro t; exact ⟨rfl, rfl⟩
        | cons p ps ih =>
          intro t
          rw [List.foldl_cons]
          obtain ⟨a, b⟩ := ih (del_pred t p)
          obtain ⟨c, d, -⟩ := del_pred_more t p
          exact ⟨a.trans c, b.trans d⟩
      obtain ⟨g1, g2⟩ := g (s.m_assumptions.drop alim)
        { s with m_level := s.m_level - n, m_replay := (pop_replay n s.m_replay []).2 }
      simp only at f1 f2 f3 f4 f5 f6 f7 f8 f9 f10 f11 f12 g1 g2
      refine ⟨alim, tlim, ha, ht, ?_⟩
      split at h
      · split at h
        · cases h
        · injection h with h
          subst h
          simp [f3, f4, f5, f6, f7, f9, f10, f11, f12, g1, g2]
      · injection h with h
        subst h
        simp [f3, f4, f5, f6, f7, f9, f10, f11, f12, g1, g2]
    · cases h

theorem push_sizes (s s1 : State) (hp : push s = some s1) :
    s1.m_atoms = s.m_atoms ∧ s.m_assumptions.length ≤ s1.m_assumptions.length := by
  unfold push at hp
  simp only at hp
  split at hp
  · split at hp
    · injection hp with hp
      subst hp
      exact ⟨rfl, by simp⟩
    · cases hp
  · injection hp with hp
    subst hp
    exact ⟨rfl, le_refl _⟩

theorem kernel_assert_length (k : List (List Expr)) (e : Expr) (h : k ≠ []) :
    (kernel_assert k e).length = k.length := by
  rcases List.eq_nil_or_concat k with hk | ⟨ki, kl, hk⟩
  · exact absurd hk h
  · subst hk
    rw [List.concat_eq_append, kernel_assert_concat]
    simp

theorem add_pred_scope (s : State) (p lit : Expr) (level : Nat) (h : ScopeInv s) :
    ScopeInv (add_pred s p lit level) := by
  obtain ⟨h1, h2, h3, h4⟩ := h
  have hk : s.m_kernel ≠ [] := by
    intro hc
    rw [hc] at h1
    simp at h1
  refine ⟨?_, h2, h3, h4⟩
  show (add_pred s p lit level).m_kernel.length = s.m_level + 1
  rw [(add_pred_fields s p lit level).2.2.2.2.2.2.2.2]
  split
  · rw [kernel_assert_length _ _ hk, h1]
  · exact h1

theorem stackInv_push (s s1 : State) (hp : push s = some s1) (sizes : List (Nat × Nat))
    (h : StackInv s sizes) :
    StackInv s1 (sizes ++ [(s.m_atoms.length, s.m_assumptions.length)]) := by
  obtain ⟨h1, h2, h3, h4, h5⟩ := h
  obtain ⟨p1, p2, p3, p4, p5, -⟩ := push_fields s s1 hp
  obtain ⟨q1, q2⟩ := push_sizes s s1 hp
  refine ⟨push_scope s s1 hp h1, ?_, ?_, ?_, ?_⟩
  · rw [p5, h2]; simp
  · rw [p4, h3]; simp
  · rw [List.pairwise_append]
    refine ⟨h4, List.pairwise_singleton _ _, ?_⟩
    intro a ha b hb
    simp only [List.mem_singleton] at hb
    subst hb
    exact h5 a ha
  · intro e he
    rw [q1]
    rcases List.mem_append.1 he with he | he
    · exact ⟨(h5 e he).1, le_trans (h5 e he).2 q2⟩
    · simp only [List.mem_singleton] at he
      subst he
      exact ⟨le_refl _, q2⟩

theorem stackInv_add (s : State) (sizes : List (Nat × Nat)) (p lit : Expr) (level : Nat)
    (h : StackInv s sizes) : StackInv (add_pred s p lit level) sizes := by
  obtain ⟨h1, h2, h3, h4, h5⟩ := h
  refine ⟨add_pred_scope s p lit level h1, h2, h3, h4, ?_⟩
  intro e he
  have : (add_pred s p lit level).m_atoms.length = s.m_atoms.length + 1 := by
    simp [add_pred]
  rw [this]
  exact ⟨Nat.le_succ_of_le (h5 e he).1, (h5 e he).2⟩

/-- Source `pop(n)` with `1 ≤ n ≤ level` finds its two limits, keeps the invariant, and
leaves `m_atoms` and `m_assumptions` with the sizes recorded at the push it undoes. -/
theorem stackInv_pop (s : State) (sizes : List (Nat × Nat)) (n : Nat) (h : StackInv s sizes)
    (hn1 : 1 ≤ n) (hn2 : n ≤ s.m_level) :
    ∃ s1 alim tlim, pop s n = some s1 ∧ s.m_assumptions_lim[s.m_level - n]? = some alim ∧
      s.m_atoms_lim[s.m_level - n]? = some tlim ∧ s1.m_level = s.m_level - n ∧
      StackInv s1 (sizes.take (s.m_level - n)) ∧
      sizes[s.m_level - n]? = some (s1.m_atoms.length, s1.m_assumptions.length) := by
  obtain ⟨h1, h2, h3, h4, h5⟩ := h
  obtain ⟨s1, e1, l1, sc1, -⟩ := pop_inv s h1 n hn1 hn2
  obtain ⟨alim, tlim, a1, a2, a3, a4, a5, a6, a7, -⟩ := pop_sizes s s1 n e1
  have hlen : sizes.length = s.m_level := by
    have := h1.2.2.2
    rw [h2] at this
    simpa using this
  have hl : s.m_level - n < sizes.length := by omega
  have hsz : sizes[s.m_level - n]? = some (tlim, alim) := by
    rw [List.getElem?_eq_getElem hl]
    rw [h2, List.getElem?_map, List.getElem?_eq_getElem hl] at a2
    rw [h3, List.getElem?_map, List.getElem?_eq_getElem hl] at a1
    simp only [Option.map_some', Option.some.injEq] at a1 a2
    rw [← a1, ← a2]
  have hmem : (tlim, alim) ∈ sizes := arith_project_util.mem_of_getElem_some hsz
  have hb := h5 _ hmem
  simp only at hb
  have hat : s1.m_atoms.length = tlim := by
    rw [a3, List.length_take]
    omega
  have has : s1.m_assumptions.length = alim := by
    rw [a4, List.length_take]
    omega
  refine ⟨s1, alim, tlim, e1, a1, a2, l1, ⟨sc1, ?_, ?_, ?_, ?_⟩, ?_⟩
  · rw [a5, h2, List.map_take]
  · rw [a6, h3, List.map_take]
  · exact h4.sublist (List.take_sublist _ _)
  · intro e he
    rw [hat, has]
    obtain ⟨i, hi, rfl⟩ := List.getElem_of_mem he
    rw [List.length_take] at hi
    have hi2 : i < s.m_level - n := by omega
    rw [List.getElem_take]
    have hp := List.pairwise_iff_getElem.1 h4 i (s.m_level - n) (by omega) hl hi2
    have hg : sizes[s.m_level - n] = (tlim, alim) := by
      rw [List.getElem?_eq_getElem hl] at hsz
      exact Option.some.inj hsz
    rw [hg] at hp
    exact hp
  · rw [hsz, hat, has]

theorem add_pred_preds (s : State) (p lit : Expr) (level : Nat) :
    (add_pred s p lit level).m_preds = s.m_preds := rfl

theorem run_stack_inv : ∀ (ops : List StackOp) (s : State) (sizes : List (Nat × Nat)),
    StackInv s sizes → valid_stack s.m_level ops = true →
    stack_fits s.m_preds.length s.m_level ops = true →
    ∃ s1 sizes1, run_stack ops s sizes = some (s1, sizes1) ∧ StackInv s1 sizes1 ∧
      s1.m_level = stack_level s.m_level ops
  | [], s, sizes, h, _, _ => ⟨s, sizes, rfl, h, rfl⟩
  | StackOp.push :: ops, s, sizes, h, hv, hf => by
    simp only [stack_fits, Bool.and_eq_true, decide_eq_true_eq] at hf
    obtain ⟨s1, hp⟩ := push_isSome s hf.1
    obtain ⟨-, -, p3, -, -, p6⟩ := push_fields s s1 hp
    simp only [run_stack, hp, stack_level]
    rw [← p3]
    apply run_stack_inv ops s1 _ (stackInv_push s s1 hp sizes h)
    · rw [p3]
      simpa [valid_stack] using hv
    · rw [p3, p6]
      exact hf.2
  | StackOp.pop n :: ops, s, sizes, h, hv, hf => by
    simp only [valid_stack, Bool.and_eq_true, decide_eq_true_eq] at hv
    simp only [stack_fits] at hf
    obtain ⟨s1, -, -, e1, -, -, l1, i1, -⟩ := stackInv_pop s sizes n h hv.1.1 hv.1.2
    simp only [run_stack, e1, stack_level]
    have key := run_stack_inv ops s1 _ i1 (by rw [l1]; exact hv.2)
      (by rw [l1, pop_preds s s1 n e1]; exact hf)
    rw [l1] at key
    exact key
  | StackOp.add p lit level :: ops, s, sizes, h, hv, hf => by
    simp only [stack_fits] at hf
    simp only [run_stack, stack_level]
    have hl : (add_pred s p lit level).m_level = s.m_level :=
      (add_pred_fields s p lit level).2.2.2.1
    rw [← hl]
    apply run_stack_inv ops (add_pred s p lit level) sizes (stackInv_add s sizes p lit level h)
    · rw [hl]
      simpa [valid_stack] using hv
    · rw [hl, add_pred_preds]
      exact hf

/-- A sequence with admissible pops that runs through has every push inside `m_preds`. -/
theorem run_stack_fits : ∀ (ops : List StackOp) (s : State) (sizes : List (Nat × Nat)),
    StackInv s sizes → valid_stack s.m_level ops = true →
    (run_stack ops s sizes).isSome = true →
    stack_fits s.m_preds.length s.m_level ops = true
  | [], _, _, _, _, _ => rfl
  | StackOp.push :: ops, s, sizes, h, hv, hr => by
    simp only [stack_fits, Bool.and_eq_true, decide_eq_true_eq]
    cases hp : push s with
    | none =>
      simp only [run_stack, hp] at hr
      cases hr
    | some s1 =>
      have hle : s.m_level ≤ s.m_preds.length := by
        by_contra hc
        rw [push_none s (by omega)] at hp
        cases hp
      obtain ⟨-, -, p3, -, -, p6⟩ := push_fields s s1 hp
      simp only [run_stack, hp] at hr
      refine ⟨hle, ?_⟩
      have key := run_stack_fits ops s1 _ (stackInv_push s s1 hp sizes h)
        (by rw [p3]; simpa [valid_stack] using hv) hr
      rw [p3, p6] at key
      exact key
  | StackOp.pop n :: ops, s, sizes, h, hv, hr => by
    simp only [valid_stack, Bool.and_eq_true, decide_eq_true_eq] at hv
    simp only [stack_fits]
    obtain ⟨s1, -, -, e1, -, -, l1, i1, -⟩ := stackInv_pop s sizes n h hv.1.1 hv.1.2
    simp only [run_stack, e1] at hr
    have key := run_stack_fits ops s1 _ i1 (by rw [l1]; exact hv.2) hr
    rw [l1, pop_preds s s1 n e1] at key
    exact key
  | StackOp.add p lit level :: ops, s, sizes, h, hv, hr => by
    simp only [stack_fits]
    simp only [run_stack] at hr
    have hl : (add_pred s p lit level).m_level = s.m_level :=
      (add_pred_fields s p lit level).2.2.2.1
    have key := run_stack_fits ops (add_pred s p lit level) sizes
      (stackInv_add s sizes p lit level h) (by rw [hl]; simpa [valid_stack] using hv) hr
    rw [hl, add_pred_preds] at key
    exact key

/-- C34, the scope stacks. From a state at level 0 whose stacks are as `reset` leaves them,
take any sequence of `push`, `add_pred` and `pop(n)` with `1 ≤ n ≤ level`. It runs through
exactly when every push finds `m_preds[m_level-2]` inside the vector. In the state it then
reaches, which is at the level of the sequence, `m_assumptions_lim` and `m_atoms_lim` have
`m_level` entries and `m_replay` has `m_level + 1`; every `pop(n)` with `1 ≤ n ≤ m_level`
finds its two limits at index `m_level - n` and leaves `m_atoms` and `m_assumptions` with
the sizes they had at the push that opened level `m_level - n + 1`. -/
theorem scope_stack_invariant (s0 : State) (ops : List StackOp) (h0 : s0.m_level = 0)
    (hs : ScopeInv s0) (hv : valid_stack 0 ops = true) :
    ((run_stack ops s0 []).isSome = true ↔ stack_fits s0.m_preds.length 0 ops = true) ∧
    ∀ s sizes, run_stack ops s0 [] = some (s, sizes) →
      s.m_level = stack_level 0 ops ∧
      s.m_assumptions_lim.length = s.m_level ∧ s.m_atoms_lim.length = s.m_level ∧
      s.m_replay.length = s.m_level + 1 ∧ sizes.length = s.m_level ∧
      ∀ n : Nat, 1 ≤ n → n ≤ s.m_level →
        ∃ s1 alim tlim, s.m_assumptions_lim[s.m_level - n]? = some alim ∧
          s.m_atoms_lim[s.m_level - n]? = some tlim ∧ pop s n = some s1 ∧
          s1.m_level = s.m_level - n ∧
          sizes[s.m_level - n]? = some (s1.m_atoms.length, s1.m_assumptions.length) := by
  have hinv : StackInv s0 [] := by
    obtain ⟨h1, h2, h3, h4⟩ := hs
    rw [h0] at h3 h4
    refine ⟨⟨h1, h2, by rw [h0]; exact h3, by rw [h0]; exact h4⟩, ?_, ?_, List.Pairwise.nil,
      fun e he => (by cases he)⟩
    · simpa using h4
    · simpa using h3
  have hfit : (run_stack ops s0 []).isSome = true → stack_fits s0.m_preds.length 0 ops = true := by
    intro hr
    have key := run_stack_fits ops s0 [] hinv (by rw [h0]; exact hv) hr
    rw [h0] at key
    exact key
  refine ⟨⟨hfit, fun hf => ?_⟩, fun s sizes hr => ?_⟩
  · obtain ⟨s, sizes, e, -⟩ := run_stack_inv ops s0 [] hinv (by rw [h0]; exact hv)
      (by rw [h0]; exact hf)
    rw [e]
    rfl
  · have hf := hfit (by rw [hr]; rfl)
    obtain ⟨s2, sizes2, e, i, hlev⟩ := run_stack_inv ops s0 [] hinv (by rw [h0]; exact hv)
      (by rw [h0]; exact hf)
    rw [hr] at e
    injection e with e
    injection e with e1 e2
    subst e1
    subst e2
    rw [h0] at hlev
    have hlen : sizes.length = s.m_level := by
      have := i.1.2.2.2
      rw [i.2.1] at this
      simpa using this
    refine ⟨hlev, i.1.2.2.1, i.1.2.2.2, i.1.2.1, hlen, ?_⟩
    intro n hn1 hn2
    obtain ⟨s1, alim, tlim, e1, a1, a2, l1, -, hz⟩ := stackInv_pop s sizes n i hn1 hn2
    exact ⟨s1, alim, tlim, a1, a2, e1, l1, hz⟩

end qsat
end qe
namespace qe
namespace qsat

theorem abstract_loop_frame : ∀ (fuel : Nat) (todo : List Expr) (cache : List (Expr × Expr))
    (s : State) (r : List (Expr × Expr) × State),
    mk_abstract_loop fuel todo cache s = some r →
    r.2.m_vars = s.m_vars ∧ r.2.m_vals = s.m_vals ∧ r.2.m_preds = s.m_preds ∧
      s.m_fresh ≤ r.2.m_fresh
  | 0, _, _, _, _, h => by
    rw [mk_abstract_loop] at h
    cases h
  | fuel + 1, todo, cache, s, r, h => by
    rw [mk_abstract_loop] at h
    cases hl : todo.getLast? with
    | none =>
      rw [hl] at h
      injection h with h
      subst h
      exact ⟨rfl, rfl, rfl, le_refl _⟩
    | some e =>
      rw [hl] at h
      simp only at h
      split at h
      · exact abstract_loop_frame fuel _ _ _ r h
      · split at h
        · split at h
          · exact abstract_loop_frame fuel _ _ _ r h
          · exact abstract_loop_frame fuel _ _ _ r h
        · split at h
          · obtain ⟨a, b, c, d⟩ := abstract_loop_frame fuel _ _ _ r h
            exact ⟨a, b, c, d⟩
          · obtain ⟨a, b, c, d⟩ := abstract_loop_frame fuel _ _ _ r h
            refine ⟨a, b, c, ?_⟩
            have : s.m_fresh ≤ (add_pred (fresh_bool s).2 (fresh_bool s).1 e 0).m_fresh := by
              simp [add_pred, fresh_bool]
            exact le_trans this d

theorem mk_abstract_frame (fuel : Nat) (fml : Expr) (s s1 : State)
    (h : mk_abstract fuel fml s = some s1) :
    s1.m_vars = s.m_vars ∧ s1.m_vals = s.m_vals ∧ s1.m_preds = s.m_preds ∧
      s.m_fresh ≤ s1.m_fresh := by
  unfold mk_abstract at h
  split at h
  · cases h
  · rename_i cache s2 hl
    obtain ⟨a, b, c, d⟩ := abstract_loop_frame fuel _ _ _ _ hl
    split at h
    · cases h
    · injection h with h
      subst h
      refine ⟨a, b, c, ?_⟩
      simp only [fresh_bool]
      exact Nat.le_succ_of_le d

theorem get2_map_var (rows : List (List Var)) (i j : Nat) :
    get2 (rows.map (fun b => b.map Expr.var)) i j = (get2 rows i j).map Expr.var := by
  unfold get2
  rw [List.getElem?_map]
  cases rows[i]? with
  | none => rfl
  | some row => simp

/-- A state whose names are the constants of the prefix has well-formed names. -/
theorem predsOk_of_vars (f0 : Nat) (s : State) (hp : PrefixOk f0 s) (hf : f0 ≤ s.m_fresh)
    (h : s.m_preds = s.m_vars.map (fun b => b.map Expr.var)) : PredsOk f0 s := by
  refine ⟨hf, ?_, ?_⟩
  · intro i j p hpij
    rw [h, get2_map_var] at hpij
    cases hv : get2 s.m_vars i j with
    | none => rw [hv] at hpij; cases hpij
    | some v =>
      rw [hv] at hpij
      injection hpij with hpij
      exact ⟨v, rfl, Or.inl hpij.symm⟩
  · intro i j a b p h1 h2
    rw [h, get2_map_var] at h1 h2
    cases hv : get2 s.m_vars i j with
    | none => rw [hv] at h1; cases h1
    | some v =>
      cases hw : get2 s.m_vars a b with
      | none => rw [hw] at h2; cases h2
      | some w =>
        rw [hv] at h1
        rw [hw] at h2
        injection h1 with h1
        injection h2 with h2
        have : v = w := by
          rw [← h2] at h1
          injection h1
        subst this
        exact hp.1 i j a b v hv hw

theorem predsOk_congr (f0 : Nat) (s s1 : State) (h1 : s1.m_vars = s.m_vars)
    (h2 : s1.m_preds = s.m_preds) (h3 : s1.m_fresh = s.m_fresh) (hk : PredsOk f0 s) :
    PredsOk f0 s1 := by
  unfold PredsOk
  rw [h1, h2, h3]
  exact hk

theorem shaped_congr (s s1 : State) (h1 : s1.m_vars = s.m_vars) (h2 : s1.m_preds = s.m_preds)
    (h3 : s1.m_vals = s.m_vals) (hk : Shaped s) : Shaped s1 := by
  unfold Shaped
  rw [h1, h2, h3]
  exact hk

theorem push_tables (s s1 : State) (hp : push s = some s1) :
    s1.m_vars = s.m_vars ∧ s1.m_vals = s.m_vals ∧ s1.m_preds = s.m_preds ∧
      s1.m_fresh = s.m_fresh := by
  unfold push at hp
  simp only at hp
  split at hp
  · split at hp
    · injection hp with hp
      subst hp
      exact ⟨rfl, rfl, rfl, rfl⟩
    · cases hp
  · injection hp with hp
    subst hp
    exact ⟨rfl, rfl, rfl, rfl⟩

/-- Every state reached from `reset`, `hoist` without a leading existential block and
`mk_abstract` by `update_tail`, `push` and `pop` has tables of the shape of the prefix,
pairwise distinct constants in the prefix and well-formed names in `m_preds`. -/
theorem reach_preds_ok (fuel f0 : Nat) (free : List Var) (rest : List (List Var))
    (fml : Expr) (hp : PrefixOk f0 (hoist free [] rest (reset f0))) (s : State)
    (hr : Reach fuel f0 free [] rest fml s) : Shaped s ∧ PrefixOk f0 s ∧ PredsOk f0 s := by
  induction hr with
  | init s he =>
    obtain ⟨a, b, c, d⟩ := mk_abstract_frame fuel fml _ s he
    have hsh : Shaped (hoist free [] rest (reset f0)) := by
      simp [Shaped, hoist, reset]
    have hpk : PredsOk f0 (hoist free [] rest (reset f0)) :=
      predsOk_of_vars f0 _ hp (le_refl _) (by simp [hoist, reset])
    refine ⟨shaped_congr _ s a c b hsh, vars_ok_congr f0 _ s a hp, ?_⟩
    obtain ⟨k1, k2, k3⟩ := hpk
    refine ⟨le_trans k1 d, ?_, ?_⟩
    · intro i j p hpij
      rw [c] at hpij
      obtain ⟨v, hv, hform⟩ := k2 i j p hpij
      refine ⟨v, by rw [a]; exact hv, ?_⟩
      rcases hform with h | h | ⟨n, hn1, hn2, h⟩
      · exact Or.inl h
      · exact Or.inr (Or.inl h)
      · exact Or.inr (Or.inr ⟨n, hn1, lt_of_lt_of_le hn2 d, h⟩)
    · intro i j a1 b1 p h1 h2
      rw [c] at h1 h2
      exact k3 i j a1 b1 p h1 h2
  | tail s s1 M start _ he ih =>
    obtain ⟨sh, pf, pk⟩ := ih
    obtain ⟨s2, e2, sh2, v2, k2, -⟩ := blocks_loop_bound f0 M
      (tail_blocks start s.m_vars.length) s sh pf pk (List.Nodup.filter _ (List.nodup_range _))
    have : s2 = s1 := by
      unfold update_tail at he
      rw [e2] at he
      exact Option.some.inj he
    subst this
    exact ⟨sh2, vars_ok_congr f0 s s2 v2 pf, k2⟩
  | push s s1 _ he ih =>
    obtain ⟨sh, pf, pk⟩ := ih
    obtain ⟨a, b, c, d⟩ := push_tables s s1 he
    exact ⟨shaped_congr s _ a c b sh, vars_ok_congr f0 s _ a pf, predsOk_congr f0 s _ a c d pk⟩
  | pop s s1 n _ he ih =>
    obtain ⟨sh, pf, pk⟩ := ih
    obtain ⟨-, -, -, -, -, -, -, -, -, -, -, a, b, c, d⟩ := pop_sizes s s1 n he
    exact ⟨shaped_congr s _ a c b sh, vars_ok_congr f0 s _ a pf, predsOk_congr f0 s _ a c d pk⟩

end qsat
end qe
namespace qe
namespace qsat

/-- The loop of `backtrack` over the core: the level it returns is the largest of the
starting level and the levels at least two below `m_level`, and the core it returns is
the pruned one. -/
theorem backtrack_core_spec (s : State) : ∀ (core : List Expr) (level : Nat) (acc : List Expr),
    (∀ p ∈ core, (get_level s p).isSome = true) →
    ∃ lv, backtrack_core s core level acc = some (lv, acc ++ pruned_core s core) ∧ level ≤ lv ∧
      (∀ p ∈ core, ∀ l, get_level s p = some l → l + 1 < s.m_level → l ≤ lv) ∧
      (lv = level ∨ ∃ p ∈ core, get_level s p = some lv ∧ lv + 1 < s.m_level)
  | [], level, acc, _ =>
    ⟨level, by simp [backtrack_core, pruned_core], le_refl _, fun _ hp => (by cases hp),
      Or.inl rfl⟩
  | p :: core, level, acc, h => by
    obtain ⟨l, hl⟩ := Option.isSome_iff_exists.1 (h p (List.mem_cons_self _ _))
    have hrest : ∀ q ∈ core, (get_level s q).isSome = true :=
      fun q hq => h q (List.mem_cons_of_mem _ hq)
    simp only [backtrack_core, hl]
    by_cases hlt : l + 1 < s.m_level
    · rw [if_pos hlt]
      obtain ⟨lv, e, h1, h2, h3⟩ := backtrack_core_spec s core (max level l) (acc ++ [p]) hrest
      refine ⟨lv, ?_, le_trans (le_max_left _ _) h1, ?_, ?_⟩
      · rw [e]
        simp [pruned_core, hl, hlt]
      · intro q hq lq hlq hq2
        rcases List.mem_cons.1 hq with rfl | hq1
        · rw [hl] at hlq
          injection hlq with hlq
          subst hlq
          exact le_trans (le_max_right _ _) h1
        · exact h2 q hq1 lq hlq hq2
      · rcases h3 with h3 | ⟨q, hq, hq1, hq2⟩
        · rcases le_total level l with hc | hc
          · rw [max_eq_right hc] at h3
            exact Or.inr ⟨p, List.mem_cons_self _ _, by rw [h3]; exact hl, by rw [h3]; exact hlt⟩
          · rw [max_eq_left hc] at h3
            exact Or.inl h3
        · exact Or.inr ⟨q, List.mem_cons_of_mem _ hq, hq1, hq2⟩
    · rw [if_neg hlt]
      obtain ⟨lv, e, h1, h2, h3⟩ := backtrack_core_spec s core level (acc ++ [Expr.tt]) hrest
      refine ⟨lv, ?_, h1, ?_, ?_⟩
      · rw [e]
        simp [pruned_core, hl, hlt]
      · intro q hq lq hlq hq2
        rcases List.mem_cons.1 hq with rfl | hq1
        · rw [hl] at hlq
          injection hlq with hlq
          subst hlq
          exact absurd hq2 hlt
        · exact h2 q hq1 lq hlq hq2
      · rcases h3 with h3 | ⟨q, hq, hq1, hq2⟩
        · exact Or.inl h3
        · exact Or.inr ⟨q, List.mem_cons_of_mem _ hq, hq1, hq2⟩

/-- C33 amended, the backjump target. At a level `ℓ ≥ 2`, with the scope stacks of the size
of the level and a level for every literal of the core, `backtrack` ends at the level
`ℓ'` that is the largest of `d` and the levels at most `ℓ - 2` of the literals of the
core, where `d` is 0 for an even and 1 for an odd `ℓ`; so `ℓ' ≤ ℓ - 2`. The literals of the
core whose level is at most `ℓ - 2` are exactly those whose level is at most `ℓ'`; the
others are replaced by `true`, and the negation of the conjunction of this pruned core is
asserted under the formula of level `ℓ'`. -/
theorem backjump_target (s : State) (core : List Expr) (hs : ScopeInv s)
    (h2 : 2 ≤ s.m_level) (hl : ∀ p ∈ core, (get_level s p).isSome = true) :
    ∃ s1 lv, backtrack s core = some s1 ∧ s1.m_level = lv ∧ lv + 2 ≤ s.m_level ∧
      (if is_exists s.m_level then 0 else 1) ≤ lv ∧
      (lv = (if is_exists s.m_level then 0 else 1) ∨ ∃ p ∈ core, get_level s p = some lv) ∧
      (∀ p ∈ core, ∀ l, get_level s p = some l → (l + 1 < s.m_level ↔ l ≤ lv)) ∧
      Expr.implies (get_fml_at s lv) (mk_not (mk_and (pruned_core s core)))
        ∈ asserted s1.m_kernel := by
  obtain ⟨lv, e, b1, b2, b3⟩ :=
    backtrack_core_spec s core (if is_exists s.m_level then 0 else 1) [] hl
  have hd : (if is_exists s.m_level = true then 0 else 1) + 2 ≤ s.m_level := by
    unfold is_exists
    by_cases hpar : s.m_level % 2 = 0
    · simp [hpar]
      omega
    · simp [hpar]
      omega
  have hlv : lv + 2 ≤ s.m_level := by
    rcases b3 with h | ⟨p, _, _, hp⟩
    · rw [h]; exact hd
    · omega
  obtain ⟨s1, e1, l1, sc1, -⟩ := pop_inv s hs (s.m_level - lv) (by omega) (by omega)
  obtain ⟨-, -, -, -, -, -, -, -, -, f1, f2, -⟩ := pop_sizes s s1 _ e1
  obtain ⟨s2, e2, l2, sc2, -, r2⟩ :=
    persist_inv s1 sc1 lv (mk_not (mk_and (pruned_core s core)))
  have hf : get_fml_at s1 lv = get_fml_at s lv := by
    unfold get_fml_at
    rw [f1, f2]
  refine ⟨s2, lv, ?_, ?_, hlv, b1, ?_, ?_, ?_⟩
  · unfold backtrack
    rw [e]
    simp only [List.nil_append]
    rw [if_pos (by omega), e1]
    exact e2
  · rw [l2, l1]
    omega
  · rcases b3 with h | ⟨p, hp, hp1, _⟩
    · exact Or.inl h
    · exact Or.inr ⟨p, hp, hp1⟩
  · intro p hp l hpl
    constructor
    · exact b2 p hp l hpl
    · intro hle
      omega
  · rw [← hf]
    exact replayed_asserted s2 sc2 _ r2

end qsat
end qe
namespace qe
namespace qsat

/-- C33 as stated fails. In the run on `∀ z1 ∃ z2 ∀ z3. scope_matrix` the fourth query is
posed at level 3 and is unsat with a core of three literals, of the levels 0, 1 and 2.
The largest level below 3 among them is 2, but `backtrack` ends at level 1, and the
literal of level 2 is replaced by `true` in the clause it learns. -/
theorem backjump_skips_previous_level :
    (scope_state 3).map (fun s =>
      (s.m_level, (step_core brute_oracle s).map (get_level s),
        (backtrack s (step_core brute_oracle s)).map (fun t => t.m_level),
        (pruned_core s (step_core brute_oracle s)).map (fun e => e == Expr.tt)))
      = some (3, [some 0, some 1, some 2], some 1, [false, false, true]) := by
  decide!

end qsat
end qe

/-! ## The ways `project` ends -/

namespace qe
namespace arith_project_util

theorem extract_mod_record_delta (rw : Expr → Expr) (x : Var) (val : Expr) (k c : ℚ) (t : Expr)
    (st : State) : (extract_mod_record rw x val k c t st).m_delta = st.m_delta := by
  unfold extract_mod_record
  split <;> rfl

theorem is_linear_other_delta {x : Var} {mul : ℚ} {t : Expr} {c : ℚ} {ts : List Expr}
    {st : State} {c1 : ℚ} {ts1 : List Expr} {st1 : State}
    (h : is_linear_other x mul t c ts st = some (c1, ts1, st1)) : st1.m_delta = st.m_delta := by
  unfold is_linear_other at h
  split at h
  · cases h
  · simp only [Option.some.injEq, Prod.mk.injEq] at h
    obtain ⟨-, -, rfl⟩ := h
    rfl

theorem is_linear_delta (rw : Expr → Expr) (x : Var) (M : Model) (mul : ℚ) (t : Expr) (c : ℚ)
    (ts : List Expr) (st : State) :
    ∀ c1 ts1 st1, is_linear rw x M mul t c ts st = some (c1, ts1, st1) →
      st1.m_delta = st.m_delta := by
  apply is_linear.induct rw x M
    (fun mul t c ts st => ∀ c1 ts1 st1, is_linear rw x M mul t c ts st = some (c1, ts1, st1) →
      st1.m_delta = st.m_delta)
    (fun mul args c ts st => ∀ c1 ts1 st1,
      is_linear_args rw x M mul args c ts st = some (c1, ts1, st1) → st1.m_delta = st.m_delta)
  case case1 =>
    intro mul c ts st c1 ts1 st1 h
    simp only [is_linear, if_true, Option.some.injEq, Prod.mk.injEq] at h
    obtain ⟨-, -, rfl⟩ := h
    rfl
  case case2 =>
    intro mul c ts st v hv c1 ts1 st1 h
    simp only [is_linear, if_neg hv] at h
    exact is_linear_other_delta h
  case case3 =>
    intro mul c ts st t2 r s ih c1 ts1 st1 h
    simp only [is_linear] at h
    exact ih c1 ts1 st1 h
  case case4 =>
    intro mul c ts st t1 r s hn ih c1 ts1 st1 h
    simp only [is_linear] at h
    exact ih c1 ts1 st1 h
  case case6 =>
    intro mul c ts st args ih c1 ts1 st1 h
    simp only [is_linear] at h
    exact ih c1 ts1 st1 h
  case case7 =>
    intro mul c ts st t1 t2 hnone ih c1 ts1 st1 h
    simp only [is_linear, hnone] at h
    cases h
  case case8 =>
    intro mul c ts st t1 t2 c2 ts2 st2 hsome ih1 ih2 c1 ts1 st1 h
    simp only [is_linear, hsome] at h
    rw [ih2 c1 ts1 st1 h, ih1 c2 ts2 st2 hsome]
  case case9 =>
    intro mul c ts st t1 ih c1 ts1 st1 h
    simp only [is_linear] at h
    exact ih c1 ts1 st1 h
  case case10 =>
    intro mul c ts st mul1 s c1 ts1 st1 h
    simp only [is_linear, Option.some.injEq, Prod.mk.injEq] at h
    obtain ⟨-, -, rfl⟩ := h
    rfl
  case case11 =>
    intro mul c ts st t1 r s hocc hnone ih c1 ts1 st1 h
    simp only [is_linear, hocc, hnone, if_true] at h
    cases h
  case case12 =>
    intro mul c ts st t1 r s hocc c2 ts2 st2 hsome ih c1 ts1 st1 h
    simp only [is_linear, hocc, hsome, if_true, Option.some.injEq, Prod.mk.injEq] at h
    obtain ⟨-, -, rfl⟩ := h
    rw [extract_mod_record_delta]
    exact ih c2 ts2 st2 hsome
  case case13 =>
    intro mul c ts st t1 r s hocc c1 ts1 st1 h
    simp only [is_linear, hocc] at h
    exact is_linear_other_delta h
  case case27 =>
    intro mul c ts st c1 ts1 st1 h
    simp only [is_linear_args, Option.some.injEq, Prod.mk.injEq] at h
    obtain ⟨-, -, rfl⟩ := h
    rfl
  case case28 =>
    intro mul c ts st t tail hnone ih c1 ts1 st1 h
    simp only [is_linear_args, hnone] at h
    cases h
  case case29 =>
    intro mul c ts st t tail c2 ts2 st2 hsome ih1 ih2 c1 ts1 st1 h
    simp only [is_linear_args, hsome] at h
    rw [ih2 c1 ts1 st1 h, ih1 c2 ts2 st2 hsome]
  all_goals
    intros
    rename_i h
    simp only [is_linear] at h
    exact is_linear_other_delta h

theorem is_linear_pair_delta {rw : Expr → Expr} {x : Var} {M : Model} {mul : ℚ} {e1 e2 : Expr}
    {st : State} {c1 : ℚ} {ts1 : List Expr} {st1 : State}
    (h : is_linear_pair rw x M mul e1 e2 st = some (c1, ts1, st1)) :
    st1.m_delta = st.m_delta := by
  unfold is_linear_pair at h
  split at h
  · cases h
  · rename_i c2 ts2 st2 hs
    rw [is_linear_delta rw x M (-mul) e2 c2 ts2 st2 c1 ts1 st1 h,
      is_linear_delta rw x M mul e1 0 [] st c2 ts2 st2 hs]

theorem is_linear_lit_delta {rw : Expr → Expr} {x : Var} {M : Model} {lit : Expr} {st : State}
    {c : ℚ} {t : Expr} {s e : Bool} {st1 : State}
    (h : is_linear_lit rw x M lit st = some (c, t, s, e, st1)) : st1.m_delta = st.m_delta := by
  have key : ∀ (is_not : Bool) (mul : ℚ) (l : Expr),
      is_linear_atom rw x M is_not mul l st = some (c, t, s, e, st1) →
      st1.m_delta = st.m_delta := by
    intro is_not mul l h
    have fin : ∀ (s0 e0 : Bool) (a b : Expr),
        is_linear_finish x s0 e0 (is_linear_pair rw x M mul a b st) = some (c, t, s, e, st1) →
        st1.m_delta = st.m_delta := by
      intro s0 e0 a b hf
      obtain ⟨c2, ts2, hr⟩ := is_linear_finish_ineqs hf
      exact is_linear_pair_delta hr
    unfold is_linear_atom at h
    split at h
    · exact fin _ _ _ _ h
    · exact fin _ _ _ _ h
    · exact fin _ _ _ _ h
    · exact fin _ _ _ _ h
    · split at h
      · split at h
        · exact fin _ _ _ _ h
        · split at h
          · exact fin _ _ _ _ h
          · exact fin _ _ _ _ h
      · cases h
    · cases h
  unfold is_linear_lit at h
  split at h
  · exact key _ _ _ h
  · exact key _ _ _ h

/-- The classification loop of `project` leaves `m_delta` as `reset()` set it. -/
theorem project_step_delta {rw : Expr → Expr} {x : Var} {M : Model}
    {acc acc1 : State × Counters} {e : Expr} (h : project_step rw x M acc e = some acc1) :
    acc1.1.m_delta = acc.1.m_delta := by
  unfold project_step at h
  split at h
  · simp only [Option.some.injEq] at h
    subst h
    rfl
  · split at h
    · cases h
    · rename_i c t is_strict is_eq st1 hl
      have h1 := is_linear_lit_delta hl
      split at h
      · simp only [Option.some.injEq] at h
        subst h
        exact h1
      · simp only at h
        split at h
        · simp only [Option.some.injEq] at h
          subst h
          exact h1
        · split at h <;>
          · simp only [Option.some.injEq] at h
            subst h
            exact h1

theorem project_loop_delta {rw : Expr → Expr} {x : Var} {M : Model} :
    ∀ (lits : List Expr) (acc acc1 : State × Counters),
      project_loop rw x M lits acc = some acc1 → acc1.1.m_delta = acc.1.m_delta
  | [], acc, acc1, h => by
    simp only [project_loop, Option.some.injEq] at h
    subst h
    rfl
  | e :: es, acc, acc1, h => by
    simp only [project_loop] at h
    split at h
    · cases h
    · rename_i acc2 hstep
      rw [project_loop_delta es acc2 acc1 h, project_step_delta hstep]

theorem classify_delta (rw : Expr → Expr) (x : Var) (M : Model) (lits : List Expr)
    (st : State) (cn : Counters) (h : classify rw x M lits = some (st, cn)) :
    st.m_delta = 1 := by
  unfold classify at h
  rw [project_loop_delta lits _ _ h]
  rfl

theorem ratLcm_ne_zero (a b : ℚ) (ha : a ≠ 0) (hb : b ≠ 0) : ratLcm a b ≠ 0 := by
  unfold ratLcm
  have h1 : a.num ≠ 0 := Rat.num_ne_zero.2 ha
  have h2 : b.num ≠ 0 := Rat.num_ne_zero.2 hb
  have h3 : Int.lcm a.num b.num ≠ 0 := Int.lcm_ne_zero h1 h2
  exact_mod_cast h3

theorem ratLcm_zero_right (a : ℚ) : ratLcm a 0 = 0 := by
  simp [ratLcm]

theorem ratLcm_zero_left (b : ℚ) : ratLcm 0 b = 0 := by
  simp [ratLcm]

/-- The `lcm` of the divisors is 0 exactly when the starting value or a divisor is 0. -/
theorem lcm_fold_eq_zero : ∀ (divs : List Div) (d0 : ℚ),
    divs.foldl (fun d row => ratLcm d row.divisor) d0 = 0 ↔ d0 = 0 ∨ ∃ d ∈ divs, d.divisor = 0
  | [], d0 => by simp
  | r :: rest, d0 => by
    simp only [List.foldl]
    rw [lcm_fold_eq_zero rest (ratLcm d0 r.divisor)]
    constructor
    · rintro (h | ⟨d, hd, h0⟩)
      · by_cases h1 : d0 = 0
        · exact Or.inl h1
        · by_cases h2 : r.divisor = 0
          · exact Or.inr ⟨r, List.mem_cons_self _ _, h2⟩
          · exact absurd h (ratLcm_ne_zero _ _ h1 h2)
      · exact Or.inr ⟨d, List.mem_cons_of_mem _ hd, h0⟩
    · rintro (h | ⟨d, hd, h0⟩)
      · left
        rw [h, ratLcm_zero_left]
      · rcases List.mem_cons.1 hd with h1 | h1
        · left
          rw [← h1, h0, ratLcm_zero_right]
        · exact Or.inr ⟨d, h1, h0⟩

/-- Source `project` throws exactly when the classification loop does. -/
theorem project_outcome_cant_project (rw : Expr → Expr) (x : Var) (M : Model)
    (lits : List Expr) :
    project_outcome rw x M lits = Outcome.cant_project ↔ project rw x M lits = none := by
  unfold project_outcome project
  cases classify rw x M lits with
  | none => simp
  | some r =>
    obtain ⟨st, cn⟩ := r
    simp only
    split <;> simp

/-- When `project` returns, it returns what the embedding of its body computes. -/
theorem project_outcome_returns (rw : Expr → Expr) (x : Var) (M M1 : Model)
    (lits out : List Expr) (h : project_outcome rw x M lits = Outcome.returns out M1) :
    project rw x M lits = some (out, M1) := by
  unfold project_outcome at h
  unfold project
  cases hc : classify rw x M lits with
  | none => rw [hc] at h; cases h
  | some r =>
    obtain ⟨st, cn⟩ := r
    rw [hc] at h
    simp only at h ⊢
    split at h
    · cases h
    · injection h with h1 h2
      rw [← h1, ← h2]

/-- Source `project` divides by zero only when a recorded divisor is 0, and every recorded
divisor is the numeral of a term `t mod k` of the literals. -/
theorem project_outcome_division (rw : Expr → Expr) (x : Var) (M : Model)
    (lits : List Expr) (h : project_outcome rw x M lits = Outcome.division_by_zero) :
    (0 : ℚ) ∈ mod_numeralsList lits := by
  unfold project_outcome at h
  cases hc : classify rw x M lits with
  | none => rw [hc] at h; cases h
  | some r =>
    obtain ⟨st, cn⟩ := r
    rw [hc] at h
    simp only at h
    split at h
    · rename_i hz
      unfold divides_by_zero lcm_divisors at hz
      simp only [Bool.and_eq_true, decide_eq_true_eq] at hz
      have hst : st.m_delta = 1 := classify_delta rw x M lits st cn hc
      rcases (lcm_fold_eq_zero st.m_divs st.m_delta).1 hz.2 with h0 | ⟨d, hd, h0⟩
      · rw [hst] at h0
        exact absurd h0 one_ne_zero
      · have := ((classify_rows rw x M lits st cn hc).1 d hd).2
        rw [h0] at this
        exact this
    · cases h

end arith_project_util
end qe
namespace qe

/-- C6, `cant_project` and the linear fragment. The projection of `x` throws `cant_project`
when some literal has `x` inside a product of two non-numeral terms or inside an
application of an uninterpreted function (`blocked`), and when some literal containing `x`
is not a `≤`, `≥`, `<`, `>`, `=` or `≠` over arithmetic terms. When every literal containing
`x` is such a comparison whose sides are built from `x`, `x`-free terms, numerals, `+`,
binary and unary `-`, multiplication by a numeral on either side and `mod` by a numeral, it
does not throw `cant_project`: it returns, unless it divides by zero, which takes a term
`t mod 0` in the literals. -/
theorem cant_project_outside_linear_fragment (rw : Expr → Expr) (x : Var) (M : Model)
    (lits : List Expr) :
    (∀ l ∈ lits, blocked x l = true →
      arith_project_util.project_outcome rw x M lits
        = arith_project_util.Outcome.cant_project) ∧
    (∀ l ∈ lits, occurs x l = true → isComparison l = false →
      arith_project_util.project_outcome rw x M lits
        = arith_project_util.Outcome.cant_project) ∧
    ((∀ l ∈ lits, occurs x l = true → linLit x l = true) →
      arith_project_util.project_outcome rw x M lits
        ≠ arith_project_util.Outcome.cant_project ∧
      (arith_project_util.project_outcome rw x M lits
        = arith_project_util.Outcome.division_by_zero → (0 : ℚ) ∈ mod_numeralsList lits) ∧
      ((0 : ℚ) ∉ mod_numeralsList lits →
        ∃ out M1, arith_project_util.project_outcome rw x M lits
          = arith_project_util.Outcome.returns out M1)) := by
  refine ⟨?_, ?_, fun hlin => ?_⟩
  · intro l hl hb
    rw [arith_project_util.project_outcome_cant_project]
    exact arith_project_util.project_none_of_lit rw x M l (occurs_of_hasSub x opaqueNode l hb)
      (fun st => arith_project_util.is_linear_lit_blocked rw x M l st hb) lits hl
  · intro l hl hocc hc
    rw [arith_project_util.project_outcome_cant_project]
    exact arith_project_util.project_none_of_lit rw x M l hocc
      (fun st => arith_project_util.is_linear_lit_not_comparison rw x M l st hc) lits hl
  · have hsome := arith_project_util.project_lin rw x M lits hlin
    have hne : arith_project_util.project_outcome rw x M lits
        ≠ arith_project_util.Outcome.cant_project := by
      intro hc
      rw [arith_project_util.project_outcome_cant_project] at hc
      rw [hc] at hsome
      cases hsome
    refine ⟨hne, arith_project_util.project_outcome_division rw x M lits, fun h0 => ?_⟩
    cases ho : arith_project_util.project_outcome rw x M lits with
    | returns out M1 => exact ⟨out, M1, rfl⟩
    | cant_project => exact absurd ho hne
    | division_by_zero =>
      exact absurd (arith_project_util.project_outcome_division rw x M lits ho) h0

end qe

namespace qe
open arith_project_util

/-- C26 fails on the code. On `x mod 0 = 0` over the integers, for every model, the
classification records the one divisibility row, with divisor 0, and no equality, so that
`project` calls `apply_divides`; the `lcm` of the divisors, the `δ` of the claim, is 0; no
`u` has `0 ≤ u < δ`; and the run ends in the division by zero of `mod(r, m_delta)`. -/
theorem zero_divisor_consolidation (M : Model) :
    ∃ st cn, classify id vx M zero_mod_lits = some (st, cn) ∧ cn.found_eq = false ∧
      st.m_divs.map (fun d => (d.coeff, d.divisor)) = [(1, 0)] ∧ lcm_divisors st = 0 ∧
      (∀ u : ℚ, ¬ (0 ≤ u ∧ u < lcm_divisors st)) ∧
      project_outcome id vx M zero_mod_lits = Outcome.division_by_zero := by
  cases hc : classify id vx M zero_mod_lits with
  | none =>
    exfalso
    simp [zero_mod_lits, classify, project_loop, project_step, occurs, vx, inum,
      is_linear_lit, is_linear_atom, is_arith, sortOf, is_linear_pair, is_linear,
      is_linear_finish, extract_mod_record, reset, add, mk_num, is_int, add_lit] at hc
  | some r =>
    obtain ⟨st, cn⟩ := r
    have hd : st.m_divs.map (fun d => (d.coeff, d.divisor)) = [(1, 0)] ∧ cn.found_eq = false ∧
        st.m_delta = 1 := by
      simp [zero_mod_lits, classify, project_loop, project_step, occurs, vx, inum,
        is_linear_lit, is_linear_atom, is_arith, sortOf, is_linear_pair, is_linear,
        is_linear_finish, extract_mod_record, reset, add, mk_num, is_int, add_lit] at hc
      obtain ⟨h1, h2⟩ := hc
      subst h1 h2
      simp
    obtain ⟨h1, h2, h3⟩ := hd
    have hz : lcm_divisors st = 0 := by
      unfold lcm_divisors
      rw [lcm_fold_eq_zero]
      right
      cases hdv : st.m_divs with
      | nil => rw [hdv] at h1; cases h1
      | cons d rest =>
        rw [hdv] at h1
        simp only [List.map_cons, List.cons.injEq, Prod.mk.injEq] at h1
        exact ⟨d, List.mem_cons_self _ _, h1.1.2⟩
    have hn : 0 < num_divs st := by
      unfold num_divs
      have := congrArg List.length h1
      simp only [List.length_map, List.length_singleton] at this
      omega
    refine ⟨st, cn, rfl, h2, h1, hz, ?_, ?_⟩
    · intro u hu
      rw [hz] at hu
      exact absurd hu.2 (not_lt.2 hu.1)
    · unfold project_outcome
      rw [hc]
      simp [divides_by_zero, h2, hn, hz]

end qe

/-! ## A first existential block, and atoms over the integers -/

namespace qe
namespace qsat

/-- A loop that reaches an index at which the body fails does not return. -/
theorem loop_over_none {σ : Type} (f : σ → Nat → Option σ) (P : σ → Prop) (b : Nat)
    (hfail : ∀ s, P s → f s b = none)
    (hpres : ∀ s j s1, P s → f s j = some s1 → P s1) :
    ∀ (l : List Nat) (s : σ), b ∈ l → P s → loop_over f l s = none
  | [], _, hb, _ => by cases hb
  | i :: is, s, hb, hP => by
    simp only [loop_over]
    cases hf : f s i with
    | none => rfl
    | some s1 =>
      simp only
      rcases List.mem_cons.1 hb with h | h
      · subst h
        rw [hfail s hP] at hf
        cases hf
      · exact loop_over_none f P b hfail hpres is s1 h (hpres s i s1 hP hf)

/-- One step of `update_tail` keeps the prefix and the shape of `m_preds`. -/
theorem update_tail_var_shape (M : Model) (i j : Nat) (s s1 : State)
    (h : update_tail_var M i s j = some s1) :
    s1.m_vars = s.m_vars ∧ s1.m_preds.map List.length = s.m_preds.map List.length := by
  unfold update_tail_var at h
  split at h
  · rename_i p var v0 hp hv hval
    obtain ⟨-, -, -, -, -, -, -, -, g9, -, g11, -⟩ := del_pred_frame s p
    simp only at h
    split at h
    · injection h with h
      subst h
      refine ⟨g9, ?_⟩
      simp only [add_pred]
      rw [set2_shape, g11]
    · injection h with h
      subst h
      refine ⟨g9, ?_⟩
      simp only [add_pred, fresh_bool]
      rw [set2_shape, g11]
  · cases h

/-- A position outside `m_preds` stays outside. -/
theorem update_tail_var_outside (M : Model) (i j a b : Nat) (s s1 : State)
    (h : update_tail_var M i s j = some s1) (hn : get2 s.m_preds a b = none) :
    get2 s1.m_preds a b = none := by
  have hsh := (update_tail_var_shape M i j s s1 h).2
  have := get2_isSome_of_shape s1.m_preds s.m_preds hsh a b
  rw [hn] at this
  cases hg : get2 s1.m_preds a b with
  | none => rfl
  | some e => rw [hg] at this; cases this

/-- The inner loop of `update_tail` does not return on a block that has a constant at a
position outside `m_preds`. -/
theorem update_tail_block_none (M : Model) (i b : Nat) (s : State)
    (hb : b < (s.m_vars.getD i []).length) (hn : get2 s.m_preds i b = none) :
    update_tail_block M s i = none := by
  unfold update_tail_block
  refine loop_over_none (update_tail_var M i) (fun t => get2 t.m_preds i b = none) b ?_ ?_ _ s
    (List.mem_range.2 hb) hn
  · intro t ht
    unfold update_tail_var
    simp only at ht
    rw [ht]
  · intro t j t1 ht hj
    exact update_tail_var_outside M i j i b t t1 hj ht

/-- Source `update_tail(mdl, 0)` does not return when block 0 has a constant at a position
outside `m_preds[0]`. -/
theorem update_tail_none (M : Model) (b : Nat) (s : State)
    (hb : b < (s.m_vars.getD 0 []).length) (hn : get2 s.m_preds 0 b = none) :
    update_tail M 0 s = none := by
  have hlen : 0 < s.m_vars.length := by
    cases hv : s.m_vars with
    | nil => rw [hv] at hb; simp at hb
    | cons r rs => simp
  unfold update_tail
  obtain ⟨n, hn1⟩ : ∃ n, s.m_vars.length = n + 1 := ⟨s.m_vars.length - 1, by omega⟩
  have htb : tail_blocks 0 (n + 1) = 0 :: (tail_blocks 0 (n + 1)).tail := by
    unfold tail_blocks
    rw [List.range_succ_eq_map]
    simp
  rw [hn1, htb]
  simp only [loop_over]
  rw [update_tail_block_none M 0 b s hb hn]

/-- After `hoist` with a first existential block that is not empty and `mk_abstract`, block
0 of `m_vars` has a constant at position `|free|`, which is outside `m_preds[0]`. -/
theorem hoist_first_outside (fuel f0 : Nat) (free first : List Var) (rest : List (List Var))
    (fml : Expr) (s : State) (hfirst : first ≠ [])
    (hs : mk_abstract fuel fml (hoist free first rest (reset f0)) = some s) :
    free.length < ((with_vals s).m_vars.getD 0 []).length ∧
      get2 (with_vals s).m_preds 0 free.length = none ∧
      get2 s.m_vars 0 free.length = first.head? := by
  obtain ⟨a, -, c, -⟩ := mk_abstract_frame fuel fml _ s hs
  have hv : s.m_vars = (free ++ first) :: rest := a
  have hp : s.m_preds = free.map Expr.var :: rest.map (fun b => b.map Expr.var) := c
  cases first with
  | nil => exact absurd rfl hfirst
  | cons v vs =>
    refine ⟨?_, ?_, ?_⟩
    · simp [with_vals, hv]
    · simp [with_vals, hp, get2]
    · simp only [hv, get2, List.getElem?_cons_zero, List.head?_cons]
      rw [List.getElem?_append_right (le_refl _)]
      simp

/-- C12 fails on the code. For every formula whose prefix starts with an existential block
that is not empty (`hoist` appends it to `m_vars[0]` and not to `m_preds[0]`), whenever the
oracle answers `sat` to the first query `{φ}`, the call `update_tail(mdl, 0)` reads
`m_preds[0][j]` outside the vector: the method that sets up the first two levels does not
return, and `check_sat` and the whole run end in the crash. -/
theorem initialise_fails_after_exists_block (O : Oracle) (fuel f0 : Nat)
    (free first : List Var) (rest : List (List Var)) (fml : Expr) (s : State) (mdl : Model)
    (hfirst : first ≠ [])
    (hs : mk_abstract fuel fml (hoist free first rest (reset f0)) = some s)
    (hsat : kernel_check O (with_vals s) [s.m_fml_pred] = Answer.sat mdl) :
    initialise O s = none ∧ check_sat O fuel s = Outcome.crash ∧
      run O f0 fuel free first rest fml = Outcome.crash := by
  obtain ⟨h1, h2, -⟩ := hoist_first_outside fuel f0 free first rest fml s hfirst hs
  have hut : update_tail mdl 0 (with_vals s) = none :=
    update_tail_none mdl free.length (with_vals s) h1 h2
  have hinit : initialise O s = none := by
    have : initialise O s =
        match kernel_check O (with_vals s) [s.m_fml_pred] with
        | Answer.unsat _ => some (Sum.inl (lbool.l_false, with_vals s))
        | Answer.undef => some (Sum.inl (lbool.l_undef, with_vals s))
        | Answer.sat mdl =>
          match update_tail mdl 0 (with_vals s) with
          | none => none
          | some s1 =>
            match kernel_check O s1 [s1.m_nfml_pred] with
            | Answer.unsat _ => some (Sum.inl (lbool.l_true, { s1 with m_model := some mdl }))
            | Answer.undef => some (Sum.inl (lbool.l_undef, s1))
            | Answer.sat mdl1 =>
              match update_tail mdl1 1 s1 with
              | none => none
              | some s2 => some (Sum.inr s2) := rfl
    rw [this, hsat]
    simp only [hut]
  have hcs : check_sat O fuel s = Outcome.crash := by
    unfold check_sat
    rw [hinit]
  refine ⟨hinit, hcs, ?_⟩
  unfold run
  rw [hs]
  exact hcs

/-- C35 fails on the code. After `reset`, `hoist` and `mk_abstract` on a formula whose
prefix starts with an existential block that is not empty, block 0 of `m_vars` has the first
constant of that block at position `|free|`, the vector `m_preds[0]` has no such position,
and `update_tail(M, 0)`, called as it is by the method that sets up the first two levels,
does not return, for any model `M`: no witness literal is installed. -/
theorem update_tail_fails_after_exists_block (fuel f0 : Nat) (free first : List Var)
    (rest : List (List Var)) (fml : Expr) (s : State) (M : Model) (hfirst : first ≠ [])
    (hs : mk_abstract fuel fml (hoist free first rest (reset f0)) = some s) :
    get2 s.m_vars 0 free.length = first.head? ∧ (first.head?).isSome = true ∧
      get2 s.m_preds 0 free.length = none ∧ update_tail M 0 (with_vals s) = none ∧
      update_tail M 0 s = none := by
  obtain ⟨h1, h2, h3⟩ := hoist_first_outside fuel f0 free first rest fml s hfirst hs
  refine ⟨h3, ?_, h2, update_tail_none M free.length (with_vals s) h1 h2,
    update_tail_none M free.length s h1 h2⟩
  cases first with
  | nil => exact absurd rfl hfirst
  | cons v vs => rfl

/-- C14 fails on the code: the loop of `mk_abstract` takes `=` for Boolean structure
whatever the sort of its arguments. On the atom `x = y` over the integers it returns, and
afterwards the atom has no name (`lit2pred` has no entry for it) while the integer constants
`x` and `y` are registered as predicates, each bound to itself, and are the only names. On
the atom `x = y + 1` the atom has no name either, and the fresh Boolean constant `p` is
bound to the integer term `y + 1`, with the definition `p = y + 1`, between a Boolean and an
integer, handed to the kernel: the branch guarded by `SASSERT(m.is_bool(e))` is taken with
an integer term. -/
theorem abstraction_names_integer_terms :
    (mk_abstract 20 atom_xy atom_start).map (fun s =>
      [(map_find s.m_lit2pred atom_xy).isNone,
        map_find s.m_pred2lit (Expr.var atom_x) == some (Expr.var atom_x),
        map_find s.m_pred2lit (Expr.var atom_y) == some (Expr.var atom_y),
        decide (sortOf (Expr.var atom_x) = Srt.int ∧ sortOf (Expr.var atom_y) = Srt.int),
        decide (s.m_pred2lit.length = 2)])
      = some [true, true, true, true, true] ∧
    (mk_abstract 20 atom_fml atom_start).map (fun s =>
      [(map_find s.m_lit2pred atom_fml).isNone,
        map_find s.m_pred2lit (Expr.var ⟨2, .bool⟩)
          == some (Expr.add [Expr.var atom_y, Expr.num 1 .int]),
        decide (sortOf (Expr.add [Expr.var atom_y, Expr.num 1 .int]) = Srt.int),
        (asserted s.m_kernel).contains
          (Expr.eq (Expr.var ⟨2, .bool⟩) (Expr.add [Expr.var atom_y, Expr.num 1 .int]))])
      = some [true, true, true, true] := by
  constructor <;> decide!

end qsat
end qe

namespace qe
open arith_project_util

/-- Witness of C3 on the literals of S5: the hypotheses hold and the two emitted
literals are free of `x`. -/
theorem project_output_free_of_x_witness :
    project id vx (model_xyz 0 0 0) s5_lits = some (s5_emitted 0, model_xyz 0 0 0) ∧
    ∀ l ∈ s5_emitted 0, occurs vx l = false :=
  ⟨by with_unfolding_all rfl,
    project_output_free_of_x id vx (model_xyz 0 0 0) (model_xyz 0 0 0) s5_lits (s5_emitted 0)
      (fun _ h => h) (by with_unfolding_all rfl)⟩

/-- Witness of C4 on the literals of S5: projecting the output again returns it unchanged. -/
theorem project_idempotent_witness :
    project id vx (model_xyz 0 0 0) s5_lits = some (s5_emitted 0, model_xyz 0 0 0) ∧
    project id vx (model_xyz 0 0 0) (s5_emitted 0) = some (s5_emitted 0, model_xyz 0 0 0) :=
  ⟨by with_unfolding_all rfl,
    project_idempotent id vx (model_xyz 0 0 0) (model_xyz 0 0 0) s5_lits (s5_emitted 0)
      (fun _ h => h) (by with_unfolding_all rfl)⟩

/-- Witness of C7 amended on `x = y`, `x ≤ z`: both literals are in the linear fragment, the
equality is found, and the output is the single literal `1·(-z) - 1·(-y) ≤ 0` after the
divisibility `1 | -y`. -/
theorem equality_short_circuit_witness :
    (∀ l ∈ [Expr.eq (.var vx) (.var vy), Expr.le (.var vx) (.var vz)],
      occurs vx l = true → linLit vx l = true) ∧
    (∀ l ∈ [Expr.eq (.var vx) (.var vy), Expr.le (.var vx) (.var vz)], inMod vx l = false) ∧
    (∃ l ∈ [Expr.eq (.var vx) (.var vy), Expr.le (.var vx) (.var vz)],
      isEqualityOn id vx (model_xyz 0 0 0) l) ∧
    project id vx (model_xyz 0 0 0) [.eq (.var vx) (.var vy), .le (.var vx) (.var vz)]
      = some ([mk_divides vx 1 (.add [.mul (inum (-1)) (.var vy)]),
          .le (.sub (.add [.mul (inum (-1)) (.var vz)]) (.add [.mul (inum (-1)) (.var vy)]))
            (inum 0)], model_xyz 0 0 0) ∧
    ∃ out, project id vx (model_xyz 0 0 0) [.eq (.var vx) (.var vy), .le (.var vx) (.var vz)]
        = some (out, model_xyz 0 0 0) ∧
      project_outcome id vx (model_xyz 0 0 0) [.eq (.var vx) (.var vy), .le (.var vx) (.var vz)]
        = Outcome.returns out (model_xyz 0 0 0) ∧
      out.length ≤ [Expr.eq (.var vx) (.var vy), Expr.le (.var vx) (.var vz)].length ∧
      ∃ st cn, classify id vx (model_xyz 0 0 0)
          [.eq (.var vx) (.var vy), .le (.var vx) (.var vz)] = some (st, cn) ∧
        cn.found_eq = true ∧ st.m_divs = [] ∧
        out = apply_equality id vx st cn.eq_index st.m_new_lits :=
  have hlin : ∀ l ∈ [Expr.eq (.var vx) (.var vy), Expr.le (.var vx) (.var vz)],
      occurs vx l = true → linLit vx l = true := by
    intro l hl _
    simp only [List.mem_cons, List.mem_singleton, List.not_mem_nil, or_false] at hl
    rcases hl with rfl | rfl <;> decide
  have hmod : ∀ l ∈ [Expr.eq (.var vx) (.var vy), Expr.le (.var vx) (.var vz)],
      inMod vx l = false := by
    intro l hl
    simp only [List.mem_cons, List.mem_singleton, List.not_mem_nil, or_false] at hl
    rcases hl with rfl | rfl <;> decide
  have heq : ∃ l ∈ [Expr.eq (.var vx) (.var vy), Expr.le (.var vx) (.var vz)],
      isEqualityOn id vx (model_xyz 0 0 0) l :=
    ⟨_, List.mem_cons_self _ _, by decide, _, _, _, _, by with_unfolding_all rfl, by decide!⟩
  ⟨hlin, hmod, heq, by with_unfolding_all rfl,
    equality_short_circuit id vx (model_xyz 0 0 0) _ hlin hmod heq⟩

end qe

namespace qe
namespace qsat

theorem some_getD_of_isSome {α : Type} (o : Option α) (d : α) (h : o.isSome = true) :
    o = some (o.getD d) := by
  cases o with
  | none => cases h
  | some x => rfl

/-- C11 as stated fails on the replay list: in the state at level 2 with one lemma in the
innermost entry of `m_replay`, `pop(2)` returns to level 0 and asserts the lemma again in
the kernel, but the one entry of `m_replay` that survives stays empty: the lemma is not kept
in the replay list of the surviving scope. `pop(1)`, which returns to level 1, keeps it
there. -/
theorem pop_to_base_keeps_no_replay :
    names_pushed.m_level = 2 ∧ names_pushed.m_replay.map List.length = [0, 0, 1] ∧
    (pop names_pushed 2).map (fun s1 =>
      (s1.m_level, s1.m_replay.map List.length,
        (names_pushed.m_replay.getD 2 []).all (fun e => (asserted s1.m_kernel).contains e)))
      = some (0, [0], true) ∧
    (pop names_pushed 1).map (fun s1 =>
      (s1.m_level, s1.m_replay.map List.length,
        (names_pushed.m_replay.getD 2 []).all (fun e => (s1.m_replay.getD 1 []).contains e)))
      = some (1, [0, 1], true) := by
  refine ⟨by decide!, by decide!, by decide!, by decide!⟩

/-- Witness of C11 amended on `push, push, persist, pop(2), push, persist, pop(1)` from a state at
level 2 with a lemma in its innermost entry of `m_replay`: the state after `reset`, `hoist`
and `mk_abstract` on `∀ y. b ∧ (y ≤ 0 ∨ ¬b)`, two pushes and a lemma persisted at level 2.
Its table `m_preds` has three blocks, the pushes stay inside it and the sequence runs
through. -/
theorem replay_preservation_witness :
    ScopeInv names_pushed ∧ valid_ops names_pushed.m_level replay_ops = true ∧
    names_pushed.m_level = 2 ∧ names_pushed.m_preds.length = 3 ∧
    (run_ops replay_ops names_pushed []).isSome = true ∧
    ((run_ops replay_ops names_pushed []).isSome = true ↔
      pushes_fit names_pushed.m_preds.length names_pushed.m_level replay_ops = true) ∧
    (∀ s1 log, run_ops replay_ops names_pushed [] = some (s1, log) →
      s1.m_level = end_level names_pushed.m_level replay_ops ∧
      s1.m_kernel.length = s1.m_level + 1 ∧ s1.m_replay.length = s1.m_level + 1 ∧
      ∀ le ∈ log, le.2 ∈ asserted s1.m_kernel) ∧
    (∀ n : Nat, 1 ≤ n → n ≤ names_pushed.m_level →
      ∃ s1 r1, pop names_pushed n = some s1 ∧ s1.m_level = names_pushed.m_level - n ∧
        s1.m_kernel = names_pushed.m_kernel.take (names_pushed.m_level - n) ++
          [(names_pushed.m_kernel.getD (names_pushed.m_level - n) []) ++ r1] ∧
        s1.m_replay = names_pushed.m_replay.take (names_pushed.m_level - n) ++
          [if names_pushed.m_level - n > 0 then
              (names_pushed.m_replay.getD (names_pushed.m_level - n) []) ++ r1
            else names_pushed.m_replay.getD (names_pushed.m_level - n) []] ∧
        ∀ e, e ∈ r1 ↔ ∃ r ∈ names_pushed.m_replay.drop (names_pushed.m_level - n + 1), e ∈ r) :=
  have hs : ScopeInv names_pushed := ⟨by decide!, by decide!, by decide!, by decide!⟩
  ⟨hs, by decide!, by decide!, by decide!, by decide!,
    replay_preservation names_pushed hs replay_ops (by decide!)⟩

end qsat

end qe

namespace qe
namespace qsat

theorem names_fml_below : BelowFresh 5 names_fml := by
  intro v hv hs
  simp [names_fml, occurs, occursList] at hv
  rcases hv with h | h | h <;> subst h
  · decide
  · cases hs
  · decide

theorem names_vars_ok : PrefixOk 5 (hoist [names_b] [] [[names_y], []] (reset 5)) := by
  have key : ∀ (i j : Nat) (v : Var),
      get2 (hoist [names_b] [] [[names_y], []] (reset 5)).m_vars i j = some v →
      (i = 0 ∧ j = 0 ∧ v = names_b) ∨ (i = 1 ∧ j = 0 ∧ v = names_y) := by
    intro i j v h
    match i, j, h with
    | 0, 0, h => exact Or.inl ⟨rfl, rfl, (Option.some.inj h).symm⟩
    | 1, 0, h => exact Or.inr ⟨rfl, rfl, (Option.some.inj h).symm⟩
    | 0, j + 1, h => cases h
    | 1, j + 1, h => cases h
    | 2, j, h => simp [get2, hoist, reset] at h
    | i + 3, j, h => cases h
  refine ⟨?_, ?_⟩
  · intro i j i1 j1 v h1 h2
    rcases key i j v h1 with ⟨a1, a2, a3⟩ | ⟨a1, a2, a3⟩ <;>
      rcases key i1 j1 v h2 with ⟨b1, b2, b3⟩ | ⟨b1, b2, b3⟩
    · exact ⟨a1.trans b1.symm, a2.trans b2.symm⟩
    · rw [a3] at b3; cases b3
    · rw [a3] at b3; cases b3
    · exact ⟨a1.trans b1.symm, a2.trans b2.symm⟩
  · intro i j v h hs
    rcases key i j v h with ⟨_, _, a3⟩ | ⟨_, _, a3⟩ <;> subst a3
    · decide
    · cases hs

theorem names_reach : Reach 20 5 [names_b] [] [[names_y], []] names_fml names_s4 := by
  have h1 : mk_abstract 20 names_fml names_start = some names_s1 :=
    some_getD_of_isSome _ _ (by decide!)
  have h2 : update_tail (ofBits []) 0 names_s1 = some names_s2 :=
    some_getD_of_isSome _ _ (by decide!)
  have h3 : update_tail (ofBits []) 1 names_s2 = some names_t1 :=
    some_getD_of_isSome _ _ (by decide!)
  have h5 : push names_t1 = some names_p1 := some_getD_of_isSome _ _ (by decide!)
  have h6 : push names_p1 = some names_s3 := some_getD_of_isSome _ _ (by decide!)
  have h4 : pop names_s3 1 = some names_s4 := some_getD_of_isSome _ _ (by decide!)
  exact Reach.pop _ _ 1
    (Reach.push _ _ (Reach.push _ _
      (Reach.tail _ _ _ 1 (Reach.tail _ _ _ 0 (Reach.init _ h1) h2) h3) h5) h6) h4

/-- The round trip on the matrix `b ∧ (y ≤ 0 ∨ ¬b)` from the state after `reset` and
`hoist`. -/
theorem abstraction_round_trip_witness :
    (names_start.m_pred2lit = [] ∧ names_start.m_lit2pred = [] ∧
      names_start.m_pred2level = []) ∧
    BelowFresh names_start.m_fresh names_fml ∧
    ∃ n : Nat, ∀ fuel : Nat, n ≤ fuel →
      ∃ (s1 : State) (sk : Expr), mk_abstract fuel names_fml names_start = some s1 ∧
        skeleton fuel names_fml names_start = some sk ∧
        Expr.eq s1.m_fml_pred sk ∈ asserted s1.m_kernel ∧
        concretize s1.m_pred2lit sk = names_fml ∧
        ∀ a ∈ leaves names_fml, ∃ p : Expr, map_find s1.m_pred2lit p = some a ∧
          ∀ q : Expr, map_find s1.m_pred2lit q = some a → q = p :=
  ⟨⟨rfl, rfl, rfl⟩, names_fml_below,
    abstraction_round_trip names_fml names_start ⟨rfl, rfl, rfl⟩ names_fml_below⟩

/-- Witness of C15 on the state after `mk_abstract`, `update_tail(mdl, 0)`,
`update_tail(mdl, 1)`, two `push` and `pop(1)` on `∀ y. b ∧ (y ≤ 0 ∨ ¬b)`. -/
theorem names_bijective_witness :
    PrefixOk 5 (hoist [names_b] [] [[names_y], []] (reset 5)) ∧ BelowFresh 5 names_fml ∧
    Reach 20 5 [names_b] [] [[names_y], []] names_fml names_s4 ∧
    (∀ p a : Expr, map_find names_s4.m_pred2lit p = some a ↔
      map_find names_s4.m_lit2pred a = some p) ∧
    ∀ p : Expr, (map_find names_s4.m_pred2level p).isSome =
      (map_find names_s4.m_pred2lit p).isSome :=
  ⟨names_vars_ok, names_fml_below, names_reach,
    names_bijective 20 5 [names_b] [] [[names_y], []] names_fml names_vars_ok names_fml_below
      names_s4 names_reach⟩

end qsat
end qe

namespace qe
open arith_project_util

/-- Witness of C28 on `2·x + y` with multiplier 1. -/
theorem linearization_value_preserving_witness :
    inMod vx (.add [.mul (inum 2) (.var vx), .var vy]) = false ∧
    is_linear id vx (model_xyz 0 0 0) 1 (.add [.mul (inum 2) (.var vx), .var vy]) 0 [] reset
      = some (2, [.var vy], reset) ∧
    ∃ us : List Expr, [Expr.var vy] = [] ++ us ∧ (∀ u ∈ us, occurs vx u = false) ∧
      ∀ N : Model, 1 * eval N (.add [.mul (inum 2) (.var vx), .var vy])
        = (2 - 0) * N.val vx + evalSum N us :=
  ⟨by decide!, by with_unfolding_all rfl,
    linearization_value_preserving id vx (model_xyz 0 0 0) 1
      (.add [.mul (inum 2) (.var vx), .var vy]) 0 [] reset 2 [.var vy] reset (by decide!)
      (by with_unfolding_all rfl)⟩

theorem strict_class_eq :
    classify id vx (model_xyz 1 1 2) strict_lits = some (strict_class.1, strict_class.2) :=
  qsat.some_getD_of_isSome _ _ (by decide!)

theorem eq_div_class_eq :
    classify id vx (model_xyz 1 1 1) eq_div_lits = some (eq_div_class.1, eq_div_class.2) :=
  qsat.some_getD_of_isSome _ _ (by decide!)

/-- Witness of C30 on the strict literals `y < 2·x`, `¬(z ≤ x)` with `x = 1, y = 1, z = 2`:
the rows stored are `-2·x + (y + 1) ≤ 0` and `x + (-z + 1) ≤ 0`. On `x < x + y`, with
coefficient 0, no row is stored and the literal `-y + 1 ≤ 0` goes to `m_new_lits`. -/
theorem integer_rows_not_strict_witness :
    is_int vx = true ∧
    classify id vx (model_xyz 1 1 2) strict_lits = some (strict_class.1, strict_class.2) ∧
    strict_class.1.m_ineqs
      = [strict_row vx (-2) [.var vy], strict_row vx 1 [.mul (inum (-1)) (.var vz)]] ∧
    project_step id vx (model_xyz 1 1 2) (reset, ⟨0, 0, 0, false⟩)
        (.lt (.var vx) (.add [.var vx, .var vy]))
      = some ({ reset with m_new_lits := [strict_lit vx [.mul (inum (-1)) (.var vy)]] },
          ⟨0, 0, 0, false⟩) ∧
    ((∀ (acc : State × Counters) (e1 e2 : Expr) (c : ℚ) (ts : List Expr) (st1 : State),
      (occurs vx e1 || occurs vx e2) = true → c ≠ 0 →
      (is_linear_pair id vx (model_xyz 1 1 2) 1 e1 e2 acc.1 = some (c, ts, st1) →
        project_step id vx (model_xyz 1 1 2) acc (.lt e1 e2)
          = some ({ st1 with m_ineqs := st1.m_ineqs ++ [strict_row vx c ts] },
              count_row acc.2 c) ∧
        project_step id vx (model_xyz 1 1 2) acc (.gt e2 e1)
          = some ({ st1 with m_ineqs := st1.m_ineqs ++ [strict_row vx c ts] },
              count_row acc.2 c)) ∧
      (is_linear_pair id vx (model_xyz 1 1 2) (-1) e1 e2 acc.1 = some (c, ts, st1) →
        project_step id vx (model_xyz 1 1 2) acc (.not (.le e1 e2))
          = some ({ st1 with m_ineqs := st1.m_ineqs ++ [strict_row vx c ts] },
              count_row acc.2 c) ∧
        project_step id vx (model_xyz 1 1 2) acc (.not (.ge e2 e1))
          = some ({ st1 with m_ineqs := st1.m_ineqs ++ [strict_row vx c ts] },
              count_row acc.2 c))) ∧
    (∀ (acc : State × Counters) (e1 e2 : Expr) (ts : List Expr) (st1 : State),
      (occurs vx e1 || occurs vx e2) = true →
      (is_linear_pair id vx (model_xyz 1 1 2) 1 e1 e2 acc.1 = some (0, ts, st1) →
        project_step id vx (model_xyz 1 1 2) acc (.lt e1 e2)
          = some ({ st1 with m_new_lits :=
              (if is_true (id (strict_lit vx ts)) = true then st1.m_new_lits
                else st1.m_new_lits ++ [id (strict_lit vx ts)]) }, acc.2) ∧
        project_step id vx (model_xyz 1 1 2) acc (.gt e2 e1)
          = some ({ st1 with m_new_lits :=
              (if is_true (id (strict_lit vx ts)) = true then st1.m_new_lits
                else st1.m_new_lits ++ [id (strict_lit vx ts)]) }, acc.2)) ∧
      (is_linear_pair id vx (model_xyz 1 1 2) (-1) e1 e2 acc.1 = some (0, ts, st1) →
        project_step id vx (model_xyz 1 1 2) acc (.not (.le e1 e2))
          = some ({ st1 with m_new_lits :=
              (if is_true (id (strict_lit vx ts)) = true then st1.m_new_lits
                else st1.m_new_lits ++ [id (strict_lit vx ts)]) }, acc.2) ∧
        project_step id vx (model_xyz 1 1 2) acc (.not (.ge e2 e1))
          = some ({ st1 with m_new_lits :=
              (if is_true (id (strict_lit vx ts)) = true then st1.m_new_lits
                else st1.m_new_lits ++ [id (strict_lit vx ts)]) }, acc.2))) ∧
    (∀ (c : ℚ) (ts : List Expr) (N : Model), IsIntVal (c * N.val vx + evalSum N ts) →
      (c * N.val vx + evalSum N ts < 0 ↔ rowHolds vx N (strict_row vx c ts))) ∧
    (∀ q ∈ strict_class.1.m_ineqs, q.strict = false) ∧
    (∀ i : Nat, ineq_strict strict_class.1 i = false) ∧
    ∀ i : Nat, ineq_strict (after_divides id vx (model_xyz 1 1 2) strict_class.1).1 i = false) :=
  ⟨by decide, strict_class_eq, by with_unfolding_all rfl, by with_unfolding_all rfl,
    integer_rows_not_strict id vx (model_xyz 1 1 2) strict_lits strict_class.1 strict_class.2
      (by decide) strict_class_eq⟩

/-- Witness of C24 on `same_side_lits` with `x = 2, y = 4, z = 3, w = 5, u = 6`, for the
rows `x + (-w) < 0` and `-2·x + y ≤ 0` of a real `x`: `mk_lt` emits `2·(-w) + y < 0`. -/
theorem opposite_sign_resolution_witness :
    same_side_class.1.m_ineqs[2]?
      = some ⟨1, .add [.mul (.num (-1) .real) (.var (rvar 3))], true⟩ ∧
    same_side_class.1.m_ineqs[0]? = some ⟨-2, .add [.var (rvar 1)], false⟩ ∧
    (is_int (rvar 0) = false ∨ abs (1 : ℚ) = 1 ∨ abs (-2 : ℚ) = 1) ∧
    (((1 : ℚ) < 0 ∧ (0 : ℚ) < -2) ∨ ((0 : ℚ) < 1 ∧ (-2 : ℚ) < 0)) ∧
    mk_lt id (rvar 0) (model_list [2, 4, 3, 5, 6]) same_side_class.1 [] 2 0
      = [.lt (.add [.mul (.num 2 .real) (.add [.mul (.num (-1) .real) (.var (rvar 3))]),
          .add [.var (rvar 1)]]) (.num 0 .real)] ∧
    (mk_lt id (rvar 0) (model_list [2, 4, 3, 5, 6]) same_side_class.1 [] 2 0 =
      (if is_true (id (resolvent_lit (rvar 0)
          ⟨1, .add [.mul (.num (-1) .real) (.var (rvar 3))], true⟩
          ⟨-2, .add [.var (rvar 1)], false⟩)) = true then []
        else [] ++ [id (resolvent_lit (rvar 0)
          ⟨1, .add [.mul (.num (-1) .real) (.var (rvar 3))], true⟩
          ⟨-2, .add [.var (rvar 1)], false⟩)]) ∧
    ∀ N : Model,
      (holds N (resolvent_lit (rvar 0) ⟨1, .add [.mul (.num (-1) .real) (.var (rvar 3))], true⟩
          ⟨-2, .add [.var (rvar 1)], false⟩) = true ↔
        (if (true || false) = true then
          abs (1 : ℚ) * eval N (.add [.var (rvar 1)])
            + abs (-2 : ℚ) * eval N (.add [.mul (.num (-1) .real) (.var (rvar 3))]) < 0
        else abs (1 : ℚ) * eval N (.add [.var (rvar 1)])
            + abs (-2 : ℚ) * eval N (.add [.mul (.num (-1) .real) (.var (rvar 3))]) ≤ 0)) ∧
      (rowHolds (rvar 0) N ⟨1, .add [.mul (.num (-1) .real) (.var (rvar 3))], true⟩ →
        rowHolds (rvar 0) N ⟨-2, .add [.var (rvar 1)], false⟩ →
        holds N (resolvent_lit (rvar 0)
          ⟨1, .add [.mul (.num (-1) .real) (.var (rvar 3))], true⟩
          ⟨-2, .add [.var (rvar 1)], false⟩) = true)) :=
  have h2 : same_side_class.1.m_ineqs[2]?
      = some ⟨1, .add [.mul (.num (-1) .real) (.var (rvar 3))], true⟩ := by
    with_unfolding_all rfl
  have h0 : same_side_class.1.m_ineqs[0]? = some ⟨-2, .add [.var (rvar 1)], false⟩ := by
    with_unfolding_all rfl
  ⟨h2, h0, Or.inl (by decide), Or.inr ⟨by decide!, by decide!⟩, by with_unfolding_all rfl,
    opposite_sign_resolution id (rvar 0) (model_list [2, 4, 3, 5, 6]) same_side_class.1 [] 2 0
      ⟨1, .add [.mul (.num (-1) .real) (.var (rvar 3))], true⟩
      ⟨-2, .add [.var (rvar 1)], false⟩ h2 h0
      (Or.inl (by decide)) (Or.inr ⟨by decide!, by decide!⟩)⟩

/-- Witness of C25 on `x = y`, `x ≤ z`, `x mod 3 = 1` over the integers with
`x = 1, y = 1, z = 1`: the equality row is `1·x + (-y) = 0`, and `apply_equality` emits
`1 | -y`, then `1·3 | (1·(0 - 1) − 1·(-y))` for the divisibility row, then
`1·(-z) − 1·(-y) ≤ 0` for the other row. -/
theorem equality_substitution_witness :
    classify id vx (model_xyz 1 1 1) eq_div_lits = some (eq_div_class.1, eq_div_class.2) ∧
    eq_div_class.1.m_divs.map (fun d => (d.coeff, d.divisor)) = [(1, 3)] ∧
    eq_div_class.1.m_ineqs[0]? = some ⟨1, .add [.mul (inum (-1)) (.var vy)], false⟩ ∧
    (0 : ℚ) < 1 ∧
    apply_equality id vx eq_div_class.1 0 []
      = [.eq (.mod (.add [.mul (inum (-1)) (.var vy)]) (inum 1)) (inum 0),
          .eq (.mod (.sub (.sub (inum 0) (inum 1)) (.add [.mul (inum (-1)) (.var vy)]))
            (inum 3)) (inum 0),
          .le (.sub (.add [.mul (inum (-1)) (.var vz)]) (.add [.mul (inum (-1)) (.var vy)]))
            (inum 0)] ∧
    (apply_equality id vx eq_div_class.1 0 []
      = [] ++ ((equality_lits vx 1 (.add [.mul (inum (-1)) (.var vy)]) 0 eq_div_class.1.m_divs
          eq_div_class.1.m_ineqs).map id).filter (fun e => !(is_true e)) ∧
    ∀ N : Model, 1 * N.val vx + eval N (.add [.mul (inum (-1)) (.var vy)]) = 0 →
      (∀ r ∈ rows_except 0 eq_div_class.1.m_ineqs 0,
        (holds N (equality_ineq_lit vx 1 (.add [.mul (inum (-1)) (.var vy)]) r) = true ↔
          rowHolds vx N r)) ∧
      (IsIntVal 1 → IsIntVal (N.val vx) →
        holds N (mk_divides vx 1 (.add [.mul (inum (-1)) (.var vy)])) = true ∧
        ∀ d ∈ eq_div_class.1.m_divs, IsIntVal d.coeff → IsIntVal d.divisor →
          IsIntVal (eval N d.term) →
          (holds N (equality_div_lit vx 1 (.add [.mul (inum (-1)) (.var vy)]) d) = true ↔
            divHolds vx N d))) :=
  have h0 : eq_div_class.1.m_ineqs[0]? = some ⟨1, .add [.mul (inum (-1)) (.var vy)], false⟩ := by
    with_unfolding_all rfl
  ⟨eq_div_class_eq, by with_unfolding_all rfl, h0, by decide!, by with_unfolding_all rfl,
    equality_substitution id vx eq_div_class.1 0 [] ⟨1, .add [.mul (inum (-1)) (.var vy)], false⟩
      h0 (by decide!)⟩

/-- The consolidation on the divisibility `3 | (x + (-1))` with `x = 1`. -/
theorem consolidation_positive_divisors_on_shift :
    div_state.m_divs ≠ [] ∧ div_state.m_delta = 1 ∧ (∀ d ∈ div_state.m_divs, 0 < d.divisor) ∧
    ∃ delta u : ℚ,
      (apply_divides id vx (model_xyz 1 2 1) div_state []).1.m_delta = delta ∧
      (apply_divides id vx (model_xyz 1 2 1) div_state []).1.m_u = u ∧
      IsIntVal delta ∧ 0 < delta ∧ (∀ d ∈ div_state.m_divs, d.divisor.num ∣ delta.num) ∧
      (∀ m : ℤ, (∀ d ∈ div_state.m_divs, d.divisor.num ∣ m) → delta.num ∣ m) ∧
      u = ratMod ((model_xyz 1 2 1).val vx) delta ∧ 0 ≤ u ∧ u < delta ∧
      (apply_divides id vx (model_xyz 1 2 1) div_state []).2.2
        = [] ++ ((div_state.m_divs.map (divides_lit vx u)).map id).filter
            (fun e => !(is_true e)) ∧
      ∀ d ∈ div_state.m_divs, IsIntVal d.coeff → IsIntVal ((model_xyz 1 2 1).val vx) →
        IsIntVal (eval (model_xyz 1 2 1) d.term) →
        divHolds vx (model_xyz 1 2 1) d → holds (model_xyz 1 2 1) (divides_lit vx u d) = true :=
  have h1 : div_state.m_divs ≠ [] := List.cons_ne_nil _ _
  have h3 : ∀ d ∈ div_state.m_divs, 0 < d.divisor := fun d hd => by
    simp only [div_state, List.mem_singleton] at hd
    subst hd
    decide!
  ⟨h1, rfl, h3, consolidation_positive_divisors id vx (model_xyz 1 2 1) div_state [] h1 rfl h3⟩

end qe
namespace qe
open arith_project_util in
/-- Witness of C32: `x·x ≤ 1` is not linear in `x`; `project` throws on `x` after the
literal `y ≤ 0` has gone to `m_new_lits`. -/
theorem failure_atomicity_witness :
    project id vx (model_xyz 0 0 0) square_lits = none ∧
    (driver_step id ⟨[], square_lits, model_xyz 0 0 0⟩ vx).result = square_lits ∧
    (driver_step id ⟨[], square_lits, model_xyz 0 0 0⟩ vx).new_vars = [vx] :=
  have h : project id vx (model_xyz 0 0 0) square_lits = none :=
    Option.isNone_iff_eq_none.1 (by decide!)
  have w := failure_atomicity id ⟨[], square_lits, model_xyz 0 0 0⟩ vx [vy] h
  ⟨h, w.2.1, w.2.2.2.1⟩

end qe

namespace qe
namespace qsat

/-- Witness of C33 amended, on the state of the run on `∀ z1 ∃ z2 ∀ z3. scope_matrix` in
which the fourth query is posed: `backtrack` goes from level 3 to level 1. -/
theorem backjump_target_witness :
    ScopeInv scope_s3 ∧ scope_s3.m_level = 3 ∧
    ∃ s1, backtrack scope_s3 (step_core brute_oracle scope_s3) = some s1 ∧
      s1.m_level + 2 ≤ scope_s3.m_level ∧
      Expr.implies (get_fml_at scope_s3 s1.m_level)
        (mk_not (mk_and (pruned_core scope_s3 (step_core brute_oracle scope_s3))))
        ∈ asserted s1.m_kernel := by
  have hs : ScopeInv scope_s3 := by
    refine ⟨?_, ?_, ?_, ?_⟩ <;> decide!
  have hl : scope_s3.m_level = 3 := by decide!
  obtain ⟨s1, lv, e, l1, h2, -, -, -, hm⟩ :=
    backjump_target scope_s3 (step_core brute_oracle scope_s3) hs (by rw [hl]; decide)
      (fun p hp => List.all_eq_true.1
        (by decide! : (step_core brute_oracle scope_s3).all
          (fun p => (get_level scope_s3 p).isSome) = true) p hp)
  subst l1
  exact ⟨hs, hl, s1, e, h2, hm⟩

/-- Witness of C34 from the state after `reset`, `hoist` and `mk_abstract` on
`∀ y. b ∧ (y ≤ 0 ∨ ¬b)`, whose table `m_preds` has three blocks; the sequence runs through
and ends at level 2. -/
theorem scope_stack_invariant_witness :
    names_s1.m_level = 0 ∧ ScopeInv names_s1 ∧ valid_stack 0 stack_ops = true ∧
    names_s1.m_preds.length = 3 ∧ stack_level 0 stack_ops = 2 ∧
    (run_stack stack_ops names_s1 []).isSome = true ∧
    ((run_stack stack_ops names_s1 []).isSome = true ↔
      stack_fits names_s1.m_preds.length 0 stack_ops = true) ∧
    ∀ s sizes, run_stack stack_ops names_s1 [] = some (s, sizes) →
      s.m_level = stack_level 0 stack_ops ∧
      s.m_assumptions_lim.length = s.m_level ∧ s.m_atoms_lim.length = s.m_level ∧
      s.m_replay.length = s.m_level + 1 ∧ sizes.length = s.m_level ∧
      ∀ n : Nat, 1 ≤ n → n ≤ s.m_level →
        ∃ s1 alim tlim, s.m_assumptions_lim[s.m_level - n]? = some alim ∧
          s.m_atoms_lim[s.m_level - n]? = some tlim ∧ pop s n = some s1 ∧
          s1.m_level = s.m_level - n ∧
          sizes[s.m_level - n]? = some (s1.m_atoms.length, s1.m_assumptions.length) :=
  have h0 : names_s1.m_level = 0 := by decide!
  have hs : ScopeInv names_s1 := ⟨by decide!, by decide!, by decide!, by decide!⟩
  ⟨h0, hs, by decide, by decide!, by decide, by decide!,
    scope_stack_invariant names_s1 stack_ops h0 hs (by decide)⟩

/-- The witness literals on the state after `mk_abstract`, two `update_tail`, two `push` and
`pop(1)` on `∀ y. b ∧ (y ≤ 0 ∨ ¬b)`: `update_tail(mdl, 1)` with the all-zero model binds the
name of `y` to `y = 0` at level 1. -/
theorem witness_literals_on_names :
    ∃ s1, update_tail (ofBits []) 1 names_s4 = some s1 ∧
      ∃ p : Expr, get2 s1.m_preds 1 0 = some p ∧
        map_find s1.m_pred2lit p = some (Expr.eq (Expr.var names_y) (Expr.num 0 Srt.int)) ∧
        map_find s1.m_pred2level p = some 1 := by
  obtain ⟨sh, pf, pk⟩ :=
    reach_preds_ok 20 5 [names_b] [[names_y], []] names_fml names_vars_ok names_s4 names_reach
  obtain ⟨s1, e, h, -⟩ := witness_literals 5 (ofBits []) 1 names_s4 sh pf pk
  have hv : get2 names_s4.m_vars 1 0 = some names_y := by decide!
  obtain ⟨p, a, b, c, -⟩ := h 1 0 names_y (le_refl _) rfl hv
  exact ⟨s1, e, p, a, b, c⟩

end qsat
end qe

namespace qe
namespace qepr

/-- Witness of C37 on the occurrences `P(x)`, `P(y)` with `P(x)` true and `P(y)` false:
the disequality `x ≠ y` is emitted. -/
theorem forced_disequalities_witness :
    ∃ diseqs, extract_disequalities (some graph_model) graph_pos_neg.1 graph_pos_neg.2
        = some diseqs ∧
      Covered diseqs (Expr.app 0 Srt.bool [Expr.var (uvar 0)])
        (Expr.app 0 Srt.bool [Expr.var (uvar 1)]) := by
  have h : collect_pos_neg_all (some graph_model) graph_occs ([], [])
      = some (graph_pos_neg.1, graph_pos_neg.2) :=
    qsat.some_getD_of_isSome _ ([], []) (by decide!)
  obtain ⟨ds, e, c, -⟩ := forced_disequalities graph_model graph_occs _ _ h
  have hm : (Decl.fn 0 Srt.bool,
      [Expr.app 0 Srt.bool [Expr.var (uvar 0)], Expr.app 0 Srt.bool [Expr.var (uvar 1)]])
        ∈ graph_occs := List.mem_singleton.2 rfl
  refine ⟨ds, e, c _ hm _ hm _ (List.mem_cons_self _ _) _
    (List.mem_cons_of_mem _ (List.mem_singleton.2 rfl)) (Decl.fn 0 Srt.bool) rfl rfl
    (by decide!) (by decide!) ?_⟩
  refine ⟨0, by simp [children], ?_⟩
  simp [arg, children, model_value, sortOf, uvar, eval, graph_model]

/-- Witness of C38 on the occurrences `P(x)`, positive, and `P(y)`, negative: the graph
of `P(x)` is true in the model. -/
theorem function_graph_witness :
    holds graph_model (mk_graph (Expr.app 0 Srt.bool [Expr.var (uvar 0)])
      [Expr.app 0 Srt.bool [Expr.var (uvar 0)]] [Expr.app 0 Srt.bool [Expr.var (uvar 1)]])
      = true :=
  (function_graph graph_model 0 1 (Expr.app 0 Srt.bool [Expr.var (uvar 0)])
    [Expr.app 0 Srt.bool [Expr.var (uvar 0)]] [Expr.app 0 Srt.bool [Expr.var (uvar 1)]]
    (by
      intro q hq
      simp only [List.cons_append, List.nil_append, List.mem_cons, List.mem_singleton,
        List.not_mem_nil, or_false] at hq
      rcases hq with rfl | rfl
      · exact ⟨_, rfl, rfl, by simp [sortOf, uvar]⟩
      · exact ⟨_, rfl, rfl, by simp [sortOf, uvar]⟩)
    (by
      intro q hq
      simp only [List.mem_singleton] at hq
      subst hq
      decide!)
    (by
      intro q hq
      simp only [List.mem_singleton] at hq
      subst hq
      decide!)
    (by simp)).2

end qepr
end qe

namespace qe
namespace qsat

theorem lead_state_eq : mk_abstract 20 lead_matrix (hoist [] [lead_a] [[lead_b], []] (reset 2))
    = some lead_state := some_getD_of_isSome _ _ (by decide!)

theorem s1_state_eq : mk_abstract 20 s1_matrix (hoist [] [s1_x] [[]] (reset 1))
    = some s1_state := some_getD_of_isSome _ _ (by decide!)

/-- Witness of C12: on `∃ a ∀ b. a ∨ b` the correct oracle answers the first query with
the model `a = false, b = true`. -/
theorem initialise_fails_after_exists_block_witness :
    [lead_a] ≠ [] ∧
    mk_abstract 20 lead_matrix (hoist [] [lead_a] [[lead_b], []] (reset 2)) = some lead_state ∧
    kernel_check brute_oracle (with_vals lead_state) [lead_state.m_fml_pred]
      = Answer.sat (ofBits [false, true, true]) ∧
    (initialise brute_oracle lead_state = none ∧
      check_sat brute_oracle 20 lead_state = Outcome.crash ∧
      run brute_oracle 2 20 [] [lead_a] [[lead_b], []] lead_matrix = Outcome.crash) :=
  ⟨by decide, lead_state_eq, by with_unfolding_all rfl,
    initialise_fails_after_exists_block brute_oracle 20 2 [] [lead_a] [[lead_b], []]
      lead_matrix lead_state (ofBits [false, true, true]) (by decide) lead_state_eq
      (by with_unfolding_all rfl)⟩

/-- Witness of C35 on scenario S1, `∃ x : Real. x > 0 ∧ x < 1`, with the model `x = 1/2`. -/
theorem update_tail_fails_after_exists_block_witness :
    [s1_x] ≠ [] ∧
    mk_abstract 20 s1_matrix (hoist [] [s1_x] [[]] (reset 1)) = some s1_state ∧
    (get2 s1_state.m_vars 0 ([] : List Var).length = [s1_x].head? ∧
      ([s1_x].head?).isSome = true ∧
      get2 s1_state.m_preds 0 ([] : List Var).length = none ∧
      update_tail s1_model 0 (with_vals s1_state) = none ∧
      update_tail s1_model 0 s1_state = none) :=
  ⟨by decide, s1_state_eq,
    update_tail_fails_after_exists_block 20 1 [] [s1_x] [[]] s1_matrix s1_state s1_model
      (by decide) s1_state_eq⟩

end qsat
end qe

namespace qe
open arith_project_util in
/-- Witness of C6, the outcomes of `project` on five inputs: `x·x ≤ 0` and `f(x) ≤ 0` are blocked, the atom
`P(x)` is no comparison; the literals of S4 are in the linear fragment and have no `mod 0`,
and `project` returns on them; `x mod 0 = 0` is in the linear fragment, and `project` does
not throw `cant_project` on it but divides by zero. -/
theorem cant_project_outside_linear_fragment_witness :
    project_outcome id vx (model_xyz 0 0 0) [.le (.mul (.var vx) (.var vx)) (inum 0)]
      = Outcome.cant_project ∧
    project_outcome id vx (model_xyz 0 0 0) [.le (.app 7 .int [.var vx]) (inum 0)]
      = Outcome.cant_project ∧
    project_outcome id vx (model_xyz 0 0 0) [.app 7 .bool [.var vx]] = Outcome.cant_project ∧
    (∃ out M1, project_outcome id vx (model_xyz 5 0 0) s4_lits = Outcome.returns out M1) ∧
    project_outcome id vx (model_xyz 0 0 0) zero_mod_lits ≠ Outcome.cant_project ∧
    project_outcome id vx (model_xyz 0 0 0) zero_mod_lits = Outcome.division_by_zero :=
  have h4 : ∀ l ∈ s4_lits, occurs vx l = true → linLit vx l = true := by
    intro l hl _
    simp only [s4_lits, List.mem_cons, List.mem_singleton, List.not_mem_nil, or_false] at hl
    rcases hl with rfl | rfl | rfl <;> decide
  have h0 : ∀ l ∈ zero_mod_lits, occurs vx l = true → linLit vx l = true := by
    intro l hl _
    simp only [zero_mod_lits, List.mem_singleton] at hl
    subst hl
    decide
  ⟨(cant_project_outside_linear_fragment id vx (model_xyz 0 0 0)
      [.le (.mul (.var vx) (.var vx)) (inum 0)]).1 _ (List.mem_singleton.2 rfl) (by decide),
    (cant_project_outside_linear_fragment id vx (model_xyz 0 0 0)
      [.le (.app 7 .int [.var vx]) (inum 0)]).1 _ (List.mem_singleton.2 rfl) (by decide),
    (cant_project_outside_linear_fragment id vx (model_xyz 0 0 0)
      [.app 7 .bool [.var vx]]).2.1 _ (List.mem_singleton.2 rfl) (by decide) (by decide),
    ((cant_project_outside_linear_fragment id vx (model_xyz 5 0 0) s4_lits).2.2 h4).2.2
      (by decide!),
    ((cant_project_outside_linear_fragment id vx (model_xyz 0 0 0) zero_mod_lits).2.2 h0).1,
    by with_unfolding_all rfl⟩

end qe
